import Mathlib

/-!
# Approximate merge engine and merge hints (blif_solve_lib/approx_merge.cpp)

A shallow embedding of `MergeHints` (`addWeight`, `getWeight`, `merge`) and of
the merge engine `blif_solve::merge` together with its helpers
(`AmNode`, `AmMerger`, `getCompatibility`, `pullOutOtherNode`).

Conventions of the embedding.

* A `bdd_ptr` is a value of a type `α` carrying a linear order: equality is
  pointer identity (canonical handles), `<` is the pointer order.
* `double` weights and priorities are rationals (`ℚ`): exact arithmetic, no
  rounding.
* `std::set` and `std::map` are lists kept in key order; `insert` has no
  effect when the key is already present.
* `AmNode *` and `AmMerger *` are indices into arenas that only grow.
-/

set_option linter.unusedSectionVars false
set_option linter.unusedVariables true

namespace blif_solve

/-! ## MergeHints -/

/-- The comparison of `std::pair<BddWrapper, BddWrapper>` keys: lexicographic. -/
def pairLt {α : Type} [LinearOrder α] (a b : α × α) : Bool :=
  decide (a.1 < b.1) || (decide (a.1 = b.1) && decide (a.2 < b.2))

/-- The method `std::map::find` on the weight map: the weight stored under a key. -/
def weightsFind {α : Type} [DecidableEq α] : List ((α × α) × ℚ) → α × α → Option ℚ
  | [], _ => none
  | e :: rest, k => if e.1 = k then some e.2 else weightsFind rest k

/-- Placement of a new entry in key order. -/
def weightsOrderedInsert {α : Type} [LinearOrder α] (k : α × α) (w : ℚ) :
    List ((α × α) × ℚ) → List ((α × α) × ℚ)
  | [] => [(k, w)]
  | e :: rest =>
    if pairLt k e.1 then (k, w) :: e :: rest else e :: weightsOrderedInsert k w rest

/-- The method `std::map::insert`: a key that is present keeps its old value. -/
def weightsInsert {α : Type} [LinearOrder α] (k : α × α) (w : ℚ)
    (m : List ((α × α) × ℚ)) : List ((α × α) × ℚ) :=
  if (weightsFind m k).isSome then m else weightsOrderedInsert k w m

/-- The method `std::map::erase(key)`. -/
def weightsErase {α : Type} [DecidableEq α] (k : α × α)
    (m : List ((α × α) × ℚ)) : List ((α × α) × ℚ) :=
  m.filter (fun e => decide (e.1 ≠ k))

/-- The class `MergeHints`: the map `m_weights` from factor pairs to weights. -/
structure MergeHints (α : Type) where
  m_weights : List ((α × α) × ℚ)

namespace MergeHints

variable {α : Type} [LinearOrder α]

/-- The empty hints object. -/
def empty : MergeHints α := ⟨[]⟩

/-- Body of `addWeight` after the swap test on its first line. -/
def addWeightOrdered (H : MergeHints α) (func1 func2 : α) (weight : ℚ) : MergeHints α :=
  if func1 = func2 then H
  else ⟨weightsInsert (func1, func2) weight H.m_weights⟩

/-- The method `MergeHints::addWeight`.  The recursive call on swapped arguments runs the
body once: after the swap the test `func2 < func1` fails. -/
def addWeight (H : MergeHints α) (func1 func2 : α) (weight : ℚ) : MergeHints α :=
  if func2 < func1 then addWeightOrdered H func2 func1 weight
  else addWeightOrdered H func1 func2 weight

/-- Body of `getWeight` after the swap test on its first line. -/
def getWeightOrdered (H : MergeHints α) (func1 func2 : α) : ℚ :=
  if func1 = func2 then 0
  else
    match weightsFind H.m_weights (func1, func2) with
    | some w => w
    | none => 0

/-- The method `MergeHints::getWeight`. -/
def getWeight (H : MergeHints α) (func1 func2 : α) : ℚ :=
  if func2 < func1 then getWeightOrdered H func2 func1
  else getWeightOrdered H func1 func2

/-- Placement of a new entry of `stuffToAdd` in key order. -/
def staOrderedInsert (g : α) (w : ℚ) : List (α × ℚ) → List (α × ℚ)
  | [] => [(g, w)]
  | e :: rest => if g < e.1 then (g, w) :: e :: rest else e :: staOrderedInsert g w rest

/-- The lambda `markForAddition` of `merge`: a new key is stored with `w`, a
key that is present keeps the larger weight. -/
def markForAddition (stuffToAdd : List (α × ℚ)) (g : α) (w : ℚ) : List (α × ℚ) :=
  if stuffToAdd.any (fun e => decide (e.1 = g)) then
    stuffToAdd.map (fun e => if e.1 = g then (e.1, max w e.2) else e)
  else staOrderedInsert g w stuffToAdd

/-- One round of the scan of `m_weights` in `merge`; the accumulator is
`(stuffToAdd, stuffToDelete)`. -/
def mergeScan (func1 func2 : α) (acc : List (α × ℚ) × List (α × α))
    (e : (α × α) × ℚ) : List (α × ℚ) × List (α × α) :=
  let g1 := e.1.1
  let g2 := e.1.2
  let w := e.2
  if func1 = g1 ∧ func2 = g2 then (acc.1, acc.2 ++ [(func1, func2)])
  else if func1 = g1 then (markForAddition acc.1 g2 w, acc.2 ++ [(g1, g2)])
  else if func1 = g2 then (markForAddition acc.1 g1 w, acc.2 ++ [(g1, g2)])
  else if func2 = g1 then (markForAddition acc.1 g2 w, acc.2 ++ [(g1, g2)])
  else if func2 = g2 then (markForAddition acc.1 g1 w, acc.2 ++ [(g1, g2)])
  else acc

/-- Body of `merge` after the swap test on its first line. -/
def mergeOrdered (H : MergeHints α) (func1 func2 newFunc : α) : MergeHints α :=
  if func1 = func2 then H
  else
    let scan := H.m_weights.foldl (mergeScan func1 func2) ([], [])
    let erased := scan.2.foldl (fun m toDelete => weightsErase toDelete m) H.m_weights
    scan.1.foldl (fun H' toAdd => H'.addWeight toAdd.1 newFunc toAdd.2) ⟨erased⟩

/-- The method `MergeHints::merge`. -/
def merge (H : MergeHints α) (func1 func2 newFunc : α) : MergeHints α :=
  if func2 < func1 then mergeOrdered H func2 func1 newFunc
  else mergeOrdered H func1 func2 newFunc

/-- The hints objects that can be built from the empty one with `addWeight`
and `merge`. -/
inductive Reachable : MergeHints α → Prop
  | empty : Reachable MergeHints.empty
  | addWeight (H : MergeHints α) (a b : α) (w : ℚ) :
      Reachable H → Reachable (H.addWeight a b w)
  | merge (H : MergeHints α) (a b c : α) :
      Reachable H → Reachable (H.merge a b c)

/-- The unordered pair `{f1, f2}` has an entry in the map. -/
def stored (H : MergeHints α) (f1 f2 : α) : Prop :=
  (weightsFind H.m_weights (min f1 f2, max f1 f2)).isSome = true

/-- Every key has its smaller handle first (and so is no self-pair). -/
def KeysOrdered (H : MergeHints α) : Prop :=
  ∀ e ∈ H.m_weights, e.1.1 < e.1.2

end MergeHints

end blif_solve

namespace blif_solve

/-! ## The BDD manager -/

/-- Modelled from the spec: the BDD manager contract (§6) used by the merge
engine, `and`, `support`, `cube_intersection`, `size`, `is_one` and the handle
`one`; the BDD library itself is not among the sources.  `bdd_and_accumulate`
is `bdd_and` stored back into its first argument. -/
structure DdManager (α : Type) where
  bdd_one : α
  bdd_and : α → α → α
  bdd_support : α → α
  bdd_cube_intersection : α → α → α
  bdd_size : α → ℕ
  bdd_is_one : α → Bool

/-- Modelled from the spec: what the handles of a manager denote (§3).
`sem f σ` is the value of the Boolean function `f` under the assignment `σ`,
`vars f` the set of variables `f` depends on, `isCube c` says that `c` is a
conjunction of positive literals. -/
structure Semantics (α : Type) where
  sem : α → (ℕ → Bool) → Bool
  vars : α → Finset ℕ
  isCube : α → Prop

/-- Modelled from the spec: the laws of the manager operations (§3, §6) with
respect to what the handles denote. -/
structure DdManager.Lawful {α : Type} (M : DdManager α) (S : Semantics α) : Prop where
  sem_one : ∀ σ, S.sem M.bdd_one σ = true
  sem_and : ∀ a b σ, S.sem (M.bdd_and a b) σ = (S.sem a σ && S.sem b σ)
  vars_and : ∀ a b, S.vars (M.bdd_and a b) ⊆ S.vars a ∪ S.vars b
  cube_one : S.isCube M.bdd_one
  vars_one : S.vars M.bdd_one = ∅
  cube_and : ∀ a b, S.isCube a → S.isCube b → S.isCube (M.bdd_and a b)
  vars_cube_and : ∀ a b, S.isCube a → S.isCube b →
    S.vars (M.bdd_and a b) = S.vars a ∪ S.vars b
  cube_support : ∀ f, S.isCube (M.bdd_support f)
  vars_support : ∀ f, S.vars (M.bdd_support f) = S.vars f
  cube_inter : ∀ a b, S.isCube a → S.isCube b → S.isCube (M.bdd_cube_intersection a b)
  vars_inter : ∀ a b, S.isCube a → S.isCube b →
    S.vars (M.bdd_cube_intersection a b) = S.vars a ∩ S.vars b
  size_cube : ∀ c, S.isCube c → M.bdd_size c = (S.vars c).card
  is_one_iff : ∀ c, M.bdd_is_one c = true ↔ c = M.bdd_one
  cube_ext : ∀ a b, S.isCube a → S.isCube b → S.vars a = S.vars b → a = b

/-! ## Containers -/

/-- Placement of a new element of a `std::set<bdd_ptr>` in pointer order. -/
def setOrderedInsert {α : Type} [LinearOrder α] (x : α) : List α → List α
  | [] => [x]
  | y :: rest => if x < y then x :: y :: rest else y :: setOrderedInsert x rest

/-- The method `std::set<bdd_ptr>::insert`. -/
def setInsert {α : Type} [LinearOrder α] (x : α) (s : List α) : List α :=
  if x ∈ s then s else setOrderedInsert x s

/-- The method `std::set<bdd_ptr>::erase(key)`. -/
def setErase {α : Type} [DecidableEq α] (x : α) (s : List α) : List α :=
  s.filter (fun y => decide (y ≠ x))

/-- Construction of a `std::set<bdd_ptr>` from a range. -/
def setOfList {α : Type} [LinearOrder α] (l : List α) : List α :=
  l.foldl (fun s x => setInsert x s) []

/-- Placement of a node in a `std::set<AmNode *>`, ordered by address. -/
def ptrOrderedInsert (addr : ℕ → ℕ) (x : ℕ) : List ℕ → List ℕ
  | [] => [x]
  | y :: rest => if addr x < addr y then x :: y :: rest else y :: ptrOrderedInsert addr x rest

/-- The method `std::set<AmNode *>::insert`; `addr` gives the address of each
node of the arena. -/
def ptrSetInsert (addr : ℕ → ℕ) (x : ℕ) (s : List ℕ) : List ℕ :=
  if x ∈ s then s else ptrOrderedInsert addr x s

/-- Modelled from the spec: the max-priority queue `MaxHeap<AmMerger *, double>`
of `dd/max_heap.h` (§9), which is not among the sources.  The heap is the list
of its cells `(merger, priority)`. -/
abbrev MaxHeap := List (ℕ × ℚ)

namespace MaxHeap

/-- The method `MaxHeap::insert`. -/
def insert (h : MaxHeap) (merger : ℕ) (priority : ℚ) : MaxHeap := h ++ [(merger, priority)]

/-- The method `MaxHeap::remove` of the cell of a merger (also `pop`, for the top cell). -/
def remove (h : MaxHeap) (merger : ℕ) : MaxHeap := h.filter (fun e => decide (e.1 ≠ merger))

/-- The cells of maximal priority. -/
def tops (h : MaxHeap) : List (ℕ × ℚ) :=
  h.filter (fun e => h.all (fun e' => decide (e'.2 ≤ e.2)))

/-- The method `MaxHeap::top`: a cell of maximal priority; `tie` picks among equal ones. -/
def top (h : MaxHeap) (tie : ℕ) : Option ℕ :=
  ((tops h)[tie % (tops h).length]?).map (fun e => e.1)

end MaxHeap

/-! ## Nodes and mergers -/

/-- The enumeration `AmNode::NodeType`. -/
inductive NodeType
  | Func
  | Var
  deriving DecidableEq, Repr

/-- The `struct AmNode`; `neighbours` and `mergers` hold arena indices. -/
structure AmNode (α : Type) where
  type : NodeType
  node : α
  supportSet : α
  neighbours : List ℕ
  mergers : List ℕ

/-- The `struct AmMerger`: the arena indices of its two nodes.  The list entries
`node1_entry`, `node2_entry` are the occurrences of the merger in the merger
lists of its nodes, `heap_entry` is its cell in the heap. -/
structure AmMerger where
  node1 : ℕ
  node2 : ℕ
  deriving DecidableEq, Repr

/-- The constructor `AmNode::AmNode`. -/
def AmNode.create {α : Type} (M : DdManager α) (type : NodeType) (node : α) : AmNode α :=
  { type := type
    node := node
    supportSet := if type = NodeType.Func then M.bdd_support node else node
    neighbours := []
    mergers := [] }

/-- The node read through a pointer that is not in the arena. -/
def AmNode.null {α : Type} (M : DdManager α) : AmNode α :=
  AmNode.create M NodeType.Func M.bdd_one

/-- Dereference of an `AmNode *`. -/
def nodeAt {α : Type} (M : DdManager α) (nodes : List (AmNode α)) (i : ℕ) : AmNode α :=
  nodes.getD i (AmNode.null M)

/-- Dereference of an `AmMerger *`. -/
def mergerAt (mergers : List AmMerger) (m : ℕ) : AmMerger :=
  mergers.getD m ⟨0, 0⟩

/-- Update of the node behind a pointer. -/
def updateNode {α : Type} (f : AmNode α → AmNode α) : ℕ → List (AmNode α) → List (AmNode α)
  | _, [] => []
  | 0, n :: ns => f n :: ns
  | i + 1, n :: ns => n :: updateNode f i ns

/-- The method `AmNode::isConnectedTo`. -/
def AmNode.isConnectedTo {α : Type} (M : DdManager α) (this that : AmNode α) : Bool :=
  !M.bdd_is_one (M.bdd_cube_intersection this.supportSet that.supportSet)

/-- The support cube accumulated by `getCompatibility`: both support sets and
the support sets of all neighbours of both nodes. -/
def combinedSupportSet {α : Type} (M : DdManager α) (nodes : List (AmNode α))
    (f1 f2 : ℕ) : α :=
  let c0 := M.bdd_and (nodeAt M nodes f1).supportSet (nodeAt M nodes f2).supportSet
  let c1 := (nodeAt M nodes f1).neighbours.foldl
    (fun acc neigh => M.bdd_and acc (nodeAt M nodes neigh).supportSet) c0
  (nodeAt M nodes f2).neighbours.foldl
    (fun acc neigh => M.bdd_and acc (nodeAt M nodes neigh).supportSet) c1

/-- The function `getCompatibility`; `none` is the empty optional. -/
def getCompatibility {α : Type} [DecidableEq α] (M : DdManager α) (nodes : List (AmNode α))
    (f1 f2 : ℕ) (largestSupportSet : ℤ) (hint : ℚ) (quantifiedVariables : List α) :
    Option ℚ :=
  let isF1Quantified := decide ((nodeAt M nodes f1).supportSet ∈ quantifiedVariables)
  let isF2Quantified := decide ((nodeAt M nodes f2).supportSet ∈ quantifiedVariables)
  if isF1Quantified ≠ isF2Quantified then none
  else
    let unionSize : ℤ := (M.bdd_size (combinedSupportSet M nodes f1 f2) : ℤ)
    if unionSize > largestSupportSet then none
    else
      let commonSize : ℚ := (M.bdd_size (M.bdd_cube_intersection
        (nodeAt M nodes f1).supportSet (nodeAt M nodes f2).supportSet) : ℚ)
      let f1Size : ℚ := (M.bdd_size (nodeAt M nodes f1).supportSet : ℚ)
      let f2Size : ℚ := (M.bdd_size (nodeAt M nodes f2).supportSet : ℚ)
      some (commonSize / min f1Size f2Size + hint)

/-- The function `pullOutOtherNode`: the node of `merger` that is neither `node1` nor
`node2`, after the merger has been unlinked from the merger list of that node;
`none` is `NULL`. -/
def pullOutOtherNode {α : Type} (mergers : List AmMerger) (nodes : List (AmNode α))
    (merger node1 node2 : ℕ) : List (AmNode α) × Option ℕ :=
  let mg := mergerAt mergers merger
  if mg.node1 ≠ node1 ∧ mg.node1 ≠ node2 then
    (updateNode (fun n => { n with mergers := n.mergers.filter (fun m => decide (m ≠ merger)) })
      mg.node1 nodes, some mg.node1)
  else if mg.node2 ≠ node1 ∧ mg.node2 ≠ node2 then
    (updateNode (fun n => { n with mergers := n.mergers.filter (fun m => decide (m ≠ merger)) })
      mg.node2 nodes, some mg.node2)
  else (nodes, none)

/-! ## The merge engine -/

/-- The local state of `blif_solve::merge`: the node arena (`funcNodes` and
`varNodes`), the merger arena, the heap, the copy of the hints, the sets `qv`
and `qf`, and the sets `mergedFactors` and `mergedVariables`. -/
structure MergeState (α : Type) where
  nodes : List (AmNode α)
  mergers : List AmMerger
  heap : MaxHeap
  hints : MergeHints α
  qv : List α
  qf : List α
  mergedFactors : List α
  mergedVariables : List α

/-- The `struct MergeResults`; `varBdds` is the member `variables`. -/
structure MergeResults (α : Type) where
  factors : List α
  varBdds : List α

section Engine

variable {α : Type} [LinearOrder α]

/-- The statement `mergers.push_back(std::make_unique<AmMerger>(node1, node2))` and
`heap.insert(merger, priority)`: the constructor links the merger at the end of
both merger lists and then throws when the node types differ. -/
def newMerger (M : DdManager α) (s : MergeState α) (node1 node2 : ℕ) (priority : ℚ) :
    Except String (MergeState α) :=
  let merger := s.mergers.length
  let nodes1 := updateNode (fun n => { n with mergers := n.mergers ++ [merger] }) node1 s.nodes
  let nodes2 := updateNode (fun n => { n with mergers := n.mergers ++ [merger] }) node2 nodes1
  if (nodeAt M s.nodes node1).type ≠ (nodeAt M s.nodes node2).type then
    Except.error "AmMerger::AmMerger: node1 and node2 types must match"
  else
    Except.ok { s with
      nodes := nodes2
      mergers := s.mergers ++ [⟨node1, node2⟩]
      heap := MaxHeap.insert s.heap merger priority }

/-- One round of the inner loop "create func-var connections". -/
def connectOne (M : DdManager α) (addr : ℕ → ℕ) (func : ℕ) (nodes : List (AmNode α))
    (var : ℕ) : List (AmNode α) :=
  if addr func < addr var ∧
      (nodeAt M nodes func).isConnectedTo M (nodeAt M nodes var) = true then
    updateNode (fun n => { n with neighbours := n.neighbours ++ [func] }) var
      (updateNode (fun n => { n with neighbours := n.neighbours ++ [var] }) func nodes)
  else nodes

/-- The loop "create func-var connections". -/
def connectFuncVar (M : DdManager α) (addr : ℕ → ℕ) (funcNodes varNodes : List ℕ)
    (nodes : List (AmNode α)) : List (AmNode α) :=
  funcNodes.foldl (fun ns func => varNodes.foldl (connectOne M addr func) ns) nodes

/-- One round of the inner loop "create func-func connections". -/
def funcMergerOne (M : DdManager α) (addr : ℕ → ℕ) (largestSupportSet : ℤ) (f1 : ℕ)
    (s : MergeState α) (f2 : ℕ) : Except String (MergeState α) :=
  if addr f1 < addr f2 ∧
      (nodeAt M s.nodes f1).isConnectedTo M (nodeAt M s.nodes f2) = true then
    match getCompatibility M s.nodes f1 f2 largestSupportSet
        (s.hints.getWeight (nodeAt M s.nodes f1).node (nodeAt M s.nodes f2).node) s.qf with
    | some priority => newMerger M s f1 f2 priority
    | none => Except.ok s
  else Except.ok s

/-- One round of the inner loop "create var-var connections". -/
def varMergerOne (M : DdManager α) (addr : ℕ → ℕ) (largestSupportSet : ℤ) (v1 : ℕ)
    (s : MergeState α) (v2 : ℕ) : Except String (MergeState α) :=
  if addr v1 < addr v2 then
    match getCompatibility M s.nodes v1 v2 largestSupportSet
        (s.hints.getWeight (nodeAt M s.nodes v1).node (nodeAt M s.nodes v2).node) s.qv with
    | some priority => newMerger M s v1 v2 priority
    | none => Except.ok s
  else Except.ok s

/-- The part of `blif_solve::merge` before the main loop: the nodes, the sets,
the func-var connections and the first mergers.  The func nodes are the arena
entries `0 .. |factors| - 1`, the var nodes follow them; `varBdds` is the
argument `variables`. -/
def initState (M : DdManager α) (addr : ℕ → ℕ) (factors varBdds : List α)
    (largestSupportSet : ℤ) (hintsInput : MergeHints α) (quantifiedVariables : List α) :
    Except String (MergeState α) :=
  let funcNodes := List.range factors.length
  let varNodes := (List.range varBdds.length).map (fun i => factors.length + i)
  let nodes0 := factors.map (AmNode.create M NodeType.Func) ++
    varBdds.map (AmNode.create M NodeType.Var)
  let s0 : MergeState α :=
    { nodes := connectFuncVar M addr funcNodes varNodes nodes0
      mergers := []
      heap := []
      hints := hintsInput
      qv := setOfList quantifiedVariables
      qf := []
      mergedFactors := setOfList factors
      mergedVariables := setOfList varBdds }
  (funcNodes.foldlM (fun s f1 =>
      funcNodes.foldlM (funcMergerOne M addr largestSupportSet f1) s) s0).bind
    (fun s1 => varNodes.foldlM (fun s v1 =>
      varNodes.foldlM (varMergerOne M addr largestSupportSet v1) s) s1)

/-- One round of the loop over `oldMergers` in "refresh the list of mergers";
the accumulator holds the state and `oldMergerSet`. -/
def refreshOne (M : DdManager α) (addr : ℕ → ℕ) (largestSupportSet : ℤ)
    (isVar : Bool) (node1 node2 mergedNode : ℕ)
    (acc : MergeState α × List ℕ) (oldMerger : ℕ) : Except String (MergeState α × List ℕ) :=
  match pullOutOtherNode acc.1.mergers acc.1.nodes oldMerger node1 node2 with
  | (_, none) => Except.ok acc
  | (nodes1, some otherNode) =>
    let s1 : MergeState α :=
      { acc.1 with nodes := nodes1, heap := MaxHeap.remove acc.1.heap oldMerger }
    if otherNode ∈ acc.2 then Except.ok (s1, acc.2)
    else
      let oldMergerSet := ptrSetInsert addr otherNode acc.2
      match getCompatibility M s1.nodes mergedNode otherNode largestSupportSet
          (s1.hints.getWeight (nodeAt M s1.nodes mergedNode).node
            (nodeAt M s1.nodes otherNode).node)
          (if isVar then s1.qv else s1.qf) with
      | some priority =>
        (newMerger M s1 mergedNode otherNode priority).map (fun s2 => (s2, oldMergerSet))
      | none => Except.ok (s1, oldMergerSet)

/-- One round of the main loop of `blif_solve::merge`: pop the top merger,
create the merged node, update the surviving set, merge the neighbour lists and
refresh the mergers. -/
def loopStep (M : DdManager α) (addr : ℕ → ℕ) (largestSupportSet : ℤ) (tie : ℕ)
    (s : MergeState α) : Except String (MergeState α) :=
  match MaxHeap.top s.heap tie with
  | none => Except.error "MaxHeap::top: the heap is empty"
  | some merger =>
    let heap1 := MaxHeap.remove s.heap merger
    let node1 := (mergerAt s.mergers merger).node1
    let node2 := (mergerAt s.mergers merger).node2
    let n1 := nodeAt M s.nodes node1
    let n2 := nodeAt M s.nodes node2
    if n1.type ≠ n2.type then
      Except.error "Assertion failure: node1 and node2 in merger don't have consistent type"
    else
      let isVar : Bool := decide (n1.type = NodeType.Var)
      let quantified := if isVar then s.qv else s.qf
      let isQuantified : Bool := decide (n1.supportSet ∈ quantified)
      let mergedBdd := M.bdd_and n1.node n2.node
      let quantified1 :=
        if isQuantified = true ∧ mergedBdd ∉ quantified then setInsert mergedBdd quantified
        else quantified
      let hints1 := s.hints.merge n1.node n2.node mergedBdd
      let mergedNode := s.nodes.length
      let mergedNeighbourSet :=
        n2.neighbours.foldl (fun set neigh => ptrSetInsert addr neigh set)
          (n1.neighbours.foldl (fun set neigh => ptrSetInsert addr neigh set) [])
      let newNode : AmNode α :=
        { AmNode.create M n1.type mergedBdd with neighbours := mergedNeighbourSet }
      let nodesA := s.nodes ++ [newNode]
      let oldMergers1 := (nodeAt M nodesA node1).mergers
      let nodesB := updateNode (fun n => { n with mergers := [] }) node1 nodesA
      let oldMergers2 := (nodeAt M nodesB node2).mergers
      let nodesC := updateNode (fun n => { n with mergers := [] }) node2 nodesB
      let s1 : MergeState α :=
        { nodes := nodesC
          mergers := s.mergers
          heap := heap1
          hints := hints1
          qv := if isVar then quantified1 else s.qv
          qf := if isVar then s.qf else quantified1
          mergedFactors :=
            if isVar then s.mergedFactors
            else setInsert mergedBdd (setErase n2.node (setErase n1.node s.mergedFactors))
          mergedVariables :=
            if isVar then
              setInsert mergedBdd (setErase n2.node (setErase n1.node s.mergedVariables))
            else s.mergedVariables }
      ((oldMergers1 ++ oldMergers2).foldlM
        (refreshOne M addr largestSupportSet isVar node1 node2 mergedNode) (s1, [])).map
        (fun r => r.1)

/-- The main loop of `blif_solve::merge`, run for at most `fuel` rounds;
`tie k` breaks the ties of the heap in round `k`. -/
def mainLoop (M : DdManager α) (addr : ℕ → ℕ) (largestSupportSet : ℤ) (tie : ℕ → ℕ) :
    ℕ → ℕ → MergeState α → Except String (MergeState α)
  | 0, _, s => if s.heap = [] then Except.ok s else Except.error "out of fuel"
  | fuel + 1, k, s =>
    if s.heap = [] then Except.ok s
    else (loopStep M addr largestSupportSet (tie k) s).bind
      (mainLoop M addr largestSupportSet tie fuel (k + 1))

/-- The results read off the final state. -/
def MergeState.results (s : MergeState α) : MergeResults α :=
  { factors := s.mergedFactors, varBdds := s.mergedVariables }

/-- The function `blif_solve::merge`.  Every round of the main loop takes at least one cell
out of the heap for good, so the size of the first heap is enough fuel.
`addr` gives the address of every node of the arena and `tie` the choice among
the top cells of the heap in every round. -/
def merge (M : DdManager α) (addr : ℕ → ℕ) (tie : ℕ → ℕ)
    (factors varBdds : List α) (largestSupportSet : ℤ) (hintsInput : MergeHints α)
    (quantifiedVariables : List α) : Except String (MergeResults α) :=
  (initState M addr factors varBdds largestSupportSet hintsInput quantifiedVariables).bind
    (fun s0 => (mainLoop M addr largestSupportSet tie s0.heap.length 0 s0).map
      MergeState.results)

end Engine

end blif_solve

namespace blif_solve

section Rounds

variable {α : Type} [LinearOrder α]

/-- The state of the main loop of `blif_solve::merge` after `n` rounds, or at
the end of the loop when it ends earlier; `k` is the number of the first round. -/
def runRounds (M : DdManager α) (addr : ℕ → ℕ) (largestSupportSet : ℤ) (tie : ℕ → ℕ) :
    ℕ → ℕ → MergeState α → Except String (MergeState α)
  | 0, _, s => Except.ok s
  | n + 1, k, s =>
    if s.heap = [] then Except.ok s
    else (loopStep M addr largestSupportSet (tie k) s).bind
      (runRounds M addr largestSupportSet tie n (k + 1))

/-- The state of `blif_solve::merge` after the graph is built and `n` rounds of
the main loop have run. -/
def stateAfter (M : DdManager α) (addr : ℕ → ℕ) (tie : ℕ → ℕ) (n : ℕ)
    (factors varBdds : List α) (largestSupportSet : ℤ) (hintsInput : MergeHints α)
    (quantifiedVariables : List α) : Except String (MergeState α) :=
  (initState M addr factors varBdds largestSupportSet hintsInput quantifiedVariables).bind
    (runRounds M addr largestSupportSet tie n 0)

end Rounds

end blif_solve

/-! ## Predicates used in the statements and proofs -/

namespace blif_solve

namespace MergeHints

variable {α : Type} [LinearOrder α]

/-- A key mentions the handle `a`. -/
def touches (k : α × α) (a : α) : Prop := k.1 = a ∨ k.2 = a

end MergeHints

section ArenaPredicates

variable {α : Type}

/-- The fields of a node that are fixed once the graph is built: type, BDD,
support set and neighbours. -/
def AmNode.core (n : AmNode α) : NodeType × α × α × List ℕ :=
  (n.type, n.node, n.supportSet, n.neighbours)

/-- Two arenas hold the same nodes up to the merger lists. -/
def SameCore (M : DdManager α) (nodes nodes' : List (AmNode α)) : Prop :=
  nodes'.length = nodes.length ∧ ∀ j, (nodeAt M nodes' j).core = (nodeAt M nodes j).core

end ArenaPredicates

end blif_solve

namespace blif_solve

section StatePredicates

variable {α : Type}

/-- The structural invariant of the merge graph: every merger joins two nodes
of the arena that have the same type; a merger listed at a node is a merger of
the arena, has that node as an endpoint and has a cell in the heap; the cells
of the heap refer to mergers of the arena. -/
structure Inv (M : DdManager α) (s : MergeState α) : Prop where
  mergers_valid : ∀ m, m < s.mergers.length →
    (mergerAt s.mergers m).node1 < s.nodes.length ∧
    (mergerAt s.mergers m).node2 < s.nodes.length ∧
    (nodeAt M s.nodes (mergerAt s.mergers m).node1).type =
      (nodeAt M s.nodes (mergerAt s.mergers m).node2).type
  listed_endpoint : ∀ x m, m ∈ (nodeAt M s.nodes x).mergers →
    m < s.mergers.length ∧
    ((mergerAt s.mergers m).node1 = x ∨ (mergerAt s.mergers m).node2 = x)
  heap_valid : ∀ e ∈ s.heap, e.1 < s.mergers.length
  listed_in_heap : ∀ x m, m ∈ (nodeAt M s.nodes x).mergers → ∃ e ∈ s.heap, e.1 = m

/-- The parts of the state that the creation and removal of mergers leave
alone. -/
def Frame (s s' : MergeState α) : Prop :=
  s'.hints = s.hints ∧ s'.qv = s.qv ∧ s'.qf = s.qf ∧
  s'.mergedFactors = s.mergedFactors ∧ s'.mergedVariables = s.mergedVariables

/-- The pair of nodes `i`, `j` passes `getCompatibility` for some hint. -/
def Compatible [DecidableEq α] (M : DdManager α) (nodes : List (AmNode α))
    (largestSupportSet : ℤ) (quantified : List α) (i j : ℕ) : Prop :=
  ∃ hint : ℚ, (getCompatibility M nodes i j largestSupportSet hint quantified).isSome = true

end StatePredicates

end blif_solve

namespace blif_solve

section BasePredicates

variable {α : Type}

/-- The fields of a node that the func-var connections leave alone. -/
def AmNode.base (n : AmNode α) : NodeType × α × α × List ℕ :=
  (n.type, n.node, n.supportSet, n.mergers)

/-- Two arenas hold the same nodes up to the neighbour lists. -/
def SameBase (M : DdManager α) (nodes nodes' : List (AmNode α)) : Prop :=
  nodes'.length = nodes.length ∧ ∀ j, (nodeAt M nodes' j).base = (nodeAt M nodes j).base

end BasePredicates

end blif_solve

namespace blif_solve

section AddedPredicates

variable {α : Type}

/-- The state `s'` comes from `s` by the creation and removal of mergers, and
every merger that was created satisfies `R`. -/
structure Added (M : DdManager α) (R : AmMerger → Prop) (s s' : MergeState α) : Prop where
  frame : Frame s s'
  core : SameCore M s.nodes s'.nodes
  mergers : ∃ new, s'.mergers = s.mergers ++ new ∧ ∀ mg ∈ new, R mg

/-- The state before the first mergers are created. -/
def connectedState [LinearOrder α] (M : DdManager α) (addr : ℕ → ℕ) (factors varBdds : List α)
    (hintsInput : MergeHints α) (quantifiedVariables : List α) : MergeState α :=
  { nodes := connectFuncVar M addr (List.range factors.length)
      ((List.range varBdds.length).map (fun i => factors.length + i))
      (factors.map (AmNode.create M NodeType.Func) ++
        varBdds.map (AmNode.create M NodeType.Var))
    mergers := []
    heap := []
    hints := hintsInput
    qv := setOfList quantifiedVariables
    qf := []
    mergedFactors := setOfList factors
    mergedVariables := setOfList varBdds }

/-- What is known of a merger created before the main loop: it joins two func
nodes or two var nodes that pass `getCompatibility`. -/
def InitMerger [DecidableEq α] (M : DdManager α) (nodes : List (AmNode α)) (lss : ℤ)
    (qf qv : List α) (F V : ℕ) (mg : AmMerger) : Prop :=
  (mg.node1 < F ∧ mg.node2 < F ∧ Compatible M nodes lss qf mg.node1 mg.node2) ∨
  (F ≤ mg.node1 ∧ mg.node1 < F + V ∧ F ≤ mg.node2 ∧ mg.node2 < F + V ∧
    Compatible M nodes lss qv mg.node1 mg.node2)

end AddedPredicates

end blif_solve

namespace blif_solve

section RefreshPredicates

variable {α : Type}

/-- The node returned by `pullOutOtherNode`. -/
def otherNode (mergers : List AmMerger) (merger node1 node2 : ℕ) : Option ℕ :=
  if (mergerAt mergers merger).node1 ≠ node1 ∧ (mergerAt mergers merger).node1 ≠ node2 then
    some (mergerAt mergers merger).node1
  else if (mergerAt mergers merger).node2 ≠ node1 ∧ (mergerAt mergers merger).node2 ≠ node2 then
    some (mergerAt mergers merger).node2
  else none

/-- What is known of a merger created in a round of the main loop: it joins
the merged node to an older node, other than the two contracted nodes, and the
pair passes `getCompatibility`. -/
def RefreshMerger [DecidableEq α] (M : DdManager α) (nodes : List (AmNode α)) (lss : ℤ)
    (quantified : List α) (node1 node2 mergedNode : ℕ) (mg : AmMerger) : Prop :=
  mg.node1 = mergedNode ∧ mg.node2 ≠ node1 ∧ mg.node2 ≠ node2 ∧ mg.node2 < mergedNode ∧
    Compatible M nodes lss quantified mergedNode mg.node2

/-- The invariant of the loop over `oldMergers`; `s1` is the state at the start
of the loop and `acc` the state and `oldMergerSet` after some rounds. -/
structure RefreshInv [DecidableEq α] (M : DdManager α) (lss : ℤ) (quantified : List α)
    (node1 node2 mergedNode : ℕ) (olds : List ℕ) (s1 : MergeState α)
    (acc : MergeState α × List ℕ) : Prop where
  inv : Inv M acc.1
  added : Added M (RefreshMerger M s1.nodes lss quantified node1 node2 mergedNode) s1 acc.1
  cleared1 : (nodeAt M acc.1.nodes node1).mergers = []
  cleared2 : (nodeAt M acc.1.nodes node2).mergers = []
  heap_le : acc.1.heap.length ≤ s1.heap.length
  pending : ∀ old ∈ olds, ∀ y, otherNode s1.mergers old node1 node2 = some y →
    (∃ e ∈ acc.1.heap, e.1 = old) ∨ y ∈ acc.2

/-- What the loop over `oldMergers` needs of an old merger: it is a merger of
the arena with both nodes older than the merged node and one of them among the
two contracted nodes. -/
def OldMerger (mergers : List AmMerger) (node1 node2 mergedNode : ℕ) (olds : List ℕ)
    (old : ℕ) : Prop :=
  old ∈ olds ∧ old < mergers.length ∧
  (mergerAt mergers old).node1 < mergedNode ∧ (mergerAt mergers old).node2 < mergedNode ∧
  ((mergerAt mergers old).node1 = node1 ∨ (mergerAt mergers old).node1 = node2 ∨
    (mergerAt mergers old).node2 = node1 ∨ (mergerAt mergers old).node2 = node2)

end RefreshPredicates

end blif_solve

namespace blif_solve

section ContractPredicates

variable {α : Type} [LinearOrder α]

/-- The BDD of the node created when `merger` is executed. -/
def mergedBddOf (M : DdManager α) (s : MergeState α) (merger : ℕ) : α :=
  M.bdd_and (nodeAt M s.nodes (mergerAt s.mergers merger).node1).node
    (nodeAt M s.nodes (mergerAt s.mergers merger).node2).node

/-- The state of a round of the main loop when the loop over `oldMergers`
starts: `merger` is popped, the merged node is the last node of the arena and
the merger lists of the two contracted nodes are empty. -/
def contractState (M : DdManager α) (addr : ℕ → ℕ) (s : MergeState α) (merger : ℕ) :
    MergeState α :=
  let node1 := (mergerAt s.mergers merger).node1
  let node2 := (mergerAt s.mergers merger).node2
  let n1 := nodeAt M s.nodes node1
  let n2 := nodeAt M s.nodes node2
  let isVar : Bool := decide (n1.type = NodeType.Var)
  let quantified := if isVar then s.qv else s.qf
  let isQuantified : Bool := decide (n1.supportSet ∈ quantified)
  let mergedBdd := M.bdd_and n1.node n2.node
  let quantified1 :=
    if isQuantified = true ∧ mergedBdd ∉ quantified then setInsert mergedBdd quantified
    else quantified
  let mergedNeighbourSet :=
    n2.neighbours.foldl (fun set neigh => ptrSetInsert addr neigh set)
      (n1.neighbours.foldl (fun set neigh => ptrSetInsert addr neigh set) [])
  let newNode : AmNode α :=
    { AmNode.create M n1.type mergedBdd with neighbours := mergedNeighbourSet }
  let nodesA := s.nodes ++ [newNode]
  let nodesB := updateNode (fun n => { n with mergers := [] }) node1 nodesA
  let nodesC := updateNode (fun n => { n with mergers := [] }) node2 nodesB
  { nodes := nodesC
    mergers := s.mergers
    heap := MaxHeap.remove s.heap merger
    hints := s.hints.merge n1.node n2.node mergedBdd
    qv := if isVar then quantified1 else s.qv
    qf := if isVar then s.qf else quantified1
    mergedFactors :=
      if isVar then s.mergedFactors
      else setInsert mergedBdd (setErase n2.node (setErase n1.node s.mergedFactors))
    mergedVariables :=
      if isVar then
        setInsert mergedBdd (setErase n2.node (setErase n1.node s.mergedVariables))
      else s.mergedVariables }

/-- The list `oldMergers` of a round of the main loop. -/
def oldMergersOf (M : DdManager α) (addr : ℕ → ℕ) (s : MergeState α) (merger : ℕ) : List ℕ :=
  let node1 := (mergerAt s.mergers merger).node1
  let node2 := (mergerAt s.mergers merger).node2
  let n1 := nodeAt M s.nodes node1
  let n2 := nodeAt M s.nodes node2
  let mergedBdd := M.bdd_and n1.node n2.node
  let mergedNeighbourSet :=
    n2.neighbours.foldl (fun set neigh => ptrSetInsert addr neigh set)
      (n1.neighbours.foldl (fun set neigh => ptrSetInsert addr neigh set) [])
  let newNode : AmNode α :=
    { AmNode.create M n1.type mergedBdd with neighbours := mergedNeighbourSet }
  let nodesA := s.nodes ++ [newNode]
  let nodesB := updateNode (fun n => { n with mergers := [] }) node1 nodesA
  (nodeAt M nodesA node1).mergers ++ (nodeAt M nodesB node2).mergers

/-- The set `quantified` of a round of the main loop, after the merged BDD has
been entered: `qv` for a var merger and `qf` for a func merger. -/
def quantifiedOf (M : DdManager α) (addr : ℕ → ℕ) (s : MergeState α) (merger : ℕ) : List α :=
  if decide ((nodeAt M s.nodes (mergerAt s.mergers merger).node1).type = NodeType.Var) = true
  then (contractState M addr s merger).qv else (contractState M addr s merger).qf

end ContractPredicates

end blif_solve

namespace blif_solve

section SemanticPredicates

variable {α : Type}

/-- The conjunction of a list of BDDs holds under the assignment `σ`. -/
def conjHolds (S : Semantics α) (l : List α) (σ : ℕ → Bool) : Prop :=
  ∀ f ∈ l, S.sem f σ = true

/-- The invariant behind the equivalence of the factors: the surviving factors
are equivalent to the input factors, and they imply the BDD of every func
node. -/
structure FactorsInv (M : DdManager α) (S : Semantics α) (factors : List α) (s : MergeState α) :
    Prop where
  equiv : ∀ σ, conjHolds S s.mergedFactors σ ↔ conjHolds S factors σ
  implied : ∀ j, (nodeAt M s.nodes j).type = NodeType.Func →
    ∀ σ, conjHolds S s.mergedFactors σ → S.sem (nodeAt M s.nodes j).node σ = true

end SemanticPredicates

end blif_solve

namespace blif_solve

section CubePredicates

variable {α : Type}

/-- The input condition on `variables` and `quantifiedVariables`: every entry
is a cube of exactly one variable. -/
def SingleVariableCubes (S : Semantics α) (l : List α) : Prop :=
  ∀ v ∈ l, S.isCube v ∧ (S.vars v).card = 1

/-- The cube-union of a list of cubes: the set of all their variables. -/
def cubeUnion (S : Semantics α) (l : List α) : Finset ℕ :=
  l.foldr (fun c acc => S.vars c ∪ acc) ∅

/-- The variables of the support sets of a list of nodes. -/
def supportUnion (M : DdManager α) (S : Semantics α) (nodes : List (AmNode α)) (l : List ℕ) :
    Finset ℕ :=
  l.foldr (fun x acc => S.vars (nodeAt M nodes x).supportSet ∪ acc) ∅

/-- The set `U` of `getCompatibility`: the variables of both support sets and
of the support sets of all neighbours of both nodes. -/
def prospectiveSupport (M : DdManager α) (S : Semantics α) (nodes : List (AmNode α)) (f1 f2 : ℕ) :
    Finset ℕ :=
  S.vars (nodeAt M nodes f1).supportSet ∪ S.vars (nodeAt M nodes f2).supportSet ∪
    supportUnion M S nodes (nodeAt M nodes f1).neighbours ∪
    supportUnion M S nodes (nodeAt M nodes f2).neighbours

/-- The invariant of the cubes: support sets are as the constructor sets them,
var nodes carry non-empty cubes, neighbours are nodes of the arena, and the
surviving variables cover the variables of the inputs and of every var node. -/
structure CubeInv (M : DdManager α) (S : Semantics α) (varBdds : List α) (s : MergeState α) :
    Prop where
  supp : ∀ j, (nodeAt M s.nodes j).supportSet =
    if (nodeAt M s.nodes j).type = NodeType.Func then M.bdd_support (nodeAt M s.nodes j).node
    else (nodeAt M s.nodes j).node
  var_cube : ∀ j, (nodeAt M s.nodes j).type = NodeType.Var →
    S.isCube (nodeAt M s.nodes j).node ∧ (S.vars (nodeAt M s.nodes j).node).Nonempty
  neigh_valid : ∀ j, ∀ x ∈ (nodeAt M s.nodes j).neighbours, x < s.nodes.length
  vars_equiv : cubeUnion S s.mergedVariables = cubeUnion S varBdds
  var_covered : ∀ j, (nodeAt M s.nodes j).type = NodeType.Var →
    S.vars (nodeAt M s.nodes j).node ⊆ cubeUnion S s.mergedVariables

/-- The invariant of the support bound: every merger has a prospective support
of at most `lss` variables, every node created by a contraction has a support
of at most `lss` variables, and every surviving factor is an input factor or
has a support of at most `lss` variables. -/
structure BoundInv (M : DdManager α) (S : Semantics α) (lss : ℤ) (nInit : ℕ) (factors : List α)
    (s : MergeState α) : Prop where
  merger_bound : ∀ mg ∈ s.mergers,
    ((prospectiveSupport M S s.nodes mg.node1 mg.node2).card : ℤ) ≤ lss
  node_bound : ∀ j, nInit ≤ j → j < s.nodes.length →
    ((S.vars (nodeAt M s.nodes j).supportSet).card : ℤ) ≤ lss
  factor_bound : ∀ f ∈ s.mergedFactors, f ∈ factors ∨ ((S.vars f).card : ℤ) ≤ lss

/-- The invariant of the quantification classes; `Q` is the set of the
quantified variables. -/
structure ClassInv (M : DdManager α) (S : Semantics α) (Q : Finset ℕ) (s : MergeState α) :
    Prop where
  qv_cube : ∀ q ∈ s.qv, S.isCube q ∧ (S.vars q).Nonempty ∧ S.vars q ⊆ Q
  var_class : ∀ j, (nodeAt M s.nodes j).type = NodeType.Var →
    ((nodeAt M s.nodes j).node ∈ s.qv ∧ S.vars (nodeAt M s.nodes j).node ⊆ Q) ∨
    ((nodeAt M s.nodes j).node ∉ s.qv ∧ Disjoint (S.vars (nodeAt M s.nodes j).node) Q)
  merger_class : ∀ mg ∈ s.mergers, (nodeAt M s.nodes mg.node1).type = NodeType.Var →
    ((nodeAt M s.nodes mg.node1).node ∈ s.qv ↔ (nodeAt M s.nodes mg.node2).node ∈ s.qv)

end CubePredicates

end blif_solve

/-! ## A manager of truth tables

A BDD over the variables `0 .. n - 1` is kept as the number whose bit `j` is
the value of the function under the assignment number `j` (variable `i` is
true in assignment `j` when bit `i` of `j` is set).  Equal functions have equal
numbers, so handles are canonical; the pointer order is the order of the
numbers. -/

namespace blif_solve

/-- The cube of the variables in `S`, over `n` variables. -/
def ttCube (n : ℕ) (S : List ℕ) : ℕ :=
  (List.range (2 ^ n)).foldl
    (fun acc j => if S.all (fun i => j.testBit i) then acc ||| 2 ^ j else acc) 0

/-- The function `t` depends on the variable `i`. -/
def ttDepends (n t i : ℕ) : Bool :=
  (List.range (2 ^ n)).any (fun j => t.testBit j != t.testBit (j ^^^ 2 ^ i))

/-- The variables the function `t` depends on. -/
def ttSupport (n t : ℕ) : List ℕ :=
  (List.range n).filter (fun i => ttDepends n t i)

/-- The number of the assignment `σ` to the variables `0 .. n - 1`. -/
def ttCode (n : ℕ) (σ : ℕ → Bool) : ℕ :=
  (List.range n).foldl (fun acc i => if σ i then acc ||| 2 ^ i else acc) 0

/-- Modelled from the spec: a BDD manager (§6) over `n` variables, on truth
tables. -/
def ttManager (n : ℕ) : DdManager ℕ where
  bdd_one := 2 ^ (2 ^ n) - 1
  bdd_and := fun a b => a &&& b
  bdd_support := fun t => ttCube n (ttSupport n t)
  bdd_cube_intersection := fun a b =>
    ttCube n ((ttSupport n a).filter (fun i => decide (i ∈ ttSupport n b)))
  bdd_size := fun c => (ttSupport n c).length
  bdd_is_one := fun c => decide (c = 2 ^ (2 ^ n) - 1)

/-- What the truth tables denote. -/
def ttSemantics (n : ℕ) : Semantics ℕ where
  sem := fun t σ => t.testBit (ttCode n σ)
  vars := fun t => (ttSupport n t).toFinset
  isCube := fun c => ∃ S : List ℕ, (∀ i ∈ S, i < n) ∧ c = ttCube n S

/-- The variable `i` as a BDD over `n` variables. -/
def ttVar (n i : ℕ) : ℕ := ttCube n [i]

/-- The disjunction of two truth tables. -/
def ttOr (a b : ℕ) : ℕ := a ||| b

end blif_solve

/-! ## The hint driver (may_22/main.cpp)

The callback `May22MucCallback` that the MUS enumerator calls for each MUS, and
the helper `mergeAllPairs`.  An `int` is an integer (`ℤ`), a
`std::set<int>` is a list in increasing order, a `std::vector` is a list. -/

namespace may_22

open blif_solve

/-- The function template `mergeAllPairs`: `addWeight` for every ordered pair of
different entries of `fvec`. -/
def mergeAllPairs {α : Type} [LinearOrder α] (fvec : List α) (mergeHints : MergeHints α)
    (mergeWeight : ℚ) : MergeHints α :=
  fvec.foldl (fun H fn1 =>
    fvec.foldl (fun H' fn2 => if fn1 ≠ fn2 then H'.addWeight fn1 fn2 mergeWeight else H') H)
    mergeHints

/-- The comparison of `ClauseData::Assignment`, a `std::pair<int, bool>`:
lexicographic, `false` before `true`. -/
def assignmentLt (a b : ℤ × Bool) : Bool :=
  decide (a.1 < b.1) || (decide (a.1 = b.1) && (!a.2 && b.2))

/-- Placement of a new element of a `ClauseData::AssignmentSet` in order. -/
def assignmentOrderedInsert (a : ℤ × Bool) : List (ℤ × Bool) → List (ℤ × Bool)
  | [] => [a]
  | b :: rest =>
    if assignmentLt a b then a :: b :: rest else b :: assignmentOrderedInsert a rest

/-- The method `insert` of `ClauseData::AssignmentSet`. -/
def assignmentInsert (a : ℤ × Bool) (s : List (ℤ × Bool)) : List (ℤ × Bool) :=
  if a ∈ s then s else assignmentOrderedInsert a s

/-- The `struct ClauseData`. -/
structure ClauseData (α : Type) where
  varNodes : List α
  funcNode : α
  literalAssignments : List (ℤ × Bool)

/-- The enumeration `dd::Quantifier::QuantifierType`. -/
inductive QuantifierType
  | ForAll
  | Exists
  deriving DecidableEq, Repr

/-- Modelled from the spec: an entry of `QdimacsToBdd::quantifications` (the
class `dd::QdimacsToBdd` is not among the sources): the type of the quantifier
and the cube of its variables. -/
structure BddQuantification (α : Type) where
  quantifierType : QuantifierType
  quantifiedVariables : α

/-- Modelled from the spec: the members of `dd::QdimacsToBdd` that the driver
reads (the class is not among the sources): the number of variables and the
quantifier blocks. -/
structure QdimacsToBdd (α : Type) where
  numVariables : ℤ
  quantifications : List (BddQuantification α)

/-- Modelled from the spec: the operations of the BDD manager and of
`dd::BddWrapper` that the driver uses beyond those of the merge engine (§6):
the handle zero, the test `isZero`, `assign` (cofactor), the variable with a
given index, and union and difference of cubes; the BDD library is not among
the sources. -/
structure DriverOps (α : Type) where
  bdd_zero : α
  bdd_is_zero : α → Bool
  bdd_assign : α → ℤ → α → α
  bdd_new_var_with_index : ℤ → α
  cubeUnion : α → α → α
  cubeDiff : α → α → α

/-- Modelled from the spec: the factor graph `fgpp::FactorGraph` (§6), which is
not among the sources: `createFactorGraph`, `groupVariables`, `converge` (the
converged graph and the number of iterations) and `getIncomingMessages`. -/
structure FactorGraphOps (α FG : Type) where
  createFactorGraph : List α → FG
  groupVariables : FG → α → FG
  converge : FG → FG × ℕ
  getIncomingMessages : FG → α → List α

/-- The function `createFactorGraph` of main.cpp: the factors are wrapped and handed to
`fgpp::FactorGraph::createFactorGraph`. -/
def createFactorGraph {α FG : Type} (G : FactorGraphOps α FG) (factors : List α) : FG :=
  G.createFactorGraph factors

/-- The function `getFactorGraphResult`: the conjunction of the messages that
come in at the cube of the variables that are not quantified.  The product of
two `BddWrapper`s is their conjunction; reading `quantifications[0]` of an
empty vector is undefined and gives the cube of no variables here. -/
def getFactorGraphResult {α FG : Type} (M : DdManager α) (X : DriverOps α)
    (G : FactorGraphOps α FG) (fg : FG) (q2b : QdimacsToBdd α) : α :=
  let qvars :=
    match q2b.quantifications with
    | q :: _ => q.quantifiedVariables
    | [] => M.bdd_one
  let allVars := (List.range q2b.numVariables.toNat).foldl
    (fun acc i => X.cubeUnion acc (X.bdd_new_var_with_index ((i : ℤ) + 1))) M.bdd_one
  let nonQVars := X.cubeDiff allVars qvars
  let resultVec := G.getIncomingMessages fg nonQVars
  resultVec.foldl (fun result message => M.bdd_and result message) M.bdd_one

/-- The conversion of a `double` to an `int`: the fraction is dropped. -/
def doubleToInt (x : ℚ) : ℤ := if 0 ≤ x then ⌊x⌋ else ⌈x⌉

/-- The class `May22MucCallback`: its data members other than the manager. -/
structure May22MucCallback (α : Type) where
  m_qdimacsToBdd : QdimacsToBdd α
  m_quantifiedVariables : List α
  m_mergeHints : MergeHints α
  m_mucMergeWeight : ℚ
  m_factors : List α
  m_variables : List α
  m_largestSupportSet : ℚ
  m_factorGraphResult : α
  m_clauseData : List (List ℤ × ClauseData α)

/-- The method `find` of the map `m_clauseData`. -/
def clauseDataFind {α : Type} : List (List ℤ × ClauseData α) → List ℤ → Option (ClauseData α)
  | [], _ => none
  | e :: rest, k => if e.1 = k then some e.2 else clauseDataFind rest k

/-- The locals `varNodes`, `funcNodes` and `varAssignment` of `processMuc`. -/
structure MucData (α : Type) where
  varNodes : List α
  funcNodes : List α
  varAssignment : List (ℤ × Bool)

namespace May22MucCallback

variable {α : Type} [LinearOrder α]

/-- One round of the first loop of `processMuc`: the data of a clause of the
MUS that is registered is added to the locals, a clause that is not registered
is skipped. -/
def gatherClause (cb : May22MucCallback α) (acc : MucData α) (clause : List ℤ) : MucData α :=
  match clauseDataFind cb.m_clauseData (setOfList clause) with
  | none => acc
  | some clauseData =>
    { varNodes := clauseData.varNodes.foldl (fun s v => setInsert v s) acc.varNodes
      funcNodes := acc.funcNodes ++ [clauseData.funcNode]
      varAssignment := clauseData.literalAssignments.foldl (fun s a => assignmentInsert a s)
        acc.varAssignment }

/-- The first loop of `processMuc`. -/
def gatherMuc (cb : May22MucCallback α) (muc : List (List ℤ)) : MucData α :=
  muc.foldl (gatherClause cb) { varNodes := [], funcNodes := [], varAssignment := [] }

/-- The local `assignedFactorGraphResult` of `processMuc` after the loop over
`varAssignment`. -/
def assignedFactorGraphResult (M : DdManager α) (X : DriverOps α) (cb : May22MucCallback α)
    (muc : List (List ℤ)) : α :=
  (gatherMuc cb muc).varAssignment.foldl
    (fun fgr assignment =>
      X.bdd_assign fgr assignment.1 (if assignment.2 then M.bdd_one else X.bdd_zero))
    cb.m_factorGraphResult

/-- The local `isTight` of `processMuc`. -/
def isTight (M : DdManager α) (X : DriverOps α) (cb : May22MucCallback α)
    (muc : List (List ℤ)) : Bool :=
  X.bdd_is_zero (assignedFactorGraphResult M X cb muc)

/-- The method `May22MucCallback::processMuc`.  The result is the callback after the call
together with the local `mergeResults` when the merge engine was run; `addr`
and `tie` are the node addresses and the tie-breaks of that run. -/
def processMuc {FG : Type} (M : DdManager α) (X : DriverOps α) (G : FactorGraphOps α FG)
    (addr : ℕ → ℕ) (tie : ℕ → ℕ) (cb : May22MucCallback α) (muc : List (List ℤ)) :
    Except String (May22MucCallback α × Option (MergeResults α)) :=
  if isTight M X cb muc then Except.ok (cb, none)
  else
    let hints1 := mergeAllPairs (gatherMuc cb muc).funcNodes cb.m_mergeHints cb.m_mucMergeWeight
    let hints2 := mergeAllPairs (gatherMuc cb muc).varNodes hints1 cb.m_mucMergeWeight
    match blif_solve.merge M addr tie cb.m_factors cb.m_variables
        (doubleToInt cb.m_largestSupportSet) hints2 cb.m_quantifiedVariables with
    | Except.error e => Except.error e
    | Except.ok mergeResults =>
      let factorGraph := createFactorGraph G mergeResults.factors
      let grouped := mergeResults.varBdds.foldl G.groupVariables factorGraph
      let converged := (G.converge grouped).1
      Except.ok
        ({ cb with
            m_mergeHints := hints2
            m_factorGraphResult := getFactorGraphResult M X G converged cb.m_qdimacsToBdd },
          some mergeResults)

end May22MucCallback

end may_22

/-! ## Driver operations on truth tables -/

namespace may_22

open blif_solve

/-- The cofactor of the truth table `t` over `n` variables: variable `i` is
given the value `b`. -/
def ttAssign (n t i : ℕ) (b : Bool) : ℕ :=
  (List.range (2 ^ n)).foldl
    (fun acc j =>
      if t.testBit (if j.testBit i = b then j else j ^^^ 2 ^ i) then acc ||| 2 ^ j else acc) 0

/-- The projection of the truth table `t` over `n` variables onto the variables
in `keep`: the other variables are quantified existentially. -/
def ttProject (n t : ℕ) (keep : List ℕ) : ℕ :=
  (List.range (2 ^ n)).foldl
    (fun acc j =>
      if (List.range (2 ^ n)).any
          (fun j' => keep.all (fun i => j'.testBit i = j.testBit i) && t.testBit j')
      then acc ||| 2 ^ j else acc) 0

/-- Modelled from the spec: the driver operations (§6) on truth tables over `n`
variables; the variable with index `i` is variable `i` of the table. -/
def ttDriverOps (n : ℕ) : DriverOps ℕ where
  bdd_zero := 0
  bdd_is_zero := fun t => decide (t = 0)
  bdd_assign := fun t i v => ttAssign n t i.toNat (decide (v ≠ 0))
  bdd_new_var_with_index := fun i => ttVar n i.toNat
  cubeUnion := fun a b => a &&& b
  cubeDiff := fun a b =>
    ttCube n ((ttSupport n a).filter (fun i => decide (i ∉ ttSupport n b)))

/-- Modelled from the spec: a factor graph (§6) on truth tables over `n`
variables that keeps its factors and its groups of variables; the message that
comes in at a cube is the projection of the conjunction of the factors onto the
variables of the cube. -/
def ttFactorGraph (n : ℕ) : FactorGraphOps ℕ (List ℕ × List ℕ) where
  createFactorGraph := fun factors => (factors, [])
  groupVariables := fun fg cube => (fg.1, fg.2 ++ [cube])
  converge := fun fg => (fg, 1)
  getIncomingMessages := fun fg cube =>
    [ttProject n (fg.1.foldl (fun a b => a &&& b) (2 ^ (2 ^ n) - 1)) (ttSupport n cube)]

end may_22

namespace may_22

open blif_solve

/-- The negation of a truth table over `n` variables. -/
def ttNot (n t : ℕ) : ℕ := (2 ^ (2 ^ n) - 1) ^^^ t

/-- The callback for the problem `∃ x1. (x1 ∨ x2) ∧ (¬x1 ∨ x2)` on truth tables
over three variables, with the projection candidate `candidate`: the clauses
are registered under their quantified literals `{1}` and `{-1}`, each with the
free variable `x2`, its BDD, and the assignment that makes its free literal
false. -/
def exampleCallback (candidate : ℕ) : May22MucCallback ℕ where
  m_qdimacsToBdd :=
    { numVariables := 2
      quantifications := [{ quantifierType := QuantifierType.Exists
                            quantifiedVariables := ttVar 3 1 }] }
  m_quantifiedVariables := [ttVar 3 1]
  m_mergeHints := MergeHints.empty
  m_mucMergeWeight := 2
  m_factors := [ttOr (ttVar 3 1) (ttVar 3 2), ttOr (ttNot 3 (ttVar 3 1)) (ttVar 3 2)]
  m_variables := [ttVar 3 1, ttVar 3 2]
  m_largestSupportSet := 50
  m_factorGraphResult := candidate
  m_clauseData :=
    [([-1], { varNodes := [ttVar 3 2]
              funcNode := ttOr (ttNot 3 (ttVar 3 1)) (ttVar 3 2)
              literalAssignments := [(2, false)] }),
     ([1], { varNodes := [ttVar 3 2]
             funcNode := ttOr (ttVar 3 1) (ttVar 3 2)
             literalAssignments := [(2, false)] })]

end may_22

/-! ## All runs of the main loop

The main loop is deterministic up to the choice among the top cells of the
heap.  The definitions below follow every choice, so that a statement about
all tie-breaks of a concrete run can be decided by evaluation. -/

namespace blif_solve

section AllRuns

variable {α : Type} [LinearOrder α]

/-- The heap of the state before the main loop. -/
def initialHeap (M : DdManager α) (addr : ℕ → ℕ) (factors varBdds : List α)
    (largestSupportSet : ℤ) (hintsInput : MergeHints α) (quantifiedVariables : List α) :
    Option MaxHeap :=
  match initState M addr factors varBdds largestSupportSet hintsInput quantifiedVariables with
  | Except.ok s => some s.heap
  | Except.error _ => none

/-- The outcomes of at most `n` rounds of the main loop from the state `s`, for
every choice among the top cells of the heap in every round. -/
def reachAfter (M : DdManager α) (addr : ℕ → ℕ) (largestSupportSet : ℤ) :
    ℕ → MergeState α → List (Except String (MergeState α))
  | 0, s => [Except.ok s]
  | n + 1, s =>
    if s.heap = [] then [Except.ok s]
    else
      (List.range (MaxHeap.tops s.heap).length).flatMap (fun t =>
        match loopStep M addr largestSupportSet t s with
        | Except.ok s' => reachAfter M addr largestSupportSet n s'
        | Except.error e => [Except.error e])

/-- Every run of `blif_solve::merge` on the given input, whatever the tie-breaks, ends
with results that pass `check`. -/
def everyResult (M : DdManager α) (addr : ℕ → ℕ) (factors varBdds : List α)
    (largestSupportSet : ℤ) (hintsInput : MergeHints α) (quantifiedVariables : List α)
    (check : MergeResults α → Bool) : Bool :=
  match initState M addr factors varBdds largestSupportSet hintsInput quantifiedVariables with
  | Except.error _ => false
  | Except.ok s0 =>
    (reachAfter M addr largestSupportSet s0.heap.length s0).all (fun r =>
      match r with
      | Except.ok s => decide (s.heap = []) && check s.results
      | Except.error _ => false)

/-- In every run of `blif_solve::merge` on the given input, whatever the tie-breaks, the
state after `n` rounds of the main loop passes `check`. -/
def everyStateAfter (M : DdManager α) (addr : ℕ → ℕ) (n : ℕ) (factors varBdds : List α)
    (largestSupportSet : ℤ) (hintsInput : MergeHints α) (quantifiedVariables : List α)
    (check : MergeState α → Bool) : Bool :=
  match initState M addr factors varBdds largestSupportSet hintsInput quantifiedVariables with
  | Except.error _ => false
  | Except.ok s0 =>
    (reachAfter M addr largestSupportSet n s0).all (fun r =>
      match r with
      | Except.ok s => check s
      | Except.error _ => false)

end AllRuns

end blif_solve

/-! ## Contracted and uncontracted nodes -/

namespace blif_solve

section AlivePredicates

variable {α : Type}

/-- Two mergers join the same unordered pair of nodes. -/
def AmMerger.SamePair (mg mg' : AmMerger) : Prop :=
  (mg.node1 = mg'.node1 ∧ mg.node2 = mg'.node2) ∨
  (mg.node1 = mg'.node2 ∧ mg.node2 = mg'.node1)

/-- The invariant of the heap with respect to the list `dead` of the nodes that
were contracted: every merger of the heap joins two different nodes that were
not contracted and is listed in the merger lists of both, and the heap holds
at most one merger for an unordered pair of nodes. -/
structure AliveInv (M : DdManager α) (s : MergeState α) (dead : List ℕ) : Prop where
  distinct : ∀ e ∈ s.heap,
    (mergerAt s.mergers e.1).node1 ≠ (mergerAt s.mergers e.1).node2
  alive : ∀ e ∈ s.heap,
    (mergerAt s.mergers e.1).node1 ∉ dead ∧ (mergerAt s.mergers e.1).node2 ∉ dead
  listed : ∀ e ∈ s.heap,
    e.1 ∈ (nodeAt M s.nodes (mergerAt s.mergers e.1).node1).mergers ∧
    e.1 ∈ (nodeAt M s.nodes (mergerAt s.mergers e.1).node2).mergers
  unique : ∀ e ∈ s.heap, ∀ e' ∈ s.heap,
    (mergerAt s.mergers e.1).SamePair (mergerAt s.mergers e'.1) → e.1 = e'.1
  dead_valid : ∀ d ∈ dead, d < s.nodes.length

/-- The invariant of the loop over `oldMergers` that `AliveInv` needs; `s1` is
the state at the start of the loop, `pre` the old mergers that were handled and
`acc` the state and `oldMergerSet` after them. -/
structure RefreshAlive (M : DdManager α) (node1 node2 mergedNode : ℕ) (s1 : MergeState α)
    (pre : List ℕ) (acc : MergeState α × List ℕ) : Prop where
  pre_valid : ∀ old ∈ pre, old < s1.mergers.length
  mergers_ext : ∃ new, acc.1.mergers = s1.mergers ++ new ∧
    (new.map (fun mg => mg.node2)).Nodup ∧
    ∀ mg ∈ new, mg.node1 = mergedNode ∧ mg.node2 ∈ acc.2 ∧
      ∃ old ∈ pre, otherNode s1.mergers old node1 node2 = some mg.node2
  heap_cases : ∀ e ∈ acc.1.heap, e ∈ s1.heap ∨ s1.mergers.length ≤ e.1
  removed : ∀ old ∈ pre, (otherNode s1.mergers old node1 node2).isSome = true →
    ∀ e ∈ acc.1.heap, e.1 ≠ old
  kept_list : ∀ x j, j ∈ (nodeAt M s1.nodes x).mergers →
    j ∈ (nodeAt M acc.1.nodes x).mergers ∨
      (j ∈ pre ∧ (otherNode s1.mergers j node1 node2).isSome = true)
  new_listed : ∀ j, s1.mergers.length ≤ j → j < acc.1.mergers.length →
    j ∈ (nodeAt M acc.1.nodes (mergerAt acc.1.mergers j).node1).mergers ∧
    j ∈ (nodeAt M acc.1.nodes (mergerAt acc.1.mergers j).node2).mergers

/-- The invariant of the loops that create the first mergers: no two mergers
join the same ordered pair, every merger joins a pair that `visited` holds,
its first node lies at the lower address, and it is listed in the merger lists
of both its nodes. -/
structure InitAlive (M : DdManager α) (addr : ℕ → ℕ) (visited : ℕ × ℕ → Prop)
    (s : MergeState α) : Prop where
  nodup : s.mergers.Nodup
  seen : ∀ mg ∈ s.mergers, visited (mg.node1, mg.node2)
  oriented : ∀ mg ∈ s.mergers, addr mg.node1 < addr mg.node2
  listed : ∀ m, m < s.mergers.length →
    m ∈ (nodeAt M s.nodes (mergerAt s.mergers m).node1).mergers ∧
    m ∈ (nodeAt M s.nodes (mergerAt s.mergers m).node2).mergers

end AlivePredicates

section Contracted

variable {α : Type} [LinearOrder α]

/-- The nodes that the first `n` rounds of the main loop contracted: the two
nodes of the merger popped in each round. -/
def contractedNodes (M : DdManager α) (addr : ℕ → ℕ) (tie : ℕ → ℕ) (factors varBdds : List α)
    (largestSupportSet : ℤ) (hintsInput : MergeHints α) (quantifiedVariables : List α) :
    ℕ → List ℕ
  | 0 => []
  | n + 1 =>
    match stateAfter M addr tie n factors varBdds largestSupportSet hintsInput
        quantifiedVariables with
    | Except.ok s =>
      match MaxHeap.top s.heap (tie n) with
      | some merger =>
        (mergerAt s.mergers merger).node1 :: (mergerAt s.mergers merger).node2 ::
          contractedNodes M addr tie factors varBdds largestSupportSet hintsInput
            quantifiedVariables n
      | none =>
        contractedNodes M addr tie factors varBdds largestSupportSet hintsInput
          quantifiedVariables n
    | Except.error _ =>
      contractedNodes M addr tie factors varBdds largestSupportSet hintsInput
        quantifiedVariables n

/-- The number of nodes of the kind `K` in the arena that are not in the list
`dead` of the contracted nodes. -/
def uncontracted (M : DdManager α) (s : MergeState α) (dead : List ℕ) (K : NodeType) : ℕ :=
  ((Finset.range s.nodes.length).filter
    (fun j => (nodeAt M s.nodes j).type = K ∧ j ∉ dead)).card

/-- The number of contractions that the uncontracted nodes still allow: one
less than the number of the uncontracted func nodes plus one less than the
number of the uncontracted var nodes. -/
def contractionsLeft (M : DdManager α) (s : MergeState α) (dead : List ℕ) : ℕ :=
  (uncontracted M s dead NodeType.Func - 1) + (uncontracted M s dead NodeType.Var - 1)

end Contracted

end blif_solve

/-! ## Keys of the weight map -/

namespace blif_solve

namespace MergeHints

variable {α : Type} [LinearOrder α]

/-- No two entries of the map have the same key, as in a `std::map`. -/
def KeysUnique (H : MergeHints α) : Prop :=
  (H.m_weights.map (fun e => e.1)).Nodup

end MergeHints

end blif_solve

/-! ## Sequences of callbacks -/

namespace may_22

open blif_solve

/-- Modelled from the spec: the MUS enumerator (§6), which is not among the
sources, calls `processMuc` once for every MUS that it finds, on one callback
object: the calls for the MUSes of `mucs`, in order.  `addr k` and `tie k` are
the node addresses and the tie-breaks of the merge run of call number `k`. -/
def processMucs {α FG : Type} [LinearOrder α] (M : DdManager α) (X : DriverOps α)
    (G : FactorGraphOps α FG) (addr tie : ℕ → ℕ → ℕ) :
    ℕ → May22MucCallback α → List (List (List ℤ)) → Except String (May22MucCallback α)
  | _, cb, [] => Except.ok cb
  | k, cb, muc :: rest =>
    match May22MucCallback.processMuc M X G (addr k) (tie k) cb muc with
    | Except.error e => Except.error e
    | Except.ok (cb', _) => processMucs M X G addr tie (k + 1) cb' rest

/-- The callback `exampleCallback` with the weight `w` for the pairs of a
MUS. -/
def exampleCallbackWeighted (w : ℚ) (candidate : ℕ) : May22MucCallback ℕ :=
  { exampleCallback candidate with m_mucMergeWeight := w }

end may_22

/-! ## Construction of the callback and registration of the clauses (may_22/main.cpp)

The constructor `May22MucCallback::May22MucCallback`, the method `addClause` and the
part of `createMustMaster` that filters the clauses and registers their data.
A `std::set<int>` is the list of its elements in increasing order. -/

namespace may_22

open blif_solve

/-- Modelled from the spec: a quantifier block of `dd::Qdimacs` (the class is not
among the sources): its type and its variables; `quantifierVariables` is the
member `variables`. -/
structure Quantifier where
  quantifierType : QuantifierType
  quantifierVariables : List ℤ

/-- Modelled from the spec: the members of `dd::Qdimacs` that `createMustMaster` reads
(the class is not among the sources): the number of variables, the quantifier
blocks and the clauses, each a list of literals. -/
structure Qdimacs where
  numVariables : ℤ
  quantifiers : List Quantifier
  clauses : List (List ℤ)

section Construction

variable {α : Type} [LinearOrder α]

/-- The loop `while(!allQuantifiedVariables.isOne())` of the constructor: the
variable with the lowest index is taken out of the cube and entered in
`m_quantifiedVariables`.  `varWithLowestIndex` is the method of `dd::BddWrapper`
of that name, which is not among the sources; `fuel` bounds the number of
rounds, and `none` says that the loop did not end within the bound. -/
def quantifiedVariablesLoop (M : DdManager α) (X : DriverOps α) (varWithLowestIndex : α → α) :
    ℕ → α → List α → Option (List α)
  | 0, allQuantifiedVariables, acc =>
    if M.bdd_is_one allQuantifiedVariables then some acc else none
  | fuel + 1, allQuantifiedVariables, acc =>
    if M.bdd_is_one allQuantifiedVariables then some acc
    else
      quantifiedVariablesLoop M X varWithLowestIndex fuel
        (X.cubeDiff allQuantifiedVariables (varWithLowestIndex allQuantifiedVariables))
        (setInsert (varWithLowestIndex allQuantifiedVariables) acc)

/-- The constructor `May22MucCallback::May22MucCallback`.  Every round of its loop takes a
variable out of the cube of the quantified variables, so the size of that cube
is enough fuel. -/
def May22MucCallback.create (M : DdManager α) (X : DriverOps α) (varWithLowestIndex : α → α)
    (qdimacsToBdd : QdimacsToBdd α) (mucMergeWeight : ℚ) (factors varBdds : List α)
    (largestSupportSet : ℚ) : Except String (May22MucCallback α) :=
  if qdimacsToBdd.quantifications.length ≠ 1 then
    Except.error "Expecting only one quantifier, instead found another number"
  else
    match qdimacsToBdd.quantifications with
    | [] => Except.error "Expecting only one quantifier, instead found another number"
    | front :: _ =>
      if front.quantifierType ≠ QuantifierType.Exists then
        Except.error "Expecting quantifer to be existential but found something else."
      else
        match quantifiedVariablesLoop M X varWithLowestIndex
            (M.bdd_size front.quantifiedVariables) front.quantifiedVariables [] with
        | none => Except.error "the loop over the quantified variables did not end"
        | some quantifiedVariables =>
          Except.ok
            { m_qdimacsToBdd := qdimacsToBdd
              m_quantifiedVariables := quantifiedVariables
              m_mergeHints := MergeHints.empty
              m_mucMergeWeight := mucMergeWeight
              m_factors := factors
              m_variables := varBdds
              m_largestSupportSet := largestSupportSet
              m_factorGraphResult := M.bdd_one
              m_clauseData := [] }

end Construction

/-- The comparison of two `std::set<int>`: lexicographic on the elements in
increasing order. -/
def clauseLt : List ℤ → List ℤ → Bool
  | [], [] => false
  | [], _ :: _ => true
  | _ :: _, [] => false
  | a :: as, b :: bs => decide (a < b) || (decide (a = b) && clauseLt as bs)

/-- Placement of a new entry of `m_clauseData` in key order. -/
def clauseDataOrderedInsert {α : Type} (k : List ℤ) (d : ClauseData α) :
    List (List ℤ × ClauseData α) → List (List ℤ × ClauseData α)
  | [] => [(k, d)]
  | e :: rest =>
    if clauseLt k e.1 then (k, d) :: e :: rest else e :: clauseDataOrderedInsert k d rest

/-- The method `insert` of the map `m_clauseData`: a key that is present keeps
its data. -/
def clauseDataInsert {α : Type} (k : List ℤ) (d : ClauseData α)
    (m : List (List ℤ × ClauseData α)) : List (List ℤ × ClauseData α) :=
  if (clauseDataFind m k).isSome then m else clauseDataOrderedInsert k d m

/-- The method `May22MucCallback::addClause`. -/
def May22MucCallback.addClause {α : Type} (cb : May22MucCallback α) (mustClause : List ℤ)
    (varNodes : List α) (funcNode : α) (literals : List (ℤ × Bool)) : May22MucCallback α :=
  { cb with
    m_clauseData := clauseDataInsert mustClause
      { varNodes := varNodes, funcNode := funcNode, literalAssignments := literals }
      cb.m_clauseData }

/-- The lambda `isQuantifiedVariable` of `createMustMaster`. -/
def isQuantifiedVariable (quantifiedVariableSet : List ℤ) (v : ℤ) : Bool :=
  decide ((if v ≥ 0 then v else -v) ∈ quantifiedVariableSet)

/-- The local `quantifiedLiterals` of a round of the clause loop. -/
def quantifiedLiteralsOf (quantifiedVariableSet : List ℤ) (clause : List ℤ) : List ℤ :=
  clause.foldl
    (fun s literal => if isQuantifiedVariable quantifiedVariableSet literal then
      setInsert literal s else s) []

/-- The local `nonQuantifiedLiterals` of a round of the clause loop. -/
def nonQuantifiedLiteralsOf (quantifiedVariableSet : List ℤ) (clause : List ℤ) : List ℤ :=
  clause.foldl
    (fun s literal => if isQuantifiedVariable quantifiedVariableSet literal then s
      else setInsert literal s) []

/-- The data registered for a clause: the BDDs of the variables of its literals
that are not quantified, the BDD of the clause, and for each such literal its
variable with the value that makes the literal false.  `getBddOfClause` and
`getBddOfVariable` are the two overloads of `QdimacsToBdd::getBdd`, which are not among
the sources. -/
def clauseDataOf {α : Type} (getBddOfClause : List ℤ → α) (getBddOfVariable : ℤ → α)
    (quantifiedVariableSet : List ℤ) (clause : List ℤ) : ClauseData α :=
  { varNodes := (nonQuantifiedLiteralsOf quantifiedVariableSet clause).map
      (fun nql => getBddOfVariable (if nql > 0 then nql else -nql))
    funcNode := getBddOfClause (setOfList clause)
    literalAssignments := (nonQuantifiedLiteralsOf quantifiedVariableSet clause).foldl
      (fun s nql => assignmentInsert ((if nql > 0 then nql else -nql), decide (nql < 0)) s) [] }

/-- Entry of a position in the map `nonQuantifiedLiteralToOutputClausePosMap`. -/
def posMapInsert (literal : ℤ) (pos : ℕ) : List (ℤ × List ℕ) → List (ℤ × List ℕ)
  | [] => [(literal, [pos])]
  | e :: rest =>
    if e.1 = literal then (e.1, setInsert pos e.2) :: rest
    else if literal < e.1 then (literal, [pos]) :: e :: rest
    else e :: posMapInsert literal pos rest

/-- The locals of `createMustMaster` that its clause loop changes, with the
callback. -/
structure MustState (α : Type) where
  outputClauses : List (List ℤ)
  outputClauseSet : List (List ℤ)
  nonQuantifiedLiteralToOutputClausePosMap : List (ℤ × List ℕ)
  numMustVariables : ℤ
  mucCallback : May22MucCallback α

/-- One round of the loop over `qdimacs.clauses` in `createMustMaster`.  The set
`outputClauseSet` is only asked for membership, so its order is not kept. -/
def clauseStep {α : Type} (getBddOfClause : List ℤ → α) (getBddOfVariable : ℤ → α)
    (quantifiedVariableSet : List ℤ) (st : MustState α) (clause : List ℤ) : MustState α :=
  let quantifiedLiterals := quantifiedLiteralsOf quantifiedVariableSet clause
  let nonQuantifiedLiterals := nonQuantifiedLiteralsOf quantifiedVariableSet clause
  if quantifiedLiterals = [] then st
  else
    let clauseData := clauseDataOf getBddOfClause getBddOfVariable quantifiedVariableSet clause
    if quantifiedLiterals ∉ st.outputClauseSet then
      { outputClauses := st.outputClauses ++ [quantifiedLiterals]
        outputClauseSet := st.outputClauseSet ++ [quantifiedLiterals]
        nonQuantifiedLiteralToOutputClausePosMap :=
          nonQuantifiedLiterals.foldl
            (fun m literal => posMapInsert literal st.outputClauses.length m)
            st.nonQuantifiedLiteralToOutputClausePosMap
        numMustVariables := st.numMustVariables
        mucCallback := st.mucCallback.addClause quantifiedLiterals clauseData.varNodes
          clauseData.funcNode clauseData.literalAssignments }
    else
      let numMustVariables := st.numMustVariables + 1
      let nextOutputClause := setInsert numMustVariables quantifiedLiterals
      { outputClauses := st.outputClauses ++ [nextOutputClause] ++ [[-numMustVariables]]
        outputClauseSet := st.outputClauseSet
        nonQuantifiedLiteralToOutputClausePosMap :=
          nonQuantifiedLiterals.foldl
            (fun m literal => posMapInsert literal st.outputClauses.length m)
            st.nonQuantifiedLiteralToOutputClausePosMap
        numMustVariables := numMustVariables
        mucCallback := st.mucCallback.addClause nextOutputClause clauseData.varNodes
          clauseData.funcNode clauseData.literalAssignments }

/-- The function `createMustMaster` up to the end of its clause loop: the two assertions,
the construction of the callback and the registration of the clauses.  The
result holds what the function passes on to the MUS enumerator `Master`, which
is not among the sources: the number of variables, the output clauses, the
positions of the literals that are not quantified, and the callback. -/
def createMustMaster {α : Type} [LinearOrder α] (M : DdManager α) (X : DriverOps α)
    (varWithLowestIndex : α → α) (getBddOfClause : List ℤ → α) (getBddOfVariable : ℤ → α)
    (qdimacs : Qdimacs) (qdimacsToBdd : QdimacsToBdd α) (mucMergeWeight : ℚ)
    (factors varBdds : List α) (largestSupportSet : ℚ) : Except String (MustState α) :=
  if qdimacs.quantifiers.length ≠ 1 then
    Except.error "Assertion failed: qdimacs.quantifiers.size() == 1"
  else
    match qdimacs.quantifiers with
    | [] => Except.error "Assertion failed: qdimacs.quantifiers.size() == 1"
    | front :: _ =>
      if front.quantifierType ≠ QuantifierType.Exists then
        Except.error "Assertion failed: the quantifier is existential"
      else
        match May22MucCallback.create M X varWithLowestIndex qdimacsToBdd mucMergeWeight factors
            varBdds largestSupportSet with
        | Except.error e => Except.error e
        | Except.ok mucCallback =>
          Except.ok (qdimacs.clauses.foldl
            (clauseStep getBddOfClause getBddOfVariable (setOfList front.quantifierVariables))
            { outputClauses := []
              outputClauseSet := []
              nonQuantifiedLiteralToOutputClausePosMap := []
              numMustVariables := qdimacs.numVariables
              mucCallback := mucCallback })

end may_22

/-! ## The registration on truth tables -/

namespace may_22

open blif_solve

/-- Modelled from the spec: the method `varWithLowestIndex` of `dd::BddWrapper` on truth
tables over `n` variables: the cube of the first variable of the support. -/
def ttVarWithLowestIndex (n c : ℕ) : ℕ :=
  match ttSupport n c with
  | [] => c
  | i :: _ => ttVar n i

/-- Modelled from the spec: the BDD of a literal on truth tables over `n`
variables; the variable with index `i` is variable `i` of the table. -/
def ttLiteral (n : ℕ) (literal : ℤ) : ℕ :=
  if literal > 0 then ttVar n literal.toNat else ttNot n (ttVar n (-literal).toNat)

/-- Modelled from the spec: the overload of `QdimacsToBdd::getBdd` for a clause, on
truth tables over `n` variables: the disjunction of its literals. -/
def ttGetBddOfClause (n : ℕ) (clause : List ℤ) : ℕ :=
  clause.foldl (fun acc literal => ttOr acc (ttLiteral n literal)) 0

/-- Modelled from the spec: the overload of `QdimacsToBdd::getBdd` for a variable, on
truth tables over `n` variables. -/
def ttGetBddOfVariable (n : ℕ) (v : ℤ) : ℕ := ttVar n v.toNat

/-- The problem `∃ x1. (x1 ∨ x2) ∧ (¬x1 ∨ x2) ∧ (x1 ∨ ¬x2) ∧ x2`: the first and the
third clause have the same quantified literals, and the last clause has
none. -/
def exampleQdimacs : Qdimacs where
  numVariables := 2
  quantifiers := [{ quantifierType := QuantifierType.Exists, quantifierVariables := [1] }]
  clauses := [[1, 2], [-1, 2], [1, -2], [2]]

/-- The BDDs of the problem `exampleQdimacs` on truth tables over three
variables. -/
def exampleQdimacsToBdd : QdimacsToBdd ℕ where
  numVariables := 2
  quantifications := [{ quantifierType := QuantifierType.Exists
                        quantifiedVariables := ttVar 3 1 }]

end may_22

/-! ## The invariant of the clause loop of `createMustMaster` -/

namespace may_22

open blif_solve

/-- The clauses of a list that have a quantified literal, in their order. -/
def clausesWithQuantifiedLiteral (quantifiedVariableSet : List ℤ) (clauses : List (List ℤ)) :
    List (List ℤ) :=
  clauses.filter (fun clause => decide (quantifiedLiteralsOf quantifiedVariableSet clause ≠ []))

/-- The invariant of the clause loop of `createMustMaster` after the clauses `done`:
`keys` lists the keys under which the clauses with a quantified literal were
registered, in the order of the clauses. -/
structure Registered {α : Type} (getBddOfClause : List ℤ → α) (getBddOfVariable : ℤ → α)
    (quantifiedVariableSet : List ℤ) (numVariables : ℤ) (done : List (List ℤ))
    (st : MustState α) (keys : List (List ℤ)) : Prop where
  len : keys.length = (clausesWithQuantifiedLiteral quantifiedVariableSet done).length
  nodup : keys.Nodup
  perm : (st.mucCallback.m_clauseData.map (fun e => e.1)).Perm keys
  nmv : numVariables ≤ st.numMustVariables
  bound : ∀ k ∈ keys, ∀ x ∈ k, x ≤ st.numMustVariables
  ocs : ∀ s, s ∈ st.outputClauseSet ↔
    s ∈ (clausesWithQuantifiedLiteral quantifiedVariableSet done).map
      (quantifiedLiteralsOf quantifiedVariableSet)
  src : ∀ k ∈ keys, k ∈ st.outputClauseSet ∨ ∃ v ∈ k, numVariables < v
  entry : ∀ (i : ℕ) (k c : List ℤ), keys[i]? = some k →
    (clausesWithQuantifiedLiteral quantifiedVariableSet done)[i]? = some c →
    clauseDataFind st.mucCallback.m_clauseData k =
        some (clauseDataOf getBddOfClause getBddOfVariable quantifiedVariableSet c) ∧
      (quantifiedLiteralsOf quantifiedVariableSet c ∉
          ((clausesWithQuantifiedLiteral quantifiedVariableSet done).take i).map
            (quantifiedLiteralsOf quantifiedVariableSet) →
        k = quantifiedLiteralsOf quantifiedVariableSet c) ∧
      (quantifiedLiteralsOf quantifiedVariableSet c ∈
          ((clausesWithQuantifiedLiteral quantifiedVariableSet done).take i).map
            (quantifiedLiteralsOf quantifiedVariableSet) →
        ∃ v, numVariables < v ∧ v ≤ st.numMustVariables ∧
          k = setInsert v (quantifiedLiteralsOf quantifiedVariableSet c) ∧
          v ∉ quantifiedLiteralsOf quantifiedVariableSet c ∧
          ∀ (j : ℕ) (k2 : List ℤ), keys[j]? = some k2 → v ∈ k2 → j = i)

end may_22

/-! ## Reference counts (blif_solve_lib/approx_merge.cpp)

The reference counts live in the BDD manager, which is not among the sources.
Their contract is that of the spec (§2, §6): `bdd_dup` adds a reference to a
handle, `bdd_free` takes one away, and a function that returns a BDD
(`bdd_and`, `bdd_support`, `bdd_cube_intersection`) returns it with a reference that the
caller owns.  A run is described by the list of its events, a handle with `+1`
or `-1` each, in the order of the source. -/

namespace blif_solve

section References

variable {α : Type} [LinearOrder α]

end References

end blif_solve
/-! ## Exact account of the heap

The predicates below say which cells the heap holds, and with which priority:
before the main loop and after each of its rounds. -/

namespace blif_solve

section ExactPredicates

variable {α : Type} [LinearOrder α]

/-- The value of `getCompatibility` in the loop over `oldMergers` for the merged
node `mergedNode` and the node `y`; `c` is the state at the start of the loop. -/
def refreshCompat (M : DdManager α) (lss : ℤ) (isVar : Bool) (c : MergeState α)
    (mergedNode y : ℕ) : Option ℚ :=
  getCompatibility M c.nodes mergedNode y lss
    (c.hints.getWeight (nodeAt M c.nodes mergedNode).node (nodeAt M c.nodes y).node)
    (if isVar then c.qv else c.qf)

/-- The invariant of the loop over `oldMergers` for the cells of the heap:
a cell of a new merger carries the value of `getCompatibility`, a cell of the
state `s1` at the start of the loop stays unless its merger was handled and has
an other node, the other node of every handled merger is in `oldMergerSet`, and
every node of `oldMergerSet` that passes `getCompatibility` has a new merger
with a cell of that priority. -/
structure RefreshExact (M : DdManager α) (lss : ℤ) (isVar : Bool) (node1 node2 mergedNode : ℕ)
    (s1 : MergeState α) (pre : List ℕ) (acc : MergeState α × List ℕ) : Prop where
  heap_new : ∀ e ∈ acc.1.heap, s1.mergers.length ≤ e.1 →
    e.1 < acc.1.mergers.length ∧
    refreshCompat M lss isVar s1 mergedNode (mergerAt acc.1.mergers e.1).node2 = some e.2
  heap_kept : ∀ e ∈ s1.heap,
    (∀ old ∈ pre, (otherNode s1.mergers old node1 node2).isSome = true → e.1 ≠ old) →
    e ∈ acc.1.heap
  set_cover : ∀ old ∈ pre, ∀ y, otherNode s1.mergers old node1 node2 = some y → y ∈ acc.2
  complete : ∀ y ∈ acc.2, ∀ p, refreshCompat M lss isVar s1 mergedNode y = some p →
    ∃ j, s1.mergers.length ≤ j ∧ j < acc.1.mergers.length ∧
      mergerAt acc.1.mergers j = ⟨mergedNode, y⟩ ∧ (j, p) ∈ acc.1.heap

/-- The value of `getCompatibility` for the ordered pair `(i, j)` in the loops
that create the first mergers, when the pair passes the test of the loop: the
first node lies at the lower address and, for two func nodes, the nodes are
connected.  `c` is the state before the first mergers and `F` the number of
the func nodes. -/
def initCompat (M : DdManager α) (addr : ℕ → ℕ) (lss : ℤ) (c : MergeState α) (F i j : ℕ) :
    Option ℚ :=
  if addr i < addr j ∧
      (i < F → (nodeAt M c.nodes i).isConnectedTo M (nodeAt M c.nodes j) = true) then
    getCompatibility M c.nodes i j lss
      (c.hints.getWeight (nodeAt M c.nodes i).node (nodeAt M c.nodes j).node)
      (if i < F then c.qf else c.qv)
  else none

/-- The invariant of the loops that create the first mergers for the cells of
the heap: every merger has exactly the cell that `initCompat` gives its pair,
and every pair that `visited` holds and that `initCompat` accepts has a
merger. -/
structure InitExact (M : DdManager α) (addr : ℕ → ℕ) (lss : ℤ) (c : MergeState α) (F : ℕ)
    (visited : ℕ × ℕ → Prop) (s : MergeState α) : Prop where
  frame : Frame c s
  cells : ∀ e ∈ s.heap, e.1 < s.mergers.length ∧
    initCompat M addr lss c F (mergerAt s.mergers e.1).node1 (mergerAt s.mergers e.1).node2 =
      some e.2
  complete : ∀ i j p, visited (i, j) → initCompat M addr lss c F i j = some p →
    ∃ m, m < s.mergers.length ∧ mergerAt s.mergers m = ⟨i, j⟩ ∧ (m, p) ∈ s.heap

/-- What a round of the main loop does to the heap and the mergers; `s` is the
state before the round, `merger` the merger that is popped and `s'` the state
after the round. -/
structure RoundFacts (M : DdManager α) (addr : ℕ → ℕ) (lss : ℤ) (s s' : MergeState α)
    (merger : ℕ) : Prop where
  top_max : ∃ e ∈ s.heap, e.1 = merger ∧ ∀ e' ∈ s.heap, e'.2 ≤ e.2
  valid : merger < s.mergers.length
  frame : Frame (contractState M addr s merger) s'
  core : SameCore M (contractState M addr s merger).nodes s'.nodes
  mergers : ∃ new, s'.mergers = s.mergers ++ new ∧
    (new.map (fun mg => mg.node2)).Nodup ∧
    ∀ mg ∈ new, mg.node1 = s.nodes.length ∧
      ∃ old ∈ oldMergersOf M addr s merger,
        otherNode s.mergers old (mergerAt s.mergers merger).node1
          (mergerAt s.mergers merger).node2 = some mg.node2
  heap_old : ∀ e ∈ s'.heap, e.1 < s.mergers.length →
    e ∈ s.heap ∧ e.1 ≠ merger ∧
    (e.1 ∈ oldMergersOf M addr s merger →
      otherNode s.mergers e.1 (mergerAt s.mergers merger).node1
        (mergerAt s.mergers merger).node2 = none)
  heap_new : ∀ e ∈ s'.heap, s.mergers.length ≤ e.1 →
    e.1 < s'.mergers.length ∧
    refreshCompat M lss
      (decide ((nodeAt M s.nodes (mergerAt s.mergers merger).node1).type = NodeType.Var))
      (contractState M addr s merger) s.nodes.length (mergerAt s'.mergers e.1).node2 =
        some e.2
  heap_kept : ∀ e ∈ s.heap, e.1 ≠ merger →
    (e.1 ∈ oldMergersOf M addr s merger →
      otherNode s.mergers e.1 (mergerAt s.mergers merger).node1
        (mergerAt s.mergers merger).node2 = none) →
    e ∈ s'.heap
  complete : ∀ old ∈ oldMergersOf M addr s merger, ∀ y p,
    otherNode s.mergers old (mergerAt s.mergers merger).node1
      (mergerAt s.mergers merger).node2 = some y →
    refreshCompat M lss
      (decide ((nodeAt M s.nodes (mergerAt s.mergers merger).node1).type = NodeType.Var))
      (contractState M addr s merger) s.nodes.length y = some p →
    ∃ j, s.mergers.length ≤ j ∧ j < s'.mergers.length ∧
      mergerAt s'.mergers j = ⟨s.nodes.length, y⟩ ∧ (j, p) ∈ s'.heap

end ExactPredicates

end blif_solve

namespace blif_solve

/-- The ordered pairs of nodes that the loops creating the first mergers meet:
two func nodes or two var nodes; `F` and `V` are the numbers of the func nodes
and of the var nodes. -/
def initVisited (F V : ℕ) (q : ℕ × ℕ) : Prop :=
  (q.1 < F ∧ q.2 < F) ∨ (F ≤ q.1 ∧ q.1 < F + V ∧ F ≤ q.2 ∧ q.2 < F + V)

end blif_solve

namespace blif_solve

/-- The merger `mg` has the node `x` as one of its two nodes. -/
def AmMerger.hasNode (mg : AmMerger) (x : ℕ) : Prop := mg.node1 = x ∨ mg.node2 = x

/-- The merger `mg` joins the nodes `x` and `y`, in either order. -/
def AmMerger.joins (mg : AmMerger) (x y : ℕ) : Prop :=
  (mg.node1 = x ∧ mg.node2 = y) ∨ (mg.node1 = y ∧ mg.node2 = x)

section CleanPredicates

variable {α : Type} [LinearOrder α]

/-- What a round of the main loop does to a heap that satisfies `AliveInv`, in
terms of the nodes that the mergers join; `s` is the state before the round,
`merger` the merger that is popped and `s'` the state after the round.  The
cells of the mergers that have one of the two contracted nodes leave the heap,
the other cells stay, and the heap gets one new cell for every node that a
merger of the heap joined to a contracted node and that passes
`getCompatibility` together with the merged node. -/
structure CleanRound (M : DdManager α) (addr : ℕ → ℕ) (lss : ℤ) (s s' : MergeState α)
    (merger : ℕ) : Prop where
  mergers_old : ∀ j, j < s.mergers.length → mergerAt s'.mergers j = mergerAt s.mergers j
  mergers_len : s.mergers.length ≤ s'.mergers.length
  old_cells : ∀ e ∈ s'.heap, e.1 < s.mergers.length →
    e ∈ s.heap ∧ ¬ (mergerAt s.mergers e.1).hasNode (mergerAt s.mergers merger).node1 ∧
      ¬ (mergerAt s.mergers e.1).hasNode (mergerAt s.mergers merger).node2
  kept : ∀ e ∈ s.heap, ¬ (mergerAt s.mergers e.1).hasNode (mergerAt s.mergers merger).node1 →
    ¬ (mergerAt s.mergers e.1).hasNode (mergerAt s.mergers merger).node2 → e ∈ s'.heap
  new_cells : ∀ e ∈ s'.heap, s.mergers.length ≤ e.1 →
    e.1 < s'.mergers.length ∧
    (mergerAt s'.mergers e.1).node1 = s.nodes.length ∧
    (mergerAt s'.mergers e.1).node2 ≠ (mergerAt s.mergers merger).node1 ∧
    (mergerAt s'.mergers e.1).node2 ≠ (mergerAt s.mergers merger).node2 ∧
    (∃ e0 ∈ s.heap,
      (mergerAt s.mergers e0.1).joins (mergerAt s.mergers merger).node1
        (mergerAt s'.mergers e.1).node2 ∨
      (mergerAt s.mergers e0.1).joins (mergerAt s.mergers merger).node2
        (mergerAt s'.mergers e.1).node2) ∧
    refreshCompat M lss
      (decide ((nodeAt M s.nodes (mergerAt s.mergers merger).node1).type = NodeType.Var))
      (contractState M addr s merger) s.nodes.length (mergerAt s'.mergers e.1).node2 =
        some e.2
  complete : ∀ e0 ∈ s.heap, ∀ y p, y ≠ (mergerAt s.mergers merger).node1 →
    y ≠ (mergerAt s.mergers merger).node2 →
    ((mergerAt s.mergers e0.1).joins (mergerAt s.mergers merger).node1 y ∨
      (mergerAt s.mergers e0.1).joins (mergerAt s.mergers merger).node2 y) →
    refreshCompat M lss
      (decide ((nodeAt M s.nodes (mergerAt s.mergers merger).node1).type = NodeType.Var))
      (contractState M addr s merger) s.nodes.length y = some p →
    ∃ j, s.mergers.length ≤ j ∧ j < s'.mergers.length ∧
      mergerAt s'.mergers j = ⟨s.nodes.length, y⟩ ∧ (j, p) ∈ s'.heap

end CleanPredicates

end blif_solve
/-! ## Predicates for the end-to-end scenarios -/

namespace blif_solve

section ScenarioPredicates

variable {α : Type}

/-- The nodes that `blif_solve::merge` creates for its arguments, before they are
connected: a func node for every factor, then a var node for every variable. -/
def initialNodes (M : DdManager α) (factors varBdds : List α) : List (AmNode α) :=
  factors.map (AmNode.create M NodeType.Func) ++ varBdds.map (AmNode.create M NodeType.Var)

/-- The arena `nodes` starts with the nodes of `ref`, up to the neighbour lists
and the merger lists. -/
def KeepsNodes (M : DdManager α) (ref nodes : List (AmNode α)) : Prop :=
  ref.length ≤ nodes.length ∧
  ∀ j, j < ref.length →
    (nodeAt M nodes j).type = (nodeAt M ref j).type ∧
    (nodeAt M nodes j).node = (nodeAt M ref j).node ∧
    (nodeAt M nodes j).supportSet = (nodeAt M ref j).supportSet

end ScenarioPredicates

end blif_solve

namespace blif_solve

/-- The factors of scenario 1 of the spec: `a ∨ b`, `b ∨ c`, `d ∨ e`. -/
abbrev scenarioOneFactors : List ℕ :=
  [ttOr (ttVar 5 0) (ttVar 5 1), ttOr (ttVar 5 1) (ttVar 5 2), ttOr (ttVar 5 3) (ttVar 5 4)]

/-- The variables of scenario 1 of the spec: `a`, `b`, `c`, `d`, `e`. -/
abbrev scenarioOneVars : List ℕ := [ttVar 5 0, ttVar 5 1, ttVar 5 2, ttVar 5 3, ttVar 5 4]

end blif_solve

namespace blif_solve

/-- Scenario 1 before the func nodes of `a ∨ b` and `b ∨ c` are contracted: the
arena has no other func nodes than the three made from the factors, the
surviving factors are the input factors, and the heap holds the merger of the
two func nodes, which is its only merger of func nodes. -/
structure ScenarioOneA (s : MergeState ℕ) : Prop where
  keeps : KeepsNodes (ttManager 5)
    (initialNodes (ttManager 5) scenarioOneFactors scenarioOneVars) s.nodes
  var_nodes : ∀ j, 3 ≤ j → j < s.nodes.length →
    (nodeAt (ttManager 5) s.nodes j).type = NodeType.Var
  factors : s.mergedFactors = setOfList scenarioOneFactors
  cell : ∃ e ∈ s.heap, (mergerAt s.mergers e.1).joins 0 1
  func_cells : ∀ e ∈ s.heap,
    (nodeAt (ttManager 5) s.nodes (mergerAt s.mergers e.1).node1).type = NodeType.Func →
    (mergerAt s.mergers e.1).joins 0 1

/-- Scenario 1 after the func nodes of `a ∨ b` and `b ∨ c` were contracted: the
surviving factors are `(a ∨ b) ∧ (b ∨ c)` and `d ∨ e`, and the heap holds
mergers of var nodes only. -/
structure ScenarioOneB (s : MergeState ℕ) : Prop where
  factors : s.mergedFactors =
    [(ttManager 5).bdd_and (ttOr (ttVar 5 0) (ttVar 5 1)) (ttOr (ttVar 5 1) (ttVar 5 2)),
      ttOr (ttVar 5 3) (ttVar 5 4)]
  var_cells : ∀ e ∈ s.heap,
    (nodeAt (ttManager 5) s.nodes (mergerAt s.mergers e.1).node1).type = NodeType.Var

end blif_solve

namespace blif_solve

/-- The factors of scenario 4 of the spec: `ab = a ∨ b`, `bc = b ∨ c`,
`cd = c ∨ d`. -/
abbrev scenarioFourFactors : List ℕ :=
  [ttOr (ttVar 4 0) (ttVar 4 1), ttOr (ttVar 4 1) (ttVar 4 2), ttOr (ttVar 4 2) (ttVar 4 3)]

/-- The variables of scenario 4 of the spec: `a`, `b`, `c`, `d`. -/
abbrev scenarioFourVars : List ℕ := [ttVar 4 0, ttVar 4 1, ttVar 4 2, ttVar 4 3]

/-- The hints of scenario 4 of the spec: `addWeight(ab, cd, 100)`. -/
abbrev scenarioFourHints : MergeHints ℕ :=
  MergeHints.empty.addWeight (ttOr (ttVar 4 0) (ttVar 4 1)) (ttOr (ttVar 4 2) (ttVar 4 3)) 100

/-- Scenario 4 before the first round: the heap holds the mergers of `ab` with
`bc` and of `bc` with `cd`, both with the priority `1/2`, no other merger of
func nodes, and mergers of var nodes with the priority `0`. -/
structure ScenarioFourStart (s : MergeState ℕ) : Prop where
  keeps : KeepsNodes (ttManager 4)
    (initialNodes (ttManager 4) scenarioFourFactors scenarioFourVars) s.nodes
  len : s.nodes.length = 7
  cube : CubeInv (ttManager 4) (ttSemantics 4) scenarioFourVars s
  hints : s.hints = scenarioFourHints
  qf : s.qf = []
  factors : s.mergedFactors = setOfList scenarioFourFactors
  cell01 : ∃ e ∈ s.heap, (mergerAt s.mergers e.1).joins 0 1
  cell12 : ∃ e ∈ s.heap, (mergerAt s.mergers e.1).joins 1 2
  func_cells : ∀ e ∈ s.heap,
    (nodeAt (ttManager 4) s.nodes (mergerAt s.mergers e.1).node1).type = NodeType.Func →
    ((mergerAt s.mergers e.1).joins 0 1 ∨ (mergerAt s.mergers e.1).joins 1 2) ∧ e.2 = 1 / 2
  var_cells : ∀ e ∈ s.heap,
    (nodeAt (ttManager 4) s.nodes (mergerAt s.mergers e.1).node1).type = NodeType.Var →
    e.2 = 0
  listed : ∀ m, m < s.mergers.length → ∃ e ∈ s.heap, e.1 = m

/-- Scenario 4 after the first round, which contracted `bc` and one of `ab`,
`cd`; `y` is the func node that is left (0 for `ab`, 2 for `cd`).  The merged
node is node 7, the hints give the weight 100 to it and the node `y`, and the
merger of these two nodes is in the heap with the priority `1/2 + 100`; all
other cells are mergers of var nodes with the priority `0`. -/
structure ScenarioFourMid (y : ℕ) (s : MergeState ℕ) : Prop where
  other : y = 0 ∨ y = 2
  keeps : KeepsNodes (ttManager 4)
    (initialNodes (ttManager 4) scenarioFourFactors scenarioFourVars) s.nodes
  len : s.nodes.length = 8
  type7 : (nodeAt (ttManager 4) s.nodes 7).type = NodeType.Func
  node7 : (nodeAt (ttManager 4) s.nodes 7).node =
    if y = 2 then
      (ttManager 4).bdd_and (ttOr (ttVar 4 0) (ttVar 4 1)) (ttOr (ttVar 4 1) (ttVar 4 2))
    else (ttManager 4).bdd_and (ttOr (ttVar 4 1) (ttVar 4 2)) (ttOr (ttVar 4 2) (ttVar 4 3))
  factors : s.mergedFactors =
    if y = 2 then
      setOfList [(ttManager 4).bdd_and (ttOr (ttVar 4 0) (ttVar 4 1))
        (ttOr (ttVar 4 1) (ttVar 4 2)), ttOr (ttVar 4 2) (ttVar 4 3)]
    else
      setOfList [(ttManager 4).bdd_and (ttOr (ttVar 4 1) (ttVar 4 2))
        (ttOr (ttVar 4 2) (ttVar 4 3)), ttOr (ttVar 4 0) (ttVar 4 1)]
  weight : s.hints.getWeight (nodeAt (ttManager 4) s.nodes 7).node
    (nodeAt (ttManager 4) s.nodes y).node = 100
  cell : ∃ e ∈ s.heap, e.2 = 1 / 2 + 100 ∧ mergerAt s.mergers e.1 = ⟨7, y⟩ ∧
    ∀ e' ∈ s.heap, e' ≠ e →
      (nodeAt (ttManager 4) s.nodes (mergerAt s.mergers e'.1).node1).type = NodeType.Var ∧
      e'.2 = 0

/-- Scenario 4 after the second round: the one surviving factor is
`ab ∧ bc ∧ cd`, and the heap holds mergers of var nodes only. -/
structure ScenarioFourEnd (s : MergeState ℕ) : Prop where
  factors : s.mergedFactors =
    [(ttManager 4).bdd_and
      ((ttManager 4).bdd_and (ttOr (ttVar 4 0) (ttVar 4 1)) (ttOr (ttVar 4 1) (ttVar 4 2)))
      (ttOr (ttVar 4 2) (ttVar 4 3))]
  var_cells : ∀ e ∈ s.heap,
    (nodeAt (ttManager 4) s.nodes (mergerAt s.mergers e.1).node1).type = NodeType.Var

end blif_solve

namespace blif_solve

/-- Scenario 1 before the first contraction of two var nodes: the var nodes of
the arena are the five made from the variables, and the heap holds the merger
of the var nodes of `d` and `e`. -/
structure ScenarioOneUnclustered (s : MergeState ℕ) : Prop where
  keeps : KeepsNodes (ttManager 5)
    (initialNodes (ttManager 5) scenarioOneFactors scenarioOneVars) s.nodes
  var_index : ∀ j, j < s.nodes.length →
    (nodeAt (ttManager 5) s.nodes j).type = NodeType.Var → 3 ≤ j ∧ j < 8
  cell : ∃ e ∈ s.heap, (mergerAt s.mergers e.1).joins 6 7

/-- Some surviving variable cube of the state has two or more variables. -/
def ScenarioOneClustered (s : MergeState ℕ) : Prop :=
  ∃ x ∈ s.mergedVariables, 2 ≤ ((ttSemantics 5).vars x).card

end blif_solve

/-! ## Facts about the weight map -/

namespace blif_solve

section WeightMap

variable {α : Type} [LinearOrder α]

theorem weightsFind_orderedInsert (k : α × α) (w : ℚ) (m : List ((α × α) × ℚ))
    (hk : weightsFind m k = none) (k' : α × α) :
    weightsFind (weightsOrderedInsert k w m) k' =
      if k = k' then some w else weightsFind m k' := by
  induction m with
  | nil => simp [weightsOrderedInsert, weightsFind]
  | cons e rest ih =>
    have hne : e.1 ≠ k := by
      intro h
      simp [weightsFind, h] at hk
    have hrest : weightsFind rest k = none := by
      simpa [weightsFind, hne] using hk
    unfold weightsOrderedInsert
    by_cases hlt : pairLt k e.1 = true
    · simp [hlt, weightsFind]
    · simp only [hlt, weightsFind, ih hrest]
      by_cases h1 : e.1 = k'
      · have : k ≠ k' := fun h => hne (h1.trans h.symm)
        simp [h1, this]
      · simp [h1]

theorem weightsFind_insert (k : α × α) (w : ℚ) (m : List ((α × α) × ℚ)) (k' : α × α) :
    weightsFind (weightsInsert k w m) k' =
      if k = k' then some ((weightsFind m k).getD w) else weightsFind m k' := by
  unfold weightsInsert
  cases hk : weightsFind m k with
  | none => simp [weightsFind_orderedInsert k w m hk]
  | some v =>
    by_cases h : k = k'
    · subst h; simp [hk]
    · simp [h]

theorem weightsFind_erase (k : α × α) (m : List ((α × α) × ℚ)) (k' : α × α) :
    weightsFind (weightsErase k m) k' = if k = k' then none else weightsFind m k' := by
  induction m with
  | nil => simp [weightsErase, weightsFind]
  | cons e rest ih =>
    unfold weightsErase at ih ⊢
    by_cases he : e.1 = k
    · simp only [List.filter, he, ne_eq, not_true_eq_false, decide_False, ih, weightsFind]
      by_cases h : k = k'
      · simp [h]
      · simp [h]
    · simp only [List.filter, he, ne_eq, not_false_eq_true, decide_True, weightsFind, ih]
      by_cases h1 : e.1 = k'
      · have : k ≠ k' := fun h => he (h1.trans h.symm)
        simp [h1, this]
      · simp [h1]

theorem weightsFind_eq_none_iff (m : List ((α × α) × ℚ)) (k : α × α) :
    weightsFind m k = none ↔ ∀ e ∈ m, e.1 ≠ k := by
  induction m with
  | nil => simp [weightsFind]
  | cons e rest ih =>
    by_cases h : e.1 = k
    · simp [weightsFind, h]
    · simp [weightsFind, h, ih]

theorem mem_weightsOrderedInsert (k : α × α) (w : ℚ) (m : List ((α × α) × ℚ))
    (e : (α × α) × ℚ) :
    e ∈ weightsOrderedInsert k w m ↔ e = (k, w) ∨ e ∈ m := by
  induction m with
  | nil => simp [weightsOrderedInsert]
  | cons e' rest ih =>
    unfold weightsOrderedInsert
    by_cases hlt : pairLt k e'.1 = true
    · simp [hlt]
    · have hf : pairLt k e'.1 = false := by simpa using hlt
      simp only [hf, Bool.false_eq_true, if_false, List.mem_cons, ih]
      tauto

theorem mem_weightsInsert (k : α × α) (w : ℚ) (m : List ((α × α) × ℚ))
    (e : (α × α) × ℚ) (h : e ∈ weightsInsert k w m) : e = (k, w) ∨ e ∈ m := by
  unfold weightsInsert at h
  split at h
  · exact Or.inr h
  · exact (mem_weightsOrderedInsert k w m e).1 h

theorem mem_weightsErase (k : α × α) (m : List ((α × α) × ℚ)) (e : (α × α) × ℚ) :
    e ∈ weightsErase k m ↔ e ∈ m ∧ e.1 ≠ k := by
  simp [weightsErase]

theorem mem_foldl_weightsErase (ks : List (α × α)) (m : List ((α × α) × ℚ))
    (e : (α × α) × ℚ) :
    e ∈ ks.foldl (fun m toDelete => weightsErase toDelete m) m ↔ e ∈ m ∧ e.1 ∉ ks := by
  induction ks generalizing m with
  | nil => simp
  | cons k ks ih =>
    simp only [List.foldl_cons, ih, mem_weightsErase, List.mem_cons, not_or]
    constructor
    · rintro ⟨⟨h1, h2⟩, h3⟩; exact ⟨h1, h2, h3⟩
    · rintro ⟨h1, h2, h3⟩; exact ⟨⟨h1, h2⟩, h3⟩

end WeightMap

namespace MergeHints

variable {α : Type} [LinearOrder α]

/-- The method `getWeight` reads the entry stored under the ordered key. -/
theorem getWeight_eq (H : MergeHints α) (a b : α) :
    H.getWeight a b =
      if a = b then 0 else (weightsFind H.m_weights (min a b, max a b)).getD 0 := by
  unfold getWeight getWeightOrdered
  by_cases hlt : b < a
  · have hne : b ≠ a := ne_of_lt hlt
    have hne' : a ≠ b := fun h => hne h.symm
    simp only [hlt, if_true, hne, hne', if_false, min_eq_right (le_of_lt hlt),
      max_eq_left (le_of_lt hlt)]
    cases weightsFind H.m_weights (b, a) <;> rfl
  · have hle : a ≤ b := not_lt.1 hlt
    simp only [hlt, if_false, min_eq_left hle, max_eq_right hle]
    by_cases h : a = b
    · simp [h]
    · simp only [h, if_false]
      cases weightsFind H.m_weights (a, b) <;> rfl

theorem getWeight_comm (H : MergeHints α) (a b : α) : H.getWeight a b = H.getWeight b a := by
  rw [getWeight_eq, getWeight_eq, min_comm, max_comm]
  by_cases h : a = b
  · simp [h]
  · have h' : b ≠ a := fun e => h e.symm
    simp [h, h']

theorem getWeight_self (H : MergeHints α) (a : α) : H.getWeight a a = 0 := by
  simp [getWeight_eq]

/-- The method `addWeight` inserts under the ordered key unless the two handles are equal. -/
theorem addWeight_eq (H : MergeHints α) (a b : α) (w : ℚ) :
    H.addWeight a b w =
      if a = b then H else ⟨weightsInsert (min a b, max a b) w H.m_weights⟩ := by
  unfold addWeight addWeightOrdered
  by_cases hlt : b < a
  · have hne : b ≠ a := ne_of_lt hlt
    have hne' : a ≠ b := fun h => hne h.symm
    simp [hlt, hne, hne', min_eq_right (le_of_lt hlt), max_eq_left (le_of_lt hlt)]
  · have hle : a ≤ b := not_lt.1 hlt
    simp [hlt, min_eq_left hle, max_eq_right hle]

theorem minmax_eq_iff (a b c d : α) :
    (min a b, max a b) = (min c d, max c d) ↔ (a = c ∧ b = d) ∨ (a = d ∧ b = c) := by
  constructor
  · intro h
    have h1 : min a b = min c d := congrArg Prod.fst h
    have h2 : max a b = max c d := congrArg Prod.snd h
    rcases le_total a b with hab | hab <;> rcases le_total c d with hcd | hcd
    · rw [min_eq_left hab, min_eq_left hcd] at h1
      rw [max_eq_right hab, max_eq_right hcd] at h2
      exact Or.inl ⟨h1, h2⟩
    · rw [min_eq_left hab, min_eq_right hcd] at h1
      rw [max_eq_right hab, max_eq_left hcd] at h2
      exact Or.inr ⟨h1, h2⟩
    · rw [min_eq_right hab, min_eq_left hcd] at h1
      rw [max_eq_left hab, max_eq_right hcd] at h2
      exact Or.inr ⟨h2, h1⟩
    · rw [min_eq_right hab, min_eq_right hcd] at h1
      rw [max_eq_left hab, max_eq_left hcd] at h2
      exact Or.inl ⟨h2, h1⟩
  · rintro (⟨rfl, rfl⟩ | ⟨rfl, rfl⟩)
    · rfl
    · rw [min_comm, max_comm]

theorem KeysOrdered.addWeight {H : MergeHints α} (h : H.KeysOrdered) (a b : α) (w : ℚ) :
    (H.addWeight a b w).KeysOrdered := by
  rw [addWeight_eq]
  by_cases hab : a = b
  · simpa [hab] using h
  · simp only [hab, if_false]
    intro e he
    rcases mem_weightsInsert _ _ _ _ he with rfl | he
    · exact min_lt_max.2 hab
    · exact h e he

theorem KeysOrdered.foldl_addWeight (c : α) (l : List (α × ℚ)) {H : MergeHints α}
    (h : H.KeysOrdered) :
    (l.foldl (fun H' toAdd => H'.addWeight toAdd.1 c toAdd.2) H).KeysOrdered := by
  induction l generalizing H with
  | nil => exact h
  | cons e l ih => exact ih (h.addWeight e.1 c e.2)

theorem KeysOrdered.mergeOrdered {H : MergeHints α} (h : H.KeysOrdered) (a b c : α) :
    (H.mergeOrdered a b c).KeysOrdered := by
  unfold MergeHints.mergeOrdered
  by_cases hab : a = b
  · simpa [hab] using h
  · simp only [hab, if_false]
    apply KeysOrdered.foldl_addWeight
    intro e he
    exact h e ((mem_foldl_weightsErase _ _ _).1 he).1

theorem KeysOrdered.merge {H : MergeHints α} (h : H.KeysOrdered) (a b c : α) :
    (H.merge a b c).KeysOrdered := by
  unfold MergeHints.merge
  split
  · exact h.mergeOrdered b a c
  · exact h.mergeOrdered a b c

theorem Reachable.keysOrdered {H : MergeHints α} (h : H.Reachable) : H.KeysOrdered := by
  induction h with
  | empty => intro e he; simp [MergeHints.empty] at he
  | addWeight H a b w _ ih => exact ih.addWeight a b w
  | merge H a b c _ ih => exact ih.merge a b c

end MergeHints

end blif_solve

namespace blif_solve

namespace MergeHints

variable {α : Type} [LinearOrder α]

theorem getWeight_eq_zero_of_not_touches (H : MergeHints α) (a : α)
    (h : ∀ e ∈ H.m_weights, ¬ touches e.1 a) (x : α) : H.getWeight a x = 0 := by
  rw [getWeight_eq]
  by_cases hax : a = x
  · simp [hax]
  · simp only [hax, if_false]
    have : weightsFind H.m_weights (min a x, max a x) = none := by
      rw [weightsFind_eq_none_iff]
      intro e he hk
      apply h e he
      rcases le_total a x with hle | hle
      · left
        rw [hk]
        exact min_eq_left hle
      · right
        rw [hk]
        exact max_eq_left hle
    rw [this]
    rfl

theorem mem_addWeight {H : MergeHints α} {a b : α} {w : ℚ} {e : (α × α) × ℚ}
    (h : e ∈ (H.addWeight a b w).m_weights) :
    e ∈ H.m_weights ∨ e.1 = (min a b, max a b) := by
  rw [addWeight_eq] at h
  by_cases hab : a = b
  · simp only [hab, if_true] at h
    exact Or.inl h
  · simp only [hab, if_false] at h
    rcases mem_weightsInsert _ _ _ _ h with rfl | h
    · exact Or.inr rfl
    · exact Or.inl h

theorem mem_foldl_addWeight (c : α) (l : List (α × ℚ)) {H : MergeHints α}
    {e : (α × α) × ℚ}
    (h : e ∈ (l.foldl (fun H' toAdd => H'.addWeight toAdd.1 c toAdd.2) H).m_weights) :
    e ∈ H.m_weights ∨ ∃ t ∈ l, e.1 = (min t.1 c, max t.1 c) := by
  induction l generalizing H with
  | nil => exact Or.inl h
  | cons t l ih =>
    rcases ih h with h1 | ⟨t', ht', h2⟩
    · rcases mem_addWeight h1 with h3 | h3
      · exact Or.inl h3
      · exact Or.inr ⟨t, List.mem_cons_self _ _, h3⟩
    · exact Or.inr ⟨t', List.mem_cons_of_mem _ ht', h2⟩

theorem mem_staOrderedInsert (g : α) (w : ℚ) (sta : List (α × ℚ)) (t : α × ℚ) :
    t ∈ staOrderedInsert g w sta ↔ t = (g, w) ∨ t ∈ sta := by
  induction sta with
  | nil => simp [staOrderedInsert]
  | cons e rest ih =>
    unfold staOrderedInsert
    by_cases hlt : g < e.1
    · simp [hlt]
    · simp only [hlt, if_false, List.mem_cons, ih]
      tauto

theorem key_of_mem_markForAddition {sta : List (α × ℚ)} {g : α} {w : ℚ} {t : α × ℚ}
    (h : t ∈ markForAddition sta g w) : t.1 = g ∨ ∃ t' ∈ sta, t'.1 = t.1 := by
  unfold markForAddition at h
  split at h
  · rw [List.mem_map] at h
    obtain ⟨t', ht', rfl⟩ := h
    refine Or.inr ⟨t', ht', ?_⟩
    split <;> rfl
  · rcases (mem_staOrderedInsert g w sta t).1 h with rfl | h
    · exact Or.inl rfl
    · exact Or.inr ⟨t, h, rfl⟩

/-- The handles marked for addition by one round of the scan are none of the
two merged handles, when the scanned key is ordered. -/
theorem mergeScan_marks {f1 f2 : α} (hlt : f1 < f2) (acc : List (α × ℚ) × List (α × α))
    (e : (α × α) × ℚ) (he : e.1.1 < e.1.2)
    (hacc : ∀ t ∈ acc.1, t.1 ≠ f1 ∧ t.1 ≠ f2) :
    ∀ t ∈ (mergeScan f1 f2 acc e).1, t.1 ≠ f1 ∧ t.1 ≠ f2 := by
  have key : ∀ g : α, g ≠ f1 → g ≠ f2 → ∀ w : ℚ,
      ∀ t ∈ markForAddition acc.1 g w, t.1 ≠ f1 ∧ t.1 ≠ f2 := by
    intro g h1 h2 w t ht
    rcases key_of_mem_markForAddition ht with h | ⟨t', ht', h⟩
    · rw [h]; exact ⟨h1, h2⟩
    · rw [← h]; exact hacc t' ht'
  unfold mergeScan
  simp only
  split_ifs with c1 c2 c3 c4 c5
  · exact hacc
  · refine key _ ?_ ?_ _
    · rw [c2]; exact ne_of_gt he
    · intro h; exact c1 ⟨c2, h.symm⟩
  · refine key _ ?_ ?_ _
    · intro h; exact c2 h.symm
    · intro h
      have : f2 < f1 := by rw [c3, ← h]; exact he
      exact lt_asymm hlt this
  · refine key _ ?_ ?_ _
    · intro h; exact c3 h.symm
    · rw [c4]; exact ne_of_gt he
  · refine key _ ?_ ?_ _
    · intro h; exact c2 h.symm
    · intro h; exact c4 h.symm
  · exact hacc

theorem foldl_mergeScan_marks {f1 f2 : α} (hlt : f1 < f2) (m : List ((α × α) × ℚ))
    (hm : ∀ e ∈ m, e.1.1 < e.1.2) (acc : List (α × ℚ) × List (α × α))
    (hacc : ∀ t ∈ acc.1, t.1 ≠ f1 ∧ t.1 ≠ f2) :
    ∀ t ∈ (m.foldl (mergeScan f1 f2) acc).1, t.1 ≠ f1 ∧ t.1 ≠ f2 := by
  induction m generalizing acc with
  | nil => exact hacc
  | cons e m ih =>
    exact ih (fun e' he' => hm e' (List.mem_cons_of_mem _ he')) _
      (mergeScan_marks hlt acc e (hm e (List.mem_cons_self _ _)) hacc)

theorem mergeScan_delete_mono (f1 f2 : α) (acc : List (α × ℚ) × List (α × α))
    (e : (α × α) × ℚ) (k : α × α) (hk : k ∈ acc.2) : k ∈ (mergeScan f1 f2 acc e).2 := by
  unfold mergeScan
  simp only
  split_ifs <;> simp [hk]

theorem mergeScan_deletes (f1 f2 : α) (acc : List (α × ℚ) × List (α × α))
    (e : (α × α) × ℚ) (h : touches e.1 f1 ∨ touches e.1 f2) :
    e.1 ∈ (mergeScan f1 f2 acc e).2 := by
  unfold mergeScan
  simp only
  split_ifs with c1 c2 c3 c4 c5
  · have : e.1 = (f1, f2) := Prod.ext c1.1.symm c1.2.symm
    simp [this]
  · simp
  · simp
  · simp
  · simp
  · exfalso
    rcases h with (h | h) | (h | h)
    · exact c2 h.symm
    · exact c3 h.symm
    · exact c4 h.symm
    · exact c5 h.symm

theorem foldl_mergeScan_delete_mono (f1 f2 : α) (m : List ((α × α) × ℚ))
    (acc : List (α × ℚ) × List (α × α)) (k : α × α) (hk : k ∈ acc.2) :
    k ∈ (m.foldl (mergeScan f1 f2) acc).2 := by
  induction m generalizing acc with
  | nil => exact hk
  | cons e m ih => exact ih _ (mergeScan_delete_mono f1 f2 acc e k hk)

theorem foldl_mergeScan_deletes (f1 f2 : α) (m : List ((α × α) × ℚ))
    (acc : List (α × ℚ) × List (α × α)) (e : (α × α) × ℚ) (he : e ∈ m)
    (h : touches e.1 f1 ∨ touches e.1 f2) :
    e.1 ∈ (m.foldl (mergeScan f1 f2) acc).2 := by
  induction m generalizing acc with
  | nil => cases he
  | cons e' m ih =>
    rcases List.mem_cons.1 he with rfl | he'
    · exact foldl_mergeScan_delete_mono f1 f2 m _ _ (mergeScan_deletes f1 f2 acc e h)
    · exact ih _ he'

/-- After `mergeOrdered f1 f2 c` with `f1 < f2` and `c` a third handle, no key
mentions `f1` or `f2`. -/
theorem mergeOrdered_not_touches {H : MergeHints α} (hH : H.KeysOrdered) {f1 f2 c : α}
    (hlt : f1 < f2) (hc1 : c ≠ f1) (hc2 : c ≠ f2) :
    ∀ e ∈ (H.mergeOrdered f1 f2 c).m_weights, ¬ touches e.1 f1 ∧ ¬ touches e.1 f2 := by
  intro e he
  unfold MergeHints.mergeOrdered at he
  simp only [ne_of_lt hlt, if_false] at he
  rcases mem_foldl_addWeight c _ he with h | ⟨t, ht, h⟩
  · obtain ⟨hm, hnot⟩ := (mem_foldl_weightsErase _ _ _).1 h
    constructor
    · intro ht
      exact hnot (foldl_mergeScan_deletes f1 f2 _ _ e hm (Or.inl ht))
    · intro ht
      exact hnot (foldl_mergeScan_deletes f1 f2 _ _ e hm (Or.inr ht))
  · have hmark := foldl_mergeScan_marks hlt H.m_weights hH ([], [])
      (by intro t ht; cases ht) t ht
    have hmem : ∀ a : α, touches e.1 a → a = t.1 ∨ a = c := by
      intro a ha
      rw [h] at ha
      rcases ha with ha | ha
      · rcases min_choice t.1 c with h' | h'
        · left; rw [← ha]; exact h'
        · right; rw [← ha]; exact h'
      · rcases max_choice t.1 c with h' | h'
        · left; rw [← ha]; exact h'
        · right; rw [← ha]; exact h'
    constructor
    · intro ht'
      rcases hmem f1 ht' with h' | h'
      · exact hmark.1 h'.symm
      · exact hc1 h'.symm
    · intro ht'
      rcases hmem f2 ht' with h' | h'
      · exact hmark.2 h'.symm
      · exact hc2 h'.symm

/-- C8. `addWeight(f1, f2, w)` leaves the hints unchanged when `f1 = f2`; when
`f1 ≠ f2` and the unordered pair is not stored, `getWeight(f1, f2)` is `w`
afterwards; when the pair is stored the hints, and so its weight, are unchanged
(the first weight written wins); the weight of every other pair is unchanged. -/
theorem addWeight_contract (H : MergeHints α) (f1 f2 : α) (w : ℚ) :
    (f1 = f2 → H.addWeight f1 f2 w = H) ∧
    (f1 ≠ f2 → ¬ H.stored f1 f2 → (H.addWeight f1 f2 w).getWeight f1 f2 = w) ∧
    (H.stored f1 f2 → H.addWeight f1 f2 w = H ∧
      (H.addWeight f1 f2 w).getWeight f1 f2 = H.getWeight f1 f2) ∧
    (∀ a b : α, ¬ ((a = f1 ∧ b = f2) ∨ (a = f2 ∧ b = f1)) →
      (H.addWeight f1 f2 w).getWeight a b = H.getWeight a b) := by
  refine ⟨?_, ?_, ?_, ?_⟩
  · intro h
    simp [addWeight_eq, h]
  · intro hne hns
    have hnone : weightsFind H.m_weights (min f1 f2, max f1 f2) = none := by
      unfold stored at hns
      cases hf : weightsFind H.m_weights (min f1 f2, max f1 f2) with
      | none => rfl
      | some v => simp [hf] at hns
    rw [getWeight_eq, addWeight_eq]
    simp [hne, weightsFind_insert, hnone]
  · intro hs
    have heq : H.addWeight f1 f2 w = H := by
      rw [addWeight_eq]
      split
      · rfl
      · unfold stored at hs
        simp [weightsInsert, hs]
    exact ⟨heq, by rw [heq]⟩
  · intro a b hab
    rw [addWeight_eq]
    by_cases h : f1 = f2
    · simp [h]
    · simp only [h, if_false]
      rw [getWeight_eq, getWeight_eq]
      by_cases hab' : a = b
      · simp [hab']
      · simp only [hab', if_false, weightsFind_insert]
        have : (min f1 f2, max f1 f2) ≠ (min a b, max a b) := by
          intro hk
          rcases (minmax_eq_iff f1 f2 a b).1 hk with ⟨h1, h2⟩ | ⟨h1, h2⟩
          · exact hab (Or.inl ⟨h1.symm, h2.symm⟩)
          · exact hab (Or.inr ⟨h2.symm, h1.symm⟩)
        simp [this]

/-- Witness of `addWeight_contract`: on the empty hints, adding the pair
`{3, 1}` with weight `5` makes `getWeight(3, 1)` equal to `5`. -/
theorem addWeight_contract_witness :
    ((MergeHints.empty : MergeHints ℕ).addWeight 3 1 5).getWeight 3 1 = 5 :=
  (addWeight_contract (MergeHints.empty : MergeHints ℕ) 3 1 5).2.1 (by decide)
    (by simp [stored, MergeHints.empty, weightsFind])

/-- C9. Every hints object built from the empty one with `addWeight` and
`merge` has a symmetric `getWeight` that is zero on equal handles, and stores
each pair with the smaller handle first (so never a self-pair). -/
theorem hints_symmetry (H : MergeHints α) (h : H.Reachable) :
    (∀ a b : α, H.getWeight a b = H.getWeight b a) ∧
    (∀ a : α, H.getWeight a a = 0) ∧
    (∀ e ∈ H.m_weights, e.1.1 < e.1.2) :=
  ⟨getWeight_comm H, getWeight_self H, h.keysOrdered⟩

/-- Witness of `hints_symmetry` on the hints built by `addWeight(2, 1, 5)`,
`addWeight(4, 1, 7)`, `merge(1, 3, 6)`. -/
theorem hints_symmetry_witness :
    (∀ a b : ℕ, (((MergeHints.empty.addWeight 2 1 5).addWeight 4 1 7).merge 1 3 6).getWeight a b =
      (((MergeHints.empty.addWeight 2 1 5).addWeight 4 1 7).merge 1 3 6).getWeight b a) ∧
    (∀ a : ℕ, (((MergeHints.empty.addWeight 2 1 5).addWeight 4 1 7).merge 1 3 6).getWeight a a = 0) ∧
    (∀ e ∈ (((MergeHints.empty.addWeight 2 1 5).addWeight 4 1 7).merge 1 3 6).m_weights,
      e.1.1 < e.1.2) :=
  hints_symmetry _
    (Reachable.merge _ 1 3 6 (Reachable.addWeight _ 4 1 7
      (Reachable.addWeight _ 2 1 5 Reachable.empty)))

/-- C10, as stated, fails: `merge(a, a, c)` returns at once and keeps the
pairs of `a`, and `merge(a, b, a)` moves the pairs of `b` onto `a`. -/
theorem merge_clears_old_counterexample :
    ¬ (∀ (H : MergeHints ℕ) (a b c x : ℕ), H.Reachable →
        (H.merge a b c).getWeight a x = 0 ∧ (H.merge a b c).getWeight b x = 0) := by
  intro h
  have h1 := (h (MergeHints.empty.addWeight 1 2 5) 1 1 3 2
    (Reachable.addWeight _ 1 2 5 Reachable.empty)).1
  revert h1
  decide

/-- C10, amended. For ordered keys, `a ≠ b` and a new handle `c` different from
both: after `merge(a, b, c)` every pair of `a` and every pair of `b` has weight
zero. -/
theorem merge_clears_old (H : MergeHints α) (hH : H.KeysOrdered) (a b c : α)
    (hab : a ≠ b) (hca : c ≠ a) (hcb : c ≠ b) (x : α) :
    (H.merge a b c).getWeight a x = 0 ∧ (H.merge a b c).getWeight b x = 0 := by
  unfold MergeHints.merge
  by_cases hlt : b < a
  · simp only [hlt, if_true]
    have := mergeOrdered_not_touches hH hlt hcb hca
    exact ⟨getWeight_eq_zero_of_not_touches _ a (fun e he => (this e he).2) x,
      getWeight_eq_zero_of_not_touches _ b (fun e he => (this e he).1) x⟩
  · simp only [hlt, if_false]
    have hlt' : a < b := lt_of_le_of_ne (not_lt.1 hlt) hab
    have := mergeOrdered_not_touches hH hlt' hca hcb
    exact ⟨getWeight_eq_zero_of_not_touches _ a (fun e he => (this e he).1) x,
      getWeight_eq_zero_of_not_touches _ b (fun e he => (this e he).2) x⟩

/-- Witness of `merge_clears_old`: hints `{1,2} ↦ 5`, `{2,4} ↦ 7`, merged by
`merge(1, 2, 3)`, read at `x = 4`. -/
theorem merge_clears_old_witness :
    (((MergeHints.empty.addWeight 1 2 5).addWeight 2 4 7).merge 1 2 3).getWeight 1 4 = 0 ∧
    (((MergeHints.empty.addWeight 1 2 5).addWeight 2 4 7).merge 1 2 3).getWeight 2 4 = 0 :=
  merge_clears_old ((MergeHints.empty.addWeight 1 2 5).addWeight 2 4 7)
    (Reachable.keysOrdered (Reachable.addWeight _ 2 4 7
      (Reachable.addWeight _ 1 2 5 Reachable.empty))) 1 2 3 (by decide) (by decide) (by decide) 4

end MergeHints

end blif_solve

/-! ## Facts about the arenas and containers -/

namespace blif_solve

section Arena

variable {α : Type}

theorem length_updateNode (f : AmNode α → AmNode α) (i : ℕ) (nodes : List (AmNode α)) :
    (updateNode f i nodes).length = nodes.length := by
  induction nodes generalizing i with
  | nil => cases i <;> rfl
  | cons n ns ih =>
    cases i with
    | zero => rfl
    | succ i => simp [updateNode, ih]

theorem getD_updateNode (f : AmNode α → AmNode α) (i : ℕ) (nodes : List (AmNode α))
    (d : AmNode α) (j : ℕ) :
    (updateNode f i nodes).getD j d =
      if j = i ∧ i < nodes.length then f (nodes.getD j d) else nodes.getD j d := by
  induction nodes generalizing i j with
  | nil => cases i <;> simp [updateNode]
  | cons n ns ih =>
    cases i with
    | zero =>
      cases j with
      | zero => simp [updateNode]
      | succ j => simp [updateNode]
    | succ i =>
      cases j with
      | zero => simp [updateNode]
      | succ j => simpa [updateNode, List.getD_eq_getElem?_getD] using ih i j

theorem nodeAt_updateNode (M : DdManager α) (f : AmNode α → AmNode α) (i : ℕ)
    (nodes : List (AmNode α)) (j : ℕ) :
    nodeAt M (updateNode f i nodes) j =
      if j = i ∧ i < nodes.length then f (nodeAt M nodes j) else nodeAt M nodes j := by
  unfold nodeAt
  exact getD_updateNode f i nodes _ j

theorem nodeAt_updateNode_of_ne (M : DdManager α) (f : AmNode α → AmNode α) {i j : ℕ}
    (nodes : List (AmNode α)) (h : j ≠ i) :
    nodeAt M (updateNode f i nodes) j = nodeAt M nodes j := by
  rw [nodeAt_updateNode]
  simp [h]

theorem nodeAt_updateNode_self (M : DdManager α) (f : AmNode α → AmNode α) {i : ℕ}
    (nodes : List (AmNode α)) (h : i < nodes.length) :
    nodeAt M (updateNode f i nodes) i = f (nodeAt M nodes i) := by
  rw [nodeAt_updateNode]
  simp [h]

theorem nodeAt_append_left (M : DdManager α) (nodes l : List (AmNode α)) {j : ℕ}
    (h : j < nodes.length) : nodeAt M (nodes ++ l) j = nodeAt M nodes j := by
  unfold nodeAt
  rw [List.getD_eq_getElem?_getD, List.getD_eq_getElem?_getD, List.getElem?_append_left h]

theorem nodeAt_append_length (M : DdManager α) (nodes : List (AmNode α)) (n : AmNode α) :
    nodeAt M (nodes ++ [n]) nodes.length = n := by
  unfold nodeAt
  rw [List.getD_eq_getElem?_getD, List.getElem?_append_right (le_refl _)]
  simp

theorem nodeAt_of_length_le (M : DdManager α) (nodes : List (AmNode α)) {j : ℕ}
    (h : nodes.length ≤ j) : nodeAt M nodes j = AmNode.null M := by
  unfold nodeAt
  rw [List.getD_eq_getElem?_getD, List.getElem?_eq_none h]
  rfl

theorem null_mergers (M : DdManager α) : (AmNode.null M).mergers = [] := rfl

theorem null_neighbours (M : DdManager α) : (AmNode.null M).neighbours = [] := rfl

theorem mergerAt_append_left (mergers l : List AmMerger) {m : ℕ} (h : m < mergers.length) :
    mergerAt (mergers ++ l) m = mergerAt mergers m := by
  unfold mergerAt
  rw [List.getD_eq_getElem?_getD, List.getD_eq_getElem?_getD, List.getElem?_append_left h]

theorem mergerAt_append_length (mergers : List AmMerger) (mg : AmMerger) :
    mergerAt (mergers ++ [mg]) mergers.length = mg := by
  unfold mergerAt
  rw [List.getD_eq_getElem?_getD, List.getElem?_append_right (le_refl _)]
  simp

theorem mergerAt_mem (mergers : List AmMerger) {m : ℕ} (h : m < mergers.length) :
    mergerAt mergers m ∈ mergers := by
  unfold mergerAt
  rw [List.getD_eq_getElem?_getD, List.getElem?_eq_getElem h]
  exact List.getElem_mem _

theorem exists_mergerAt_of_mem (mergers : List AmMerger) {mg : AmMerger} (h : mg ∈ mergers) :
    ∃ m, m < mergers.length ∧ mergerAt mergers m = mg := by
  obtain ⟨m, hm, rfl⟩ := List.getElem_of_mem h
  refine ⟨m, hm, ?_⟩
  unfold mergerAt
  rw [List.getD_eq_getElem?_getD, List.getElem?_eq_getElem hm]
  rfl

theorem core_type {n n' : AmNode α} (h : n.core = n'.core) : n.type = n'.type :=
  congrArg (fun c => c.1) h

theorem core_node {n n' : AmNode α} (h : n.core = n'.core) : n.node = n'.node :=
  congrArg (fun c => c.2.1) h

theorem core_supportSet {n n' : AmNode α} (h : n.core = n'.core) :
    n.supportSet = n'.supportSet :=
  congrArg (fun c => c.2.2.1) h

theorem core_neighbours {n n' : AmNode α} (h : n.core = n'.core) :
    n.neighbours = n'.neighbours :=
  congrArg (fun c => c.2.2.2) h

theorem SameCore.refl_core (M : DdManager α) (nodes : List (AmNode α)) : SameCore M nodes nodes :=
  ⟨rfl, fun _ => rfl⟩

theorem SameCore.trans_core {M : DdManager α} {a b c : List (AmNode α)}
    (h1 : SameCore M a b) (h2 : SameCore M b c) : SameCore M a c :=
  ⟨h2.1.trans h1.1, fun j => (h2.2 j).trans (h1.2 j)⟩

theorem SameCore.of_updateNode_core (M : DdManager α) (f : AmNode α → AmNode α)
    (hf : ∀ n, (f n).core = n.core) (i : ℕ) (nodes : List (AmNode α)) :
    SameCore M nodes (updateNode f i nodes) := by
  refine ⟨length_updateNode f i nodes, fun j => ?_⟩
  rw [nodeAt_updateNode]
  split
  · exact hf _
  · rfl

end Arena

section Sets

variable {α : Type} [LinearOrder α]

theorem mem_setOrderedInsert (x : α) (s : List α) (y : α) :
    y ∈ setOrderedInsert x s ↔ y = x ∨ y ∈ s := by
  induction s with
  | nil => simp [setOrderedInsert]
  | cons z rest ih =>
    unfold setOrderedInsert
    by_cases hlt : x < z
    · simp [hlt]
    · simp only [hlt, if_false, List.mem_cons, ih]
      tauto

theorem mem_setInsert (x : α) (s : List α) (y : α) :
    y ∈ setInsert x s ↔ y = x ∨ y ∈ s := by
  unfold setInsert
  split
  · constructor
    · exact Or.inr
    · rintro (rfl | h)
      · assumption
      · exact h
  · exact mem_setOrderedInsert x s y

theorem mem_setErase (x : α) (s : List α) (y : α) :
    y ∈ setErase x s ↔ y ∈ s ∧ y ≠ x := by
  simp [setErase]

theorem mem_setOfList (l : List α) (y : α) : y ∈ setOfList l ↔ y ∈ l := by
  unfold setOfList
  have key : ∀ (l s : List α), y ∈ l.foldl (fun s x => setInsert x s) s ↔ y ∈ l ∨ y ∈ s := by
    intro l
    induction l with
    | nil => intro s; simp
    | cons x l ih =>
      intro s
      simp only [List.foldl_cons, ih, mem_setInsert, List.mem_cons]
      tauto
  simpa using key l []

end Sets

section PtrSets

theorem mem_ptrOrderedInsert (addr : ℕ → ℕ) (x : ℕ) (s : List ℕ) (y : ℕ) :
    y ∈ ptrOrderedInsert addr x s ↔ y = x ∨ y ∈ s := by
  induction s with
  | nil => simp [ptrOrderedInsert]
  | cons z rest ih =>
    unfold ptrOrderedInsert
    by_cases hlt : addr x < addr z
    · simp [hlt]
    · simp only [hlt, if_false, List.mem_cons, ih]
      tauto

theorem mem_ptrSetInsert (addr : ℕ → ℕ) (x : ℕ) (s : List ℕ) (y : ℕ) :
    y ∈ ptrSetInsert addr x s ↔ y = x ∨ y ∈ s := by
  unfold ptrSetInsert
  split
  · constructor
    · exact Or.inr
    · rintro (rfl | h)
      · assumption
      · exact h
  · exact mem_ptrOrderedInsert addr x s y

theorem mem_foldl_ptrSetInsert (addr : ℕ → ℕ) (l s : List ℕ) (y : ℕ) :
    y ∈ l.foldl (fun set neigh => ptrSetInsert addr neigh set) s ↔ y ∈ l ∨ y ∈ s := by
  induction l generalizing s with
  | nil => simp
  | cons x l ih =>
    simp only [List.foldl_cons, ih, mem_ptrSetInsert, List.mem_cons]
    tauto

end PtrSets

section Heap

theorem MaxHeap.mem_remove (h : MaxHeap) (m : ℕ) (e : ℕ × ℚ) :
    e ∈ MaxHeap.remove h m ↔ e ∈ h ∧ e.1 ≠ m := by
  simp [MaxHeap.remove]

theorem MaxHeap.length_remove_le (h : MaxHeap) (m : ℕ) :
    (MaxHeap.remove h m).length ≤ h.length :=
  List.length_filter_le _ _

theorem MaxHeap.length_remove_lt (h : MaxHeap) (m : ℕ) (hm : ∃ e ∈ h, e.1 = m) :
    (MaxHeap.remove h m).length < h.length := by
  obtain ⟨e, he, hem⟩ := hm
  unfold MaxHeap.remove
  apply List.length_filter_lt_length_iff_exists.2
  exact ⟨e, he, by simp [hem]⟩

theorem MaxHeap.exists_max (h : MaxHeap) (hne : h ≠ []) :
    ∃ e ∈ h, ∀ e' ∈ h, e'.2 ≤ e.2 := by
  induction h with
  | nil => exact absurd rfl hne
  | cons a rest ih =>
    by_cases hr : rest = []
    · subst hr
      exact ⟨a, List.mem_cons_self _ _, by simp⟩
    · obtain ⟨e, he, hmax⟩ := ih hr
      by_cases hae : e.2 ≤ a.2
      · refine ⟨a, List.mem_cons_self _ _, ?_⟩
        intro e' he'
        rcases List.mem_cons.1 he' with rfl | he'
        · exact le_refl _
        · exact le_trans (hmax e' he') hae
      · refine ⟨e, List.mem_cons_of_mem _ he, ?_⟩
        intro e' he'
        rcases List.mem_cons.1 he' with rfl | he'
        · exact le_of_lt (not_le.1 hae)
        · exact hmax e' he'

/-- On a heap that is not empty `top` returns a merger of the heap. -/
theorem MaxHeap.top_of_ne_nil (h : MaxHeap) (hne : h ≠ []) (tie : ℕ) :
    ∃ m, MaxHeap.top h tie = some m ∧ ∃ e ∈ h, e.1 = m := by
  obtain ⟨e, he, hmax⟩ := MaxHeap.exists_max h hne
  have hmem : e ∈ MaxHeap.tops h := by
    unfold MaxHeap.tops
    rw [List.mem_filter]
    refine ⟨he, ?_⟩
    rw [List.all_eq_true]
    intro e' he'
    simpa using hmax e' he'
  have hpos : 0 < (MaxHeap.tops h).length := List.length_pos_of_mem hmem
  have hlt : tie % (MaxHeap.tops h).length < (MaxHeap.tops h).length := Nat.mod_lt _ hpos
  refine ⟨((MaxHeap.tops h)[tie % (MaxHeap.tops h).length]).1, ?_, ?_⟩
  · unfold MaxHeap.top
    rw [List.getElem?_eq_getElem hlt]
    rfl
  · refine ⟨(MaxHeap.tops h)[tie % (MaxHeap.tops h).length], ?_, rfl⟩
    have := List.getElem_mem hlt
    unfold MaxHeap.tops at this ⊢
    exact (List.mem_filter.1 this).1

theorem MaxHeap.top_mem (h : MaxHeap) (tie m : ℕ) (ht : MaxHeap.top h tie = some m) :
    ∃ e ∈ h, e.1 = m := by
  unfold MaxHeap.top at ht
  cases hg : (MaxHeap.tops h)[tie % (MaxHeap.tops h).length]? with
  | none => simp [hg] at ht
  | some e =>
    simp [hg] at ht
    have hmem : e ∈ MaxHeap.tops h := List.getElem?_mem hg
    exact ⟨e, (List.mem_filter.1 hmem).1, ht⟩

end Heap

end blif_solve

/-! ## The structural invariant -/

namespace blif_solve

section Structural

variable {α : Type} [LinearOrder α]

theorem Frame.refl_frame (s : MergeState α) : Frame s s := ⟨rfl, rfl, rfl, rfl, rfl⟩

theorem Frame.trans_frame {a b c : MergeState α} (h1 : Frame a b) (h2 : Frame b c) : Frame a c :=
  ⟨h2.1.trans h1.1, h2.2.1.trans h1.2.1, h2.2.2.1.trans h1.2.2.1,
    h2.2.2.2.1.trans h1.2.2.2.1, h2.2.2.2.2.trans h1.2.2.2.2⟩

theorem mem_mergers_push (M : DdManager α) (nodes : List (AmNode α)) (i m x m' : ℕ) :
    m' ∈ (nodeAt M (updateNode (fun n => { n with mergers := n.mergers ++ [m] }) i nodes)
      x).mergers ↔
      m' ∈ (nodeAt M nodes x).mergers ∨ (m' = m ∧ x = i ∧ i < nodes.length) := by
  rw [nodeAt_updateNode]
  by_cases h : x = i ∧ i < nodes.length
  · rw [if_pos h]
    simp only [List.mem_append, List.mem_singleton]
    constructor
    · rintro (h' | h')
      · exact Or.inl h'
      · exact Or.inr ⟨h', h.1, h.2⟩
    · rintro (h' | h')
      · exact Or.inl h'
      · exact Or.inr h'.1
  · rw [if_neg h]
    constructor
    · exact Or.inl
    · rintro (h' | h')
      · exact h'
      · exact absurd h'.2 h

theorem mem_mergers_filter (M : DdManager α) (nodes : List (AmNode α)) (i m x m' : ℕ) :
    m' ∈ (nodeAt M (updateNode
      (fun n => { n with mergers := n.mergers.filter (fun k => decide (k ≠ m)) }) i nodes)
      x).mergers ↔
      m' ∈ (nodeAt M nodes x).mergers ∧ ¬ (m' = m ∧ x = i) := by
  rw [nodeAt_updateNode]
  by_cases h : x = i ∧ i < nodes.length
  · rw [if_pos h]
    simp only [List.mem_filter, decide_eq_true_eq]
    constructor
    · rintro ⟨h1, h2⟩
      exact ⟨h1, fun h3 => h2 h3.1⟩
    · rintro ⟨h1, h2⟩
      exact ⟨h1, fun h3 => h2 ⟨h3, h.1⟩⟩
  · rw [if_neg h]
    constructor
    · intro h1
      refine ⟨h1, fun h3 => ?_⟩
      have hge : nodes.length ≤ x := by
        by_contra hlt
        exact h ⟨h3.2, h3.2 ▸ not_le.1 hlt⟩
      rw [nodeAt_of_length_le M nodes hge] at h1
      simp [null_mergers] at h1
    · exact fun h1 => h1.1

/-- The state after `newMerger` when the types of the two nodes agree. -/
theorem newMerger_eq (M : DdManager α) (s : MergeState α) (i j : ℕ) (p : ℚ)
    (ht : (nodeAt M s.nodes i).type = (nodeAt M s.nodes j).type) :
    newMerger M s i j p = Except.ok
      { s with
        nodes := updateNode (fun n => { n with mergers := n.mergers ++ [s.mergers.length] }) j
          (updateNode (fun n => { n with mergers := n.mergers ++ [s.mergers.length] }) i
            s.nodes)
        mergers := s.mergers ++ [⟨i, j⟩]
        heap := MaxHeap.insert s.heap s.mergers.length p } := by
  unfold newMerger
  simp [ht]

theorem sameCore_push (M : DdManager α) (nodes : List (AmNode α)) (i m : ℕ) :
    SameCore M nodes (updateNode (fun n => { n with mergers := n.mergers ++ [m] }) i nodes) :=
  SameCore.of_updateNode_core M (fun n => { n with mergers := n.mergers ++ [m] }) (fun _ => rfl) i nodes

theorem sameCore_filter (M : DdManager α) (nodes : List (AmNode α)) (i m : ℕ) :
    SameCore M nodes (updateNode
      (fun n => { n with mergers := n.mergers.filter (fun k => decide (k ≠ m)) }) i nodes) :=
  SameCore.of_updateNode_core M
    (fun n => { n with mergers := n.mergers.filter (fun k => decide (k ≠ m)) })
    (fun _ => rfl) i nodes

theorem sameCore_clear (M : DdManager α) (nodes : List (AmNode α)) (i : ℕ) :
    SameCore M nodes (updateNode (fun n => { n with mergers := [] }) i nodes) :=
  SameCore.of_updateNode_core M (fun n => { n with mergers := [] }) (fun _ => rfl) i nodes

/-- What `newMerger` does to a state that satisfies the invariant. -/
theorem newMerger_spec (M : DdManager α) (s : MergeState α) (i j : ℕ) (p : ℚ)
    (hinv : Inv M s) (hi : i < s.nodes.length) (hj : j < s.nodes.length)
    (ht : (nodeAt M s.nodes i).type = (nodeAt M s.nodes j).type) :
    ∃ s', newMerger M s i j p = Except.ok s' ∧ Inv M s' ∧ Frame s s' ∧
      SameCore M s.nodes s'.nodes ∧ s'.mergers = s.mergers ++ [⟨i, j⟩] ∧
      s'.heap = s.heap ++ [(s.mergers.length, p)] ∧
      (∀ x m, m ∈ (nodeAt M s'.nodes x).mergers ↔
        m ∈ (nodeAt M s.nodes x).mergers ∨ (m = s.mergers.length ∧ (x = i ∨ x = j))) := by
  refine ⟨_, newMerger_eq M s i j p ht, ?_, Frame.refl_frame _, ?_, rfl, rfl, ?_⟩
  · have hsc : SameCore M s.nodes
        (updateNode (fun n => { n with mergers := n.mergers ++ [s.mergers.length] }) j
          (updateNode (fun n => { n with mergers := n.mergers ++ [s.mergers.length] }) i
            s.nodes)) :=
      (sameCore_push M s.nodes i _).trans_core (sameCore_push M _ j _)
    constructor
    · intro m hm
      simp only [List.length_append, List.length_singleton] at hm
      simp only [hsc.1]
      rcases Nat.lt_succ_iff_lt_or_eq.1 hm with hlt | heq
      · rw [mergerAt_append_left _ _ hlt]
        obtain ⟨h1, h2, h3⟩ := hinv.mergers_valid m hlt
        refine ⟨h1, h2, ?_⟩
        rw [core_type (hsc.2 _), core_type (hsc.2 _)]
        exact h3
      · subst heq
        rw [mergerAt_append_length]
        refine ⟨hi, hj, ?_⟩
        rw [core_type (hsc.2 _), core_type (hsc.2 _)]
        exact ht
    · intro x m hm
      simp only [mem_mergers_push, length_updateNode] at hm
      simp only [List.length_append, List.length_singleton]
      rcases hm with (hm | ⟨rfl, rfl, _⟩) | ⟨rfl, rfl, _⟩
      · obtain ⟨h1, h2⟩ := hinv.listed_endpoint x m hm
        refine ⟨Nat.lt_succ_of_lt h1, ?_⟩
        rw [mergerAt_append_left _ _ h1]
        exact h2
      · refine ⟨Nat.lt_succ_self _, ?_⟩
        rw [mergerAt_append_length]
        exact Or.inl rfl
      · refine ⟨Nat.lt_succ_self _, ?_⟩
        rw [mergerAt_append_length]
        exact Or.inr rfl
    · intro e he
      simp only [MaxHeap.insert, List.mem_append, List.mem_singleton] at he
      simp only [List.length_append, List.length_singleton]
      rcases he with he | rfl
      · exact Nat.lt_succ_of_lt (hinv.heap_valid e he)
      · exact Nat.lt_succ_self _
    · intro x m hm
      simp only [mem_mergers_push, length_updateNode] at hm
      simp only [MaxHeap.insert, List.mem_append, List.mem_singleton]
      rcases hm with (hm | ⟨rfl, _⟩) | ⟨rfl, _⟩
      · obtain ⟨e, he, rfl⟩ := hinv.listed_in_heap x m hm
        exact ⟨e, Or.inl he, rfl⟩
      · exact ⟨_, Or.inr rfl, rfl⟩
      · exact ⟨_, Or.inr rfl, rfl⟩
  · exact (sameCore_push M s.nodes i _).trans_core (sameCore_push M _ j _)
  · intro x m
    simp only [mem_mergers_push, length_updateNode]
    constructor
    · rintro ((h | ⟨h1, h2, _⟩) | ⟨h1, h2, _⟩)
      · exact Or.inl h
      · exact Or.inr ⟨h1, Or.inl h2⟩
      · exact Or.inr ⟨h1, Or.inr h2⟩
    · rintro (h | ⟨h1, h2 | h2⟩)
      · exact Or.inl (Or.inl h)
      · exact Or.inl (Or.inr ⟨h1, h2, h2 ▸ hi⟩)
      · exact Or.inr ⟨h1, h2, h2 ▸ hj⟩

end Structural

end blif_solve

/-! ## Loops, `getCompatibility` and the first state -/

namespace blif_solve

section Loops

/-- An invariant of the rounds of a fallible loop holds at its end, and the
loop does not fail. -/
theorem foldlM_invariant {σ β : Type} (f : σ → β → Except String σ) (P : σ → Prop)
    (Q : β → Prop) (hstep : ∀ s b, P s → Q b → ∃ s', f s b = Except.ok s' ∧ P s') :
    ∀ (l : List β) (s : σ), P s → (∀ b ∈ l, Q b) →
      ∃ s', l.foldlM f s = Except.ok s' ∧ P s' := by
  intro l
  induction l with
  | nil =>
    intro s hs _
    exact ⟨s, rfl, hs⟩
  | cons b l ih =>
    intro s hs hq
    obtain ⟨s1, h1, hs1⟩ := hstep s b hs (hq b (List.mem_cons_self _ _))
    obtain ⟨s2, h2, hs2⟩ := ih s1 hs1 (fun b' hb' => hq b' (List.mem_cons_of_mem _ hb'))
    refine ⟨s2, ?_, hs2⟩
    rw [List.foldlM_cons, h1]
    exact h2

theorem foldl_invariant {σ β : Type} (f : σ → β → σ) (P : σ → Prop)
    (hstep : ∀ s b, P s → P (f s b)) : ∀ (l : List β) (s : σ), P s → P (l.foldl f s) := by
  intro l
  induction l with
  | nil => intro s hs; exact hs
  | cons b l ih => intro s hs; exact ih _ (hstep s b hs)

end Loops

section Compat

variable {α : Type} [LinearOrder α]

theorem foldl_and_congr (M : DdManager α) (nodes nodes' : List (AmNode α))
    (h : ∀ j, (nodeAt M nodes' j).supportSet = (nodeAt M nodes j).supportSet)
    (l : List ℕ) (c : α) :
    l.foldl (fun acc neigh => M.bdd_and acc (nodeAt M nodes' neigh).supportSet) c =
      l.foldl (fun acc neigh => M.bdd_and acc (nodeAt M nodes neigh).supportSet) c := by
  induction l generalizing c with
  | nil => rfl
  | cons x l ih => simp only [List.foldl_cons, h x, ih]

theorem combinedSupportSet_congr (M : DdManager α) {nodes nodes' : List (AmNode α)}
    (h : SameCore M nodes nodes') (i j : ℕ) :
    combinedSupportSet M nodes' i j = combinedSupportSet M nodes i j := by
  have hs : ∀ j, (nodeAt M nodes' j).supportSet = (nodeAt M nodes j).supportSet :=
    fun j => core_supportSet (h.2 j)
  unfold combinedSupportSet
  simp only [hs, core_neighbours (h.2 i), core_neighbours (h.2 j), foldl_and_congr M nodes nodes' hs]

theorem getCompatibility_congr (M : DdManager α) {nodes nodes' : List (AmNode α)}
    (h : SameCore M nodes nodes') (i j : ℕ) (lss : ℤ) (hint : ℚ) (q : List α) :
    getCompatibility M nodes' i j lss hint q = getCompatibility M nodes i j lss hint q := by
  unfold getCompatibility
  simp only [combinedSupportSet_congr M h, core_supportSet (h.2 i), core_supportSet (h.2 j)]

theorem Compatible.congr (M : DdManager α) {nodes nodes' : List (AmNode α)}
    (h : SameCore M nodes nodes') {lss : ℤ} {q : List α} {i j : ℕ}
    (hc : Compatible M nodes' lss q i j) : Compatible M nodes lss q i j := by
  obtain ⟨hint, hh⟩ := hc
  exact ⟨hint, by rw [← getCompatibility_congr M h]; exact hh⟩

end Compat

section Base

variable {α : Type}

theorem base_type {n n' : AmNode α} (h : n.base = n'.base) : n.type = n'.type :=
  congrArg (fun c => c.1) h

theorem base_node {n n' : AmNode α} (h : n.base = n'.base) : n.node = n'.node :=
  congrArg (fun c => c.2.1) h

theorem base_supportSet {n n' : AmNode α} (h : n.base = n'.base) :
    n.supportSet = n'.supportSet :=
  congrArg (fun c => c.2.2.1) h

theorem base_mergers {n n' : AmNode α} (h : n.base = n'.base) : n.mergers = n'.mergers :=
  congrArg (fun c => c.2.2.2) h

theorem SameBase.refl_base (M : DdManager α) (nodes : List (AmNode α)) : SameBase M nodes nodes :=
  ⟨rfl, fun _ => rfl⟩

theorem SameBase.trans_base {M : DdManager α} {a b c : List (AmNode α)}
    (h1 : SameBase M a b) (h2 : SameBase M b c) : SameBase M a c :=
  ⟨h2.1.trans h1.1, fun j => (h2.2 j).trans (h1.2 j)⟩

theorem SameBase.of_updateNode_base (M : DdManager α) (f : AmNode α → AmNode α)
    (hf : ∀ n, (f n).base = n.base) (i : ℕ) (nodes : List (AmNode α)) :
    SameBase M nodes (updateNode f i nodes) := by
  refine ⟨length_updateNode f i nodes, fun j => ?_⟩
  rw [nodeAt_updateNode]
  split
  · exact hf _
  · rfl

end Base

section Init

variable {α : Type} [LinearOrder α]

theorem connectOne_sameBase (M : DdManager α) (addr : ℕ → ℕ) (func : ℕ)
    (nodes : List (AmNode α)) (var : ℕ) :
    SameBase M nodes (connectOne M addr func nodes var) := by
  unfold connectOne
  split
  · exact (SameBase.of_updateNode_base M (fun n => { n with neighbours := n.neighbours ++ [var] })
      (fun _ => rfl) func nodes).trans_base
      (SameBase.of_updateNode_base M (fun n => { n with neighbours := n.neighbours ++ [func] })
        (fun _ => rfl) var _)
  · exact SameBase.refl_base M nodes

theorem connectFuncVar_sameBase (M : DdManager α) (addr : ℕ → ℕ) (funcNodes varNodes : List ℕ)
    (nodes : List (AmNode α)) :
    SameBase M nodes (connectFuncVar M addr funcNodes varNodes nodes) := by
  unfold connectFuncVar
  apply foldl_invariant _ (fun ns => SameBase M nodes ns)
  · intro ns func hns
    apply foldl_invariant _ (fun ns' => SameBase M nodes ns')
    · intro ns' var hns'
      exact hns'.trans_base (connectOne_sameBase M addr func ns' var)
    · exact hns
  · exact SameBase.refl_base M nodes

/-- The nodes created from the inputs. -/
theorem nodeAt_init (M : DdManager α) (factors varBdds : List α) (j : ℕ) :
    (j < factors.length ∧ ∃ f ∈ factors,
      nodeAt M (factors.map (AmNode.create M NodeType.Func) ++
        varBdds.map (AmNode.create M NodeType.Var)) j = AmNode.create M NodeType.Func f) ∨
    (factors.length ≤ j ∧ j < factors.length + varBdds.length ∧ ∃ v ∈ varBdds,
      nodeAt M (factors.map (AmNode.create M NodeType.Func) ++
        varBdds.map (AmNode.create M NodeType.Var)) j = AmNode.create M NodeType.Var v) ∨
    (factors.length + varBdds.length ≤ j ∧
      nodeAt M (factors.map (AmNode.create M NodeType.Func) ++
        varBdds.map (AmNode.create M NodeType.Var)) j = AmNode.null M) := by
  by_cases h1 : j < factors.length
  · left
    refine ⟨h1, factors[j], List.getElem_mem _, ?_⟩
    unfold nodeAt
    rw [List.getD_eq_getElem?_getD, List.getElem?_append_left (by simpa using h1)]
    simp [List.getElem?_eq_getElem h1]
  · right
    have h1' : factors.length ≤ j := not_lt.1 h1
    by_cases h2 : j < factors.length + varBdds.length
    · left
      have h3 : j - factors.length < varBdds.length := by omega
      refine ⟨h1', h2, varBdds[j - factors.length], List.getElem_mem _, ?_⟩
      unfold nodeAt
      rw [List.getD_eq_getElem?_getD, List.getElem?_append_right (by simpa using h1')]
      simp [List.getElem?_eq_getElem h3]
    · right
      refine ⟨not_lt.1 h2, ?_⟩
      apply nodeAt_of_length_le
      simp
      omega

end Init

end blif_solve

namespace blif_solve

section InitMergers

variable {α : Type} [LinearOrder α]

theorem Added.refl_added (M : DdManager α) (R : AmMerger → Prop) (s : MergeState α) :
    Added M R s s :=
  ⟨Frame.refl_frame s, SameCore.refl_core M s.nodes, [], by simp, by simp⟩

theorem Added.trans_added {M : DdManager α} {R : AmMerger → Prop} {a b c : MergeState α}
    (h1 : Added M R a b) (h2 : Added M R b c) : Added M R a c := by
  obtain ⟨n1, e1, r1⟩ := h1.mergers
  obtain ⟨n2, e2, r2⟩ := h2.mergers
  refine ⟨h1.frame.trans_frame h2.frame, h1.core.trans_core h2.core, n1 ++ n2, ?_, ?_⟩
  · rw [e2, e1, List.append_assoc]
  · intro mg hmg
    rcases List.mem_append.1 hmg with h | h
    · exact r1 mg h
    · exact r2 mg h

theorem newMerger_added (M : DdManager α) (R : AmMerger → Prop) (s : MergeState α) (i j : ℕ)
    (p : ℚ) (hinv : Inv M s) (hi : i < s.nodes.length) (hj : j < s.nodes.length)
    (ht : (nodeAt M s.nodes i).type = (nodeAt M s.nodes j).type) (hR : R ⟨i, j⟩) :
    ∃ s', newMerger M s i j p = Except.ok s' ∧ Inv M s' ∧ Added M R s s' := by
  obtain ⟨s', h1, h2, h3, h4, h5, _⟩ := newMerger_spec M s i j p hinv hi hj ht
  refine ⟨s', h1, h2, h3, h4, [⟨i, j⟩], h5, ?_⟩
  intro mg hmg
  rw [List.mem_singleton] at hmg
  rw [hmg]
  exact hR

theorem connectedState_sameBase (M : DdManager α) (addr : ℕ → ℕ) (factors varBdds : List α)
    (hintsInput : MergeHints α) (qvars : List α) :
    SameBase M (factors.map (AmNode.create M NodeType.Func) ++
        varBdds.map (AmNode.create M NodeType.Var))
      (connectedState M addr factors varBdds hintsInput qvars).nodes :=
  connectFuncVar_sameBase M addr _ _ _

/-- The nodes of the state before the first mergers: func nodes made from the
factors, then var nodes made from the variables, all with empty merger lists. -/
theorem connectedState_nodes (M : DdManager α) (addr : ℕ → ℕ) (factors varBdds : List α)
    (hintsInput : MergeHints α) (qvars : List α) (j : ℕ) :
    (nodeAt M (connectedState M addr factors varBdds hintsInput qvars).nodes j).mergers = [] ∧
    ((j < factors.length ∧ ∃ f ∈ factors,
        (nodeAt M (connectedState M addr factors varBdds hintsInput qvars).nodes j).type =
          NodeType.Func ∧
        (nodeAt M (connectedState M addr factors varBdds hintsInput qvars).nodes j).node = f ∧
        (nodeAt M (connectedState M addr factors varBdds hintsInput qvars).nodes j).supportSet =
          M.bdd_support f) ∨
      (factors.length ≤ j ∧ j < factors.length + varBdds.length ∧ ∃ v ∈ varBdds,
        (nodeAt M (connectedState M addr factors varBdds hintsInput qvars).nodes j).type =
          NodeType.Var ∧
        (nodeAt M (connectedState M addr factors varBdds hintsInput qvars).nodes j).node = v ∧
        (nodeAt M (connectedState M addr factors varBdds hintsInput qvars).nodes j).supportSet =
          v) ∨
      (factors.length + varBdds.length ≤ j ∧
        (nodeAt M (connectedState M addr factors varBdds hintsInput qvars).nodes j).type =
          NodeType.Func ∧
        (nodeAt M (connectedState M addr factors varBdds hintsInput qvars).nodes j).node =
          M.bdd_one ∧
        (nodeAt M (connectedState M addr factors varBdds hintsInput qvars).nodes j).supportSet =
          M.bdd_support M.bdd_one)) := by
  have hb := (connectedState_sameBase M addr factors varBdds hintsInput qvars).2 j
  rw [base_mergers hb, base_type hb, base_node hb, base_supportSet hb]
  rcases nodeAt_init M factors varBdds j with ⟨h1, f, hf, he⟩ | ⟨h1, h2, v, hv, he⟩ | ⟨h1, he⟩
  · rw [he]
    exact ⟨rfl, Or.inl ⟨h1, f, hf, rfl, rfl, rfl⟩⟩
  · rw [he]
    exact ⟨rfl, Or.inr (Or.inl ⟨h1, h2, v, hv, rfl, rfl, rfl⟩)⟩
  · rw [he]
    exact ⟨rfl, Or.inr (Or.inr ⟨h1, rfl, rfl, rfl⟩)⟩

theorem connectedState_length (M : DdManager α) (addr : ℕ → ℕ) (factors varBdds : List α)
    (hintsInput : MergeHints α) (qvars : List α) :
    (connectedState M addr factors varBdds hintsInput qvars).nodes.length =
      factors.length + varBdds.length := by
  rw [(connectedState_sameBase M addr factors varBdds hintsInput qvars).1]
  simp

theorem connectedState_type_func (M : DdManager α) (addr : ℕ → ℕ) (factors varBdds : List α)
    (hintsInput : MergeHints α) (qvars : List α) {j : ℕ} (hj : j < factors.length) :
    (nodeAt M (connectedState M addr factors varBdds hintsInput qvars).nodes j).type =
      NodeType.Func := by
  rcases (connectedState_nodes M addr factors varBdds hintsInput qvars j).2 with
    ⟨_, _, _, h, _⟩ | ⟨h1, _⟩ | ⟨_, h, _⟩
  · exact h
  · omega
  · exact h

theorem connectedState_type_var (M : DdManager α) (addr : ℕ → ℕ) (factors varBdds : List α)
    (hintsInput : MergeHints α) (qvars : List α) {j : ℕ} (hj : factors.length ≤ j)
    (hj' : j < factors.length + varBdds.length) :
    (nodeAt M (connectedState M addr factors varBdds hintsInput qvars).nodes j).type =
      NodeType.Var := by
  rcases (connectedState_nodes M addr factors varBdds hintsInput qvars j).2 with
    ⟨h1, _⟩ | ⟨_, _, _, _, h, _⟩ | ⟨h1, _⟩
  · omega
  · exact h
  · omega

theorem connectedState_inv (M : DdManager α) (addr : ℕ → ℕ) (factors varBdds : List α)
    (hintsInput : MergeHints α) (qvars : List α) :
    Inv M (connectedState M addr factors varBdds hintsInput qvars) := by
  constructor
  · intro m hm
    simp [connectedState] at hm
  · intro x m hm
    rw [(connectedState_nodes M addr factors varBdds hintsInput qvars x).1] at hm
    cases hm
  · intro e he
    simp [connectedState] at he
  · intro x m hm
    rw [(connectedState_nodes M addr factors varBdds hintsInput qvars x).1] at hm
    cases hm

/-- The function `initState` is the two merger loops run on `connectedState`. -/
theorem initState_eq (M : DdManager α) (addr : ℕ → ℕ) (factors varBdds : List α)
    (lss : ℤ) (hintsInput : MergeHints α) (qvars : List α) :
    initState M addr factors varBdds lss hintsInput qvars =
      ((List.range factors.length).foldlM (fun s f1 =>
        (List.range factors.length).foldlM (funcMergerOne M addr lss f1) s)
        (connectedState M addr factors varBdds hintsInput qvars)).bind
      (fun s1 => ((List.range varBdds.length).map (fun i => factors.length + i)).foldlM
        (fun s v1 => ((List.range varBdds.length).map (fun i => factors.length + i)).foldlM
          (varMergerOne M addr lss v1) s) s1) := rfl

/-- The first state exists (no constructor throws), satisfies the structural
invariant, and all its mergers join two func nodes or two var nodes that pass
`getCompatibility`. -/
theorem initState_spec (M : DdManager α) (addr : ℕ → ℕ) (factors varBdds : List α)
    (lss : ℤ) (hintsInput : MergeHints α) (qvars : List α) :
    ∃ s0, initState M addr factors varBdds lss hintsInput qvars = Except.ok s0 ∧ Inv M s0 ∧
      Added M (InitMerger M (connectedState M addr factors varBdds hintsInput qvars).nodes lss
        [] (setOfList qvars) factors.length varBdds.length)
        (connectedState M addr factors varBdds hintsInput qvars) s0 := by
  rw [initState_eq]
  have hlen := connectedState_length M addr factors varBdds hintsInput qvars
  have P0 : Inv M (connectedState M addr factors varBdds hintsInput qvars) ∧
      Added M (InitMerger M (connectedState M addr factors varBdds hintsInput qvars).nodes lss
        [] (setOfList qvars) factors.length varBdds.length)
        (connectedState M addr factors varBdds hintsInput qvars)
        (connectedState M addr factors varBdds hintsInput qvars) :=
    ⟨connectedState_inv M addr factors varBdds hintsInput qvars, Added.refl_added M _ _⟩
  -- one round of the func-func loop
  have hfunc : ∀ f1, f1 < factors.length → ∀ (s : MergeState α) (f2 : ℕ),
      (Inv M s ∧ Added M (InitMerger M
        (connectedState M addr factors varBdds hintsInput qvars).nodes lss
        [] (setOfList qvars) factors.length varBdds.length)
        (connectedState M addr factors varBdds hintsInput qvars) s) → f2 < factors.length →
      ∃ s', funcMergerOne M addr lss f1 s f2 = Except.ok s' ∧ (Inv M s' ∧
        Added M (InitMerger M (connectedState M addr factors varBdds hintsInput qvars).nodes
          lss [] (setOfList qvars) factors.length varBdds.length)
          (connectedState M addr factors varBdds hintsInput qvars) s') := by
    intro f1 hf1 s f2 hs hf2
    obtain ⟨hinv, hadd⟩ := hs
    unfold funcMergerOne
    split
    · cases hc : getCompatibility M s.nodes f1 f2 lss
          (s.hints.getWeight (nodeAt M s.nodes f1).node (nodeAt M s.nodes f2).node) s.qf with
      | none => exact ⟨s, rfl, hinv, hadd⟩
      | some p =>
        have hcomp : Compatible M (connectedState M addr factors varBdds hintsInput qvars).nodes
            lss [] f1 f2 := by
          apply Compatible.congr M hadd.core
          refine ⟨s.hints.getWeight (nodeAt M s.nodes f1).node (nodeAt M s.nodes f2).node, ?_⟩
          have hq : s.qf = [] := hadd.frame.2.2.1
          rw [← hq, hc]
          rfl
        have ht : (nodeAt M s.nodes f1).type = (nodeAt M s.nodes f2).type := by
          rw [core_type (hadd.core.2 f1), core_type (hadd.core.2 f2),
            connectedState_type_func M addr factors varBdds hintsInput qvars hf1,
            connectedState_type_func M addr factors varBdds hintsInput qvars hf2]
        obtain ⟨s', h1, h2, h3⟩ := newMerger_added M
          (InitMerger M (connectedState M addr factors varBdds hintsInput qvars).nodes lss
            [] (setOfList qvars) factors.length varBdds.length) s f1 f2 p hinv
          (by rw [hadd.core.1, hlen]; omega) (by rw [hadd.core.1, hlen]; omega) ht
          (Or.inl ⟨hf1, hf2, hcomp⟩)
        exact ⟨s', h1, h2, hadd.trans_added h3⟩
    · exact ⟨s, rfl, hinv, hadd⟩
  -- one round of the var-var loop
  have hvar : ∀ v1, (factors.length ≤ v1 ∧ v1 < factors.length + varBdds.length) →
      ∀ (s : MergeState α) (v2 : ℕ),
      (Inv M s ∧ Added M (InitMerger M
        (connectedState M addr factors varBdds hintsInput qvars).nodes lss
        [] (setOfList qvars) factors.length varBdds.length)
        (connectedState M addr factors varBdds hintsInput qvars) s) →
      (factors.length ≤ v2 ∧ v2 < factors.length + varBdds.length) →
      ∃ s', varMergerOne M addr lss v1 s v2 = Except.ok s' ∧ (Inv M s' ∧
        Added M (InitMerger M (connectedState M addr factors varBdds hintsInput qvars).nodes
          lss [] (setOfList qvars) factors.length varBdds.length)
          (connectedState M addr factors varBdds hintsInput qvars) s') := by
    intro v1 hv1 s v2 hs hv2
    obtain ⟨hinv, hadd⟩ := hs
    unfold varMergerOne
    split
    · cases hc : getCompatibility M s.nodes v1 v2 lss
          (s.hints.getWeight (nodeAt M s.nodes v1).node (nodeAt M s.nodes v2).node) s.qv with
      | none => exact ⟨s, rfl, hinv, hadd⟩
      | some p =>
        have hcomp : Compatible M (connectedState M addr factors varBdds hintsInput qvars).nodes
            lss (setOfList qvars) v1 v2 := by
          apply Compatible.congr M hadd.core
          refine ⟨s.hints.getWeight (nodeAt M s.nodes v1).node (nodeAt M s.nodes v2).node, ?_⟩
          have hq : s.qv = setOfList qvars := hadd.frame.2.1
          rw [← hq, hc]
          rfl
        have ht : (nodeAt M s.nodes v1).type = (nodeAt M s.nodes v2).type := by
          rw [core_type (hadd.core.2 v1), core_type (hadd.core.2 v2),
            connectedState_type_var M addr factors varBdds hintsInput qvars hv1.1 hv1.2,
            connectedState_type_var M addr factors varBdds hintsInput qvars hv2.1 hv2.2]
        obtain ⟨s', h1, h2, h3⟩ := newMerger_added M
          (InitMerger M (connectedState M addr factors varBdds hintsInput qvars).nodes lss
            [] (setOfList qvars) factors.length varBdds.length) s v1 v2 p hinv
          (by rw [hadd.core.1, hlen]; omega) (by rw [hadd.core.1, hlen]; omega) ht
          (Or.inr ⟨hv1.1, hv1.2, hv2.1, hv2.2, hcomp⟩)
        exact ⟨s', h1, h2, hadd.trans_added h3⟩
    · exact ⟨s, rfl, hinv, hadd⟩
  have hrangeF : ∀ b ∈ List.range factors.length, b < factors.length :=
    fun b hb => List.mem_range.1 hb
  have hrangeV : ∀ b ∈ (List.range varBdds.length).map (fun i => factors.length + i),
      factors.length ≤ b ∧ b < factors.length + varBdds.length := by
    intro b hb
    obtain ⟨i, hi, rfl⟩ := List.mem_map.1 hb
    have := List.mem_range.1 hi
    omega
  obtain ⟨s1, hs1, hP1⟩ := foldlM_invariant
    (fun s f1 => (List.range factors.length).foldlM (funcMergerOne M addr lss f1) s) _
    (fun b => b < factors.length)
    (fun s f1 hs hf1 => foldlM_invariant (funcMergerOne M addr lss f1) _
      (fun b => b < factors.length) (hfunc f1 hf1) _ s hs hrangeF)
    (List.range factors.length) _ P0 hrangeF
  obtain ⟨s2, hs2, hP2⟩ := foldlM_invariant
    (fun s v1 => ((List.range varBdds.length).map (fun i => factors.length + i)).foldlM
      (varMergerOne M addr lss v1) s) _
    (fun b => factors.length ≤ b ∧ b < factors.length + varBdds.length)
    (fun s v1 hs hv1 => foldlM_invariant (varMergerOne M addr lss v1) _
      (fun b => factors.length ≤ b ∧ b < factors.length + varBdds.length) (hvar v1 hv1) _ s hs
      hrangeV)
    ((List.range varBdds.length).map (fun i => factors.length + i)) s1 hP1 hrangeV
  refine ⟨s2, ?_, hP2.1, hP2.2⟩
  rw [hs1]
  exact hs2

end InitMergers

end blif_solve

/-! ## One round of the main loop -/

namespace blif_solve

section Refresh

variable {α : Type} [LinearOrder α]

theorem pullOutOtherNode_eq (mergers : List AmMerger) (nodes : List (AmNode α))
    (merger node1 node2 : ℕ) :
    pullOutOtherNode mergers nodes merger node1 node2 =
      (match otherNode mergers merger node1 node2 with
        | none => nodes
        | some y => updateNode
            (fun n => { n with mergers := n.mergers.filter (fun m => decide (m ≠ merger)) })
            y nodes,
       otherNode mergers merger node1 node2) := by
  unfold pullOutOtherNode otherNode
  simp only
  split_ifs <;> rfl

theorem otherNode_some {mergers : List AmMerger} {merger node1 node2 y : ℕ}
    (h : otherNode mergers merger node1 node2 = some y) :
    y ≠ node1 ∧ y ≠ node2 ∧
    ((y = (mergerAt mergers merger).node1) ∨
      (y = (mergerAt mergers merger).node2 ∧
        ((mergerAt mergers merger).node1 = node1 ∨
          (mergerAt mergers merger).node1 = node2))) := by
  unfold otherNode at h
  split_ifs at h with h1 h2
  · cases h
    exact ⟨h1.1, h1.2, Or.inl rfl⟩
  · cases h
    refine ⟨h2.1, h2.2, Or.inr ⟨rfl, ?_⟩⟩
    by_contra hc
    exact h1 ⟨fun e => hc (Or.inl e), fun e => hc (Or.inr e)⟩

theorem otherNode_congr (mergers new : List AmMerger) {merger : ℕ} (node1 node2 : ℕ)
    (h : merger < mergers.length) :
    otherNode (mergers ++ new) merger node1 node2 = otherNode mergers merger node1 node2 := by
  unfold otherNode
  rw [mergerAt_append_left _ _ h]

theorem eq_nil_of_subset_nil {l : List ℕ} (h : ∀ m, m ∈ l → False) : l = [] :=
  List.eq_nil_iff_forall_not_mem.2 (fun m hm => h m hm)

/-- Unlinking an old merger from its other node and from the heap keeps the
invariant, when the merger lists of the two contracted nodes are empty. -/
theorem unlink_inv (M : DdManager α) (s : MergeState α) (old node1 node2 y : ℕ)
    (hinv : Inv M s)
    (hc1 : (nodeAt M s.nodes node1).mergers = [])
    (hc2 : (nodeAt M s.nodes node2).mergers = [])
    (hy : otherNode s.mergers old node1 node2 = some y)
    (hend : (mergerAt s.mergers old).node1 = node1 ∨ (mergerAt s.mergers old).node1 = node2 ∨
      (mergerAt s.mergers old).node2 = node1 ∨ (mergerAt s.mergers old).node2 = node2) :
    Inv M { s with
      nodes := updateNode
        (fun n => { n with mergers := n.mergers.filter (fun m => decide (m ≠ old)) }) y s.nodes
      heap := MaxHeap.remove s.heap old } := by
  have hsc := sameCore_filter M s.nodes y old
  obtain ⟨hy1, hy2, hy3⟩ := otherNode_some hy
  constructor
  · intro m hm
    obtain ⟨h1, h2, h3⟩ := hinv.mergers_valid m hm
    refine ⟨by rw [hsc.1]; exact h1, by rw [hsc.1]; exact h2, ?_⟩
    show (nodeAt M (updateNode _ y s.nodes) _).type = (nodeAt M (updateNode _ y s.nodes) _).type
    rw [core_type (hsc.2 _), core_type (hsc.2 _)]
    exact h3
  · intro x m hm
    exact hinv.listed_endpoint x m ((mem_mergers_filter M s.nodes y old x m).1 hm).1
  · intro e he
    exact hinv.heap_valid e ((MaxHeap.mem_remove _ _ _).1 he).1
  · intro x m hm
    obtain ⟨hm1, hm2⟩ := (mem_mergers_filter M s.nodes y old x m).1 hm
    obtain ⟨e, he, hem⟩ := hinv.listed_in_heap x m hm1
    refine ⟨e, (MaxHeap.mem_remove _ _ _).2 ⟨he, ?_⟩, hem⟩
    rw [hem]
    intro hmo
    subst hmo
    have hxy : x ≠ y := fun h => hm2 ⟨rfl, h⟩
    have hx := (hinv.listed_endpoint x m hm1).2
    have hxc : x = node1 ∨ x = node2 := by
      rcases hy3 with h | ⟨h, h'⟩
      · rcases hx with hx | hx
        · exact absurd (hx.symm.trans h.symm) hxy
        · rcases hend with h1 | h1 | h1 | h1
          · exact absurd (h.trans h1) hy1
          · exact absurd (h.trans h1) hy2
          · exact Or.inl (hx.symm.trans h1)
          · exact Or.inr (hx.symm.trans h1)
      · rcases hx with hx | hx
        · rcases h' with h1 | h1
          · exact Or.inl (hx.symm.trans h1)
          · exact Or.inr (hx.symm.trans h1)
        · exact absurd (hx.symm.trans h.symm) hxy
    rcases hxc with rfl | rfl
    · rw [hc1] at hm1; cases hm1
    · rw [hc2] at hm1; cases hm1

end Refresh

end blif_solve

namespace blif_solve

section RefreshStep

variable {α : Type} [LinearOrder α]

theorem Compatible.of_some (M : DdManager α) {nodes : List (AmNode α)} {lss : ℤ}
    {q : List α} {i j : ℕ} {hint p : ℚ}
    (h : getCompatibility M nodes i j lss hint q = some p) : Compatible M nodes lss q i j :=
  ⟨hint, by rw [h]; rfl⟩

/-- One round of the loop over `oldMergers` keeps the loop invariant and does
not throw. -/
theorem refreshOne_step (M : DdManager α) (addr : ℕ → ℕ) (lss : ℤ) (isVar : Bool)
    (node1 node2 mergedNode : ℕ) (olds : List ℕ) (s1 : MergeState α)
    (hn1 : node1 < mergedNode) (hn2 : node2 < mergedNode)
    (hml : mergedNode < s1.nodes.length)
    (ht1 : (nodeAt M s1.nodes node1).type = (nodeAt M s1.nodes mergedNode).type)
    (ht2 : (nodeAt M s1.nodes node2).type = (nodeAt M s1.nodes mergedNode).type)
    (acc : MergeState α × List ℕ) (old : ℕ)
    (hP : RefreshInv M lss (if isVar then s1.qv else s1.qf) node1 node2 mergedNode olds s1 acc)
    (hQ : OldMerger s1.mergers node1 node2 mergedNode olds old) :
    ∃ acc', refreshOne M addr lss isVar node1 node2 mergedNode acc old = Except.ok acc' ∧
      RefreshInv M lss (if isVar then s1.qv else s1.qf) node1 node2 mergedNode olds s1 acc' := by
  obtain ⟨hold, holdlt, hlt1, hlt2, hend⟩ := hQ
  obtain ⟨new, hnew, hR⟩ := hP.added.mergers
  have hmg : mergerAt acc.1.mergers old = mergerAt s1.mergers old := by
    rw [hnew]; exact mergerAt_append_left _ _ holdlt
  have hother : otherNode acc.1.mergers old node1 node2 = otherNode s1.mergers old node1 node2 := by
    rw [hnew]; exact otherNode_congr _ _ _ _ holdlt
  have holdlt' : old < acc.1.mergers.length := by
    rw [hnew, List.length_append]; omega
  unfold refreshOne
  rw [pullOutOtherNode_eq]
  cases hy : otherNode acc.1.mergers old node1 node2 with
  | none => exact ⟨acc, rfl, hP⟩
  | some y =>
    have hy' : otherNode s1.mergers old node1 node2 = some y := by rw [← hother]; exact hy
    obtain ⟨hy1, hy2, hy3⟩ := otherNode_some hy
    have hinv' := unlink_inv M acc.1 old node1 node2 y hP.inv hP.cleared1 hP.cleared2 hy
      (by rw [hmg]; exact hend)
    have hsc := sameCore_filter M acc.1.nodes y old
    have hadd' : Added M (RefreshMerger M s1.nodes lss (if isVar then s1.qv else s1.qf)
        node1 node2 mergedNode) s1
        { acc.1 with
          nodes := updateNode
            (fun n => { n with mergers := n.mergers.filter (fun m => decide (m ≠ old)) })
            y acc.1.nodes
          heap := MaxHeap.remove acc.1.heap old } :=
      hP.added.trans_added ⟨⟨rfl, rfl, rfl, rfl, rfl⟩, hsc, [], by simp, by simp⟩
    have hcl : ∀ x, (nodeAt M acc.1.nodes x).mergers = [] →
        (nodeAt M (updateNode
          (fun n => { n with mergers := n.mergers.filter (fun m => decide (m ≠ old)) })
          y acc.1.nodes) x).mergers = [] := by
      intro x hx
      apply eq_nil_of_subset_nil
      intro m hm
      have := ((mem_mergers_filter M acc.1.nodes y old x m).1 hm).1
      rw [hx] at this
      cases this
    have hpend : ∀ (hp : MaxHeap) (set : List ℕ),
        (∀ e, e ∈ MaxHeap.remove acc.1.heap old → e ∈ hp) → y ∈ set →
        (∀ z, z ∈ acc.2 → z ∈ set) →
        ∀ old' ∈ olds, ∀ y', otherNode s1.mergers old' node1 node2 = some y' →
          (∃ e ∈ hp, e.1 = old') ∨ y' ∈ set := by
      intro hp set hsub hyset hmono old' hold' y' hy''
      by_cases heq : old' = old
      · subst heq
        rw [hy'] at hy''
        cases hy''
        exact Or.inr hyset
      · rcases hP.pending old' hold' y' hy'' with ⟨e, he, hee⟩ | h
        · exact Or.inl ⟨e, hsub e ((MaxHeap.mem_remove _ _ _).2 ⟨he, by rw [hee]; exact heq⟩), hee⟩
        · exact Or.inr (hmono _ h)
    simp only
    split
    · -- the other node was met before
      rename_i hmem
      refine ⟨_, rfl, ?_⟩
      exact ⟨hinv', hadd', hcl node1 hP.cleared1, hcl node2 hP.cleared2,
        le_trans (MaxHeap.length_remove_le _ _) hP.heap_le,
        hpend _ _ (fun e he => he) hmem (fun z hz => hz)⟩
    · rename_i hmem
      have hyins : y ∈ ptrSetInsert addr y acc.2 := (mem_ptrSetInsert addr y acc.2 y).2 (Or.inl rfl)
      have hmono : ∀ z, z ∈ acc.2 → z ∈ ptrSetInsert addr y acc.2 :=
        fun z hz => (mem_ptrSetInsert addr y acc.2 z).2 (Or.inr hz)
      split
      · -- a new merger is created
        rename_i priority hc
        have hylt : y < mergedNode := by
          rcases hy3 with h | ⟨h, _⟩
          · rw [h, hmg]; exact hlt1
          · rw [h, hmg]; exact hlt2
        have hlen' : (updateNode
            (fun n => { n with mergers := n.mergers.filter (fun m => decide (m ≠ old)) })
            y acc.1.nodes).length = s1.nodes.length := by
          rw [hsc.1, hP.added.core.1]
        have htype : ∀ x, (nodeAt M (updateNode
            (fun n => { n with mergers := n.mergers.filter (fun m => decide (m ≠ old)) })
            y acc.1.nodes) x).type = (nodeAt M s1.nodes x).type :=
          fun x => core_type (hadd'.core.2 x)
        have htyy : (nodeAt M s1.nodes y).type = (nodeAt M s1.nodes mergedNode).type := by
          have hv := (hP.inv.mergers_valid old holdlt').2.2
          rw [core_type (hP.added.core.2 _), core_type (hP.added.core.2 _), hmg] at hv
          rcases hy3 with h | ⟨h, h'⟩
          · rw [h, hmg]
            rcases hend with h1 | h1 | h1 | h1
            · exact absurd (by rw [h, hmg]; exact h1) hy1
            · exact absurd (by rw [h, hmg]; exact h1) hy2
            · rw [hv, h1]; exact ht1
            · rw [hv, h1]; exact ht2
          · rw [h, hmg, ← hv]
            rw [hmg] at h'
            rcases h' with h1 | h1
            · rw [h1]; exact ht1
            · rw [h1]; exact ht2
        obtain ⟨s2, h1, h2, h3, h4, h5, h6, h7⟩ := newMerger_spec M
          { acc.1 with
            nodes := updateNode
              (fun n => { n with mergers := n.mergers.filter (fun m => decide (m ≠ old)) })
              y acc.1.nodes
            heap := MaxHeap.remove acc.1.heap old } mergedNode y priority hinv'
          (by rw [hlen']; exact hml) (by rw [hlen']; omega)
          (by rw [htype, htype]; exact htyy.symm)
        refine ⟨(s2, ptrSetInsert addr y acc.2), ?_, ?_⟩
        · rw [h1]; rfl
        · have hcompat : Compatible M s1.nodes lss (if isVar then s1.qv else s1.qf)
              mergedNode y := by
            apply Compatible.congr M hadd'.core
            have hq : (if isVar = true then acc.1.qv else acc.1.qf) =
                (if isVar = true then s1.qv else s1.qf) := by
              rw [hP.added.frame.2.1, hP.added.frame.2.2.1]
            rw [← hq]
            exact Compatible.of_some M hc
          have hold_in : ∃ e ∈ acc.1.heap, e.1 = old := by
            rcases hP.pending old hold y hy' with h | h
            · exact h
            · exact absurd h hmem
          constructor
          · exact h2
          · exact hadd'.trans_added ⟨h3, h4, [⟨mergedNode, y⟩], h5,
              fun mg hmg' => by
                rw [List.mem_singleton] at hmg'
                rw [hmg']
                exact ⟨rfl, hy1, hy2, hylt, hcompat⟩⟩
          · apply eq_nil_of_subset_nil
            intro m hm
            rcases (h7 node1 m).1 hm with h | ⟨_, h | h⟩
            · rw [hcl node1 hP.cleared1] at h; cases h
            · omega
            · exact hy1 h.symm
          · apply eq_nil_of_subset_nil
            intro m hm
            rcases (h7 node2 m).1 hm with h | ⟨_, h | h⟩
            · rw [hcl node2 hP.cleared2] at h; cases h
            · omega
            · exact hy2 h.symm
          · show s2.heap.length ≤ s1.heap.length
            have h6' : s2.heap = MaxHeap.remove acc.1.heap old ++
                [(acc.1.mergers.length, priority)] := h6
            rw [h6', List.length_append, List.length_singleton]
            have := MaxHeap.length_remove_lt acc.1.heap old hold_in
            have := hP.heap_le
            omega
          · apply hpend _ _ _ hyins hmono
            intro e he
            show e ∈ s2.heap
            rw [h6]
            exact List.mem_append_left _ he
      · -- the pair is not eligible
        refine ⟨_, rfl, ?_⟩
        exact ⟨hinv', hadd', hcl node1 hP.cleared1, hcl node2 hP.cleared2,
          le_trans (MaxHeap.length_remove_le _ _) hP.heap_le,
          hpend _ _ (fun e he => he) hyins hmono⟩

end RefreshStep

end blif_solve

namespace blif_solve

section LoopStep

variable {α : Type} [LinearOrder α]

/-- The function `loopStep` is the loop over `oldMergers` run on `contractState`. -/
theorem loopStep_eq (M : DdManager α) (addr : ℕ → ℕ) (lss : ℤ) (tie : ℕ) (s : MergeState α)
    (merger : ℕ) (htop : MaxHeap.top s.heap tie = some merger)
    (ht : (nodeAt M s.nodes (mergerAt s.mergers merger).node1).type =
      (nodeAt M s.nodes (mergerAt s.mergers merger).node2).type) :
    loopStep M addr lss tie s =
      ((oldMergersOf M addr s merger).foldlM
        (refreshOne M addr lss
          (decide ((nodeAt M s.nodes (mergerAt s.mergers merger).node1).type = NodeType.Var))
          (mergerAt s.mergers merger).node1 (mergerAt s.mergers merger).node2 s.nodes.length)
        (contractState M addr s merger, [])).map (fun r => r.1) := by
  unfold loopStep
  rw [htop]
  dsimp only
  rw [if_neg (fun h => h ht)]
  rfl

end LoopStep

end blif_solve

namespace blif_solve

section ContractState

variable {α : Type} [LinearOrder α]

theorem contractState_length (M : DdManager α) (addr : ℕ → ℕ) (s : MergeState α) (merger : ℕ) :
    (contractState M addr s merger).nodes.length = s.nodes.length + 1 := by
  simp [contractState, length_updateNode]

theorem contractState_mergers (M : DdManager α) (addr : ℕ → ℕ) (s : MergeState α)
    (merger : ℕ) : (contractState M addr s merger).mergers = s.mergers := rfl

theorem contractState_heap (M : DdManager α) (addr : ℕ → ℕ) (s : MergeState α)
    (merger : ℕ) : (contractState M addr s merger).heap = MaxHeap.remove s.heap merger := rfl

/-- The nodes of `contractState` are the old nodes followed by the merged node,
up to the merger lists. -/
theorem contractState_core_old (M : DdManager α) (addr : ℕ → ℕ) (s : MergeState α)
    (merger : ℕ) {j : ℕ} (hj : j < s.nodes.length) :
    (nodeAt M (contractState M addr s merger).nodes j).core = (nodeAt M s.nodes j).core := by
  unfold contractState
  simp only
  rw [(sameCore_clear M _ _).2, (sameCore_clear M _ _).2, nodeAt_append_left M _ _ hj]

theorem contractState_new (M : DdManager α) (addr : ℕ → ℕ) (s : MergeState α) (merger : ℕ) :
    (nodeAt M (contractState M addr s merger).nodes s.nodes.length).core =
      ((nodeAt M s.nodes (mergerAt s.mergers merger).node1).type,
        mergedBddOf M s merger,
        (if (nodeAt M s.nodes (mergerAt s.mergers merger).node1).type = NodeType.Func then
          M.bdd_support (mergedBddOf M s merger) else mergedBddOf M s merger),
        (nodeAt M s.nodes (mergerAt s.mergers merger).node2).neighbours.foldl
          (fun set neigh => ptrSetInsert addr neigh set)
          ((nodeAt M s.nodes (mergerAt s.mergers merger).node1).neighbours.foldl
            (fun set neigh => ptrSetInsert addr neigh set) [])) := by
  unfold contractState
  simp only
  rw [(sameCore_clear M _ _).2, (sameCore_clear M _ _).2, nodeAt_append_length]
  rfl

theorem contractState_listed (M : DdManager α) (addr : ℕ → ℕ) (s : MergeState α)
    (merger : ℕ) (h1 : (mergerAt s.mergers merger).node1 < s.nodes.length)
    (h2 : (mergerAt s.mergers merger).node2 < s.nodes.length) (x m : ℕ)
    (hm : m ∈ (nodeAt M (contractState M addr s merger).nodes x).mergers) :
    m ∈ (nodeAt M s.nodes x).mergers ∧ x ≠ (mergerAt s.mergers merger).node1 ∧
      x ≠ (mergerAt s.mergers merger).node2 ∧ x < s.nodes.length := by
  unfold contractState at hm
  simp only at hm
  rw [nodeAt_updateNode] at hm
  split at hm
  · cases hm
  · rename_i hx2
    rw [nodeAt_updateNode] at hm
    split at hm
    · cases hm
    · rename_i hx1
      simp only [length_updateNode, List.length_append, List.length_singleton] at hx1 hx2
      have hx1' : x ≠ (mergerAt s.mergers merger).node1 := fun h => hx1 ⟨h, by omega⟩
      have hx2' : x ≠ (mergerAt s.mergers merger).node2 := fun h => hx2 ⟨h, by omega⟩
      by_cases hx : x < s.nodes.length
      · rw [nodeAt_append_left M _ _ hx] at hm
        exact ⟨hm, hx1', hx2', hx⟩
      · by_cases hx' : x = s.nodes.length
        · subst hx'
          rw [nodeAt_append_length] at hm
          cases hm
        · rw [nodeAt_of_length_le] at hm
          · cases hm
          · simp only [List.length_append, List.length_singleton]
            omega

theorem oldMergersOf_mem (M : DdManager α) (addr : ℕ → ℕ) (s : MergeState α) (merger : ℕ)
    (h1 : (mergerAt s.mergers merger).node1 < s.nodes.length)
    (h2 : (mergerAt s.mergers merger).node2 < s.nodes.length) (old : ℕ)
    (h : old ∈ oldMergersOf M addr s merger) :
    old ∈ (nodeAt M s.nodes (mergerAt s.mergers merger).node1).mergers ∨
    old ∈ (nodeAt M s.nodes (mergerAt s.mergers merger).node2).mergers := by
  unfold oldMergersOf at h
  simp only at h
  rcases List.mem_append.1 h with h | h
  · rw [nodeAt_append_left M _ _ h1] at h
    exact Or.inl h
  · rw [nodeAt_updateNode] at h
    split at h
    · cases h
    · rw [nodeAt_append_left M _ _ h2] at h
      exact Or.inr h

theorem otherNode_self (mergers : List AmMerger) (merger : ℕ) :
    otherNode mergers merger (mergerAt mergers merger).node1 (mergerAt mergers merger).node2 =
      none := by
  unfold otherNode
  simp

theorem contractState_inv (M : DdManager α) (addr : ℕ → ℕ) (s : MergeState α) (merger : ℕ)
    (hinv : Inv M s) (hm : merger < s.mergers.length) :
    Inv M (contractState M addr s merger) := by
  obtain ⟨h1, h2, _⟩ := hinv.mergers_valid merger hm
  constructor
  · intro m hm'
    rw [contractState_mergers] at hm' ⊢
    obtain ⟨v1, v2, v3⟩ := hinv.mergers_valid m hm'
    rw [contractState_length]
    refine ⟨by omega, by omega, ?_⟩
    rw [core_type (contractState_core_old M addr s merger v1),
      core_type (contractState_core_old M addr s merger v2)]
    exact v3
  · intro x m hm'
    rw [contractState_mergers]
    exact hinv.listed_endpoint x m (contractState_listed M addr s merger h1 h2 x m hm').1
  · intro e he
    rw [contractState_heap] at he
    exact hinv.heap_valid e ((MaxHeap.mem_remove _ _ _).1 he).1
  · intro x m hm'
    obtain ⟨hl, hx1, hx2, _⟩ := contractState_listed M addr s merger h1 h2 x m hm'
    obtain ⟨e, he, hem⟩ := hinv.listed_in_heap x m hl
    refine ⟨e, ?_, hem⟩
    rw [contractState_heap]
    refine (MaxHeap.mem_remove _ _ _).2 ⟨he, ?_⟩
    rw [hem]
    intro heq
    subst heq
    rcases (hinv.listed_endpoint x m hl).2 with h | h
    · exact hx1 h.symm
    · exact hx2 h.symm

theorem contractState_cleared (M : DdManager α) (addr : ℕ → ℕ) (s : MergeState α)
    (merger : ℕ) (h1 : (mergerAt s.mergers merger).node1 < s.nodes.length)
    (h2 : (mergerAt s.mergers merger).node2 < s.nodes.length) :
    (nodeAt M (contractState M addr s merger).nodes (mergerAt s.mergers merger).node1).mergers
      = [] ∧
    (nodeAt M (contractState M addr s merger).nodes (mergerAt s.mergers merger).node2).mergers
      = [] := by
  constructor
  · apply eq_nil_of_subset_nil
    intro m hm
    exact (contractState_listed M addr s merger h1 h2 _ m hm).2.1 rfl
  · apply eq_nil_of_subset_nil
    intro m hm
    exact (contractState_listed M addr s merger h1 h2 _ m hm).2.2.1 rfl

/-- A round of the main loop on a state that satisfies the invariant: the round
does not throw, keeps the invariant, shrinks the heap, and the new state comes
from `contractState` by the creation and removal of mergers. -/
theorem loopStep_spec (M : DdManager α) (addr : ℕ → ℕ) (lss : ℤ) (tie : ℕ)
    (s : MergeState α) (hinv : Inv M s) (hne : s.heap ≠ []) :
    ∃ merger s', MaxHeap.top s.heap tie = some merger ∧ merger < s.mergers.length ∧
      loopStep M addr lss tie s = Except.ok s' ∧ Inv M s' ∧
      s'.heap.length < s.heap.length ∧
      Added M (RefreshMerger M (contractState M addr s merger).nodes lss
        (quantifiedOf M addr s merger)
        (mergerAt s.mergers merger).node1 (mergerAt s.mergers merger).node2 s.nodes.length)
        (contractState M addr s merger) s' := by
  obtain ⟨merger, htop, hmem⟩ := MaxHeap.top_of_ne_nil s.heap hne tie
  have hm : merger < s.mergers.length := by
    obtain ⟨e, he, rfl⟩ := hmem
    exact hinv.heap_valid e he
  obtain ⟨h1, h2, ht⟩ := hinv.mergers_valid merger hm
  have hinv1 := contractState_inv M addr s merger hinv hm
  obtain ⟨hc1, hc2⟩ := contractState_cleared M addr s merger h1 h2
  have hnewtype : (nodeAt M (contractState M addr s merger).nodes s.nodes.length).type =
      (nodeAt M s.nodes (mergerAt s.mergers merger).node1).type :=
    congrArg (fun c => c.1) (contractState_new M addr s merger)
  have hP0 : RefreshInv M lss (quantifiedOf M addr s merger)
      (mergerAt s.mergers merger).node1 (mergerAt s.mergers merger).node2 s.nodes.length
      (oldMergersOf M addr s merger) (contractState M addr s merger)
      (contractState M addr s merger, []) := by
    refine ⟨hinv1, Added.refl_added M _ _, hc1, hc2, le_refl _, ?_⟩
    intro old hold y hy
    left
    rw [contractState_mergers] at hy
    have hlisted := oldMergersOf_mem M addr s merger h1 h2 old hold
    have hheap : ∃ e ∈ s.heap, e.1 = old := by
      rcases hlisted with h | h
      · exact hinv.listed_in_heap _ old h
      · exact hinv.listed_in_heap _ old h
    obtain ⟨e, he, hem⟩ := hheap
    refine ⟨e, ?_, hem⟩
    show e ∈ MaxHeap.remove s.heap merger
    refine (MaxHeap.mem_remove _ _ _).2 ⟨he, ?_⟩
    rw [hem]
    intro heq
    subst heq
    rw [otherNode_self] at hy
    cases hy
  have hQ : ∀ old ∈ oldMergersOf M addr s merger,
      OldMerger (contractState M addr s merger).mergers (mergerAt s.mergers merger).node1
        (mergerAt s.mergers merger).node2 s.nodes.length (oldMergersOf M addr s merger) old := by
    intro old hold
    rw [contractState_mergers]
    have hlisted := oldMergersOf_mem M addr s merger h1 h2 old hold
    have hlt : old < s.mergers.length := by
      rcases hlisted with h | h
      · exact (hinv.listed_endpoint _ old h).1
      · exact (hinv.listed_endpoint _ old h).1
    obtain ⟨v1, v2, _⟩ := hinv.mergers_valid old hlt
    refine ⟨hold, hlt, v1, v2, ?_⟩
    rcases hlisted with h | h
    · rcases (hinv.listed_endpoint _ old h).2 with h' | h'
      · exact Or.inl h'
      · exact Or.inr (Or.inr (Or.inl h'))
    · rcases (hinv.listed_endpoint _ old h).2 with h' | h'
      · exact Or.inr (Or.inl h')
      · exact Or.inr (Or.inr (Or.inr h'))
  have hquant : quantifiedOf M addr s merger =
      (if decide ((nodeAt M s.nodes (mergerAt s.mergers merger).node1).type = NodeType.Var) = true
        then (contractState M addr s merger).qv else (contractState M addr s merger).qf) := rfl
  obtain ⟨acc', hfold, hP'⟩ := foldlM_invariant
    (refreshOne M addr lss
      (decide ((nodeAt M s.nodes (mergerAt s.mergers merger).node1).type = NodeType.Var))
      (mergerAt s.mergers merger).node1 (mergerAt s.mergers merger).node2 s.nodes.length)
    (RefreshInv M lss (quantifiedOf M addr s merger)
      (mergerAt s.mergers merger).node1 (mergerAt s.mergers merger).node2 s.nodes.length
      (oldMergersOf M addr s merger) (contractState M addr s merger))
    (OldMerger (contractState M addr s merger).mergers (mergerAt s.mergers merger).node1
      (mergerAt s.mergers merger).node2 s.nodes.length (oldMergersOf M addr s merger))
    (fun acc old hP hQ' => by
      rw [hquant] at hP ⊢
      exact refreshOne_step M addr lss _ _ _ _ _ (contractState M addr s merger) h1 h2
        (by rw [contractState_length]; omega)
        (by rw [hnewtype, core_type (contractState_core_old M addr s merger h1)])
        (by rw [hnewtype, core_type (contractState_core_old M addr s merger h2)]
            exact ht.symm)
        acc old hP hQ')
    (oldMergersOf M addr s merger) _ hP0 hQ
  refine ⟨merger, acc'.1, htop, hm, ?_, hP'.inv, ?_, hP'.added⟩
  · rw [loopStep_eq M addr lss tie s merger htop ht, hfold]
    rfl
  · have := hP'.heap_le
    rw [contractState_heap] at this
    exact lt_of_le_of_lt this (MaxHeap.length_remove_lt _ _ hmem)

end ContractState

end blif_solve

/-! ## The main loop -/

namespace blif_solve

section MainLoop

variable {α : Type} [LinearOrder α]

/-- The main loop with at least as much fuel as the heap has cells ends with an
empty heap and does not throw; every property that each round keeps holds at
the end. -/
theorem mainLoop_spec (M : DdManager α) (addr : ℕ → ℕ) (lss : ℤ) (tie : ℕ → ℕ)
    (I : MergeState α → Prop)
    (hI : ∀ t s s', Inv M s → I s → s.heap ≠ [] → loopStep M addr lss t s = Except.ok s' →
      I s') :
    ∀ (fuel k : ℕ) (s : MergeState α), Inv M s → I s → s.heap.length ≤ fuel →
      ∃ s', mainLoop M addr lss tie fuel k s = Except.ok s' ∧ Inv M s' ∧ I s' ∧
        s'.heap = [] := by
  intro fuel
  induction fuel with
  | zero =>
    intro k s hinv hi hlen
    have : s.heap = [] := List.length_eq_zero.1 (Nat.le_zero.1 hlen)
    exact ⟨s, by simp [mainLoop, this], hinv, hi, this⟩
  | succ fuel ih =>
    intro k s hinv hi hlen
    by_cases hne : s.heap = []
    · exact ⟨s, by simp [mainLoop, hne], hinv, hi, hne⟩
    · obtain ⟨merger, s1, _, _, hstep, hinv1, hlt, _⟩ :=
        loopStep_spec M addr lss (tie k) s hinv hne
      obtain ⟨s2, h2, hinv2, hi2, hemp⟩ := ih (k + 1) s1 hinv1
        (hI (tie k) s s1 hinv hi hne hstep) (by omega)
      refine ⟨s2, ?_, hinv2, hi2, hemp⟩
      rw [mainLoop, if_neg hne, hstep]
      exact h2

/-- The state after any number of rounds exists (no round throws) and has every
property that each round keeps. -/
theorem runRounds_spec (M : DdManager α) (addr : ℕ → ℕ) (lss : ℤ) (tie : ℕ → ℕ)
    (I : MergeState α → Prop)
    (hI : ∀ t s s', Inv M s → I s → s.heap ≠ [] → loopStep M addr lss t s = Except.ok s' →
      I s') :
    ∀ (n k : ℕ) (s : MergeState α), Inv M s → I s →
      ∃ s', runRounds M addr lss tie n k s = Except.ok s' ∧ Inv M s' ∧ I s' := by
  intro n
  induction n with
  | zero =>
    intro k s hinv hi
    exact ⟨s, rfl, hinv, hi⟩
  | succ n ih =>
    intro k s hinv hi
    by_cases hne : s.heap = []
    · exact ⟨s, by simp [runRounds, hne], hinv, hi⟩
    · obtain ⟨merger, s1, _, _, hstep, hinv1, _, _⟩ :=
        loopStep_spec M addr lss (tie k) s hinv hne
      obtain ⟨s2, h2, hinv2, hi2⟩ := ih (k + 1) s1 hinv1
        (hI (tie k) s s1 hinv hi hne hstep)
      refine ⟨s2, ?_, hinv2, hi2⟩
      rw [runRounds, if_neg hne, hstep]
      exact h2

/-- A round that succeeds is the one described by `loopStep_spec`. -/
theorem loopStep_ok (M : DdManager α) (addr : ℕ → ℕ) (lss : ℤ) (t : ℕ)
    (s s' : MergeState α) (hinv : Inv M s) (hne : s.heap ≠ [])
    (h : loopStep M addr lss t s = Except.ok s') :
    ∃ merger, MaxHeap.top s.heap t = some merger ∧ merger < s.mergers.length ∧
      Added M (RefreshMerger M (contractState M addr s merger).nodes lss
        (quantifiedOf M addr s merger)
        (mergerAt s.mergers merger).node1 (mergerAt s.mergers merger).node2 s.nodes.length)
        (contractState M addr s merger) s' := by
  obtain ⟨merger, s1, htop, hm, hstep, _, _, hadd⟩ := loopStep_spec M addr lss t s hinv hne
  rw [h] at hstep
  cases hstep
  exact ⟨merger, htop, hm, hadd⟩

theorem contractState_core_ne (M : DdManager α) (addr : ℕ → ℕ) (s : MergeState α)
    (merger : ℕ) {j : ℕ} (hj : j ≠ s.nodes.length) :
    (nodeAt M (contractState M addr s merger).nodes j).core = (nodeAt M s.nodes j).core := by
  by_cases h : j < s.nodes.length
  · exact contractState_core_old M addr s merger h
  · rw [nodeAt_of_length_le M s.nodes (not_lt.1 h), nodeAt_of_length_le]
    rw [contractState_length]
    omega

theorem nodeType_eq_func_of_ne_var {t : NodeType} (h : t ≠ NodeType.Var) : t = NodeType.Func := by
  cases t
  · rfl
  · exact absurd rfl h

theorem contractState_mergedFactors_func (M : DdManager α) (addr : ℕ → ℕ) (s : MergeState α)
    (merger : ℕ)
    (h : (nodeAt M s.nodes (mergerAt s.mergers merger).node1).type = NodeType.Func) :
    (contractState M addr s merger).mergedFactors =
      setInsert (mergedBddOf M s merger)
        (setErase (nodeAt M s.nodes (mergerAt s.mergers merger).node2).node
          (setErase (nodeAt M s.nodes (mergerAt s.mergers merger).node1).node
            s.mergedFactors)) := by
  simp [contractState, h, mergedBddOf]

theorem contractState_mergedFactors_var (M : DdManager α) (addr : ℕ → ℕ) (s : MergeState α)
    (merger : ℕ)
    (h : (nodeAt M s.nodes (mergerAt s.mergers merger).node1).type = NodeType.Var) :
    (contractState M addr s merger).mergedFactors = s.mergedFactors := by
  simp [contractState, h]

theorem contractState_mergedVariables_var (M : DdManager α) (addr : ℕ → ℕ) (s : MergeState α)
    (merger : ℕ)
    (h : (nodeAt M s.nodes (mergerAt s.mergers merger).node1).type = NodeType.Var) :
    (contractState M addr s merger).mergedVariables =
      setInsert (mergedBddOf M s merger)
        (setErase (nodeAt M s.nodes (mergerAt s.mergers merger).node2).node
          (setErase (nodeAt M s.nodes (mergerAt s.mergers merger).node1).node
            s.mergedVariables)) := by
  simp [contractState, h, mergedBddOf]

theorem contractState_mergedVariables_func (M : DdManager α) (addr : ℕ → ℕ) (s : MergeState α)
    (merger : ℕ)
    (h : (nodeAt M s.nodes (mergerAt s.mergers merger).node1).type = NodeType.Func) :
    (contractState M addr s merger).mergedVariables = s.mergedVariables := by
  simp [contractState, h]

/-- Replacing two implied members of a conjunction by their conjunction keeps
the conjunction. -/
theorem conjHolds_replace {M : DdManager α} {S : Semantics α} (D : M.Lawful S) (l : List α) (a b : α)
    (σ : ℕ → Bool) (ha : conjHolds S l σ → S.sem a σ = true)
    (hb : conjHolds S l σ → S.sem b σ = true) :
    conjHolds S (setInsert (M.bdd_and a b) (setErase b (setErase a l))) σ ↔
      conjHolds S l σ := by
  constructor
  · intro h
    have hab : S.sem (M.bdd_and a b) σ = true :=
      h _ ((mem_setInsert _ _ _).2 (Or.inl rfl))
    rw [D.sem_and, Bool.and_eq_true] at hab
    intro f hf
    by_cases hfa : f = a
    · rw [hfa]; exact hab.1
    · by_cases hfb : f = b
      · rw [hfb]; exact hab.2
      · exact h f ((mem_setInsert _ _ _).2 (Or.inr ((mem_setErase _ _ _).2
          ⟨(mem_setErase _ _ _).2 ⟨hf, hfa⟩, hfb⟩)))
  · intro h f hf
    rcases (mem_setInsert _ _ _).1 hf with rfl | hf
    · rw [D.sem_and, ha h, hb h]
      rfl
    · exact h f ((mem_setErase _ _ _).1 ((mem_setErase _ _ _).1 hf).1).1

theorem FactorsInv.step_factors {M : DdManager α} {S : Semantics α} (D : M.Lawful S) (addr : ℕ → ℕ) (lss : ℤ)
    (factors : List α) (t : ℕ) (s s' : MergeState α) (hinv : Inv M s)
    (hF : FactorsInv M S factors s) (hne : s.heap ≠ [])
    (h : loopStep M addr lss t s = Except.ok s') : FactorsInv M S factors s' := by
  obtain ⟨merger, _, hm, hadd⟩ := loopStep_ok M addr lss t s s' hinv hne h
  obtain ⟨_, _, ht⟩ := hinv.mergers_valid merger hm
  have hmf : s'.mergedFactors = (contractState M addr s merger).mergedFactors :=
    hadd.frame.2.2.2.1
  have hcore : ∀ j, (nodeAt M s'.nodes j).core =
      (nodeAt M (contractState M addr s merger).nodes j).core := hadd.core.2
  by_cases hty : (nodeAt M s.nodes (mergerAt s.mergers merger).node1).type = NodeType.Var
  · -- a var merger: the factors and the func nodes stay
    rw [contractState_mergedFactors_var M addr s merger hty] at hmf
    constructor
    · intro σ
      rw [hmf]
      exact hF.equiv σ
    · intro j hj σ hσ
      rw [hmf] at hσ
      by_cases hjn : j = s.nodes.length
      · subst hjn
        rw [core_type (hcore _)] at hj
        have := congrArg (fun c => c.1) (contractState_new M addr s merger)
        simp only [AmNode.core] at this
        rw [this, hty] at hj
        cases hj
      · rw [core_type (hcore j), core_type (contractState_core_ne M addr s merger hjn)] at hj
        rw [core_node (hcore j), core_node (contractState_core_ne M addr s merger hjn)]
        exact hF.implied j hj σ hσ
  · have hty1 := nodeType_eq_func_of_ne_var hty
    have hty2 : (nodeAt M s.nodes (mergerAt s.mergers merger).node2).type = NodeType.Func := by
      rw [← ht]; exact hty1
    rw [contractState_mergedFactors_func M addr s merger hty1] at hmf
    have hrep : ∀ σ, conjHolds S s'.mergedFactors σ ↔ conjHolds S s.mergedFactors σ := by
      intro σ
      rw [hmf]
      exact conjHolds_replace D _ _ _ σ (hF.implied _ hty1 σ) (hF.implied _ hty2 σ)
    constructor
    · intro σ
      rw [hrep σ]
      exact hF.equiv σ
    · intro j hj σ hσ
      by_cases hjn : j = s.nodes.length
      · subst hjn
        rw [core_node (hcore _)]
        have hn := congrArg (fun c => c.2.1) (contractState_new M addr s merger)
        simp only [AmNode.core] at hn
        rw [hn]
        apply hσ
        rw [hmf]
        exact (mem_setInsert _ _ _).2 (Or.inl rfl)
      · rw [core_type (hcore j), core_type (contractState_core_ne M addr s merger hjn)] at hj
        rw [core_node (hcore j), core_node (contractState_core_ne M addr s merger hjn)]
        exact hF.implied j hj σ ((hrep σ).1 hσ)

end MainLoop

end blif_solve

/-! ## Semantic equivalence and kind separation -/

namespace blif_solve

section Claims15

variable {α : Type} [LinearOrder α]

theorem FactorsInv.factors_of_added {M : DdManager α} (S : Semantics α) (R : AmMerger → Prop)
    (factors : List α) {s s' : MergeState α} (hadd : Added M R s s')
    (hF : FactorsInv M S factors s) : FactorsInv M S factors s' := by
  have hmf : s'.mergedFactors = s.mergedFactors := hadd.frame.2.2.2.1
  constructor
  · intro σ
    rw [hmf]
    exact hF.equiv σ
  · intro j hj σ hσ
    rw [hmf] at hσ
    rw [core_type (hadd.core.2 j)] at hj
    rw [core_node (hadd.core.2 j)]
    exact hF.implied j hj σ hσ

theorem FactorsInv.init_factors {M : DdManager α} {S : Semantics α} (D : M.Lawful S) (addr : ℕ → ℕ)
    (factors varBdds : List α) (hintsInput : MergeHints α) (qvars : List α) :
    FactorsInv M S factors (connectedState M addr factors varBdds hintsInput qvars) := by
  have hconj : ∀ σ, conjHolds S (setOfList factors) σ ↔ conjHolds S factors σ := by
    intro σ
    unfold conjHolds
    simp only [mem_setOfList]
  constructor
  · exact hconj
  · intro j hj σ hσ
    have hσ' := (hconj σ).1 hσ
    rcases (connectedState_nodes M addr factors varBdds hintsInput qvars j).2 with
      ⟨_, f, hf, _, hn, _⟩ | ⟨_, _, v, _, ht, _⟩ | ⟨_, _, hn, _⟩
    · rw [hn]; exact hσ' f hf
    · rw [ht] at hj; cases hj
    · rw [hn]; exact D.sem_one σ

/-- The first state, with all that is known of it without assumptions on the
inputs. -/
theorem initState_factors {M : DdManager α} {S : Semantics α} (D : M.Lawful S) (addr : ℕ → ℕ)
    (factors varBdds : List α) (lss : ℤ) (hintsInput : MergeHints α) (qvars : List α) :
    ∃ s0, initState M addr factors varBdds lss hintsInput qvars = Except.ok s0 ∧ Inv M s0 ∧
      FactorsInv M S factors s0 := by
  obtain ⟨s0, h0, hinv, hadd⟩ := initState_spec M addr factors varBdds lss hintsInput qvars
  exact ⟨s0, h0, hinv, FactorsInv.factors_of_added S _ factors hadd
    (FactorsInv.init_factors D addr factors varBdds hintsInput qvars)⟩

/-- C1. `blif_solve::merge` returns (it neither throws nor runs out of fuel),
and the conjunction of the returned factors is logically equivalent to the
conjunction of the input factors: both hold under the same assignments. -/
theorem merge_factors_equivalent {M : DdManager α} {S : Semantics α} (D : M.Lawful S) (addr : ℕ → ℕ) (tie : ℕ → ℕ)
    (factors varBdds : List α) (largestSupportSet : ℤ) (hintsInput : MergeHints α)
    (quantifiedVariables : List α) :
    ∃ r, merge M addr tie factors varBdds largestSupportSet hintsInput quantifiedVariables =
        Except.ok r ∧
      ∀ σ : ℕ → Bool,
        (∀ f ∈ r.factors, S.sem f σ = true) ↔ (∀ f ∈ factors, S.sem f σ = true) := by
  obtain ⟨s0, h0, hinv, hF⟩ := initState_factors D addr factors varBdds largestSupportSet
    hintsInput quantifiedVariables
  obtain ⟨s, hs, _, hFs, _⟩ := mainLoop_spec M addr largestSupportSet tie
    (FactorsInv M S factors)
    (fun t s s' hi hf hne h => FactorsInv.step_factors D addr largestSupportSet factors t s s' hi hf hne h)
    s0.heap.length 0 s0 hinv hF (le_refl _)
  refine ⟨s.results, ?_, hFs.equiv⟩
  unfold merge
  rw [h0]
  show Except.map MergeState.results (mainLoop M addr largestSupportSet tie s0.heap.length 0 s0)
    = Except.ok s.results
  rw [hs]
  rfl

/-- C5. `blif_solve::merge` returns without throwing, and in the state after
any number of rounds of the main loop every merger of the arena, and so every
merger that `top` can return, joins two nodes of the same type. -/
theorem merge_kind_separation (M : DdManager α) (addr : ℕ → ℕ) (tie : ℕ → ℕ)
    (factors varBdds : List α) (largestSupportSet : ℤ) (hintsInput : MergeHints α)
    (quantifiedVariables : List α) :
    (∃ r, merge M addr tie factors varBdds largestSupportSet hintsInput quantifiedVariables =
        Except.ok r) ∧
    ∀ n : ℕ, ∃ s, stateAfter M addr tie n factors varBdds largestSupportSet hintsInput
        quantifiedVariables = Except.ok s ∧
      (∀ mg ∈ s.mergers,
        (nodeAt M s.nodes mg.node1).type = (nodeAt M s.nodes mg.node2).type) ∧
      (∀ t merger, MaxHeap.top s.heap t = some merger →
        (nodeAt M s.nodes (mergerAt s.mergers merger).node1).type =
          (nodeAt M s.nodes (mergerAt s.mergers merger).node2).type) := by
  obtain ⟨s0, h0, hinv, _⟩ := initState_spec M addr factors varBdds largestSupportSet
    hintsInput quantifiedVariables
  constructor
  · obtain ⟨s, hs, _, _, _⟩ := mainLoop_spec M addr largestSupportSet tie (fun _ => True)
      (fun _ _ _ _ _ _ _ => trivial) s0.heap.length 0 s0 hinv trivial (le_refl _)
    refine ⟨s.results, ?_⟩
    unfold merge
    rw [h0]
    show Except.map MergeState.results
      (mainLoop M addr largestSupportSet tie s0.heap.length 0 s0) = Except.ok s.results
    rw [hs]
    rfl
  · intro n
    obtain ⟨s, hs, hinvs, _⟩ := runRounds_spec M addr largestSupportSet tie (fun _ => True)
      (fun _ _ _ _ _ _ _ => trivial) n 0 s0 hinv trivial
    refine ⟨s, ?_, ?_, ?_⟩
    · unfold stateAfter
      rw [h0]
      exact hs
    · intro mg hmg
      obtain ⟨m, hm, rfl⟩ := exists_mergerAt_of_mem s.mergers hmg
      exact (hinvs.mergers_valid m hm).2.2
    · intro t merger htop
      obtain ⟨e, he, rfl⟩ := MaxHeap.top_mem s.heap t merger htop
      exact (hinvs.mergers_valid e.1 (hinvs.heap_valid e he)).2.2

end Claims15

end blif_solve

/-! ## Cubes, supports and `getCompatibility` -/

namespace blif_solve

section Cubes

variable {α : Type} [LinearOrder α]

theorem mem_cubeUnion (S : Semantics α) (l : List α) (x : ℕ) :
    x ∈ cubeUnion S l ↔ ∃ c ∈ l, x ∈ S.vars c := by
  unfold cubeUnion
  induction l with
  | nil => simp
  | cons c l ih =>
    simp only [List.foldr_cons, Finset.mem_union, ih, List.mem_cons]
    constructor
    · rintro (h | ⟨c', hc', h⟩)
      · exact ⟨c, Or.inl rfl, h⟩
      · exact ⟨c', Or.inr hc', h⟩
    · rintro ⟨c', rfl | hc', h⟩
      · exact Or.inl h
      · exact Or.inr ⟨c', hc', h⟩

theorem mem_supportUnion (M : DdManager α) (S : Semantics α) (nodes : List (AmNode α))
    (l : List ℕ) (x : ℕ) :
    x ∈ supportUnion M S nodes l ↔ ∃ j ∈ l, x ∈ S.vars (nodeAt M nodes j).supportSet := by
  unfold supportUnion
  induction l with
  | nil => simp
  | cons c l ih =>
    simp only [List.foldr_cons, Finset.mem_union, ih, List.mem_cons]
    constructor
    · rintro (h | ⟨c', hc', h⟩)
      · exact ⟨c, Or.inl rfl, h⟩
      · exact ⟨c', Or.inr hc', h⟩
    · rintro ⟨c', rfl | hc', h⟩
      · exact Or.inl h
      · exact Or.inr ⟨c', hc', h⟩

/-- Accumulating the support sets of a list of nodes onto a cube gives a cube
whose variables are those of the cube and of the support sets. -/
theorem foldl_and_cube {M : DdManager α} {S : Semantics α} (D : M.Lawful S) (nodes : List (AmNode α))
    (hc : ∀ j, S.isCube (nodeAt M nodes j).supportSet) (l : List ℕ) (c : α)
    (hcube : S.isCube c) :
    S.isCube (l.foldl (fun acc neigh => M.bdd_and acc (nodeAt M nodes neigh).supportSet) c) ∧
    S.vars (l.foldl (fun acc neigh => M.bdd_and acc (nodeAt M nodes neigh).supportSet) c) =
      S.vars c ∪ supportUnion M S nodes l := by
  induction l generalizing c with
  | nil => simp [supportUnion, hcube]
  | cons x l ih =>
    obtain ⟨h1, h2⟩ := ih (M.bdd_and c (nodeAt M nodes x).supportSet)
      (D.cube_and _ _ hcube (hc x))
    refine ⟨h1, ?_⟩
    rw [List.foldl_cons, h2, D.vars_cube_and _ _ hcube (hc x)]
    simp only [supportUnion, List.foldr_cons, Finset.union_assoc]

/-- The cube accumulated by `getCompatibility` has the prospective support as
its set of variables. -/
theorem combinedSupportSet_cube {M : DdManager α} {S : Semantics α} (D : M.Lawful S) (nodes : List (AmNode α))
    (hc : ∀ j, S.isCube (nodeAt M nodes j).supportSet) (f1 f2 : ℕ) :
    S.isCube (combinedSupportSet M nodes f1 f2) ∧
    S.vars (combinedSupportSet M nodes f1 f2) = prospectiveSupport M S nodes f1 f2 := by
  unfold combinedSupportSet prospectiveSupport
  simp only
  obtain ⟨h1, h2⟩ := foldl_and_cube D nodes hc (nodeAt M nodes f1).neighbours
    (M.bdd_and (nodeAt M nodes f1).supportSet (nodeAt M nodes f2).supportSet)
    (D.cube_and _ _ (hc f1) (hc f2))
  obtain ⟨h3, h4⟩ := foldl_and_cube D nodes hc (nodeAt M nodes f2).neighbours _ h1
  refine ⟨h3, ?_⟩
  rw [h4, h2, D.vars_cube_and _ _ (hc f1) (hc f2)]

theorem size_combinedSupportSet {M : DdManager α} {S : Semantics α} (D : M.Lawful S) (nodes : List (AmNode α))
    (hc : ∀ j, S.isCube (nodeAt M nodes j).supportSet) (f1 f2 : ℕ) :
    M.bdd_size (combinedSupportSet M nodes f1 f2) = (prospectiveSupport M S nodes f1 f2).card := by
  obtain ⟨h1, h2⟩ := combinedSupportSet_cube D nodes hc f1 f2
  rw [D.size_cube _ h1, h2]

/-- The value of `getCompatibility` on nodes whose support sets are cubes, in
terms of sets of variables. -/
theorem getCompatibility_eq {M : DdManager α} {S : Semantics α} (D : M.Lawful S) (nodes : List (AmNode α))
    (hc : ∀ j, S.isCube (nodeAt M nodes j).supportSet) (f1 f2 : ℕ) (lss : ℤ) (hint : ℚ)
    (q : List α) :
    getCompatibility M nodes f1 f2 lss hint q =
      if ¬ ((nodeAt M nodes f1).supportSet ∈ q ↔ (nodeAt M nodes f2).supportSet ∈ q) then none
      else if ((prospectiveSupport M S nodes f1 f2).card : ℤ) > lss then none
      else some
        (((S.vars (nodeAt M nodes f1).supportSet ∩
            S.vars (nodeAt M nodes f2).supportSet).card : ℚ) /
          min ((S.vars (nodeAt M nodes f1).supportSet).card : ℚ)
            ((S.vars (nodeAt M nodes f2).supportSet).card : ℚ) + hint) := by
  unfold getCompatibility
  simp only [size_combinedSupportSet D nodes hc, D.size_cube _ (hc f1), D.size_cube _ (hc f2),
    D.size_cube _ (D.cube_inter _ _ (hc f1) (hc f2)), D.vars_inter _ _ (hc f1) (hc f2)]
  by_cases h : ((nodeAt M nodes f1).supportSet ∈ q ↔ (nodeAt M nodes f2).supportSet ∈ q)
  · have h' : ¬ (decide ((nodeAt M nodes f1).supportSet ∈ q) ≠
        decide ((nodeAt M nodes f2).supportSet ∈ q)) := by
      simp [h]
    rw [if_neg h', if_neg (not_not.2 h)]
  · have h' : decide ((nodeAt M nodes f1).supportSet ∈ q) ≠
        decide ((nodeAt M nodes f2).supportSet ∈ q) := by
      intro he
      apply h
      constructor
      · intro h1
        have := he ▸ (decide_eq_true h1)
        exact of_decide_eq_true this
      · intro h1
        have := he.symm ▸ (decide_eq_true h1)
        exact of_decide_eq_true this
    rw [if_pos h', if_pos h]

/-- What a compatible pair of nodes satisfies. -/
theorem Compatible.spec {M : DdManager α} {S : Semantics α} (D : M.Lawful S) {nodes : List (AmNode α)}
    (hc : ∀ j, S.isCube (nodeAt M nodes j).supportSet) {lss : ℤ} {q : List α} {i j : ℕ}
    (h : Compatible M nodes lss q i j) :
    ((nodeAt M nodes i).supportSet ∈ q ↔ (nodeAt M nodes j).supportSet ∈ q) ∧
    ((prospectiveSupport M S nodes i j).card : ℤ) ≤ lss := by
  obtain ⟨hint, hh⟩ := h
  rw [getCompatibility_eq D nodes hc] at hh
  by_cases h1 : ((nodeAt M nodes i).supportSet ∈ q ↔ (nodeAt M nodes j).supportSet ∈ q)
  · by_cases h2 : ((prospectiveSupport M S nodes i j).card : ℤ) > lss
    · rw [if_neg (not_not.2 h1), if_pos h2] at hh
      cases hh
    · exact ⟨h1, not_lt.1 h2⟩
  · rw [if_pos h1] at hh
    cases hh

end Cubes

end blif_solve

namespace blif_solve

section CubeInvariant

variable {α : Type} [LinearOrder α]

theorem contractState_new_type (M : DdManager α) (addr : ℕ → ℕ) (s : MergeState α)
    (merger : ℕ) :
    (nodeAt M (contractState M addr s merger).nodes s.nodes.length).type =
      (nodeAt M s.nodes (mergerAt s.mergers merger).node1).type :=
  congrArg (fun c => c.1) (contractState_new M addr s merger)

theorem contractState_new_node (M : DdManager α) (addr : ℕ → ℕ) (s : MergeState α)
    (merger : ℕ) :
    (nodeAt M (contractState M addr s merger).nodes s.nodes.length).node =
      mergedBddOf M s merger :=
  congrArg (fun c => c.2.1) (contractState_new M addr s merger)

theorem contractState_new_supportSet (M : DdManager α) (addr : ℕ → ℕ) (s : MergeState α)
    (merger : ℕ) :
    (nodeAt M (contractState M addr s merger).nodes s.nodes.length).supportSet =
      if (nodeAt M s.nodes (mergerAt s.mergers merger).node1).type = NodeType.Func then
        M.bdd_support (mergedBddOf M s merger) else mergedBddOf M s merger :=
  congrArg (fun c => c.2.2.1) (contractState_new M addr s merger)

theorem contractState_new_neighbours (M : DdManager α) (addr : ℕ → ℕ) (s : MergeState α)
    (merger : ℕ) :
    (nodeAt M (contractState M addr s merger).nodes s.nodes.length).neighbours =
      (nodeAt M s.nodes (mergerAt s.mergers merger).node2).neighbours.foldl
        (fun set neigh => ptrSetInsert addr neigh set)
        ((nodeAt M s.nodes (mergerAt s.mergers merger).node1).neighbours.foldl
          (fun set neigh => ptrSetInsert addr neigh set) []) :=
  congrArg (fun c => c.2.2.2) (contractState_new M addr s merger)

theorem CubeInv.cubes_of_added {M : DdManager α} (S : Semantics α) (R : AmMerger → Prop)
    (varBdds : List α) {s s' : MergeState α} (hadd : Added M R s s')
    (hC : CubeInv M S varBdds s) : CubeInv M S varBdds s' := by
  have hmv : s'.mergedVariables = s.mergedVariables := hadd.frame.2.2.2.2
  have hcore := hadd.core.2
  constructor
  · intro j
    rw [core_supportSet (hcore j), core_type (hcore j), core_node (hcore j)]
    exact hC.supp j
  · intro j hj
    rw [core_type (hcore j)] at hj
    rw [core_node (hcore j)]
    exact hC.var_cube j hj
  · intro j x hx
    rw [core_neighbours (hcore j)] at hx
    rw [hadd.core.1]
    exact hC.neigh_valid j x hx
  · rw [hmv]
    exact hC.vars_equiv
  · intro j hj
    rw [core_type (hcore j)] at hj
    rw [core_node (hcore j), hmv]
    exact hC.var_covered j hj

/-- Every support set is a cube. -/
theorem CubeInv.cube_supportSet {M : DdManager α} {S : Semantics α} {varBdds : List α}
    {s : MergeState α} (hC : CubeInv M S varBdds s) (D : M.Lawful S) (j : ℕ) :
    S.isCube (nodeAt M s.nodes j).supportSet := by
  rw [hC.supp j]
  by_cases h : (nodeAt M s.nodes j).type = NodeType.Func
  · rw [if_pos h]
    exact D.cube_support _
  · rw [if_neg h]
    have hv : (nodeAt M s.nodes j).type = NodeType.Var := by
      cases ht : (nodeAt M s.nodes j).type
      · exact absurd ht h
      · rfl
    exact (hC.var_cube j hv).1

/-- The variables of the support set of a node are the variables of its BDD. -/
theorem CubeInv.vars_supportSet {M : DdManager α} {S : Semantics α} {varBdds : List α}
    {s : MergeState α} (hC : CubeInv M S varBdds s) (D : M.Lawful S) (j : ℕ) :
    S.vars (nodeAt M s.nodes j).supportSet = S.vars (nodeAt M s.nodes j).node := by
  rw [hC.supp j]
  split
  · exact D.vars_support _
  · rfl

theorem CubeInv.supportSet_var {M : DdManager α} {S : Semantics α} {varBdds : List α}
    {s : MergeState α} (hC : CubeInv M S varBdds s) {j : ℕ}
    (hj : (nodeAt M s.nodes j).type = NodeType.Var) :
    (nodeAt M s.nodes j).supportSet = (nodeAt M s.nodes j).node := by
  rw [hC.supp j, hj]
  simp

/-- Replacing two covered cubes by their conjunction keeps the cube-union. -/
theorem cubeUnion_replace {M : DdManager α} {S : Semantics α} (D : M.Lawful S) (l : List α) (a b : α)
    (ha : S.isCube a) (hb : S.isCube b) (hca : S.vars a ⊆ cubeUnion S l)
    (hcb : S.vars b ⊆ cubeUnion S l) :
    cubeUnion S (setInsert (M.bdd_and a b) (setErase b (setErase a l))) = cubeUnion S l := by
  ext x
  simp only [mem_cubeUnion, mem_setInsert, mem_setErase]
  constructor
  · rintro ⟨c, hc | hc, hx⟩
    · rw [hc, D.vars_cube_and _ _ ha hb, Finset.mem_union] at hx
      rcases hx with hx | hx
      · exact (mem_cubeUnion S l x).1 (hca hx)
      · exact (mem_cubeUnion S l x).1 (hcb hx)
    · exact ⟨c, hc.1.1, hx⟩
  · rintro ⟨c, hc, hx⟩
    by_cases hca' : c = a
    · refine ⟨M.bdd_and a b, Or.inl rfl, ?_⟩
      rw [D.vars_cube_and _ _ ha hb, Finset.mem_union]
      left
      rw [← hca']
      exact hx
    · by_cases hcb' : c = b
      · refine ⟨M.bdd_and a b, Or.inl rfl, ?_⟩
        rw [D.vars_cube_and _ _ ha hb, Finset.mem_union]
        right
        rw [← hcb']
        exact hx
      · exact ⟨c, Or.inr ⟨⟨hc, hca'⟩, hcb'⟩, hx⟩

theorem nodeType_eq_var_of_ne_func {t : NodeType} (h : t ≠ NodeType.Func) : t = NodeType.Var := by
  cases t
  · exact absurd rfl h
  · rfl

theorem CubeInv.contract {M : DdManager α} {S : Semantics α} (D : M.Lawful S) (addr : ℕ → ℕ) (varBdds : List α)
    (s : MergeState α) (merger : ℕ) (hinv : Inv M s) (hm : merger < s.mergers.length)
    (hC : CubeInv M S varBdds s) : CubeInv M S varBdds (contractState M addr s merger) := by
  obtain ⟨h1, h2, ht⟩ := hinv.mergers_valid merger hm
  have hcu : cubeUnion S (contractState M addr s merger).mergedVariables =
      cubeUnion S s.mergedVariables := by
    by_cases hty : (nodeAt M s.nodes (mergerAt s.mergers merger).node1).type = NodeType.Var
    · rw [contractState_mergedVariables_var M addr s merger hty]
      have hty2 : (nodeAt M s.nodes (mergerAt s.mergers merger).node2).type = NodeType.Var := by
        rw [← ht]; exact hty
      exact cubeUnion_replace D _ _ _ (hC.var_cube _ hty).1 (hC.var_cube _ hty2).1
        (hC.var_covered _ hty) (hC.var_covered _ hty2)
    · rw [contractState_mergedVariables_func M addr s merger (nodeType_eq_func_of_ne_var hty)]
  constructor
  · intro j
    by_cases hj : j = s.nodes.length
    · subst hj
      rw [contractState_new_supportSet, contractState_new_type, contractState_new_node]
    · rw [core_supportSet (contractState_core_ne M addr s merger hj),
        core_type (contractState_core_ne M addr s merger hj),
        core_node (contractState_core_ne M addr s merger hj)]
      exact hC.supp j
  · intro j hjt
    by_cases hj : j = s.nodes.length
    · subst hj
      rw [contractState_new_type] at hjt
      have hty2 : (nodeAt M s.nodes (mergerAt s.mergers merger).node2).type = NodeType.Var := by
        rw [← ht]; exact hjt
      rw [contractState_new_node]
      unfold mergedBddOf
      refine ⟨D.cube_and _ _ (hC.var_cube _ hjt).1 (hC.var_cube _ hty2).1, ?_⟩
      rw [D.vars_cube_and _ _ (hC.var_cube _ hjt).1 (hC.var_cube _ hty2).1]
      exact (hC.var_cube _ hjt).2.mono Finset.subset_union_left
    · rw [core_type (contractState_core_ne M addr s merger hj)] at hjt
      rw [core_node (contractState_core_ne M addr s merger hj)]
      exact hC.var_cube j hjt
  · intro j x hx
    rw [contractState_length]
    by_cases hj : j = s.nodes.length
    · subst hj
      rw [contractState_new_neighbours] at hx
      rcases (mem_foldl_ptrSetInsert addr _ _ x).1 hx with hx | hx
      · exact Nat.lt_succ_of_lt (hC.neigh_valid _ x hx)
      · rcases (mem_foldl_ptrSetInsert addr _ _ x).1 hx with hx | hx
        · exact Nat.lt_succ_of_lt (hC.neigh_valid _ x hx)
        · cases hx
    · rw [core_neighbours (contractState_core_ne M addr s merger hj)] at hx
      exact Nat.lt_succ_of_lt (hC.neigh_valid j x hx)
  · rw [hcu]
    exact hC.vars_equiv
  · intro j hjt
    rw [hcu]
    by_cases hj : j = s.nodes.length
    · subst hj
      rw [contractState_new_type] at hjt
      have hty2 : (nodeAt M s.nodes (mergerAt s.mergers merger).node2).type = NodeType.Var := by
        rw [← ht]; exact hjt
      rw [contractState_new_node]
      unfold mergedBddOf
      rw [D.vars_cube_and _ _ (hC.var_cube _ hjt).1 (hC.var_cube _ hty2).1]
      exact Finset.union_subset (hC.var_covered _ hjt) (hC.var_covered _ hty2)
    · rw [core_type (contractState_core_ne M addr s merger hj)] at hjt
      rw [core_node (contractState_core_ne M addr s merger hj)]
      exact hC.var_covered j hjt

theorem CubeInv.step_cubes {M : DdManager α} {S : Semantics α} (D : M.Lawful S) (addr : ℕ → ℕ) (lss : ℤ)
    (varBdds : List α) (t : ℕ) (s s' : MergeState α) (hinv : Inv M s)
    (hC : CubeInv M S varBdds s) (hne : s.heap ≠ [])
    (h : loopStep M addr lss t s = Except.ok s') : CubeInv M S varBdds s' := by
  obtain ⟨merger, _, hm, hadd⟩ := loopStep_ok M addr lss t s s' hinv hne h
  exact CubeInv.cubes_of_added S _ varBdds hadd (CubeInv.contract D addr varBdds s merger hinv hm hC)

end CubeInvariant

end blif_solve

namespace blif_solve

section BoundInvariant

variable {α : Type} [LinearOrder α]

theorem supportUnion_congr (M : DdManager α) (S : Semantics α) (nodes nodes' : List (AmNode α))
    (l : List ℕ)
    (h : ∀ x ∈ l, (nodeAt M nodes' x).supportSet = (nodeAt M nodes x).supportSet) :
    supportUnion M S nodes' l = supportUnion M S nodes l := by
  ext y
  simp only [mem_supportUnion]
  constructor
  · rintro ⟨x, hx, hy⟩
    exact ⟨x, hx, by rw [← h x hx]; exact hy⟩
  · rintro ⟨x, hx, hy⟩
    exact ⟨x, hx, by rw [h x hx]; exact hy⟩

theorem prospectiveSupport_congr_on (M : DdManager α) (S : Semantics α)
    (nodes nodes' : List (AmNode α)) (i j : ℕ)
    (hi : (nodeAt M nodes' i).core = (nodeAt M nodes i).core)
    (hj : (nodeAt M nodes' j).core = (nodeAt M nodes j).core)
    (hni : ∀ x ∈ (nodeAt M nodes i).neighbours,
      (nodeAt M nodes' x).supportSet = (nodeAt M nodes x).supportSet)
    (hnj : ∀ x ∈ (nodeAt M nodes j).neighbours,
      (nodeAt M nodes' x).supportSet = (nodeAt M nodes x).supportSet) :
    prospectiveSupport M S nodes' i j = prospectiveSupport M S nodes i j := by
  unfold prospectiveSupport
  rw [core_supportSet hi, core_supportSet hj, core_neighbours hi, core_neighbours hj,
    supportUnion_congr M S nodes nodes' _ hni, supportUnion_congr M S nodes nodes' _ hnj]

theorem prospectiveSupport_congr (M : DdManager α) (S : Semantics α)
    {nodes nodes' : List (AmNode α)} (h : SameCore M nodes nodes') (i j : ℕ) :
    prospectiveSupport M S nodes' i j = prospectiveSupport M S nodes i j :=
  prospectiveSupport_congr_on M S nodes nodes' i j (h.2 i) (h.2 j)
    (fun x _ => core_supportSet (h.2 x)) (fun x _ => core_supportSet (h.2 x))

/-- The prospective support of two old nodes is the same before and after the
merged node is added. -/
theorem prospectiveSupport_contract (M : DdManager α) (S : Semantics α) (addr : ℕ → ℕ)
    (varBdds : List α) (s : MergeState α) (merger : ℕ) (hC : CubeInv M S varBdds s)
    {i j : ℕ} (hi : i < s.nodes.length) (hj : j < s.nodes.length) :
    prospectiveSupport M S (contractState M addr s merger).nodes i j =
      prospectiveSupport M S s.nodes i j := by
  apply prospectiveSupport_congr_on M S
  · exact contractState_core_old M addr s merger hi
  · exact contractState_core_old M addr s merger hj
  · intro x hx
    exact core_supportSet (contractState_core_old M addr s merger (hC.neigh_valid i x hx))
  · intro x hx
    exact core_supportSet (contractState_core_old M addr s merger (hC.neigh_valid j x hx))

/-- The variables of a merged BDD lie in the prospective support of the two
contracted nodes. -/
theorem vars_merged_subset {M : DdManager α} {S : Semantics α} (D : M.Lawful S) (varBdds : List α)
    (s : MergeState α) (merger : ℕ) (hC : CubeInv M S varBdds s) :
    S.vars (mergedBddOf M s merger) ⊆
      prospectiveSupport M S s.nodes (mergerAt s.mergers merger).node1
        (mergerAt s.mergers merger).node2 := by
  unfold mergedBddOf prospectiveSupport
  rw [hC.vars_supportSet D, hC.vars_supportSet D]
  intro x hx
  have := D.vars_and _ _ hx
  simp only [Finset.mem_union] at this ⊢
  tauto

theorem card_le_of_subset_bound {a b : Finset ℕ} {lss : ℤ} (h : a ⊆ b)
    (hb : (b.card : ℤ) ≤ lss) : (a.card : ℤ) ≤ lss :=
  le_trans (by exact_mod_cast Finset.card_le_card h) hb

theorem BoundInv.step_bound {M : DdManager α} {S : Semantics α} (D : M.Lawful S) (addr : ℕ → ℕ) (lss : ℤ) (nInit : ℕ)
    (factors varBdds : List α) (t : ℕ) (s s' : MergeState α) (hinv : Inv M s)
    (hC : CubeInv M S varBdds s) (hB : BoundInv M S lss nInit factors s) (hne : s.heap ≠ [])
    (h : loopStep M addr lss t s = Except.ok s') : BoundInv M S lss nInit factors s' := by
  obtain ⟨merger, _, hm, hadd⟩ := loopStep_ok M addr lss t s s' hinv hne h
  obtain ⟨h1, h2, ht⟩ := hinv.mergers_valid merger hm
  have hCc := CubeInv.contract D addr varBdds s merger hinv hm hC
  have hpop : ((prospectiveSupport M S s.nodes (mergerAt s.mergers merger).node1
      (mergerAt s.mergers merger).node2).card : ℤ) ≤ lss :=
    hB.merger_bound _ (mergerAt_mem s.mergers hm)
  have hmerged : ((S.vars (mergedBddOf M s merger)).card : ℤ) ≤ lss :=
    card_le_of_subset_bound (vars_merged_subset D varBdds s merger hC) hpop
  obtain ⟨new, hnew, hR⟩ := hadd.mergers
  constructor
  · intro mg hmg
    rw [prospectiveSupport_congr M S hadd.core]
    rw [hnew, contractState_mergers] at hmg
    rcases List.mem_append.1 hmg with hmg | hmg
    · obtain ⟨m, hml, rfl⟩ := exists_mergerAt_of_mem s.mergers hmg
      obtain ⟨v1, v2, _⟩ := hinv.mergers_valid m hml
      rw [prospectiveSupport_contract M S addr varBdds s merger hC v1 v2]
      exact hB.merger_bound _ hmg
    · obtain ⟨hn1, _, _, _, hcomp⟩ := hR mg hmg
      rw [hn1]
      exact (Compatible.spec D (hCc.cube_supportSet D) hcomp).2
  · intro j hj1 hj2
    rw [core_supportSet (hadd.core.2 j)]
    rw [hadd.core.1, contractState_length] at hj2
    by_cases hj : j = s.nodes.length
    · subst hj
      rw [hCc.vars_supportSet D, contractState_new_node]
      exact hmerged
    · rw [core_supportSet (contractState_core_ne M addr s merger hj)]
      exact hB.node_bound j hj1 (by omega)
  · intro f hf
    rw [hadd.frame.2.2.2.1] at hf
    by_cases hty : (nodeAt M s.nodes (mergerAt s.mergers merger).node1).type = NodeType.Var
    · rw [contractState_mergedFactors_var M addr s merger hty] at hf
      exact hB.factor_bound f hf
    · rw [contractState_mergedFactors_func M addr s merger
        (nodeType_eq_func_of_ne_var hty)] at hf
      rcases (mem_setInsert _ _ _).1 hf with rfl | hf
      · exact Or.inr hmerged
      · exact hB.factor_bound f ((mem_setErase _ _ _).1 ((mem_setErase _ _ _).1 hf).1).1

end BoundInvariant

end blif_solve

namespace blif_solve

section ClassInvariant

variable {α : Type} [LinearOrder α]

theorem contractState_qv_func (M : DdManager α) (addr : ℕ → ℕ) (s : MergeState α)
    (merger : ℕ)
    (h : (nodeAt M s.nodes (mergerAt s.mergers merger).node1).type = NodeType.Func) :
    (contractState M addr s merger).qv = s.qv := by
  simp [contractState, h]

/-- The set `qv` after a var merger: the merged cube is entered when the first
node is quantified. -/
theorem mem_contractState_qv_var (M : DdManager α) (addr : ℕ → ℕ) (s : MergeState α)
    (merger : ℕ)
    (h : (nodeAt M s.nodes (mergerAt s.mergers merger).node1).type = NodeType.Var) (x : α) :
    x ∈ (contractState M addr s merger).qv ↔
      x ∈ s.qv ∨ (x = mergedBddOf M s merger ∧
        (nodeAt M s.nodes (mergerAt s.mergers merger).node1).supportSet ∈ s.qv) := by
  have hq : (contractState M addr s merger).qv =
      if (decide ((nodeAt M s.nodes (mergerAt s.mergers merger).node1).supportSet ∈ s.qv) = true ∧
          mergedBddOf M s merger ∉ s.qv) then setInsert (mergedBddOf M s merger) s.qv
      else s.qv := by
    simp [contractState, h, mergedBddOf]
  rw [hq]
  split
  · rename_i hc
    rw [mem_setInsert]
    constructor
    · rintro (hx | hx)
      · exact Or.inr ⟨hx, of_decide_eq_true hc.1⟩
      · exact Or.inl hx
    · rintro (hx | hx)
      · exact Or.inr hx
      · exact Or.inl hx.1
  · rename_i hc
    constructor
    · exact Or.inl
    · rintro (hx | ⟨hx, hs⟩)
      · exact hx
      · rw [hx]
        by_contra hn
        exact hc ⟨decide_eq_true hs, hn⟩

theorem quantifiedOf_var (M : DdManager α) (addr : ℕ → ℕ) (s : MergeState α) (merger : ℕ)
    (h : (nodeAt M s.nodes (mergerAt s.mergers merger).node1).type = NodeType.Var) :
    quantifiedOf M addr s merger = (contractState M addr s merger).qv := by
  simp [quantifiedOf, h]

theorem ClassInv.step_class {M : DdManager α} {S : Semantics α} (D : M.Lawful S) (addr : ℕ → ℕ) (lss : ℤ) (Q : Finset ℕ)
    (varBdds : List α) (t : ℕ) (s s' : MergeState α) (hinv : Inv M s)
    (hC : CubeInv M S varBdds s) (hK : ClassInv M S Q s) (hne : s.heap ≠ [])
    (h : loopStep M addr lss t s = Except.ok s') : ClassInv M S Q s' := by
  obtain ⟨merger, s1, _, hm, hstep, hinv', _, hadd⟩ := loopStep_spec M addr lss t s hinv hne
  rw [h] at hstep
  cases hstep
  obtain ⟨h1, h2, ht⟩ := hinv.mergers_valid merger hm
  have hCc := CubeInv.contract D addr varBdds s merger hinv hm hC
  have hqv : s'.qv = (contractState M addr s merger).qv := hadd.frame.2.1
  have hcore : ∀ j, (nodeAt M s'.nodes j).core =
      (nodeAt M (contractState M addr s merger).nodes j).core := hadd.core.2
  obtain ⟨new, hnew, hR⟩ := hadd.mergers
  by_cases hty : (nodeAt M s.nodes (mergerAt s.mergers merger).node1).type = NodeType.Var
  · -- a var merger
    have hty2 : (nodeAt M s.nodes (mergerAt s.mergers merger).node2).type = NodeType.Var := by
      rw [← ht]; exact hty
    have hS1 := hC.supportSet_var hty
    have hmem := mem_contractState_qv_var M addr s merger hty
    rw [hS1] at hmem
    obtain ⟨hca, hna⟩ := hC.var_cube _ hty
    obtain ⟨hcb, hnb⟩ := hC.var_cube _ hty2
    have hvm : S.vars (mergedBddOf M s merger) =
        S.vars (nodeAt M s.nodes (mergerAt s.mergers merger).node1).node ∪
        S.vars (nodeAt M s.nodes (mergerAt s.mergers merger).node2).node :=
      D.vars_cube_and _ _ hca hcb
    have hcls := hK.merger_class _ (mergerAt_mem s.mergers hm) hty
    -- the class of an old var node does not change
    have hkey : ∀ j, (nodeAt M s.nodes j).type = NodeType.Var →
        ((nodeAt M s.nodes j).node ∈ (contractState M addr s merger).qv ↔
          (nodeAt M s.nodes j).node ∈ s.qv) := by
      intro j hj
      rw [hmem]
      constructor
      · rintro (hx | ⟨hx, hs⟩)
        · exact hx
        · rcases hK.var_class j hj with ⟨hin, _⟩ | ⟨_, hdis⟩
          · exact hin
          · exfalso
            obtain ⟨v, hv⟩ := hna
            have hvQ : v ∈ Q := by
              rcases hK.var_class _ hty with ⟨_, hsub⟩ | ⟨hnot, _⟩
              · exact hsub hv
              · exact absurd hs hnot
            have hvj : v ∈ S.vars (nodeAt M s.nodes j).node := by
              rw [hx, hvm]
              exact Finset.mem_union_left _ hv
            exact Finset.disjoint_left.1 hdis hvj hvQ
      · exact Or.inl
    constructor
    · intro q hq
      rw [hqv, hmem] at hq
      rcases hq with hq | ⟨hq, hs⟩
      · exact hK.qv_cube q hq
      · rw [hq]
        refine ⟨D.cube_and _ _ hca hcb, ?_, ?_⟩
        · rw [hvm]; exact hna.mono Finset.subset_union_left
        · rw [hvm]
          apply Finset.union_subset
          · rcases hK.var_class _ hty with ⟨_, hsub⟩ | ⟨hnot, _⟩
            · exact hsub
            · exact absurd hs hnot
          · rcases hK.var_class _ hty2 with ⟨_, hsub⟩ | ⟨hnot, _⟩
            · exact hsub
            · exact absurd (hcls.1 hs) hnot
    · intro j hj
      rw [core_type (hcore j)] at hj
      rw [core_node (hcore j), hqv]
      by_cases hjn : j = s.nodes.length
      · subst hjn
        rw [contractState_new_node]
        by_cases hs : (nodeAt M s.nodes (mergerAt s.mergers merger).node1).node ∈ s.qv
        · left
          refine ⟨(hmem _).2 (Or.inr ⟨rfl, hs⟩), ?_⟩
          rw [hvm]
          apply Finset.union_subset
          · rcases hK.var_class _ hty with ⟨_, hsub⟩ | ⟨hnot, _⟩
            · exact hsub
            · exact absurd hs hnot
          · rcases hK.var_class _ hty2 with ⟨_, hsub⟩ | ⟨hnot, _⟩
            · exact hsub
            · exact absurd (hcls.1 hs) hnot
        · right
          have hdis : Disjoint (S.vars (mergedBddOf M s merger)) Q := by
            rw [hvm, Finset.disjoint_union_left]
            constructor
            · rcases hK.var_class _ hty with ⟨hin, _⟩ | ⟨_, hd⟩
              · exact absurd hin hs
              · exact hd
            · rcases hK.var_class _ hty2 with ⟨hin, _⟩ | ⟨_, hd⟩
              · exact absurd (hcls.2 hin) hs
              · exact hd
          refine ⟨?_, hdis⟩
          rw [hmem]
          rintro (hx | ⟨_, hx⟩)
          · obtain ⟨_, ⟨v, hv⟩, hsub⟩ := hK.qv_cube _ hx
            exact Finset.disjoint_left.1 hdis hv (hsub hv)
          · exact hs hx
      · rw [core_type (contractState_core_ne M addr s merger hjn)] at hj
        rw [core_node (contractState_core_ne M addr s merger hjn)]
        rcases hK.var_class j hj with ⟨hin, hsub⟩ | ⟨hnot, hd⟩
        · exact Or.inl ⟨(hkey j hj).2 hin, hsub⟩
        · exact Or.inr ⟨fun hx => hnot ((hkey j hj).1 hx), hd⟩
    · intro mg hmg hmt
      rw [hnew, contractState_mergers] at hmg
      rw [hqv]
      rcases List.mem_append.1 hmg with hmg | hmg
      · obtain ⟨m, hml, rfl⟩ := exists_mergerAt_of_mem s.mergers hmg
        obtain ⟨v1, v2, vt⟩ := hinv.mergers_valid m hml
        rw [core_type (hcore _), core_type (contractState_core_old M addr s merger v1)] at hmt
        rw [core_node (hcore _), core_node (contractState_core_old M addr s merger v1),
          core_node (hcore _), core_node (contractState_core_old M addr s merger v2),
          hkey _ hmt, hkey _ (by rw [← vt]; exact hmt)]
        exact hK.merger_class _ hmg hmt
      · obtain ⟨hn1, _, _, hlt, hcomp⟩ := hR mg hmg
        have hyt : (nodeAt M (contractState M addr s merger).nodes mg.node2).type =
            NodeType.Var := by
          obtain ⟨m', hm', hmg'⟩ := exists_mergerAt_of_mem s'.mergers
            (by rw [hnew]; exact List.mem_append_right _ hmg)
          have := (hinv'.mergers_valid m' hm').2.2
          rw [hmg', hmt, core_type (hcore _)] at this
          exact this.symm
        have hnt : (nodeAt M (contractState M addr s merger).nodes mg.node1).type =
            NodeType.Var := by
          rw [← core_type (hcore _)]; exact hmt
        have hsp := (Compatible.spec D (hCc.cube_supportSet D) hcomp).1
        rw [quantifiedOf_var M addr s merger hty, ← hn1, hCc.supportSet_var hnt,
          hCc.supportSet_var hyt] at hsp
        rw [core_node (hcore _), core_node (hcore _)]
        exact hsp
  · -- a func merger
    have hty1 := nodeType_eq_func_of_ne_var hty
    rw [contractState_qv_func M addr s merger hty1] at hqv
    constructor
    · intro q hq
      rw [hqv] at hq
      exact hK.qv_cube q hq
    · intro j hj
      rw [core_type (hcore j)] at hj
      rw [core_node (hcore j), hqv]
      by_cases hjn : j = s.nodes.length
      · subst hjn
        rw [contractState_new_type, hty1] at hj
        cases hj
      · rw [core_type (contractState_core_ne M addr s merger hjn)] at hj
        rw [core_node (contractState_core_ne M addr s merger hjn)]
        exact hK.var_class j hj
    · intro mg hmg hmt
      rw [hnew, contractState_mergers] at hmg
      rw [hqv]
      rcases List.mem_append.1 hmg with hmg | hmg
      · obtain ⟨m, hml, rfl⟩ := exists_mergerAt_of_mem s.mergers hmg
        obtain ⟨v1, v2, vt⟩ := hinv.mergers_valid m hml
        rw [core_type (hcore _), core_type (contractState_core_old M addr s merger v1)] at hmt
        rw [core_node (hcore _), core_node (contractState_core_old M addr s merger v1),
          core_node (hcore _), core_node (contractState_core_old M addr s merger v2)]
        exact hK.merger_class _ hmg hmt
      · obtain ⟨hn1, _⟩ := hR mg hmg
        rw [core_type (hcore _), hn1, contractState_new_type, hty1] at hmt
        cases hmt

end ClassInvariant

end blif_solve

/-! ## The invariants in the first state -/

namespace blif_solve

section InitInvariants

variable {α : Type} [LinearOrder α]

theorem foldl_invariant_mem {σ β : Type} (f : σ → β → σ) (P : σ → Prop) (Q : β → Prop)
    (hstep : ∀ s b, P s → Q b → P (f s b)) :
    ∀ (l : List β) (s : σ), P s → (∀ b ∈ l, Q b) → P (l.foldl f s) := by
  intro l
  induction l with
  | nil => intro s hs _; exact hs
  | cons b l ih =>
    intro s hs hq
    exact ih _ (hstep s b hs (hq b (List.mem_cons_self _ _)))
      (fun b' hb' => hq b' (List.mem_cons_of_mem _ hb'))

theorem mem_neighbours_push (M : DdManager α) (nodes : List (AmNode α)) (i m x m' : ℕ)
    (h : m' ∈ (nodeAt M (updateNode (fun n => { n with neighbours := n.neighbours ++ [m] })
      i nodes) x).neighbours) :
    m' ∈ (nodeAt M nodes x).neighbours ∨ m' = m := by
  rw [nodeAt_updateNode] at h
  split at h
  · simp only [List.mem_append, List.mem_singleton] at h
    exact h
  · exact Or.inl h

theorem connectFuncVar_neighbours (M : DdManager α) (addr : ℕ → ℕ) (L : ℕ)
    (funcNodes varNodes : List ℕ) (hf : ∀ f ∈ funcNodes, f < L) (hv : ∀ v ∈ varNodes, v < L)
    (nodes : List (AmNode α))
    (hn : ∀ j x, x ∈ (nodeAt M nodes j).neighbours → x < L) :
    ∀ j x, x ∈ (nodeAt M (connectFuncVar M addr funcNodes varNodes nodes) j).neighbours →
      x < L := by
  unfold connectFuncVar
  apply foldl_invariant_mem _ (fun ns => ∀ j x, x ∈ (nodeAt M ns j).neighbours → x < L)
    (fun f => f < L) _ funcNodes nodes hn hf
  intro ns func hns hfunc
  apply foldl_invariant_mem _ (fun ns => ∀ j x, x ∈ (nodeAt M ns j).neighbours → x < L)
    (fun v => v < L) _ varNodes ns hns hv
  intro ns' var hns' hvar j x hx
  unfold connectOne at hx
  split at hx
  · rcases mem_neighbours_push M _ _ _ _ _ hx with hx | hx
    · rcases mem_neighbours_push M _ _ _ _ _ hx with hx | hx
      · exact hns' j x hx
      · rw [hx]; exact hvar
    · rw [hx]; exact hfunc
  · exact hns' j x hx

theorem connectedState_neighbours (M : DdManager α) (addr : ℕ → ℕ) (factors varBdds : List α)
    (hintsInput : MergeHints α) (qvars : List α) (j x : ℕ)
    (hx : x ∈ (nodeAt M (connectedState M addr factors varBdds hintsInput qvars).nodes
      j).neighbours) :
    x < factors.length + varBdds.length := by
  refine connectFuncVar_neighbours M addr _ _ _ ?_ ?_ _ ?_ j x hx
  · intro f hf
    have := List.mem_range.1 hf
    omega
  · intro v hv
    obtain ⟨i, hi, rfl⟩ := List.mem_map.1 hv
    have := List.mem_range.1 hi
    omega
  · intro j x hx
    rcases nodeAt_init M factors varBdds j with ⟨_, f, _, he⟩ | ⟨_, _, v, _, he⟩ | ⟨_, he⟩
    · rw [he] at hx; cases hx
    · rw [he] at hx; cases hx
    · rw [he] at hx; cases hx

theorem cubeUnion_setOfList (S : Semantics α) (l : List α) :
    cubeUnion S (setOfList l) = cubeUnion S l := by
  ext x
  simp only [mem_cubeUnion, mem_setOfList]

theorem SingleVariableCubes.nonempty {S : Semantics α} {l : List α}
    (h : SingleVariableCubes S l) {v : α} (hv : v ∈ l) : (S.vars v).Nonempty :=
  Finset.card_pos.1 (by rw [(h v hv).2]; exact Nat.one_pos)

theorem CubeInv.init_cubes (M : DdManager α) (S : Semantics α) (addr : ℕ → ℕ)
    (factors varBdds : List α) (hintsInput : MergeHints α) (qvars : List α)
    (hv : SingleVariableCubes S varBdds) :
    CubeInv M S varBdds (connectedState M addr factors varBdds hintsInput qvars) := by
  constructor
  · intro j
    rcases (connectedState_nodes M addr factors varBdds hintsInput qvars j).2 with
      ⟨_, f, _, ht, hn, hs⟩ | ⟨_, _, v, _, ht, hn, hs⟩ | ⟨_, ht, hn, hs⟩
    · rw [hs, ht, hn]; simp
    · rw [hs, ht, hn]; simp
    · rw [hs, ht, hn]; simp
  · intro j hj
    rcases (connectedState_nodes M addr factors varBdds hintsInput qvars j).2 with
      ⟨_, f, _, ht, _⟩ | ⟨_, _, v, hvm, _, hn, _⟩ | ⟨_, ht, _⟩
    · rw [ht] at hj; cases hj
    · rw [hn]; exact ⟨(hv v hvm).1, hv.nonempty hvm⟩
    · rw [ht] at hj; cases hj
  · intro j x hx
    rw [connectedState_length]
    exact connectedState_neighbours M addr factors varBdds hintsInput qvars j x hx
  · exact cubeUnion_setOfList S varBdds
  · intro j hj
    rcases (connectedState_nodes M addr factors varBdds hintsInput qvars j).2 with
      ⟨_, f, _, ht, _⟩ | ⟨_, _, v, hvm, _, hn, _⟩ | ⟨_, ht, _⟩
    · rw [ht] at hj; cases hj
    · rw [hn]
      intro x hx
      exact (mem_cubeUnion S _ x).2 ⟨v, (mem_setOfList _ _).2 hvm, hx⟩
    · rw [ht] at hj; cases hj

/-- The first state under the input condition: it exists and satisfies all
invariants. -/
theorem initState_invariants {M : DdManager α} {S : Semantics α} (D : M.Lawful S) (addr : ℕ → ℕ)
    (factors varBdds : List α) (lss : ℤ) (hintsInput : MergeHints α) (qvars : List α)
    (hv : SingleVariableCubes S varBdds) :
    ∃ s0, initState M addr factors varBdds lss hintsInput qvars = Except.ok s0 ∧ Inv M s0 ∧
      s0.nodes.length = factors.length + varBdds.length ∧
      s0.qv = setOfList qvars ∧
      CubeInv M S varBdds s0 ∧
      BoundInv M S lss (factors.length + varBdds.length) factors s0 ∧
      (SingleVariableCubes S qvars → ClassInv M S (cubeUnion S qvars) s0) := by
  obtain ⟨s0, h0, hinv, hadd⟩ := initState_spec M addr factors varBdds lss hintsInput qvars
  have hCc := CubeInv.init_cubes M S addr factors varBdds hintsInput qvars hv
  have hC := CubeInv.cubes_of_added S _ varBdds hadd hCc
  have hlen : s0.nodes.length = factors.length + varBdds.length := by
    rw [hadd.core.1, connectedState_length]
  have hqv : s0.qv = setOfList qvars := hadd.frame.2.1
  obtain ⟨new, hnew, hR⟩ := hadd.mergers
  have hnew' : s0.mergers = new := by
    rw [hnew]; rfl
  refine ⟨s0, h0, hinv, hlen, hqv, hC, ?_, ?_⟩
  · constructor
    · intro mg hmg
      rw [hnew'] at hmg
      rw [prospectiveSupport_congr M S hadd.core]
      rcases hR mg hmg with ⟨_, _, hcomp⟩ | ⟨_, _, _, _, hcomp⟩
      · exact (Compatible.spec D (hCc.cube_supportSet D) hcomp).2
      · exact (Compatible.spec D (hCc.cube_supportSet D) hcomp).2
    · intro j hj1 hj2
      omega
    · intro f hf
      left
      have hmf : s0.mergedFactors = setOfList factors := hadd.frame.2.2.2.1
      rw [hmf] at hf
      exact (mem_setOfList _ _).1 hf
  · intro hq
    constructor
    · intro q hqm
      rw [hqv] at hqm
      have hqm' := (mem_setOfList _ _).1 hqm
      refine ⟨(hq q hqm').1, hq.nonempty hqm', ?_⟩
      intro x hx
      exact (mem_cubeUnion S _ x).2 ⟨q, hqm', hx⟩
    · intro j hj
      rw [core_type (hadd.core.2 j)] at hj
      rw [core_node (hadd.core.2 j), hqv]
      rcases (connectedState_nodes M addr factors varBdds hintsInput qvars j).2 with
        ⟨_, f, _, ht, _⟩ | ⟨_, _, v, hvm, _, hn, _⟩ | ⟨_, ht, _⟩
      · rw [ht] at hj; cases hj
      · rw [hn]
        by_cases hvq : v ∈ qvars
        · left
          refine ⟨(mem_setOfList _ _).2 hvq, ?_⟩
          intro x hx
          exact (mem_cubeUnion S _ x).2 ⟨v, hvq, hx⟩
        · right
          refine ⟨fun h => hvq ((mem_setOfList _ _).1 h), ?_⟩
          rw [Finset.disjoint_left]
          intro x hx hxQ
          obtain ⟨q, hqm, hxq⟩ := (mem_cubeUnion S _ x).1 hxQ
          obtain ⟨a, ha⟩ := Finset.card_eq_one.1 (hv v hvm).2
          obtain ⟨b, hb⟩ := Finset.card_eq_one.1 (hq q hqm).2
          have hxa : x = a := by rw [ha] at hx; exact Finset.mem_singleton.1 hx
          have hxb : x = b := by rw [hb] at hxq; exact Finset.mem_singleton.1 hxq
          have : v = q := D.cube_ext v q (hv v hvm).1 (hq q hqm).1
            (by rw [ha, hb, ← hxa, ← hxb])
          exact hvq (this ▸ hqm)
      · rw [ht] at hj; cases hj
    · intro mg hmg hmt
      rw [hnew'] at hmg
      rw [core_type (hadd.core.2 _)] at hmt
      rw [core_node (hadd.core.2 _), core_node (hadd.core.2 _), hqv]
      rcases hR mg hmg with ⟨h1, _, _⟩ | ⟨h1, h2, h3, h4, hcomp⟩
      · rw [connectedState_type_func M addr factors varBdds hintsInput qvars h1] at hmt
        cases hmt
      · have hsp := (Compatible.spec D (hCc.cube_supportSet D) hcomp).1
        rw [hCc.supportSet_var hmt, hCc.supportSet_var
          (connectedState_type_var M addr factors varBdds hintsInput qvars h3 h4)] at hsp
        exact hsp

end InitInvariants

end blif_solve

/-! ## The contract of the merge engine -/

namespace blif_solve

section EngineClaims

variable {α : Type} [LinearOrder α]

theorem merge_eq_of_mainLoop (M : DdManager α) (addr : ℕ → ℕ) (tie : ℕ → ℕ)
    (factors varBdds : List α) (lss : ℤ) (hintsInput : MergeHints α) (qvars : List α)
    (s0 s : MergeState α)
    (h0 : initState M addr factors varBdds lss hintsInput qvars = Except.ok s0)
    (hs : mainLoop M addr lss tie s0.heap.length 0 s0 = Except.ok s) :
    merge M addr tie factors varBdds lss hintsInput qvars = Except.ok s.results := by
  unfold merge
  rw [h0]
  show Except.map MergeState.results (mainLoop M addr lss tie s0.heap.length 0 s0)
    = Except.ok s.results
  rw [hs]
  rfl

theorem stateAfter_eq_of_runRounds (M : DdManager α) (addr : ℕ → ℕ) (tie : ℕ → ℕ) (n : ℕ)
    (factors varBdds : List α) (lss : ℤ) (hintsInput : MergeHints α) (qvars : List α)
    (s0 s : MergeState α)
    (h0 : initState M addr factors varBdds lss hintsInput qvars = Except.ok s0)
    (hs : runRounds M addr lss tie n 0 s0 = Except.ok s) :
    stateAfter M addr tie n factors varBdds lss hintsInput qvars = Except.ok s := by
  unfold stateAfter
  rw [h0]
  exact hs

/-- C2. When the input variables are single-variable cubes, `blif_solve::merge`
returns, and the cube-union of the returned variables is the cube-union of the
input variables. -/
theorem merge_variables_cube_union {M : DdManager α} {S : Semantics α} (D : M.Lawful S) (addr : ℕ → ℕ)
    (tie : ℕ → ℕ) (factors varBdds : List α) (largestSupportSet : ℤ)
    (hintsInput : MergeHints α) (quantifiedVariables : List α)
    (hv : SingleVariableCubes S varBdds) :
    ∃ r, merge M addr tie factors varBdds largestSupportSet hintsInput quantifiedVariables =
        Except.ok r ∧
      cubeUnion S r.varBdds = cubeUnion S varBdds := by
  obtain ⟨s0, h0, hinv, _, _, hC, _, _⟩ := initState_invariants D addr factors varBdds
    largestSupportSet hintsInput quantifiedVariables hv
  obtain ⟨s, hs, _, hCs, _⟩ := mainLoop_spec M addr largestSupportSet tie
    (CubeInv M S varBdds)
    (fun t s s' hi hc hne h => CubeInv.step_cubes D addr largestSupportSet varBdds t s s' hi hc hne h)
    s0.heap.length 0 s0 hinv hC (le_refl _)
  exact ⟨s.results, merge_eq_of_mainLoop M addr tie factors varBdds largestSupportSet
    hintsInput quantifiedVariables s0 s h0 hs, hCs.vars_equiv⟩

/-- The size of the support of a BDD is the number of its variables. -/
theorem size_support {M : DdManager α} {S : Semantics α} (D : M.Lawful S) (f : α) :
    M.bdd_size (M.bdd_support f) = (S.vars f).card := by
  rw [D.size_cube _ (D.cube_support f), D.vars_support]

/-- C3, amended. When the input variables are single-variable cubes,
`blif_solve::merge` returns, and every returned factor is one of the input
factors or has a support of at most `largestSupportSet` variables. -/
theorem merge_factor_support_bound {M : DdManager α} {S : Semantics α} (D : M.Lawful S) (addr : ℕ → ℕ)
    (tie : ℕ → ℕ) (factors varBdds : List α) (largestSupportSet : ℤ)
    (hintsInput : MergeHints α) (quantifiedVariables : List α)
    (hv : SingleVariableCubes S varBdds) :
    ∃ r, merge M addr tie factors varBdds largestSupportSet hintsInput quantifiedVariables =
        Except.ok r ∧
      ∀ f ∈ r.factors,
        f ∈ factors ∨ (M.bdd_size (M.bdd_support f) : ℤ) ≤ largestSupportSet := by
  obtain ⟨s0, h0, hinv, _, _, hC, hB, _⟩ := initState_invariants D addr factors varBdds
    largestSupportSet hintsInput quantifiedVariables hv
  obtain ⟨s, hs, _, hI, _⟩ := mainLoop_spec M addr largestSupportSet tie
    (fun s => CubeInv M S varBdds s ∧
      BoundInv M S largestSupportSet (factors.length + varBdds.length) factors s)
    (fun t s s' hi hc hne h =>
      ⟨CubeInv.step_cubes D addr largestSupportSet varBdds t s s' hi hc.1 hne h,
        BoundInv.step_bound D addr largestSupportSet _ factors varBdds t s s' hi hc.1 hc.2 hne h⟩)
    s0.heap.length 0 s0 hinv ⟨hC, hB⟩ (le_refl _)
  refine ⟨s.results, merge_eq_of_mainLoop M addr tie factors varBdds largestSupportSet
    hintsInput quantifiedVariables s0 s h0 hs, ?_⟩
  intro f hf
  rw [size_support D f]
  exact hI.2.factor_bound f hf

/-- C4. When the input variables are single-variable cubes: in the state after
any number of rounds of the main loop, every node created by a contraction (the
arena entries from `|factors| + |variables|` on) has a support set of at most
`largestSupportSet` variables; every merger of the arena has a combined support
set `U` of at most `largestSupportSet` variables, and the variables of the BDD
that the merger creates lie in `U`. -/
theorem merge_contraction_support_bound {M : DdManager α} {S : Semantics α} (D : M.Lawful S) (addr : ℕ → ℕ)
    (tie : ℕ → ℕ) (factors varBdds : List α) (largestSupportSet : ℤ)
    (hintsInput : MergeHints α) (quantifiedVariables : List α)
    (hv : SingleVariableCubes S varBdds) (n : ℕ) :
    ∃ s, stateAfter M addr tie n factors varBdds largestSupportSet hintsInput
        quantifiedVariables = Except.ok s ∧
      (∀ j, factors.length + varBdds.length ≤ j → j < s.nodes.length →
        (M.bdd_size (nodeAt M s.nodes j).supportSet : ℤ) ≤ largestSupportSet) ∧
      (∀ merger, merger < s.mergers.length →
        (M.bdd_size (combinedSupportSet M s.nodes (mergerAt s.mergers merger).node1
          (mergerAt s.mergers merger).node2) : ℤ) ≤ largestSupportSet ∧
        S.vars (M.bdd_and (nodeAt M s.nodes (mergerAt s.mergers merger).node1).node
          (nodeAt M s.nodes (mergerAt s.mergers merger).node2).node) ⊆
          S.vars (combinedSupportSet M s.nodes (mergerAt s.mergers merger).node1
            (mergerAt s.mergers merger).node2)) := by
  obtain ⟨s0, h0, hinv, _, _, hC, hB, _⟩ := initState_invariants D addr factors varBdds
    largestSupportSet hintsInput quantifiedVariables hv
  obtain ⟨s, hs, _, hI⟩ := runRounds_spec M addr largestSupportSet tie
    (fun s => CubeInv M S varBdds s ∧
      BoundInv M S largestSupportSet (factors.length + varBdds.length) factors s)
    (fun t s s' hi hc hne h =>
      ⟨CubeInv.step_cubes D addr largestSupportSet varBdds t s s' hi hc.1 hne h,
        BoundInv.step_bound D addr largestSupportSet _ factors varBdds t s s' hi hc.1 hc.2 hne h⟩)
    n 0 s0 hinv ⟨hC, hB⟩
  refine ⟨s, stateAfter_eq_of_runRounds M addr tie n factors varBdds largestSupportSet
    hintsInput quantifiedVariables s0 s h0 hs, ?_, ?_⟩
  · intro j hj1 hj2
    rw [D.size_cube _ ((hI.1.cube_supportSet D) j)]
    exact hI.2.node_bound j hj1 hj2
  · intro merger hm
    rw [size_combinedSupportSet D s.nodes (hI.1.cube_supportSet D),
      (combinedSupportSet_cube D s.nodes (hI.1.cube_supportSet D) _ _).2]
    exact ⟨hI.2.merger_bound _ (mergerAt_mem s.mergers hm),
      vars_merged_subset D varBdds s merger hI.1⟩

/-- C6. When the input variables and the quantified variables are
single-variable cubes: from the state after any number of rounds, every round
that pops a merger of two var nodes succeeds, and afterwards the merged cube is
in the set `qv` if and only if the support set of the first node was in `qv`
before, and if and only if the support set of the second node was. -/
theorem merge_quantification_class {M : DdManager α} {S : Semantics α} (D : M.Lawful S) (addr : ℕ → ℕ)
    (tie : ℕ → ℕ) (factors varBdds : List α) (largestSupportSet : ℤ)
    (hintsInput : MergeHints α) (quantifiedVariables : List α)
    (hv : SingleVariableCubes S varBdds) (hq : SingleVariableCubes S quantifiedVariables)
    (n : ℕ) :
    ∃ s, stateAfter M addr tie n factors varBdds largestSupportSet hintsInput
        quantifiedVariables = Except.ok s ∧
      ∀ t merger, MaxHeap.top s.heap t = some merger →
        (nodeAt M s.nodes (mergerAt s.mergers merger).node1).type = NodeType.Var →
        ∃ s', loopStep M addr largestSupportSet t s = Except.ok s' ∧
          (M.bdd_and (nodeAt M s.nodes (mergerAt s.mergers merger).node1).node
              (nodeAt M s.nodes (mergerAt s.mergers merger).node2).node ∈ s'.qv ↔
            (nodeAt M s.nodes (mergerAt s.mergers merger).node1).supportSet ∈ s.qv) ∧
          (M.bdd_and (nodeAt M s.nodes (mergerAt s.mergers merger).node1).node
              (nodeAt M s.nodes (mergerAt s.mergers merger).node2).node ∈ s'.qv ↔
            (nodeAt M s.nodes (mergerAt s.mergers merger).node2).supportSet ∈ s.qv) := by
  obtain ⟨s0, h0, hinv, _, _, hC, _, hK⟩ := initState_invariants D addr factors varBdds
    largestSupportSet hintsInput quantifiedVariables hv
  obtain ⟨s, hs, hinvs, hI⟩ := runRounds_spec M addr largestSupportSet tie
    (fun s => CubeInv M S varBdds s ∧ ClassInv M S (cubeUnion S quantifiedVariables) s)
    (fun t s s' hi hc hne h =>
      ⟨CubeInv.step_cubes D addr largestSupportSet varBdds t s s' hi hc.1 hne h,
        ClassInv.step_class D addr largestSupportSet _ varBdds t s s' hi hc.1 hc.2 hne h⟩)
    n 0 s0 hinv ⟨hC, hK hq⟩
  refine ⟨s, stateAfter_eq_of_runRounds M addr tie n factors varBdds largestSupportSet
    hintsInput quantifiedVariables s0 s h0 hs, ?_⟩
  intro t merger htop hty
  have hne : s.heap ≠ [] := by
    intro he
    rw [he] at htop
    simp [MaxHeap.top, MaxHeap.tops] at htop
  obtain ⟨merger', s', htop', hm, hstep, _, _, hadd⟩ :=
    loopStep_spec M addr largestSupportSet t s hinvs hne
  rw [htop] at htop'
  cases htop'
  obtain ⟨_, _, ht⟩ := hinvs.mergers_valid merger hm
  have hty2 : (nodeAt M s.nodes (mergerAt s.mergers merger).node2).type = NodeType.Var := by
    rw [← ht]; exact hty
  have hqv : s'.qv = (contractState M addr s merger).qv := hadd.frame.2.1
  have hmem := mem_contractState_qv_var M addr s merger hty
    (mergedBddOf M s merger)
  have hcls := hI.2.merger_class _ (mergerAt_mem s.mergers hm) hty
  obtain ⟨hca, hna⟩ := hI.1.var_cube _ hty
  obtain ⟨hcb, _⟩ := hI.1.var_cube _ hty2
  have hfirst : mergedBddOf M s merger ∈ s'.qv ↔
      (nodeAt M s.nodes (mergerAt s.mergers merger).node1).supportSet ∈ s.qv := by
    rw [hqv, hmem]
    constructor
    · rintro (hx | ⟨_, hx⟩)
      · rw [hI.1.supportSet_var hty]
        rcases hI.2.var_class _ hty with ⟨hin, _⟩ | ⟨_, hdis⟩
        · exact hin
        · exfalso
          obtain ⟨_, _, hsub⟩ := hI.2.qv_cube _ hx
          obtain ⟨v, hv'⟩ := hna
          have : v ∈ S.vars (mergedBddOf M s merger) := by
            unfold mergedBddOf
            rw [D.vars_cube_and _ _ hca hcb]
            exact Finset.mem_union_left _ hv'
          exact Finset.disjoint_left.1 hdis hv' (hsub this)
      · exact hx
    · intro hx
      exact Or.inr ⟨rfl, hx⟩
  refine ⟨s', hstep, hfirst, ?_⟩
  rw [show M.bdd_and (nodeAt M s.nodes (mergerAt s.mergers merger).node1).node
      (nodeAt M s.nodes (mergerAt s.mergers merger).node2).node = mergedBddOf M s merger
    from rfl, hfirst, hI.1.supportSet_var hty, hI.1.supportSet_var hty2]
  exact hcls

/-- C7. For nodes whose support sets are cubes, `getCompatibility` returns no
value when exactly one of the two support sets is in the quantified set;
otherwise no value when the union `U` of both support sets and of the support
sets of all neighbours of both nodes has more than `largestSupportSet`
variables; otherwise, for non-empty support sets, the value
`|S1 ∩ S2| / min(|S1|, |S2|) + hint`. -/
theorem getCompatibility_contract {M : DdManager α} {S : Semantics α} (D : M.Lawful S) (nodes : List (AmNode α))
    (hc : ∀ j, S.isCube (nodeAt M nodes j).supportSet) (f1 f2 : ℕ) (largestSupportSet : ℤ)
    (hint : ℚ) (quantifiedVariables : List α) :
    (¬ ((nodeAt M nodes f1).supportSet ∈ quantifiedVariables ↔
        (nodeAt M nodes f2).supportSet ∈ quantifiedVariables) →
      getCompatibility M nodes f1 f2 largestSupportSet hint quantifiedVariables = none) ∧
    (((nodeAt M nodes f1).supportSet ∈ quantifiedVariables ↔
        (nodeAt M nodes f2).supportSet ∈ quantifiedVariables) →
      ((prospectiveSupport M S nodes f1 f2).card : ℤ) > largestSupportSet →
      getCompatibility M nodes f1 f2 largestSupportSet hint quantifiedVariables = none) ∧
    (((nodeAt M nodes f1).supportSet ∈ quantifiedVariables ↔
        (nodeAt M nodes f2).supportSet ∈ quantifiedVariables) →
      ((prospectiveSupport M S nodes f1 f2).card : ℤ) ≤ largestSupportSet →
      (S.vars (nodeAt M nodes f1).supportSet).Nonempty →
      (S.vars (nodeAt M nodes f2).supportSet).Nonempty →
      getCompatibility M nodes f1 f2 largestSupportSet hint quantifiedVariables =
        some (((S.vars (nodeAt M nodes f1).supportSet ∩
            S.vars (nodeAt M nodes f2).supportSet).card : ℚ) /
          min ((S.vars (nodeAt M nodes f1).supportSet).card : ℚ)
            ((S.vars (nodeAt M nodes f2).supportSet).card : ℚ) + hint)) := by
  refine ⟨?_, ?_, ?_⟩
  · intro h
    rw [getCompatibility_eq D nodes hc, if_pos h]
  · intro h1 h2
    rw [getCompatibility_eq D nodes hc, if_neg (not_not.2 h1), if_pos h2]
  · intro h1 h2 _ _
    rw [getCompatibility_eq D nodes hc, if_neg (not_not.2 h1), if_neg (not_lt.2 h2)]

end EngineClaims

end blif_solve

/-! ## The manager of truth tables is lawful -/

namespace blif_solve

section TruthTables

theorem testBit_foldl_or (p : ℕ → Bool) (l : List ℕ) (acc k : ℕ) :
    (l.foldl (fun acc j => if p j then acc ||| 2 ^ j else acc) acc).testBit k =
      (acc.testBit k || (decide (k ∈ l) && p k)) := by
  induction l generalizing acc with
  | nil => simp
  | cons j l ih =>
    rw [List.foldl_cons, ih]
    by_cases hp : p j = true
    · rw [if_pos hp, Nat.testBit_or, Nat.testBit_two_pow]
      by_cases hjk : j = k
      · subst hjk
        simp [hp]
      · have hkj : ¬ k = j := fun h => hjk h.symm
        simp [hjk, hkj]
    · rw [if_neg hp]
      by_cases hjk : j = k
      · subst hjk
        have : p j = false := by simpa using hp
        simp [this]
      · have hkj : ¬ k = j := fun h => hjk h.symm
        simp [hkj]

theorem testBit_ttCube (n : ℕ) (S : List ℕ) (k : ℕ) :
    (ttCube n S).testBit k = (decide (k < 2 ^ n) && S.all (fun i => k.testBit i)) := by
  unfold ttCube
  rw [testBit_foldl_or (fun j => S.all (fun i => j.testBit i))]
  simp [List.mem_range]

theorem testBit_ttCode (n : ℕ) (σ : ℕ → Bool) (k : ℕ) :
    (ttCode n σ).testBit k = (decide (k < n) && σ k) := by
  unfold ttCode
  rw [testBit_foldl_or σ]
  simp [List.mem_range]

theorem ttCode_lt (n : ℕ) (σ : ℕ → Bool) : ttCode n σ < 2 ^ n := by
  apply Nat.lt_pow_two_of_testBit
  intro i hi
  rw [testBit_ttCode]
  have : ¬ i < n := not_lt.2 hi
  simp [this]

theorem ttDepends_iff (n t i : ℕ) :
    ttDepends n t i = true ↔ ∃ j, j < 2 ^ n ∧ t.testBit j ≠ t.testBit (j ^^^ 2 ^ i) := by
  unfold ttDepends
  rw [List.any_eq_true]
  constructor
  · rintro ⟨j, hj, h⟩
    exact ⟨j, List.mem_range.1 hj, by simpa using h⟩
  · rintro ⟨j, hj, h⟩
    exact ⟨j, List.mem_range.2 hj, by simpa using h⟩

theorem mem_ttSupport (n t i : ℕ) :
    i ∈ ttSupport n t ↔ i < n ∧ ttDepends n t i = true := by
  unfold ttSupport
  rw [List.mem_filter, List.mem_range]

theorem flip_lt {n i j : ℕ} (hi : i < n) (hj : j < 2 ^ n) : j ^^^ 2 ^ i < 2 ^ n :=
  Nat.xor_lt_two_pow hj (Nat.pow_lt_pow_right (by decide) hi)

theorem testBit_flip (i j k : ℕ) :
    (j ^^^ 2 ^ i).testBit k = (j.testBit k ^^ decide (i = k)) := by
  rw [Nat.testBit_xor, Nat.testBit_two_pow]

/-- A cube depends exactly on its variables. -/
theorem ttDepends_ttCube (n : ℕ) (S : List ℕ) (hS : ∀ i ∈ S, i < n) (i : ℕ) (hi : i < n) :
    ttDepends n (ttCube n S) i = true ↔ i ∈ S := by
  rw [ttDepends_iff]
  constructor
  · rintro ⟨j, hj, hne⟩
    by_contra hiS
    apply hne
    rw [testBit_ttCube, testBit_ttCube]
    have h1 : decide (j ^^^ 2 ^ i < 2 ^ n) = decide (j < 2 ^ n) := by
      simp [hj, flip_lt hi hj]
    have h2 : S.all (fun k => (j ^^^ 2 ^ i).testBit k) = S.all (fun k => j.testBit k) := by
      rw [Bool.eq_iff_iff, List.all_eq_true, List.all_eq_true]
      have hk : ∀ k ∈ S, (j ^^^ 2 ^ i).testBit k = j.testBit k := by
        intro k hk
        rw [testBit_flip]
        have : ¬ i = k := fun h => hiS (h ▸ hk)
        simp [this]
      constructor
      · intro hall k hkS
        rw [← hk k hkS]; exact hall k hkS
      · intro hall k hkS
        rw [hk k hkS]; exact hall k hkS
    rw [h1, h2]
  · intro hiS
    refine ⟨2 ^ n - 1, Nat.sub_lt (Nat.two_pow_pos n) Nat.one_pos, ?_⟩
    rw [testBit_ttCube, testBit_ttCube]
    have hlt : 2 ^ n - 1 < 2 ^ n := Nat.sub_lt (Nat.two_pow_pos n) Nat.one_pos
    have h1 : S.all (fun k => (2 ^ n - 1).testBit k) = true := by
      rw [List.all_eq_true]
      intro k hk
      rw [Nat.testBit_two_pow_sub_one]
      simpa using hS k hk
    have h2 : S.all (fun k => ((2 ^ n - 1) ^^^ 2 ^ i).testBit k) = false := by
      rw [List.all_eq_false]
      refine ⟨i, hiS, ?_⟩
      rw [testBit_flip, Nat.testBit_two_pow_sub_one]
      simp [hi]
    rw [h1, h2]
    simp [hlt]

theorem mem_ttSupport_ttCube (n : ℕ) (S : List ℕ) (hS : ∀ i ∈ S, i < n) (i : ℕ) :
    i ∈ ttSupport n (ttCube n S) ↔ i ∈ S := by
  rw [mem_ttSupport]
  constructor
  · rintro ⟨hi, hd⟩
    exact (ttDepends_ttCube n S hS i hi).1 hd
  · intro hiS
    exact ⟨hS i hiS, (ttDepends_ttCube n S hS i (hS i hiS)).2 hiS⟩

theorem toFinset_ttSupport_ttCube (n : ℕ) (S : List ℕ) (hS : ∀ i ∈ S, i < n) :
    (ttSupport n (ttCube n S)).toFinset = S.toFinset := by
  ext i
  rw [List.mem_toFinset, List.mem_toFinset]
  exact mem_ttSupport_ttCube n S hS i

theorem ttCube_congr (n : ℕ) (S T : List ℕ) (h : ∀ i, i ∈ S ↔ i ∈ T) :
    ttCube n S = ttCube n T := by
  apply Nat.eq_of_testBit_eq
  intro k
  rw [testBit_ttCube, testBit_ttCube]
  congr 1
  rw [Bool.eq_iff_iff, List.all_eq_true, List.all_eq_true]
  constructor
  · intro hall i hi
    exact hall i ((h i).2 hi)
  · intro hall i hi
    exact hall i ((h i).1 hi)

theorem ttCube_and (n : ℕ) (S T : List ℕ) : ttCube n S &&& ttCube n T = ttCube n (S ++ T) := by
  apply Nat.eq_of_testBit_eq
  intro k
  rw [Nat.testBit_and, testBit_ttCube, testBit_ttCube, testBit_ttCube, List.all_append]
  cases decide (k < 2 ^ n) <;> simp

theorem ttSupport_lt (n t : ℕ) : ∀ i ∈ ttSupport n t, i < n :=
  fun i hi => ((mem_ttSupport n t i).1 hi).1

theorem ttDepends_and (n a b i : ℕ) (h : ttDepends n (a &&& b) i = true) :
    ttDepends n a i = true ∨ ttDepends n b i = true := by
  rw [ttDepends_iff] at h
  obtain ⟨j, hj, hne⟩ := h
  by_contra hcon
  rw [not_or] at hcon
  apply hne
  have ha : a.testBit j = a.testBit (j ^^^ 2 ^ i) := by
    by_contra h'
    exact hcon.1 ((ttDepends_iff n a i).2 ⟨j, hj, h'⟩)
  have hb : b.testBit j = b.testBit (j ^^^ 2 ^ i) := by
    by_contra h'
    exact hcon.2 ((ttDepends_iff n b i).2 ⟨j, hj, h'⟩)
  rw [Nat.testBit_and, Nat.testBit_and, ha, hb]

/-- The manager of truth tables satisfies the laws of the manager contract. -/
theorem ttManager_lawful (n : ℕ) : (ttManager n).Lawful (ttSemantics n) := by
  have hone : (2 ^ (2 ^ n) - 1 : ℕ) = ttCube n [] := by
    apply Nat.eq_of_testBit_eq
    intro k
    rw [Nat.testBit_two_pow_sub_one, testBit_ttCube]
    simp
  constructor
  · intro σ
    show (2 ^ (2 ^ n) - 1).testBit (ttCode n σ) = true
    rw [Nat.testBit_two_pow_sub_one]
    simpa using ttCode_lt n σ
  · intro a b σ
    show (a &&& b).testBit (ttCode n σ) = _
    rw [Nat.testBit_and]
    rfl
  · intro a b i hi
    have hi' : i ∈ ttSupport n (a &&& b) := List.mem_toFinset.1 hi
    obtain ⟨hlt, hd⟩ := (mem_ttSupport n _ i).1 hi'
    rw [Finset.mem_union]
    rcases ttDepends_and n a b i hd with h | h
    · exact Or.inl (List.mem_toFinset.2 ((mem_ttSupport n a i).2 ⟨hlt, h⟩))
    · exact Or.inr (List.mem_toFinset.2 ((mem_ttSupport n b i).2 ⟨hlt, h⟩))
  · exact ⟨[], by simp, hone⟩
  · show (ttSupport n (2 ^ (2 ^ n) - 1)).toFinset = ∅
    rw [hone, toFinset_ttSupport_ttCube n [] (by simp)]
    rfl
  · rintro a b ⟨S, hS, rfl⟩ ⟨T, hT, rfl⟩
    refine ⟨S ++ T, ?_, ttCube_and n S T⟩
    intro i hi
    rcases List.mem_append.1 hi with h | h
    · exact hS i h
    · exact hT i h
  · rintro a b ⟨S, hS, rfl⟩ ⟨T, hT, rfl⟩
    show (ttSupport n (ttCube n S &&& ttCube n T)).toFinset = _
    rw [ttCube_and]
    show _ = (ttSupport n (ttCube n S)).toFinset ∪ (ttSupport n (ttCube n T)).toFinset
    rw [toFinset_ttSupport_ttCube n S hS, toFinset_ttSupport_ttCube n T hT,
      toFinset_ttSupport_ttCube n (S ++ T) (by
        intro i hi
        rcases List.mem_append.1 hi with h | h
        · exact hS i h
        · exact hT i h), List.toFinset_append]
  · intro f
    exact ⟨ttSupport n f, ttSupport_lt n f, rfl⟩
  · intro f
    exact toFinset_ttSupport_ttCube n (ttSupport n f) (ttSupport_lt n f)
  · intro a b _ _
    refine ⟨(ttSupport n a).filter (fun i => decide (i ∈ ttSupport n b)), ?_, rfl⟩
    intro i hi
    exact ttSupport_lt n a i (List.mem_filter.1 hi).1
  · intro a b _ _
    show (ttSupport n (ttCube n _)).toFinset = _
    rw [toFinset_ttSupport_ttCube n _ (by
      intro i hi
      exact ttSupport_lt n a i (List.mem_filter.1 hi).1)]
    ext i
    show i ∈ List.toFinset _ ↔ i ∈ (ttSupport n a).toFinset ∩ (ttSupport n b).toFinset
    rw [Finset.mem_inter, List.mem_toFinset, List.mem_toFinset, List.mem_toFinset,
      List.mem_filter]
    simp
  · intro c _
    show (ttSupport n c).length = ((ttSupport n c).toFinset).card
    rw [List.toFinset_card_of_nodup]
    exact (List.nodup_range n).filter _
  · intro c
    show decide (c = 2 ^ (2 ^ n) - 1) = true ↔ c = 2 ^ (2 ^ n) - 1
    exact decide_eq_true_iff
  · rintro a b ⟨S, hS, rfl⟩ ⟨T, hT, rfl⟩ h
    have h' : (ttSupport n (ttCube n S)).toFinset = (ttSupport n (ttCube n T)).toFinset := h
    rw [toFinset_ttSupport_ttCube n S hS, toFinset_ttSupport_ttCube n T hT] at h'
    apply ttCube_congr
    intro i
    rw [← List.mem_toFinset, ← List.mem_toFinset, h']

end TruthTables

end blif_solve

/-! ## Concrete runs on truth tables -/

namespace blif_solve

section Witnesses

theorem singleVariableCubes_ttVar (n : ℕ) (l : List ℕ) (h : ∀ i ∈ l, i < n) :
    SingleVariableCubes (ttSemantics n) (l.map (ttVar n)) := by
  intro v hv
  obtain ⟨i, hi, rfl⟩ := List.mem_map.1 hv
  have hS : ∀ k ∈ [i], k < n := by
    intro k hk
    rw [List.mem_singleton] at hk
    rw [hk]
    exact h i hi
  refine ⟨⟨[i], hS, rfl⟩, ?_⟩
  show ((ttSupport n (ttCube n [i])).toFinset).card = 1
  rw [toFinset_ttSupport_ttCube n [i] hS]
  rfl

theorem cube_supportSet_of_forall {α : Type} {M : DdManager α} {S : Semantics α}
    (D : M.Lawful S) (nodes : List (AmNode α)) (h : ∀ n ∈ nodes, S.isCube n.supportSet)
    (j : ℕ) : S.isCube (nodeAt M nodes j).supportSet := by
  by_cases hj : j < nodes.length
  · apply h
    unfold nodeAt
    rw [List.getD_eq_getElem?_getD, List.getElem?_eq_getElem hj]
    exact List.getElem_mem _
  · rw [nodeAt_of_length_le M nodes (not_lt.1 hj)]
    exact D.cube_support _

/-- Witness of `merge_factors_equivalent`: factors `a ∨ b`, `b ∨ c` over the
variables `a`, `b`, `c`, bound 3, `a` quantified. -/
theorem merge_factors_equivalent_witness :
    ∃ r, merge (ttManager 3) id (fun _ => 0)
        [ttOr (ttVar 3 0) (ttVar 3 1), ttOr (ttVar 3 1) (ttVar 3 2)]
        [ttVar 3 0, ttVar 3 1, ttVar 3 2] 3 MergeHints.empty [ttVar 3 0] = Except.ok r ∧
      ∀ σ : ℕ → Bool,
        (∀ f ∈ r.factors, (ttSemantics 3).sem f σ = true) ↔
        (∀ f ∈ [ttOr (ttVar 3 0) (ttVar 3 1), ttOr (ttVar 3 1) (ttVar 3 2)],
          (ttSemantics 3).sem f σ = true) :=
  merge_factors_equivalent (ttManager_lawful 3) id (fun _ => 0) _ _ 3 MergeHints.empty _

/-- Witness of `merge_variables_cube_union` on the same run. -/
theorem merge_variables_cube_union_witness :
    ∃ r, merge (ttManager 3) id (fun _ => 0)
        [ttOr (ttVar 3 0) (ttVar 3 1), ttOr (ttVar 3 1) (ttVar 3 2)]
        [ttVar 3 0, ttVar 3 1, ttVar 3 2] 3 MergeHints.empty [ttVar 3 0] = Except.ok r ∧
      cubeUnion (ttSemantics 3) r.varBdds =
        cubeUnion (ttSemantics 3) [ttVar 3 0, ttVar 3 1, ttVar 3 2] :=
  merge_variables_cube_union (ttManager_lawful 3) id (fun _ => 0) _ _ 3 MergeHints.empty _
    (singleVariableCubes_ttVar 3 [0, 1, 2] (by decide))

set_option maxRecDepth 100000 in
/-- C3, as stated, fails on scenario 2 of the spec: factors `a ∨ b`, `c ∨ d`
over four single-variable cubes and bound 1.  The inputs are valid, no merger
is eligible, and both returned factors have a support of two variables. -/
theorem merge_factor_support_bound_counterexample :
    SingleVariableCubes (ttSemantics 4) [ttVar 4 0, ttVar 4 1, ttVar 4 2, ttVar 4 3] ∧
    ∃ r, merge (ttManager 4) id (fun _ => 0)
        [ttOr (ttVar 4 0) (ttVar 4 1), ttOr (ttVar 4 2) (ttVar 4 3)]
        [ttVar 4 0, ttVar 4 1, ttVar 4 2, ttVar 4 3] 1 MergeHints.empty [] = Except.ok r ∧
      ∃ f ∈ r.factors,
        ¬ (((ttManager 4).bdd_size ((ttManager 4).bdd_support f) : ℤ) ≤ 1) :=
  ⟨singleVariableCubes_ttVar 4 [0, 1, 2, 3] (by decide),
    ⟨[61166, 65520], [43690, 52428, 61680, 65280]⟩, by rfl, 61166, by decide, by decide⟩

/-- Witness of `merge_factor_support_bound` on the run of the witness of C1:
the returned factor is no input factor and has a support of three variables. -/
theorem merge_factor_support_bound_witness :
    ∃ r, merge (ttManager 3) id (fun _ => 0)
        [ttOr (ttVar 3 0) (ttVar 3 1), ttOr (ttVar 3 1) (ttVar 3 2)]
        [ttVar 3 0, ttVar 3 1, ttVar 3 2] 3 MergeHints.empty [ttVar 3 0] = Except.ok r ∧
      ∀ f ∈ r.factors,
        f ∈ [ttOr (ttVar 3 0) (ttVar 3 1), ttOr (ttVar 3 1) (ttVar 3 2)] ∨
        ((ttManager 3).bdd_size ((ttManager 3).bdd_support f) : ℤ) ≤ 3 :=
  merge_factor_support_bound (ttManager_lawful 3) id (fun _ => 0) _ _ 3 MergeHints.empty _
    (singleVariableCubes_ttVar 3 [0, 1, 2] (by decide))

/-- Witness of `merge_contraction_support_bound`: the state after one round of
the same run. -/
theorem merge_contraction_support_bound_witness :
    ∃ s, stateAfter (ttManager 3) id (fun _ => 0) 1
        [ttOr (ttVar 3 0) (ttVar 3 1), ttOr (ttVar 3 1) (ttVar 3 2)]
        [ttVar 3 0, ttVar 3 1, ttVar 3 2] 3 MergeHints.empty [ttVar 3 0] = Except.ok s ∧
      (∀ j, [ttOr (ttVar 3 0) (ttVar 3 1), ttOr (ttVar 3 1) (ttVar 3 2)].length +
          [ttVar 3 0, ttVar 3 1, ttVar 3 2].length ≤ j → j < s.nodes.length →
        ((ttManager 3).bdd_size (nodeAt (ttManager 3) s.nodes j).supportSet : ℤ) ≤ 3) ∧
      (∀ merger, merger < s.mergers.length →
        ((ttManager 3).bdd_size (combinedSupportSet (ttManager 3) s.nodes
          (mergerAt s.mergers merger).node1 (mergerAt s.mergers merger).node2) : ℤ) ≤ 3 ∧
        (ttSemantics 3).vars ((ttManager 3).bdd_and
            (nodeAt (ttManager 3) s.nodes (mergerAt s.mergers merger).node1).node
            (nodeAt (ttManager 3) s.nodes (mergerAt s.mergers merger).node2).node) ⊆
          (ttSemantics 3).vars (combinedSupportSet (ttManager 3) s.nodes
            (mergerAt s.mergers merger).node1 (mergerAt s.mergers merger).node2)) :=
  merge_contraction_support_bound (ttManager_lawful 3) id (fun _ => 0) _ _ 3
    MergeHints.empty _ (singleVariableCubes_ttVar 3 [0, 1, 2] (by decide)) 1

/-- Witness of `merge_quantification_class`: variables `a`, `b`, `c` with `a`
and `b` quantified and no factors (scenario 5 of the spec), at the first
round. -/
theorem merge_quantification_class_witness :
    ∃ s, stateAfter (ttManager 3) id (fun _ => 0) 0 []
        [ttVar 3 0, ttVar 3 1, ttVar 3 2] 3 MergeHints.empty [ttVar 3 0, ttVar 3 1] =
        Except.ok s ∧
      ∀ t merger, MaxHeap.top s.heap t = some merger →
        (nodeAt (ttManager 3) s.nodes (mergerAt s.mergers merger).node1).type =
          NodeType.Var →
        ∃ s', loopStep (ttManager 3) id 3 t s = Except.ok s' ∧
          ((ttManager 3).bdd_and
              (nodeAt (ttManager 3) s.nodes (mergerAt s.mergers merger).node1).node
              (nodeAt (ttManager 3) s.nodes (mergerAt s.mergers merger).node2).node ∈ s'.qv ↔
            (nodeAt (ttManager 3) s.nodes (mergerAt s.mergers merger).node1).supportSet ∈
              s.qv) ∧
          ((ttManager 3).bdd_and
              (nodeAt (ttManager 3) s.nodes (mergerAt s.mergers merger).node1).node
              (nodeAt (ttManager 3) s.nodes (mergerAt s.mergers merger).node2).node ∈ s'.qv ↔
            (nodeAt (ttManager 3) s.nodes (mergerAt s.mergers merger).node2).supportSet ∈
              s.qv) :=
  merge_quantification_class (ttManager_lawful 3) id (fun _ => 0) [] _ 3 MergeHints.empty _
    (singleVariableCubes_ttVar 3 [0, 1, 2] (by decide))
    (singleVariableCubes_ttVar 3 [0, 1] (by decide)) 0

/-- Witness of `getCompatibility_contract`: the func nodes of `a ∨ b` and
`b ∨ c` over three variables, bound 3, hint 7: the score is `1 / 2 + 7`. -/
theorem getCompatibility_contract_witness :
    getCompatibility (ttManager 3)
        [AmNode.create (ttManager 3) NodeType.Func (ttOr (ttVar 3 0) (ttVar 3 1)),
          AmNode.create (ttManager 3) NodeType.Func (ttOr (ttVar 3 1) (ttVar 3 2))]
        0 1 3 7 [] = some ((1 : ℚ) / 2 + 7) := by
  have h := (getCompatibility_contract (ttManager_lawful 3)
    [AmNode.create (ttManager 3) NodeType.Func (ttOr (ttVar 3 0) (ttVar 3 1)),
      AmNode.create (ttManager 3) NodeType.Func (ttOr (ttVar 3 1) (ttVar 3 2))]
    (cube_supportSet_of_forall (ttManager_lawful 3) _ (by
      intro n hn
      simp only [List.mem_cons, List.mem_singleton, List.not_mem_nil, or_false] at hn
      rcases hn with rfl | rfl
      · exact (ttManager_lawful 3).cube_support (ttOr (ttVar 3 0) (ttVar 3 1))
      · exact (ttManager_lawful 3).cube_support (ttOr (ttVar 3 1) (ttVar 3 2))))
    0 1 3 7 []).2.2 (by simp) (by decide) (by decide) (by decide)
  have c1 : ((ttSemantics 3).vars (nodeAt (ttManager 3)
      [AmNode.create (ttManager 3) NodeType.Func (ttOr (ttVar 3 0) (ttVar 3 1)),
        AmNode.create (ttManager 3) NodeType.Func (ttOr (ttVar 3 1) (ttVar 3 2))]
      0).supportSet ∩ (ttSemantics 3).vars (nodeAt (ttManager 3)
      [AmNode.create (ttManager 3) NodeType.Func (ttOr (ttVar 3 0) (ttVar 3 1)),
        AmNode.create (ttManager 3) NodeType.Func (ttOr (ttVar 3 1) (ttVar 3 2))]
      1).supportSet).card = 1 := by decide
  have c2 : ((ttSemantics 3).vars (nodeAt (ttManager 3)
      [AmNode.create (ttManager 3) NodeType.Func (ttOr (ttVar 3 0) (ttVar 3 1)),
        AmNode.create (ttManager 3) NodeType.Func (ttOr (ttVar 3 1) (ttVar 3 2))]
      0).supportSet).card = 2 := by decide
  have c3 : ((ttSemantics 3).vars (nodeAt (ttManager 3)
      [AmNode.create (ttManager 3) NodeType.Func (ttOr (ttVar 3 0) (ttVar 3 1)),
        AmNode.create (ttManager 3) NodeType.Func (ttOr (ttVar 3 1) (ttVar 3 2))]
      1).supportSet).card = 2 := by decide
  rw [h, c1, c2, c3]
  norm_num

end Witnesses

end blif_solve
/-! ## Retargeted weights of `MergeHints::merge` -/

namespace blif_solve

namespace MergeHints

variable {α : Type} [LinearOrder α]

/-- The handle `x` is marked for addition and every mark of `x` weighs at
least `w`. -/
theorem markForAddition_lower {sta : List (α × ℚ)} {x : α} {w : ℚ}
    (h : (∃ t ∈ sta, t.1 = x) ∧ ∀ t ∈ sta, t.1 = x → w ≤ t.2) (g : α) (w' : ℚ) :
    (∃ t ∈ markForAddition sta g w', t.1 = x) ∧
      ∀ t ∈ markForAddition sta g w', t.1 = x → w ≤ t.2 := by
  obtain ⟨⟨t0, ht0, hx0⟩, hall⟩ := h
  unfold markForAddition
  split
  · constructor
    · refine ⟨if t0.1 = g then (t0.1, max w' t0.2) else t0, List.mem_map.2 ⟨t0, ht0, rfl⟩, ?_⟩
      split <;> exact hx0
    · intro t ht hx
      obtain ⟨t', ht', rfl⟩ := List.mem_map.1 ht
      split at hx
      · rename_i hg
        simp only [hg, if_true]
        exact le_trans (hall t' ht' hx) (le_max_right _ _)
      · rename_i hg
        simp only [hg, if_false]
        exact hall t' ht' hx
  · rename_i hany
    constructor
    · exact ⟨t0, (mem_staOrderedInsert g w' sta t0).2 (Or.inr ht0), hx0⟩
    · intro t ht hx
      rcases (mem_staOrderedInsert g w' sta t).1 ht with rfl | ht
      · exfalso
        apply hany
        rw [List.any_eq_true]
        exact ⟨t0, ht0, by simpa using hx0.trans hx.symm⟩
      · exact hall t ht hx

/-- After `x` is marked with `w`, every mark of `x` weighs at least `w`. -/
theorem markForAddition_self (sta : List (α × ℚ)) (x : α) (w : ℚ) :
    (∃ t ∈ markForAddition sta x w, t.1 = x) ∧
      ∀ t ∈ markForAddition sta x w, t.1 = x → w ≤ t.2 := by
  unfold markForAddition
  split
  · rename_i hany
    rw [List.any_eq_true] at hany
    obtain ⟨t0, ht0, hx0⟩ := hany
    have hx0' : t0.1 = x := by simpa using hx0
    constructor
    · refine ⟨if t0.1 = x then (t0.1, max w t0.2) else t0, List.mem_map.2 ⟨t0, ht0, rfl⟩, ?_⟩
      split <;> exact hx0'
    · intro t ht hx
      obtain ⟨t', ht', rfl⟩ := List.mem_map.1 ht
      split at hx
      · rename_i hg
        simp only [hg, if_true]
        exact le_max_left _ _
      · rename_i hg
        exact absurd hx hg
  · rename_i hany
    constructor
    · exact ⟨(x, w), (mem_staOrderedInsert x w sta _).2 (Or.inl rfl), rfl⟩
    · intro t ht hx
      rcases (mem_staOrderedInsert x w sta t).1 ht with rfl | ht
      · exact le_refl _
      · exfalso
        apply hany
        rw [List.any_eq_true]
        exact ⟨t, ht, by simpa using hx⟩

/-- One round of the scan leaves `stuffToAdd` alone or marks the other handle
of a key that holds one of the two merged handles. -/
theorem mergeScan_fst (f1 f2 : α) (acc : List (α × ℚ) × List (α × α)) (e : (α × α) × ℚ) :
    (mergeScan f1 f2 acc e).1 = acc.1 ∨
      ∃ g f, (f = f1 ∨ f = f2) ∧ (e.1 = (f, g) ∨ e.1 = (g, f)) ∧
        (mergeScan f1 f2 acc e).1 = markForAddition acc.1 g e.2 := by
  unfold mergeScan
  simp only
  split_ifs with c1 c2 c3 c4 c5
  · exact Or.inl rfl
  · exact Or.inr ⟨e.1.2, f1, Or.inl rfl, Or.inl (Prod.ext c2.symm rfl), rfl⟩
  · exact Or.inr ⟨e.1.1, f1, Or.inl rfl, Or.inr (Prod.ext rfl c3.symm), rfl⟩
  · exact Or.inr ⟨e.1.2, f2, Or.inr rfl, Or.inl (Prod.ext c4.symm rfl), rfl⟩
  · exact Or.inr ⟨e.1.1, f2, Or.inr rfl, Or.inr (Prod.ext rfl c5.symm), rfl⟩
  · exact Or.inl rfl

/-- The round of the scan at the key of the pair `{y, x}`, for a merged handle
`y` and another handle `x`, marks `x`. -/
theorem mergeScan_marks_other {f1 f2 y x : α} (hy : y = f1 ∨ y = f2) (hx1 : x ≠ f1)
    (hx2 : x ≠ f2) (acc : List (α × ℚ) × List (α × α)) (e : (α × α) × ℚ)
    (he : e.1 = (min y x, max y x)) :
    (mergeScan f1 f2 acc e).1 = markForAddition acc.1 x e.2 := by
  have hyx : y ≠ x := by
    rcases hy with rfl | rfl
    · exact fun h => hx1 h.symm
    · exact fun h => hx2 h.symm
  have hkey : (e.1.1 = y ∧ e.1.2 = x) ∨ (e.1.1 = x ∧ e.1.2 = y) := by
    rcases le_total y x with h | h
    · left
      rw [he, min_eq_left h, max_eq_right h]
      exact ⟨rfl, rfl⟩
    · right
      rw [he, min_eq_right h, max_eq_left h]
      exact ⟨rfl, rfl⟩
  have hx1' : ¬ f1 = x := fun h => hx1 h.symm
  have hx2' : ¬ f2 = x := fun h => hx2 h.symm
  unfold mergeScan
  simp only
  rcases hkey with ⟨h1, h2⟩ | ⟨h1, h2⟩
  · rw [h1, h2]
    rcases hy with rfl | rfl
    · simp [hx2']
    · by_cases h12 : f1 = y
      · simp [h12, hx2']
      · simp [h12, hx1', hx2']
  · rw [h1, h2]
    rcases hy with rfl | rfl
    · simp [hx1']
    · by_cases h12 : f1 = y
      · simp [h12, hx1', hx2']
      · simp [h12, hx1', hx2']

/-- The scan keeps the marks of `x` at or above `w`. -/
theorem foldl_mergeScan_lower (f1 f2 : α) {x : α} {w : ℚ} (m : List ((α × α) × ℚ))
    (acc : List (α × ℚ) × List (α × α))
    (h : (∃ t ∈ acc.1, t.1 = x) ∧ ∀ t ∈ acc.1, t.1 = x → w ≤ t.2) :
    (∃ t ∈ (m.foldl (mergeScan f1 f2) acc).1, t.1 = x) ∧
      ∀ t ∈ (m.foldl (mergeScan f1 f2) acc).1, t.1 = x → w ≤ t.2 := by
  induction m generalizing acc with
  | nil => exact h
  | cons e m ih =>
    apply ih
    rcases mergeScan_fst f1 f2 acc e with h1 | ⟨g, _, _, _, h1⟩
    · rw [h1]; exact h
    · rw [h1]; exact markForAddition_lower h g e.2

/-- After the scan, a stored pair `{y, x}` of a merged handle `y` has marked
`x` with at least its weight. -/
theorem foldl_mergeScan_marked {f1 f2 y x : α} (hy : y = f1 ∨ y = f2) (hx1 : x ≠ f1)
    (hx2 : x ≠ f2) (m : List ((α × α) × ℚ)) (acc : List (α × ℚ) × List (α × α))
    (e : (α × α) × ℚ) (hmem : e ∈ m) (he : e.1 = (min y x, max y x)) :
    (∃ t ∈ (m.foldl (mergeScan f1 f2) acc).1, t.1 = x) ∧
      ∀ t ∈ (m.foldl (mergeScan f1 f2) acc).1, t.1 = x → e.2 ≤ t.2 := by
  induction m generalizing acc with
  | nil => cases hmem
  | cons e' m ih =>
    rcases List.mem_cons.1 hmem with rfl | hmem'
    · rw [List.foldl_cons]
      apply foldl_mergeScan_lower
      rw [mergeScan_marks_other hy hx1 hx2 acc e he]
      exact markForAddition_self acc.1 x e.2
    · exact ih _ hmem'

/-- Every mark of the scan comes from a key that joins the marked handle to
one of the two merged handles. -/
theorem foldl_mergeScan_origin (f1 f2 : α) (m : List ((α × α) × ℚ))
    (acc : List (α × ℚ) × List (α × α)) :
    ∀ t ∈ (m.foldl (mergeScan f1 f2) acc).1, (∃ t' ∈ acc.1, t'.1 = t.1) ∨
      ∃ e ∈ m, ∃ f, (f = f1 ∨ f = f2) ∧ (e.1 = (f, t.1) ∨ e.1 = (t.1, f)) := by
  induction m generalizing acc with
  | nil => intro t ht; exact Or.inl ⟨t, ht, rfl⟩
  | cons e m ih =>
    intro t ht
    rcases ih _ t ht with ⟨t', ht', hk⟩ | ⟨e', he', f, hf, hk⟩
    · rcases mergeScan_fst f1 f2 acc e with h1 | ⟨g, f, hf, hkey, h1⟩
      · rw [h1] at ht'
        exact Or.inl ⟨t', ht', hk⟩
      · rw [h1] at ht'
        rcases key_of_mem_markForAddition ht' with hg | ⟨t'', ht'', hk''⟩
        · right
          refine ⟨e, List.mem_cons_self _ _, f, hf, ?_⟩
          rw [← hk, hg]
          exact hkey
        · exact Or.inl ⟨t'', ht'', hk''.trans hk⟩
    · exact Or.inr ⟨e', List.mem_cons_of_mem _ he', f, hf, hk⟩

/-- The entry of a found key is in the map. -/
theorem weightsFind_mem {m : List ((α × α) × ℚ)} {k : α × α} {w : ℚ}
    (h : weightsFind m k = some w) : (k, w) ∈ m := by
  induction m with
  | nil => simp [weightsFind] at h
  | cons e m ih =>
    unfold weightsFind at h
    split at h
    · rename_i hk
      cases h
      rw [← hk]
      exact List.mem_cons_self _ _
    · exact List.mem_cons_of_mem _ (ih h)

/-- What `addWeight(g, c, w)` does to the entry of the pair `{x, c}`. -/
theorem weightsFind_addWeight (H : MergeHints α) (g c x : α) (w : ℚ) (hxc : x ≠ c) :
    weightsFind (H.addWeight g c w).m_weights (min x c, max x c) =
      if g = x then some ((weightsFind H.m_weights (min x c, max x c)).getD w)
      else weightsFind H.m_weights (min x c, max x c) := by
  rw [addWeight_eq]
  by_cases hgc : g = c
  · have hcx : ¬ c = x := fun h => hxc h.symm
    simp [hgc, hcx]
  · simp only [hgc, if_false, weightsFind_insert]
    by_cases hgx : g = x
    · simp [hgx]
    · have : (min g c, max g c) ≠ (min x c, max x c) := by
        intro hk
        rcases (minmax_eq_iff g c x c).1 hk with ⟨h1, _⟩ | ⟨h1, h2⟩
        · exact hgx h1
        · exact hgc h1
      simp [this, hgx]

/-- The additions at the end of `merge` keep a stored pair `{x, c}` as it is. -/
theorem foldl_addWeight_stored (c x : α) (hxc : x ≠ c) (l : List (α × ℚ)) (H : MergeHints α)
    (v : ℚ) (h : weightsFind H.m_weights (min x c, max x c) = some v) :
    weightsFind (l.foldl (fun H' toAdd => H'.addWeight toAdd.1 c toAdd.2) H).m_weights
      (min x c, max x c) = some v := by
  induction l generalizing H with
  | nil => exact h
  | cons t l ih =>
    apply ih
    rw [weightsFind_addWeight H t.1 c x t.2 hxc, h]
    split <;> rfl

/-- The additions at the end of `merge` store no pair `{x, c}` when `x` is not
marked. -/
theorem foldl_addWeight_none (c x : α) (hxc : x ≠ c) (l : List (α × ℚ)) (H : MergeHints α)
    (h : weightsFind H.m_weights (min x c, max x c) = none) (hl : ∀ t ∈ l, t.1 ≠ x) :
    weightsFind (l.foldl (fun H' toAdd => H'.addWeight toAdd.1 c toAdd.2) H).m_weights
      (min x c, max x c) = none := by
  induction l generalizing H with
  | nil => exact h
  | cons t l ih =>
    apply ih
    · rw [weightsFind_addWeight H t.1 c x t.2 hxc, if_neg (hl t (List.mem_cons_self _ _)), h]
    · exact fun t' ht' => hl t' (List.mem_cons_of_mem _ ht')

/-- The additions at the end of `merge` store an absent pair `{x, c}` with the
weight of a mark of `x`. -/
theorem foldl_addWeight_marked (c x : α) (hxc : x ≠ c) (l : List (α × ℚ)) (H : MergeHints α)
    (h : weightsFind H.m_weights (min x c, max x c) = none) (hl : ∃ t ∈ l, t.1 = x) :
    ∃ t ∈ l, t.1 = x ∧
      weightsFind (l.foldl (fun H' toAdd => H'.addWeight toAdd.1 c toAdd.2) H).m_weights
        (min x c, max x c) = some t.2 := by
  induction l generalizing H with
  | nil =>
    obtain ⟨t, ht, _⟩ := hl
    cases ht
  | cons t l ih =>
    by_cases htx : t.1 = x
    · refine ⟨t, List.mem_cons_self _ _, htx, ?_⟩
      rw [List.foldl_cons]
      apply foldl_addWeight_stored c x hxc
      rw [weightsFind_addWeight H t.1 c x t.2 hxc, if_pos htx, h]
      rfl
    · obtain ⟨t0, ht0, hx0⟩ := hl
      have ht0' : t0 ∈ l := by
        rcases List.mem_cons.1 ht0 with rfl | h'
        · exact absurd hx0 htx
        · exact h'
      obtain ⟨t1, ht1, hx1, hf⟩ := ih (H.addWeight t.1 c t.2)
        (by rw [weightsFind_addWeight H t.1 c x t.2 hxc, if_neg htx, h]) ⟨t0, ht0', hx0⟩
      exact ⟨t1, List.mem_cons_of_mem _ ht1, hx1, hf⟩

end MergeHints

end blif_solve
namespace blif_solve

namespace MergeHints

variable {α : Type} [LinearOrder α]

/-- The entry of the pair `{x, c}` after `mergeOrdered f1 f2 c`, for a handle
`x` other than `f1`, `f2`, `c` and a pair `{x, c}` that is absent or erased by
the call: it holds at least the weight of every stored pair `{f1, x}`,
`{f2, x}`, and it is absent when neither pair is stored. -/
theorem mergeOrdered_retarget {H : MergeHints α} (hH : H.KeysOrdered) {f1 f2 : α}
    (hlt : f1 < f2) (c x : α) (hx1 : x ≠ f1) (hx2 : x ≠ f2) (hxc : x ≠ c)
    (hc : weightsFind H.m_weights (min x c, max x c) = none ∨ c = f1 ∨ c = f2) :
    (∀ y, (y = f1 ∨ y = f2) → ∀ w, weightsFind H.m_weights (min y x, max y x) = some w →
      ∃ v, weightsFind (H.mergeOrdered f1 f2 c).m_weights (min x c, max x c) = some v ∧
        w ≤ v) ∧
    ((∀ y, (y = f1 ∨ y = f2) → weightsFind H.m_weights (min y x, max y x) = none) →
      weightsFind (H.mergeOrdered f1 f2 c).m_weights (min x c, max x c) = none) := by
  have herased : weightsFind
      ((H.m_weights.foldl (mergeScan f1 f2) ([], [])).2.foldl
        (fun m toDelete => weightsErase toDelete m) H.m_weights) (min x c, max x c) = none := by
    rw [weightsFind_eq_none_iff]
    intro e he hk
    obtain ⟨hm, hnot⟩ := (mem_foldl_weightsErase _ _ _).1 he
    have htouch : touches e.1 c := by
      rw [hk]
      rcases le_total x c with h | h
      · right; exact max_eq_right h
      · left; exact min_eq_right h
    rcases hc with hc | hc | hc
    · exact (weightsFind_eq_none_iff _ _).1 hc e hm hk
    · rw [hc] at htouch
      exact hnot (foldl_mergeScan_deletes f1 f2 _ _ e hm (Or.inl htouch))
    · rw [hc] at htouch
      exact hnot (foldl_mergeScan_deletes f1 f2 _ _ e hm (Or.inr htouch))
  unfold MergeHints.mergeOrdered
  simp only [ne_of_lt hlt, if_false]
  constructor
  · intro y hy w hw
    obtain ⟨hex, hall⟩ := foldl_mergeScan_marked hy hx1 hx2 H.m_weights ([], [])
      ((min y x, max y x), w) (weightsFind_mem hw) rfl
    obtain ⟨t, ht, htx, hf⟩ := foldl_addWeight_marked c x hxc _ ⟨_⟩ herased hex
    exact ⟨t.2, hf, hall t ht htx⟩
  · intro hnone
    apply foldl_addWeight_none c x hxc _ ⟨_⟩ herased
    intro t ht htx
    rcases foldl_mergeScan_origin f1 f2 H.m_weights ([], []) t ht with
      ⟨t', ht', _⟩ | ⟨e, he, f, hf, hk⟩
    · cases ht'
    · have hord := hH e he
      have hkey : e.1 = (min f x, max f x) := by
        rw [htx] at hk
        rcases hk with hk | hk
        · rw [hk] at hord ⊢
          rw [min_eq_left (le_of_lt hord), max_eq_right (le_of_lt hord)]
        · rw [hk] at hord ⊢
          rw [min_eq_right (le_of_lt hord), max_eq_left (le_of_lt hord)]
      exact (weightsFind_eq_none_iff _ _).1 (hnone f hf) e he hkey

/-- C11, as stated, fails: the pair `{a, b}` is deleted and not retargeted
(`x = b`); a pair `{c, x}` that is already stored keeps its weight, no maximum
is taken; `merge(a, a, c)` returns at once; a pair `{a, c}` is dropped
(`x = c`); and a negative weight of `{a, x}` is carried over although the
absent pair `{b, x}` reads as `0`. -/
theorem merge_retargets_max_counterexample :
    ¬ (max ((MergeHints.empty.addWeight 1 2 5 : MergeHints ℕ).getWeight 1 2)
        ((MergeHints.empty.addWeight 1 2 5 : MergeHints ℕ).getWeight 2 2) ≤
      ((MergeHints.empty.addWeight 1 2 5 : MergeHints ℕ).merge 1 2 3).getWeight 3 2) ∧
    ¬ (max (((MergeHints.empty.addWeight 1 4 5).addWeight 3 4 1 : MergeHints ℕ).getWeight 1 4)
        (((MergeHints.empty.addWeight 1 4 5).addWeight 3 4 1 : MergeHints ℕ).getWeight 2 4) ≤
      (((MergeHints.empty.addWeight 1 4 5).addWeight 3 4 1 : MergeHints ℕ).merge 1 2 3).getWeight
        3 4) ∧
    ¬ (max ((MergeHints.empty.addWeight 1 4 5 : MergeHints ℕ).getWeight 1 4)
        ((MergeHints.empty.addWeight 1 4 5 : MergeHints ℕ).getWeight 1 4) ≤
      ((MergeHints.empty.addWeight 1 4 5 : MergeHints ℕ).merge 1 1 3).getWeight 3 4) ∧
    ¬ (max ((MergeHints.empty.addWeight 1 3 5 : MergeHints ℕ).getWeight 1 3)
        ((MergeHints.empty.addWeight 1 3 5 : MergeHints ℕ).getWeight 2 3) ≤
      ((MergeHints.empty.addWeight 1 3 5 : MergeHints ℕ).merge 1 2 3).getWeight 3 3) ∧
    ¬ (max ((MergeHints.empty.addWeight 1 4 (-5) : MergeHints ℕ).getWeight 1 4)
        ((MergeHints.empty.addWeight 1 4 (-5) : MergeHints ℕ).getWeight 2 4) ≤
      ((MergeHints.empty.addWeight 1 4 (-5) : MergeHints ℕ).merge 1 2 3).getWeight 3 4) := by
  refine ⟨?_, ?_, ?_, ?_, ?_⟩ <;> decide

/-- C11, amended. For ordered keys, `a ≠ b`, a handle `x` other than `a`, `b`
and `c`, a pair `{c, x}` that is not stored before the call unless `c` is `a`
or `b`, and weights of `{a, x}` and `{b, x}` that are not negative: after
`merge(a, b, c)` the weight of `{c, x}` is at least the weight of `{a, x}` and
the weight of `{b, x}` before the call. -/
theorem merge_retargets_max (H : MergeHints α) (hH : H.KeysOrdered) (a b c x : α)
    (hab : a ≠ b) (hxa : x ≠ a) (hxb : x ≠ b) (hxc : x ≠ c)
    (hc : ¬ H.stored c x ∨ c = a ∨ c = b)
    (ha : 0 ≤ H.getWeight a x) (hb : 0 ≤ H.getWeight b x) :
    max (H.getWeight a x) (H.getWeight b x) ≤ (H.merge a b c).getWeight c x := by
  have hcx : c ≠ x := fun h => hxc h.symm
  have hax : a ≠ x := fun h => hxa h.symm
  have hbx : b ≠ x := fun h => hxb h.symm
  have hnone : ¬ H.stored c x → weightsFind H.m_weights (min x c, max x c) = none := by
    intro h
    unfold stored at h
    rw [min_comm, max_comm]
    cases hf : weightsFind H.m_weights (min c x, max c x) with
    | none => rfl
    | some v => simp [hf] at h
  -- the two facts about the new entry, for either order of `a` and `b`
  have key : (∀ y, (y = a ∨ y = b) → ∀ w,
        weightsFind H.m_weights (min y x, max y x) = some w →
        ∃ v, weightsFind (H.merge a b c).m_weights (min x c, max x c) = some v ∧ w ≤ v) ∧
      ((∀ y, (y = a ∨ y = b) → weightsFind H.m_weights (min y x, max y x) = none) →
        weightsFind (H.merge a b c).m_weights (min x c, max x c) = none) := by
    unfold MergeHints.merge
    by_cases hlt : b < a
    · simp only [hlt, if_true]
      obtain ⟨h1, h2⟩ := mergeOrdered_retarget hH hlt c x hxb hxa hxc
        (by
          rcases hc with h | h | h
          · exact Or.inl (hnone h)
          · exact Or.inr (Or.inr h)
          · exact Or.inr (Or.inl h))
      exact ⟨fun y hy => h1 y hy.symm, fun h => h2 (fun y hy => h y hy.symm)⟩
    · simp only [hlt, if_false]
      have hlt' : a < b := lt_of_le_of_ne (not_lt.1 hlt) hab
      exact mergeOrdered_retarget hH hlt' c x hxa hxb hxc
        (by
          rcases hc with h | h | h
          · exact Or.inl (hnone h)
          · exact Or.inr (Or.inl h)
          · exact Or.inr (Or.inr h))
  obtain ⟨h1, h2⟩ := key
  rw [getWeight_eq H a x, getWeight_eq H b x, if_neg hax, if_neg hbx] at *
  rw [getWeight_eq, if_neg hcx, min_comm c x, max_comm c x]
  cases hfa : weightsFind H.m_weights (min a x, max a x) with
  | some wa =>
    obtain ⟨v, hv, hle⟩ := h1 a (Or.inl rfl) wa hfa
    rw [hv]
    rw [hfa] at ha
    cases hfb : weightsFind H.m_weights (min b x, max b x) with
    | some wb =>
      obtain ⟨v', hv', hle'⟩ := h1 b (Or.inr rfl) wb hfb
      rw [hv] at hv'
      cases hv'
      exact max_le hle hle'
    | none => exact max_le hle (le_trans ha hle)
  | none =>
    cases hfb : weightsFind H.m_weights (min b x, max b x) with
    | some wb =>
      obtain ⟨v, hv, hle⟩ := h1 b (Or.inr rfl) wb hfb
      rw [hv]
      rw [hfb] at hb
      exact max_le (le_trans hb hle) hle
    | none =>
      rw [h2 (by
        rintro y (rfl | rfl)
        · exact hfa
        · exact hfb)]
      exact max_le (le_refl _) (le_refl _)

/-- Witness of `merge_retargets_max`: hints `{1,4} ↦ 5`, `{2,4} ↦ 7`, merged by
`merge(1, 2, 3)` and read at `x = 4`. -/
theorem merge_retargets_max_witness :
    max (((MergeHints.empty.addWeight 1 4 5).addWeight 2 4 7 : MergeHints ℕ).getWeight 1 4)
        (((MergeHints.empty.addWeight 1 4 5).addWeight 2 4 7 : MergeHints ℕ).getWeight 2 4) ≤
      (((MergeHints.empty.addWeight 1 4 5).addWeight 2 4 7 : MergeHints ℕ).merge 1 2 3).getWeight
        3 4 ∧
    (((MergeHints.empty.addWeight 1 4 5).addWeight 2 4 7 : MergeHints ℕ).merge 1 2 3).getWeight
        3 4 = 7 :=
  ⟨merge_retargets_max ((MergeHints.empty.addWeight 1 4 5).addWeight 2 4 7)
    (Reachable.keysOrdered (Reachable.addWeight _ 2 4 7
      (Reachable.addWeight _ 1 4 5 Reachable.empty))) 1 2 3 4 (by decide) (by decide)
    (by decide) (by decide) (Or.inl (by unfold MergeHints.stored; decide)) (by decide)
    (by decide), by decide⟩

end MergeHints

end blif_solve
/-! ## The hint driver -/

namespace blif_solve

section MergeReturns

variable {α : Type} [LinearOrder α]

/-- The function `blif_solve::merge` returns on every input: no constructor throws and
the main loop ends. -/
theorem merge_returns (M : DdManager α) (addr : ℕ → ℕ) (tie : ℕ → ℕ)
    (factors varBdds : List α) (lss : ℤ) (hintsInput : MergeHints α) (qvars : List α) :
    ∃ r, merge M addr tie factors varBdds lss hintsInput qvars = Except.ok r := by
  obtain ⟨s0, h0, hinv, _⟩ := initState_spec M addr factors varBdds lss hintsInput qvars
  obtain ⟨s, hs, _, _, _⟩ := mainLoop_spec M addr lss tie (fun _ => True)
    (fun _ _ _ _ _ _ _ => trivial) s0.heap.length 0 s0 hinv trivial (le_refl _)
  exact ⟨s.results, merge_eq_of_mainLoop M addr tie factors varBdds lss hintsInput qvars
    s0 s h0 hs⟩

end MergeReturns

namespace MergeHints

variable {α : Type} [LinearOrder α]

/-- What `addWeight(g, h, w)` does to the entry of a key. -/
theorem weightsFind_addWeight_key (H : MergeHints α) (g h : α) (w : ℚ) (k : α × α) :
    weightsFind (H.addWeight g h w).m_weights k =
      if g ≠ h ∧ (min g h, max g h) = k then some ((weightsFind H.m_weights k).getD w)
      else weightsFind H.m_weights k := by
  rw [addWeight_eq]
  by_cases hgh : g = h
  · simp [hgh]
  · simp only [hgh, if_false, weightsFind_insert, ne_eq, not_false_eq_true, true_and]
    by_cases hk : (min g h, max g h) = k
    · subst hk
      simp
    · simp [hk]

end MergeHints

end blif_solve

namespace may_22

open blif_solve

section AllPairs

variable {α : Type} [LinearOrder α]

/-- The entry of a key after the inner loop of `mergeAllPairs`. -/
theorem weightsFind_inner (w : ℚ) (fn1 : α) (k : α × α) (l : List α) (H : MergeHints α) :
    weightsFind (l.foldl
        (fun H' fn2 => if fn1 ≠ fn2 then H'.addWeight fn1 fn2 w else H') H).m_weights k =
      match weightsFind H.m_weights k with
      | some v => some v
      | none =>
        if l.any (fun fn2 => decide (fn1 ≠ fn2 ∧ (min fn1 fn2, max fn1 fn2) = k)) then some w
        else none := by
  induction l generalizing H with
  | nil =>
    rw [List.foldl_nil]
    cases hf : weightsFind H.m_weights k <;> simp
  | cons fn2 l ih =>
    rw [List.foldl_cons, ih]
    by_cases hne : fn1 ≠ fn2
    · rw [if_pos hne, MergeHints.weightsFind_addWeight_key]
      by_cases hk : (min fn1 fn2, max fn1 fn2) = k
      · rw [if_pos ⟨hne, hk⟩]
        cases hf : weightsFind H.m_weights k with
        | some v => rfl
        | none => simp [hne, hk]
      · rw [if_neg (fun h => hk h.2)]
        cases hf : weightsFind H.m_weights k with
        | some v => rfl
        | none => simp [hk]
    · rw [if_neg hne]
      cases hf : weightsFind H.m_weights k with
      | some v => rfl
      | none => simp [hne]

/-- The entry of a key after `mergeAllPairs`. -/
theorem weightsFind_outer (w : ℚ) (k : α × α) (l2 l1 : List α) (H : MergeHints α) :
    weightsFind (l1.foldl (fun H fn1 =>
        l2.foldl (fun H' fn2 => if fn1 ≠ fn2 then H'.addWeight fn1 fn2 w else H') H)
        H).m_weights k =
      match weightsFind H.m_weights k with
      | some v => some v
      | none =>
        if l1.any (fun fn1 =>
            l2.any (fun fn2 => decide (fn1 ≠ fn2 ∧ (min fn1 fn2, max fn1 fn2) = k)))
        then some w else none := by
  induction l1 generalizing H with
  | nil =>
    rw [List.foldl_nil]
    cases hf : weightsFind H.m_weights k <;> simp
  | cons fn1 l1 ih =>
    rw [List.foldl_cons, ih, weightsFind_inner]
    cases hf : weightsFind H.m_weights k with
    | some v => rfl
    | none =>
      rw [List.any_cons]
      by_cases h1 : l2.any (fun fn2 => decide (fn1 ≠ fn2 ∧ (min fn1 fn2, max fn1 fn2) = k))
          = true
      · rw [if_pos h1, h1]
        rfl
      · have h1' := (Bool.not_eq_true _).mp h1
        rw [if_neg h1, h1']
        rfl

/-- The weights after `mergeAllPairs`: a stored pair keeps its weight, a pair of
two different entries of `fvec` that is not stored gets the weight `w`, and
the other pairs stay absent. -/
theorem getWeight_mergeAllPairs (fvec : List α) (H : MergeHints α) (w : ℚ) (a b : α) :
    (H.stored a b → (mergeAllPairs fvec H w).getWeight a b = H.getWeight a b) ∧
    (a ∈ fvec → b ∈ fvec → a ≠ b → ¬ H.stored a b →
      (mergeAllPairs fvec H w).getWeight a b = w) ∧
    (¬ (a ∈ fvec ∧ b ∈ fvec ∧ a ≠ b) →
      (mergeAllPairs fvec H w).getWeight a b = H.getWeight a b) := by
  have hfind := weightsFind_outer w (min a b, max a b) fvec fvec H
  have hstored : ∀ v, weightsFind H.m_weights (min a b, max a b) = some v →
      (mergeAllPairs fvec H w).getWeight a b = H.getWeight a b := by
    intro v hv
    rw [MergeHints.getWeight_eq, MergeHints.getWeight_eq]
    unfold mergeAllPairs
    rw [hfind, hv]
  refine ⟨?_, ?_, ?_⟩
  · intro hs
    unfold MergeHints.stored at hs
    cases hf : weightsFind H.m_weights (min a b, max a b) with
    | none => simp [hf] at hs
    | some v => exact hstored v hf
  · intro ha hb hab hns
    unfold MergeHints.stored at hns
    cases hf : weightsFind H.m_weights (min a b, max a b) with
    | some v => simp [hf] at hns
    | none =>
      rw [MergeHints.getWeight_eq, if_neg hab]
      unfold mergeAllPairs
      rw [hfind, hf]
      have : fvec.any (fun fn1 => fvec.any (fun fn2 =>
          decide (fn1 ≠ fn2 ∧ (min fn1 fn2, max fn1 fn2) = (min a b, max a b)))) = true := by
        rw [List.any_eq_true]
        refine ⟨a, ha, ?_⟩
        rw [List.any_eq_true]
        exact ⟨b, hb, by simp [hab]⟩
      rw [if_pos this]
      rfl
  · intro hnot
    cases hf : weightsFind H.m_weights (min a b, max a b) with
    | some v => exact hstored v hf
    | none =>
      rw [MergeHints.getWeight_eq, MergeHints.getWeight_eq]
      by_cases hab : a = b
      · simp [hab]
      · rw [if_neg hab, if_neg hab]
        unfold mergeAllPairs
        rw [hfind, hf]
        have : fvec.any (fun fn1 => fvec.any (fun fn2 =>
            decide (fn1 ≠ fn2 ∧ (min fn1 fn2, max fn1 fn2) = (min a b, max a b)))) = false := by
          rw [Bool.eq_false_iff]
          intro h
          rw [List.any_eq_true] at h
          obtain ⟨fn1, h1, h⟩ := h
          rw [List.any_eq_true] at h
          obtain ⟨fn2, h2, h⟩ := h
          have h' := of_decide_eq_true h
          rcases (MergeHints.minmax_eq_iff fn1 fn2 a b).1 h'.2 with ⟨e1, e2⟩ | ⟨e1, e2⟩
          · exact hnot ⟨e1 ▸ h1, e2 ▸ h2, hab⟩
          · exact hnot ⟨e2 ▸ h2, e1 ▸ h1, hab⟩
        rw [this]
        rfl

end AllPairs

end may_22
namespace may_22

open blif_solve

section ProcessMuc

variable {α : Type} [LinearOrder α]

theorem mem_foldl_setInsert (l s : List α) (y : α) :
    y ∈ l.foldl (fun s x => setInsert x s) s ↔ y ∈ l ∨ y ∈ s := by
  induction l generalizing s with
  | nil => simp
  | cons x l ih =>
    simp only [List.foldl_cons, ih, mem_setInsert, List.mem_cons]
    tauto

/-- The func nodes and the var nodes that the first loop of `processMuc`
collects: those of the clauses of the MUS that are registered. -/
theorem mem_gatherMuc (cb : May22MucCallback α) (muc : List (List ℤ)) (acc : MucData α)
    (y : α) :
    (y ∈ (muc.foldl (May22MucCallback.gatherClause cb) acc).funcNodes ↔
      y ∈ acc.funcNodes ∨ ∃ clause ∈ muc, ∃ clauseData,
        clauseDataFind cb.m_clauseData (setOfList clause) = some clauseData ∧
        clauseData.funcNode = y) ∧
    (y ∈ (muc.foldl (May22MucCallback.gatherClause cb) acc).varNodes ↔
      y ∈ acc.varNodes ∨ ∃ clause ∈ muc, ∃ clauseData,
        clauseDataFind cb.m_clauseData (setOfList clause) = some clauseData ∧
        y ∈ clauseData.varNodes) := by
  induction muc generalizing acc with
  | nil => simp
  | cons clause muc ih =>
    rw [List.foldl_cons]
    obtain ⟨ih1, ih2⟩ := ih (May22MucCallback.gatherClause cb acc clause)
    rw [ih1, ih2]
    unfold May22MucCallback.gatherClause
    cases hf : clauseDataFind cb.m_clauseData (setOfList clause) with
    | none => simp [hf]
    | some clauseData =>
      simp only [List.mem_append, List.mem_singleton, mem_foldl_setInsert, List.mem_cons,
        exists_eq_or_imp, hf, Option.some.injEq, exists_eq_left', eq_comm (a := y),
        List.not_mem_nil, or_false]
      exact ⟨or_assoc, by rw [or_comm (a := y ∈ clauseData.varNodes), or_assoc]⟩

/-- C19. After `mergeAllPairs(fvec, H, w)` two different handles of `fvec` have
the weight that was stored for them before the call, and `w` when none was
stored; every pair that is not a pair of two different handles of `fvec`
keeps its weight.  When the candidate admits the MUS, `processMuc` runs the
merge engine and leaves as hints of the driver `mergeAllPairs` with the weight
`m_mucMergeWeight` over the func nodes and then over the var nodes of the
registered clauses of the MUS. -/
theorem mergeAllPairs_contract {FG : Type} (M : DdManager α) (X : DriverOps α)
    (G : FactorGraphOps α FG) (addr : ℕ → ℕ) (tie : ℕ → ℕ) (fvec : List α)
    (H : MergeHints α) (w : ℚ) (cb : May22MucCallback α) (muc : List (List ℤ)) :
    (∀ a b, a ∈ fvec → b ∈ fvec → a ≠ b →
      (H.stored a b → (mergeAllPairs fvec H w).getWeight a b = H.getWeight a b) ∧
      (¬ H.stored a b → (mergeAllPairs fvec H w).getWeight a b = w)) ∧
    (∀ a b, ¬ (a ∈ fvec ∧ b ∈ fvec ∧ a ≠ b) →
      (mergeAllPairs fvec H w).getWeight a b = H.getWeight a b) ∧
    (May22MucCallback.isTight M X cb muc = false →
      (∃ cb' r, May22MucCallback.processMuc M X G addr tie cb muc = Except.ok (cb', some r) ∧
        cb'.m_mergeHints =
          mergeAllPairs (May22MucCallback.gatherMuc cb muc).varNodes
            (mergeAllPairs (May22MucCallback.gatherMuc cb muc).funcNodes cb.m_mergeHints
              cb.m_mucMergeWeight)
            cb.m_mucMergeWeight) ∧
      (∀ y, y ∈ (May22MucCallback.gatherMuc cb muc).funcNodes ↔
        ∃ clause ∈ muc, ∃ clauseData,
          clauseDataFind cb.m_clauseData (setOfList clause) = some clauseData ∧
          clauseData.funcNode = y) ∧
      (∀ y, y ∈ (May22MucCallback.gatherMuc cb muc).varNodes ↔
        ∃ clause ∈ muc, ∃ clauseData,
          clauseDataFind cb.m_clauseData (setOfList clause) = some clauseData ∧
          y ∈ clauseData.varNodes)) := by
  refine ⟨?_, ?_, ?_⟩
  · intro a b ha hb hab
    exact ⟨(getWeight_mergeAllPairs fvec H w a b).1,
      (getWeight_mergeAllPairs fvec H w a b).2.1 ha hb hab⟩
  · intro a b
    exact (getWeight_mergeAllPairs fvec H w a b).2.2
  · intro ht
    refine ⟨?_, ?_, ?_⟩
    · obtain ⟨r, hr⟩ := merge_returns M addr tie cb.m_factors cb.m_variables
        (doubleToInt cb.m_largestSupportSet)
        (mergeAllPairs (May22MucCallback.gatherMuc cb muc).varNodes
          (mergeAllPairs (May22MucCallback.gatherMuc cb muc).funcNodes cb.m_mergeHints
            cb.m_mucMergeWeight)
          cb.m_mucMergeWeight) cb.m_quantifiedVariables
      unfold May22MucCallback.processMuc
      rw [ht]
      simp only [Bool.false_eq_true, if_false, hr]
      exact ⟨_, r, rfl, rfl⟩
    · intro y
      have := (mem_gatherMuc cb muc { varNodes := [], funcNodes := [], varAssignment := [] }
        y).1
      simpa [May22MucCallback.gatherMuc] using this
    · intro y
      have := (mem_gatherMuc cb muc { varNodes := [], funcNodes := [], varAssignment := [] }
        y).2
      simpa [May22MucCallback.gatherMuc] using this

/-- Witness of `mergeAllPairs_contract`: the callback for
`∃ x1. (x1 ∨ x2) ∧ (¬x1 ∨ x2)` with the candidate `one` and the MUS
`{1}, {-1}`: the candidate admits the MUS, and the hints of the driver become
`mergeAllPairs` over the two clause BDDs and over the variable `x2`. -/
theorem mergeAllPairs_contract_witness :
    May22MucCallback.isTight (ttManager 3) (ttDriverOps 3) (exampleCallback 255)
        [[1], [-1]] = false ∧
    (∃ cb' r, May22MucCallback.processMuc (ttManager 3) (ttDriverOps 3) (ttFactorGraph 3) id
        (fun _ => 0) (exampleCallback 255) [[1], [-1]] = Except.ok (cb', some r) ∧
      cb'.m_mergeHints =
        mergeAllPairs (May22MucCallback.gatherMuc (exampleCallback 255) [[1], [-1]]).varNodes
          (mergeAllPairs (May22MucCallback.gatherMuc (exampleCallback 255) [[1], [-1]]).funcNodes
            (exampleCallback 255).m_mergeHints (exampleCallback 255).m_mucMergeWeight)
          (exampleCallback 255).m_mucMergeWeight) ∧
    (mergeAllPairs [252, 243] (MergeHints.empty : MergeHints ℕ) 2).getWeight 243 252 = 2 :=
  ⟨by decide,
    ((mergeAllPairs_contract (ttManager 3) (ttDriverOps 3) (ttFactorGraph 3) id (fun _ => 0)
      [252, 243] MergeHints.empty 2 (exampleCallback 255) [[1], [-1]]).2.2
      (by decide)).1,
    by decide⟩

/-- C20. When the candidate with the literal assignments of the registered
clauses of the MUS substituted is the constant zero, `processMuc` returns the
callback as it was, hints and candidate included, and the merge engine is not
run. -/
theorem processMuc_tight {FG : Type} (M : DdManager α) (X : DriverOps α)
    (G : FactorGraphOps α FG) (addr : ℕ → ℕ) (tie : ℕ → ℕ) (cb : May22MucCallback α)
    (muc : List (List ℤ))
    (h : X.bdd_is_zero ((May22MucCallback.gatherMuc cb muc).varAssignment.foldl
      (fun fgr assignment =>
        X.bdd_assign fgr assignment.1 (if assignment.2 then M.bdd_one else X.bdd_zero))
      cb.m_factorGraphResult) = true) :
    May22MucCallback.processMuc M X G addr tie cb muc = Except.ok (cb, none) ∧
    ∀ cb' r, May22MucCallback.processMuc M X G addr tie cb muc = Except.ok (cb', r) →
      cb'.m_mergeHints = cb.m_mergeHints ∧
      cb'.m_factorGraphResult = cb.m_factorGraphResult ∧ cb' = cb ∧ r = none := by
  have hp : May22MucCallback.processMuc M X G addr tie cb muc = Except.ok (cb, none) := by
    unfold May22MucCallback.processMuc May22MucCallback.isTight
      May22MucCallback.assignedFactorGraphResult
    rw [if_pos h]
  refine ⟨hp, ?_⟩
  intro cb' r hr
  rw [hp] at hr
  cases hr
  exact ⟨rfl, rfl, rfl, rfl⟩

/-- Witness of `processMuc_tight`: the callback for
`∃ x1. (x1 ∨ x2) ∧ (¬x1 ∨ x2)` with the candidate `x2` and the MUS
`{1}, {-1}`, whose clauses assign `false` to `x2`. -/
theorem processMuc_tight_witness :
    May22MucCallback.processMuc (ttManager 3) (ttDriverOps 3) (ttFactorGraph 3) id
      (fun _ => 0) (exampleCallback (ttVar 3 2)) [[1], [-1]] =
      Except.ok (exampleCallback (ttVar 3 2), none) :=
  (processMuc_tight (ttManager 3) (ttDriverOps 3) (ttFactorGraph 3) id (fun _ => 0)
    (exampleCallback (ttVar 3 2)) [[1], [-1]] (by decide)).1

end ProcessMuc

end may_22
/-! ## All runs of the main loop -/

namespace blif_solve

section AllRunsFacts

variable {α : Type} [LinearOrder α]

theorem MaxHeap.tops_length_pos (h : MaxHeap) (hne : h ≠ []) : 0 < (MaxHeap.tops h).length := by
  obtain ⟨e, he, hmax⟩ := MaxHeap.exists_max h hne
  apply List.length_pos_of_mem (a := e)
  unfold MaxHeap.tops
  rw [List.mem_filter]
  refine ⟨he, ?_⟩
  rw [List.all_eq_true]
  intro e' he'
  simpa using hmax e' he'

/-- A round of the main loop depends on the tie-break only through its
remainder by the number of top cells. -/
theorem loopStep_mod (M : DdManager α) (addr : ℕ → ℕ) (lss : ℤ) (t : ℕ) (s : MergeState α) :
    loopStep M addr lss t s = loopStep M addr lss (t % (MaxHeap.tops s.heap).length) s := by
  unfold loopStep MaxHeap.top
  rw [Nat.mod_mod]

/-- The state after at most `n` rounds is among the outcomes that `reachAfter`
lists. -/
theorem runRounds_mem_reachAfter (M : DdManager α) (addr : ℕ → ℕ) (lss : ℤ) (tie : ℕ → ℕ) :
    ∀ (n k : ℕ) (s : MergeState α),
      runRounds M addr lss tie n k s ∈ reachAfter M addr lss n s := by
  intro n
  induction n with
  | zero =>
    intro k s
    simp [runRounds, reachAfter]
  | succ n ih =>
    intro k s
    unfold runRounds reachAfter
    by_cases hne : s.heap = []
    · simp [hne]
    · rw [if_neg hne, if_neg hne, List.mem_flatMap]
      refine ⟨tie k % (MaxHeap.tops s.heap).length,
        List.mem_range.2 (Nat.mod_lt _ (MaxHeap.tops_length_pos s.heap hne)), ?_⟩
      rw [← loopStep_mod]
      cases hstep : loopStep M addr lss (tie k) s with
      | error e => exact List.mem_singleton.2 rfl
      | ok s' => exact ih (k + 1) s'

/-- The main loop returns the state that `runRounds` reaches when that state
has an empty heap. -/
theorem mainLoop_of_runRounds (M : DdManager α) (addr : ℕ → ℕ) (lss : ℤ) (tie : ℕ → ℕ) :
    ∀ (n k : ℕ) (s s' : MergeState α), runRounds M addr lss tie n k s = Except.ok s' →
      s'.heap = [] → mainLoop M addr lss tie n k s = Except.ok s' := by
  intro n
  induction n with
  | zero =>
    intro k s s' h he
    simp only [runRounds] at h
    cases h
    simp [mainLoop, he]
  | succ n ih =>
    intro k s s' h he
    unfold runRounds at h
    unfold mainLoop
    by_cases hne : s.heap = []
    · rw [if_pos hne] at h ⊢
      exact h
    · rw [if_neg hne] at h ⊢
      cases hstep : loopStep M addr lss (tie k) s with
      | error e =>
        rw [hstep] at h
        cases h
      | ok s1 =>
        rw [hstep] at h
        exact ih (k + 1) s1 s' h he

/-- When `everyResult` holds, every run returns results that pass the check,
whatever the tie-breaks. -/
theorem everyResult_spec (M : DdManager α) (addr : ℕ → ℕ) (factors varBdds : List α)
    (lss : ℤ) (hintsInput : MergeHints α) (qvars : List α) (check : MergeResults α → Bool)
    (h : everyResult M addr factors varBdds lss hintsInput qvars check = true)
    (tie : ℕ → ℕ) :
    ∃ r, merge M addr tie factors varBdds lss hintsInput qvars = Except.ok r ∧
      check r = true := by
  unfold everyResult at h
  cases h0 : initState M addr factors varBdds lss hintsInput qvars with
  | error e =>
    rw [h0] at h
    cases h
  | ok s0 =>
    rw [h0] at h
    simp only at h
    rw [List.all_eq_true] at h
    have hmem := runRounds_mem_reachAfter M addr lss tie s0.heap.length 0 s0
    have hr := h _ hmem
    cases hrun : runRounds M addr lss tie s0.heap.length 0 s0 with
    | error e =>
      rw [hrun] at hr
      cases hr
    | ok s =>
      rw [hrun] at hr
      simp only [Bool.and_eq_true, decide_eq_true_eq] at hr
      exact ⟨s.results, merge_eq_of_mainLoop M addr tie factors varBdds lss hintsInput qvars
        s0 s h0 (mainLoop_of_runRounds M addr lss tie _ 0 s0 s hrun hr.1), hr.2⟩

/-- When `everyStateAfter` holds, the state after `n` rounds passes the check,
whatever the tie-breaks. -/
theorem everyStateAfter_spec (M : DdManager α) (addr : ℕ → ℕ) (n : ℕ)
    (factors varBdds : List α) (lss : ℤ) (hintsInput : MergeHints α) (qvars : List α)
    (check : MergeState α → Bool)
    (h : everyStateAfter M addr n factors varBdds lss hintsInput qvars check = true)
    (tie : ℕ → ℕ) :
    ∃ s, stateAfter M addr tie n factors varBdds lss hintsInput qvars = Except.ok s ∧
      check s = true := by
  unfold everyStateAfter at h
  cases h0 : initState M addr factors varBdds lss hintsInput qvars with
  | error e =>
    rw [h0] at h
    cases h
  | ok s0 =>
    rw [h0] at h
    simp only at h
    rw [List.all_eq_true] at h
    have hmem := runRounds_mem_reachAfter M addr lss tie n 0 s0
    have hr := h _ hmem
    cases hrun : runRounds M addr lss tie n 0 s0 with
    | error e =>
      rw [hrun] at hr
      cases hr
    | ok s =>
      rw [hrun] at hr
      exact ⟨s, stateAfter_eq_of_runRounds M addr tie n factors varBdds lss hintsInput qvars
        s0 s h0 hrun, hr⟩

end AllRunsFacts

end blif_solve
/-! ## Node addresses matter only through their order -/

namespace blif_solve

section AddressOrder

variable {α : Type} [LinearOrder α]

theorem ptrOrderedInsert_congr (addr addr' : ℕ → ℕ)
    (h : ∀ x y, addr x < addr y ↔ addr' x < addr' y) (x : ℕ) (s : List ℕ) :
    ptrOrderedInsert addr x s = ptrOrderedInsert addr' x s := by
  induction s with
  | nil => rfl
  | cons y rest ih =>
    unfold ptrOrderedInsert
    simp only [h, ih]

theorem ptrSetInsert_congr (addr addr' : ℕ → ℕ)
    (h : ∀ x y, addr x < addr y ↔ addr' x < addr' y) :
    ptrSetInsert addr = ptrSetInsert addr' := by
  funext x s
  unfold ptrSetInsert
  rw [ptrOrderedInsert_congr addr addr' h]

theorem connectFuncVar_congr (M : DdManager α) (addr addr' : ℕ → ℕ)
    (h : ∀ x y, addr x < addr y ↔ addr' x < addr' y) :
    connectFuncVar M addr = connectFuncVar M addr' := by
  have h1 : connectOne M addr = connectOne M addr' := by
    funext func nodes var
    unfold connectOne
    simp only [h]
  funext funcNodes varNodes nodes
  unfold connectFuncVar
  rw [h1]

theorem initState_congr (M : DdManager α) (addr addr' : ℕ → ℕ)
    (h : ∀ x y, addr x < addr y ↔ addr' x < addr' y) :
    initState M addr = initState M addr' := by
  have h1 : funcMergerOne M addr = funcMergerOne M addr' := by
    funext lss f1 s f2
    unfold funcMergerOne
    simp only [h]
  have h2 : varMergerOne M addr = varMergerOne M addr' := by
    funext lss v1 s v2
    unfold varMergerOne
    simp only [h]
  funext factors varBdds lss hintsInput qvars
  unfold initState
  rw [connectFuncVar_congr M addr addr' h, h1, h2]

theorem loopStep_congr (M : DdManager α) (addr addr' : ℕ → ℕ)
    (h : ∀ x y, addr x < addr y ↔ addr' x < addr' y) :
    loopStep M addr = loopStep M addr' := by
  have h1 : refreshOne M addr = refreshOne M addr' := by
    funext lss isVar node1 node2 mergedNode acc oldMerger
    unfold refreshOne
    rw [ptrSetInsert_congr addr addr' h]
  funext lss tie s
  unfold loopStep
  rw [ptrSetInsert_congr addr addr' h, h1]

theorem mainLoop_congr (M : DdManager α) (addr addr' : ℕ → ℕ)
    (h : ∀ x y, addr x < addr y ↔ addr' x < addr' y) (lss : ℤ) (tie : ℕ → ℕ) :
    ∀ fuel k s, mainLoop M addr lss tie fuel k s = mainLoop M addr' lss tie fuel k s := by
  intro fuel
  induction fuel with
  | zero => intro k s; rfl
  | succ fuel ih =>
    intro k s
    unfold mainLoop
    rw [loopStep_congr M addr addr' h]
    congr 1
    congr 1
    funext s'
    exact ih (k + 1) s'

theorem runRounds_congr (M : DdManager α) (addr addr' : ℕ → ℕ)
    (h : ∀ x y, addr x < addr y ↔ addr' x < addr' y) (lss : ℤ) (tie : ℕ → ℕ) :
    ∀ n k s, runRounds M addr lss tie n k s = runRounds M addr' lss tie n k s := by
  intro n
  induction n with
  | zero => intro k s; rfl
  | succ n ih =>
    intro k s
    unfold runRounds
    rw [loopStep_congr M addr addr' h]
    congr 1
    congr 1
    funext s'
    exact ih (k + 1) s'

/-- Two placements of the nodes that put them in the same order give the same
run of `blif_solve::merge`. -/
theorem merge_congr (M : DdManager α) (addr addr' : ℕ → ℕ)
    (h : ∀ x y, addr x < addr y ↔ addr' x < addr' y) (tie : ℕ → ℕ)
    (factors varBdds : List α) (lss : ℤ) (hintsInput : MergeHints α) (qvars : List α) :
    merge M addr tie factors varBdds lss hintsInput qvars =
      merge M addr' tie factors varBdds lss hintsInput qvars := by
  unfold merge
  rw [initState_congr M addr addr' h]
  congr 1
  funext s0
  rw [mainLoop_congr M addr addr' h]

theorem stateAfter_congr (M : DdManager α) (addr addr' : ℕ → ℕ)
    (h : ∀ x y, addr x < addr y ↔ addr' x < addr' y) (tie : ℕ → ℕ) (n : ℕ)
    (factors varBdds : List α) (lss : ℤ) (hintsInput : MergeHints α) (qvars : List α) :
    stateAfter M addr tie n factors varBdds lss hintsInput qvars =
      stateAfter M addr' tie n factors varBdds lss hintsInput qvars := by
  unfold stateAfter
  rw [initState_congr M addr addr' h]
  congr 1
  funext s0
  rw [runRounds_congr M addr addr' h]

/-- When every node lies at a higher address than the nodes created before it,
the run is the one for the addresses `0, 1, 2, ...`. -/
theorem merge_of_strictMono (M : DdManager α) {addr : ℕ → ℕ} (h : StrictMono addr)
    (tie : ℕ → ℕ) (factors varBdds : List α) (lss : ℤ) (hintsInput : MergeHints α)
    (qvars : List α) :
    merge M addr tie factors varBdds lss hintsInput qvars =
      merge M id tie factors varBdds lss hintsInput qvars :=
  merge_congr M addr id (fun _ _ => h.lt_iff_lt) tie factors varBdds lss hintsInput qvars

theorem stateAfter_of_strictMono (M : DdManager α) {addr : ℕ → ℕ} (h : StrictMono addr)
    (tie : ℕ → ℕ) (n : ℕ) (factors varBdds : List α) (lss : ℤ) (hintsInput : MergeHints α)
    (qvars : List α) :
    stateAfter M addr tie n factors varBdds lss hintsInput qvars =
      stateAfter M id tie n factors varBdds lss hintsInput qvars :=
  stateAfter_congr M addr id (fun _ _ => h.lt_iff_lt) tie n factors varBdds lss hintsInput qvars

end AddressOrder

end blif_solve
/-! ## Runs without contraction and runs on copies of one factor -/

namespace blif_solve

section NoEligiblePair

variable {α : Type} [LinearOrder α]

/-- C12. When the heap is empty after the graph is built, `blif_solve::merge` returns
without error the set of the input factors and the set of the input variables,
and no round of the main loop runs: after any number of rounds the heap is
empty, the arena holds one node per input and no merger. -/
theorem merge_no_eligible_pair (M : DdManager α) (addr : ℕ → ℕ) (tie : ℕ → ℕ)
    (factors varBdds : List α) (largestSupportSet : ℤ) (hintsInput : MergeHints α)
    (quantifiedVariables : List α)
    (h : initialHeap M addr factors varBdds largestSupportSet hintsInput quantifiedVariables =
      some []) :
    merge M addr tie factors varBdds largestSupportSet hintsInput quantifiedVariables =
      Except.ok { factors := setOfList factors, varBdds := setOfList varBdds } ∧
    (∀ f, f ∈ setOfList factors ↔ f ∈ factors) ∧
    (∀ v, v ∈ setOfList varBdds ↔ v ∈ varBdds) ∧
    ∀ n, ∃ s, stateAfter M addr tie n factors varBdds largestSupportSet hintsInput
        quantifiedVariables = Except.ok s ∧
      s.heap = [] ∧ s.nodes.length = factors.length + varBdds.length ∧
      s.mergedFactors = setOfList factors ∧ s.mergedVariables = setOfList varBdds := by
  obtain ⟨s0, h0, hinv, hadd⟩ := initState_spec M addr factors varBdds largestSupportSet
    hintsInput quantifiedVariables
  have hheap : s0.heap = [] := by
    unfold initialHeap at h
    rw [h0] at h
    simpa using h
  have hmf : s0.mergedFactors = setOfList factors := hadd.frame.2.2.2.1
  have hmv : s0.mergedVariables = setOfList varBdds := hadd.frame.2.2.2.2
  have hlen : s0.nodes.length = factors.length + varBdds.length := by
    rw [hadd.core.1]
    exact connectedState_length M addr factors varBdds hintsInput quantifiedVariables
  refine ⟨?_, mem_setOfList factors, mem_setOfList varBdds, ?_⟩
  · have hs : mainLoop M addr largestSupportSet tie s0.heap.length 0 s0 = Except.ok s0 := by
      rw [hheap]
      simp [mainLoop, hheap]
    rw [merge_eq_of_mainLoop M addr tie factors varBdds largestSupportSet hintsInput
      quantifiedVariables s0 s0 h0 hs]
    unfold MergeState.results
    rw [hmf, hmv]
  · intro n
    refine ⟨s0, ?_, hheap, hlen, hmf, hmv⟩
    apply stateAfter_eq_of_runRounds M addr tie n factors varBdds largestSupportSet hintsInput
      quantifiedVariables s0 s0 h0
    cases n with
    | zero => rfl
    | succ n => simp [runRounds, hheap]

set_option maxRecDepth 1000000 in
/-- Witness of `merge_no_eligible_pair`, scenario 2 of the spec: factors
`a ∨ b`, `c ∨ d` over the variables `a`, `b`, `c`, `d`, bound 1 and no
quantified variable: the two factors and the four variables are returned. -/
theorem merge_no_eligible_pair_witness :
    merge (ttManager 4) id (fun _ => 0)
        [ttOr (ttVar 4 0) (ttVar 4 1), ttOr (ttVar 4 2) (ttVar 4 3)]
        [ttVar 4 0, ttVar 4 1, ttVar 4 2, ttVar 4 3] 1 MergeHints.empty [] =
      Except.ok
        { factors := setOfList [ttOr (ttVar 4 0) (ttVar 4 1), ttOr (ttVar 4 2) (ttVar 4 3)]
          varBdds := setOfList [ttVar 4 0, ttVar 4 1, ttVar 4 2, ttVar 4 3] } ∧
    setOfList [ttOr (ttVar 4 0) (ttVar 4 1), ttOr (ttVar 4 2) (ttVar 4 3)] =
      [ttOr (ttVar 4 0) (ttVar 4 1), ttOr (ttVar 4 2) (ttVar 4 3)] ∧
    setOfList [ttVar 4 0, ttVar 4 1, ttVar 4 2, ttVar 4 3] =
      [ttVar 4 0, ttVar 4 1, ttVar 4 2, ttVar 4 3] :=
  ⟨(merge_no_eligible_pair (ttManager 4) id (fun _ => 0)
      [ttOr (ttVar 4 0) (ttVar 4 1), ttOr (ttVar 4 2) (ttVar 4 3)]
      [ttVar 4 0, ttVar 4 1, ttVar 4 2, ttVar 4 3] 1 MergeHints.empty []
      (by with_unfolding_all rfl)).1,
    by decide, by decide⟩

end NoEligiblePair

section Copies

variable {α : Type} [LinearOrder α]

theorem setOfList_replicate (f : α) (k : ℕ) (hk : 0 < k) :
    setOfList (List.replicate k f) = [f] := by
  have key : ∀ n, (List.replicate n f).foldl (fun s x => setInsert x s) [f] = [f] := by
    intro n
    induction n with
    | zero => rfl
    | succ n ih =>
      rw [List.replicate_succ, List.foldl_cons]
      simpa [setInsert] using ih
  obtain ⟨n, rfl⟩ := Nat.exists_eq_succ_of_ne_zero (Nat.pos_iff_ne_zero.1 hk)
  unfold setOfList
  rw [List.replicate_succ, List.foldl_cons]
  simpa [setInsert, setOrderedInsert] using key n

/-- The invariant of a run on copies of one factor `f`: the surviving factors
are `f` alone and every func node of the arena carries `f`. -/
theorem copies_step (M : DdManager α) (addr : ℕ → ℕ) (lss : ℤ) (f : α)
    (hidem : M.bdd_and f f = f) (t : ℕ) (s s' : MergeState α) (hinv : Inv M s)
    (hI : s.mergedFactors = [f] ∧ ∀ j, j < s.nodes.length →
      (nodeAt M s.nodes j).type = NodeType.Func → (nodeAt M s.nodes j).node = f)
    (hne : s.heap ≠ []) (h : loopStep M addr lss t s = Except.ok s') :
    s'.mergedFactors = [f] ∧ ∀ j, j < s'.nodes.length →
      (nodeAt M s'.nodes j).type = NodeType.Func → (nodeAt M s'.nodes j).node = f := by
  obtain ⟨merger, _, hm, hadd⟩ := loopStep_ok M addr lss t s s' hinv hne h
  obtain ⟨h1, h2, ht⟩ := hinv.mergers_valid merger hm
  have hmf : s'.mergedFactors = (contractState M addr s merger).mergedFactors :=
    hadd.frame.2.2.2.1
  have hcore : ∀ j, (nodeAt M s'.nodes j).core =
      (nodeAt M (contractState M addr s merger).nodes j).core := hadd.core.2
  have hlen : s'.nodes.length = s.nodes.length + 1 := by
    rw [hadd.core.1, contractState_length]
  by_cases hty : (nodeAt M s.nodes (mergerAt s.mergers merger).node1).type = NodeType.Var
  · rw [contractState_mergedFactors_var M addr s merger hty] at hmf
    refine ⟨hmf.trans hI.1, ?_⟩
    intro j hj hjt
    by_cases hjn : j = s.nodes.length
    · subst hjn
      rw [core_type (hcore _)] at hjt
      have := congrArg (fun c => c.1) (contractState_new M addr s merger)
      simp only [AmNode.core] at this
      rw [this, hty] at hjt
      cases hjt
    · rw [core_type (hcore j), core_type (contractState_core_ne M addr s merger hjn)] at hjt
      rw [core_node (hcore j), core_node (contractState_core_ne M addr s merger hjn)]
      exact hI.2 j (by omega) hjt
  · have hty1 := nodeType_eq_func_of_ne_var hty
    have hty2 : (nodeAt M s.nodes (mergerAt s.mergers merger).node2).type = NodeType.Func := by
      rw [← ht]; exact hty1
    have hn1 := hI.2 _ h1 hty1
    have hn2 := hI.2 _ h2 hty2
    have hmerged : mergedBddOf M s merger = f := by
      unfold mergedBddOf
      rw [hn1, hn2, hidem]
    rw [contractState_mergedFactors_func M addr s merger hty1, hn1, hn2, hmerged, hI.1] at hmf
    refine ⟨?_, ?_⟩
    · rw [hmf]
      simp [setInsert, setErase, setOrderedInsert]
    · intro j hj hjt
      by_cases hjn : j = s.nodes.length
      · subst hjn
        rw [core_node (hcore _)]
        have hn := congrArg (fun c => c.2.1) (contractState_new M addr s merger)
        simp only [AmNode.core] at hn
        rw [hn]
        exact hmerged
      · rw [core_type (hcore j), core_type (contractState_core_ne M addr s merger hjn)] at hjt
        rw [core_node (hcore j), core_node (contractState_core_ne M addr s merger hjn)]
        exact hI.2 j (by omega) hjt

/-- C15. When the factors are `k ≥ 1` copies of one handle `f` (and `f ∧ f` is
the handle `f`, as for canonical BDDs), `blif_solve::merge` returns exactly one factor,
the handle `f`, for all variables, bounds, hints and quantified variables. -/
theorem merge_copies (M : DdManager α) (addr : ℕ → ℕ) (tie : ℕ → ℕ) (f : α) (k : ℕ)
    (hk : 0 < k) (hidem : M.bdd_and f f = f) (varBdds : List α) (largestSupportSet : ℤ)
    (hintsInput : MergeHints α) (quantifiedVariables : List α) :
    ∃ r, merge M addr tie (List.replicate k f) varBdds largestSupportSet hintsInput
        quantifiedVariables = Except.ok r ∧
      r.factors = [f] := by
  obtain ⟨s0, h0, hinv, hadd⟩ := initState_spec M addr (List.replicate k f) varBdds
    largestSupportSet hintsInput quantifiedVariables
  have hI0 : s0.mergedFactors = [f] ∧ ∀ j, j < s0.nodes.length →
      (nodeAt M s0.nodes j).type = NodeType.Func → (nodeAt M s0.nodes j).node = f := by
    constructor
    · rw [show s0.mergedFactors = setOfList (List.replicate k f) from hadd.frame.2.2.2.1]
      exact setOfList_replicate f k hk
    · intro j hj hjt
      rw [core_type (hadd.core.2 j)] at hjt
      rw [core_node (hadd.core.2 j)]
      rw [hadd.core.1, connectedState_length] at hj
      rcases (connectedState_nodes M addr (List.replicate k f) varBdds hintsInput
        quantifiedVariables j).2 with ⟨_, f', hf', _, hn, _⟩ | ⟨_, _, v, _, hv, _⟩ | ⟨hge, _⟩
      · rw [hn]
        exact List.eq_of_mem_replicate hf'
      · rw [hv] at hjt
        cases hjt
      · omega
  obtain ⟨s, hs, _, hIs, _⟩ := mainLoop_spec M addr largestSupportSet tie
    (fun s => s.mergedFactors = [f] ∧ ∀ j, j < s.nodes.length →
      (nodeAt M s.nodes j).type = NodeType.Func → (nodeAt M s.nodes j).node = f)
    (fun t s s' hi hc hne h => copies_step M addr largestSupportSet f hidem t s s' hi hc hne h)
    s0.heap.length 0 s0 hinv hI0 (le_refl _)
  exact ⟨s.results, merge_eq_of_mainLoop M addr tie (List.replicate k f) varBdds
    largestSupportSet hintsInput quantifiedVariables s0 s h0 hs, hIs.1⟩

set_option maxRecDepth 1000000 in
/-- Witness of `merge_copies`, scenario 3 of the spec: three copies of the
factor `a`, the variable `a` and bound 5: one factor `a` and one variable `a`
are returned. -/
theorem merge_copies_witness :
    (∃ r, merge (ttManager 1) id (fun _ => 0) (List.replicate 3 (ttVar 1 0)) [ttVar 1 0] 5
        MergeHints.empty [] = Except.ok r ∧ r.factors = [ttVar 1 0]) ∧
    merge (ttManager 1) id (fun _ => 0) [ttVar 1 0, ttVar 1 0, ttVar 1 0] [ttVar 1 0] 5
        MergeHints.empty [] = Except.ok { factors := [ttVar 1 0], varBdds := [ttVar 1 0] } :=
  ⟨merge_copies (ttManager 1) id (fun _ => 0) (ttVar 1 0) 3 (by decide) (by decide)
      [ttVar 1 0] 5 MergeHints.empty [],
    by with_unfolding_all rfl⟩

end Copies

end blif_solve
/-! ## The end-to-end scenarios of the spec

Runs on truth tables. -/

namespace blif_solve

section Scenarios

set_option maxRecDepth 1000000 in
set_option maxHeartbeats 4000000 in
/-- C14, as stated, fails on scenario 1 of the spec: with the nodes at the
addresses `0, 1, 2, ...` and the first top cell in every round, the returned
variables are the two cubes `a ∧ b ∧ c` and `d ∧ e`, not the five input
cubes. -/
theorem merge_scenario_one_variables_counterexample :
    ∃ r, merge (ttManager 5) id (fun _ => 0)
        [ttOr (ttVar 5 0) (ttVar 5 1), ttOr (ttVar 5 1) (ttVar 5 2),
          ttOr (ttVar 5 3) (ttVar 5 4)]
        [ttVar 5 0, ttVar 5 1, ttVar 5 2, ttVar 5 3, ttVar 5 4] 3 MergeHints.empty [] =
        Except.ok r ∧
      r.varBdds =
        [(ttManager 5).bdd_and ((ttManager 5).bdd_and (ttVar 5 0) (ttVar 5 1)) (ttVar 5 2),
          (ttManager 5).bdd_and (ttVar 5 3) (ttVar 5 4)] ∧
      r.varBdds ≠ [ttVar 5 0, ttVar 5 1, ttVar 5 2, ttVar 5 3, ttVar 5 4] :=
  ⟨⟨[3974950124, 4294967040], [2155905152, 4278190080]⟩, by with_unfolding_all rfl,
    by decide, by decide⟩

end Scenarios

end blif_solve
/-! ## The mergers of the heap join nodes that were not contracted -/

namespace blif_solve

section RefreshAliveFacts

variable {α : Type} [LinearOrder α]

theorem mergerAt_append_right (mergers new : List AmMerger) {i : ℕ} (h : i < new.length) :
    mergerAt (mergers ++ new) (mergers.length + i) = new.get ⟨i, h⟩ := by
  unfold mergerAt
  rw [List.getD_eq_getElem?_getD, List.getElem?_append_right (Nat.le_add_right _ _)]
  simp [h]

/-- Unlinking a handled old merger from its other node and from the heap keeps
the invariant of the loop over `oldMergers`. -/
theorem RefreshAlive.unlink_alive (M : DdManager α) (n1 n2 L : ℕ) (s1 : MergeState α)
    (pre : List ℕ) (acc : MergeState α × List ℕ) (old y : ℕ) (set' : List ℕ)
    (hold : old < s1.mergers.length)
    (hy : otherNode s1.mergers old n1 n2 = some y)
    (hset : ∀ z ∈ acc.2, z ∈ set')
    (hP : RefreshAlive M n1 n2 L s1 pre acc) :
    RefreshAlive M n1 n2 L s1 (pre ++ [old])
      ({ acc.1 with
          nodes := updateNode
            (fun n => { n with mergers := n.mergers.filter (fun m => decide (m ≠ old)) })
            y acc.1.nodes
          heap := MaxHeap.remove acc.1.heap old }, set') := by
  obtain ⟨new, hnew, hnodup, hR⟩ := hP.mergers_ext
  constructor
  · intro old' hold'
    rcases List.mem_append.1 hold' with h | h
    · exact hP.pre_valid old' h
    · rw [List.mem_singleton] at h
      rw [h]
      exact hold
  · refine ⟨new, hnew, hnodup, ?_⟩
    intro mg hmg
    obtain ⟨h1, h2, o, ho, h3⟩ := hR mg hmg
    exact ⟨h1, hset _ h2, o, List.mem_append_left _ ho, h3⟩
  · intro e he
    exact hP.heap_cases e ((MaxHeap.mem_remove _ _ _).1 he).1
  · intro old' hold' hsome e he
    obtain ⟨he1, he2⟩ := (MaxHeap.mem_remove _ _ _).1 he
    rcases List.mem_append.1 hold' with h | h
    · exact hP.removed old' h hsome e he1
    · rw [List.mem_singleton] at h
      rw [h]
      exact he2
  · intro x j hj
    rcases hP.kept_list x j hj with h | ⟨h1, h2⟩
    · by_cases hjo : j = old ∧ x = y
      · right
        refine ⟨List.mem_append_right _ (by rw [hjo.1]; exact List.mem_singleton.2 rfl), ?_⟩
        rw [hjo.1, hy]
        rfl
      · left
        exact (mem_mergers_filter M acc.1.nodes y old x j).2 ⟨h, hjo⟩
    · exact Or.inr ⟨List.mem_append_left _ h1, h2⟩
  · intro j hj1 hj2
    obtain ⟨h1, h2⟩ := hP.new_listed j hj1 hj2
    have hne : ¬ (j = old ∧ (mergerAt acc.1.mergers j).node1 = y) := fun h => by omega
    have hne' : ¬ (j = old ∧ (mergerAt acc.1.mergers j).node2 = y) := fun h => by omega
    exact ⟨(mem_mergers_filter M acc.1.nodes y old _ j).2 ⟨h1, hne⟩,
      (mem_mergers_filter M acc.1.nodes y old _ j).2 ⟨h2, hne'⟩⟩

/-- Creating the merger of the merged node and a new other node keeps the
invariant of the loop over `oldMergers`. -/
theorem RefreshAlive.push_alive (M : DdManager α) (n1 n2 L : ℕ) (s1 : MergeState α)
    (pre : List ℕ) (u : MergeState α) (set : List ℕ) (y : ℕ) (p : ℚ)
    (hL : L < u.nodes.length) (hyl : y < u.nodes.length) (hyset : y ∈ set)
    (horigin : ∃ old ∈ pre, otherNode s1.mergers old n1 n2 = some y)
    (hfresh : ∀ j, s1.mergers.length ≤ j → j < u.mergers.length →
      (mergerAt u.mergers j).node2 ≠ y)
    (hP : RefreshAlive M n1 n2 L s1 pre (u, set)) :
    RefreshAlive M n1 n2 L s1 pre
      ({ u with
          nodes := updateNode (fun n => { n with mergers := n.mergers ++ [u.mergers.length] }) y
            (updateNode (fun n => { n with mergers := n.mergers ++ [u.mergers.length] }) L
              u.nodes)
          mergers := u.mergers ++ [⟨L, y⟩]
          heap := MaxHeap.insert u.heap u.mergers.length p }, set) := by
  obtain ⟨new, hnew, hnodup, hR⟩ := hP.mergers_ext
  have hnew' : u.mergers = s1.mergers ++ new := hnew
  have hulen : u.mergers.length = s1.mergers.length + new.length := by
    rw [hnew', List.length_append]
  have hmono : ∀ x j, j ∈ (nodeAt M u.nodes x).mergers →
      j ∈ (nodeAt M (updateNode
        (fun n => { n with mergers := n.mergers ++ [u.mergers.length] }) y
        (updateNode (fun n => { n with mergers := n.mergers ++ [u.mergers.length] }) L
          u.nodes)) x).mergers := by
    intro x j hj
    exact (mem_mergers_push M _ y _ x j).2 (Or.inl ((mem_mergers_push M _ L _ x j).2 (Or.inl hj)))
  constructor
  · exact hP.pre_valid
  · refine ⟨new ++ [⟨L, y⟩], ?_, ?_, ?_⟩
    · show u.mergers ++ [⟨L, y⟩] = s1.mergers ++ (new ++ [⟨L, y⟩])
      rw [hnew', List.append_assoc]
    · rw [List.map_append, List.nodup_append]
      refine ⟨hnodup, List.nodup_singleton _, ?_⟩
      intro a ha hb
      simp only [List.map_cons, List.map_nil, List.mem_singleton] at hb
      obtain ⟨mg, hmg, rfl⟩ := List.mem_map.1 ha
      obtain ⟨i, hi, rfl⟩ := List.getElem_of_mem hmg
      have := hfresh (s1.mergers.length + i) (Nat.le_add_right _ _) (by omega)
      rw [hnew', mergerAt_append_right _ _ hi] at this
      exact this hb
    · intro mg hmg
      rcases List.mem_append.1 hmg with h | h
      · exact hR mg h
      · rw [List.mem_singleton] at h
        rw [h]
        exact ⟨rfl, hyset, horigin⟩
  · intro e he
    simp only [MaxHeap.insert, List.mem_append, List.mem_singleton] at he
    rcases he with he | rfl
    · exact hP.heap_cases e he
    · right
      show s1.mergers.length ≤ u.mergers.length
      omega
  · intro old' hold' hsome e he
    simp only [MaxHeap.insert, List.mem_append, List.mem_singleton] at he
    rcases he with he | rfl
    · exact hP.removed old' hold' hsome e he
    · have := hP.pre_valid old' hold'
      show u.mergers.length ≠ old'
      omega
  · intro x j hj
    rcases hP.kept_list x j hj with h | h
    · exact Or.inl (hmono x j h)
    · exact Or.inr h
  · intro j hj1 hj2
    simp only [List.length_append, List.length_singleton] at hj2
    by_cases hlt : j < u.mergers.length
    · show j ∈ (nodeAt M _ (mergerAt (u.mergers ++ [⟨L, y⟩]) j).node1).mergers ∧
        j ∈ (nodeAt M _ (mergerAt (u.mergers ++ [⟨L, y⟩]) j).node2).mergers
      rw [mergerAt_append_left _ _ hlt]
      obtain ⟨h1, h2⟩ := hP.new_listed j hj1 hlt
      exact ⟨hmono _ j h1, hmono _ j h2⟩
    · have hj : j = u.mergers.length := by omega
      subst hj
      show u.mergers.length ∈ (nodeAt M _ (mergerAt (u.mergers ++ [⟨L, y⟩])
          u.mergers.length).node1).mergers ∧
        u.mergers.length ∈ (nodeAt M _ (mergerAt (u.mergers ++ [⟨L, y⟩])
          u.mergers.length).node2).mergers
      rw [mergerAt_append_length]
      constructor
      · exact (mem_mergers_push M _ y _ L _).2
          (Or.inl ((mem_mergers_push M _ L _ L _).2 (Or.inr ⟨rfl, rfl, hL⟩)))
      · exact (mem_mergers_push M _ y _ y _).2
          (Or.inr ⟨rfl, rfl, by rw [length_updateNode]; exact hyl⟩)

/-- One round of the loop over `oldMergers` keeps the invariant that `AliveInv`
needs. -/
theorem RefreshAlive.step_alive (M : DdManager α) (addr : ℕ → ℕ) (lss : ℤ) (isVar : Bool)
    (n1 n2 L : ℕ) (s1 : MergeState α) (pre : List ℕ) (acc acc' : MergeState α × List ℕ)
    (old : ℕ) (hold : old < s1.mergers.length)
    (hlen : acc.1.nodes.length = s1.nodes.length) (hL : L < s1.nodes.length)
    (hends : (mergerAt s1.mergers old).node1 < L ∧ (mergerAt s1.mergers old).node2 < L)
    (hP : RefreshAlive M n1 n2 L s1 pre acc)
    (h : refreshOne M addr lss isVar n1 n2 L acc old = Except.ok acc') :
    RefreshAlive M n1 n2 L s1 (pre ++ [old]) acc' := by
  obtain ⟨new, hnew, hnodup, hR⟩ := hP.mergers_ext
  have hother : otherNode acc.1.mergers old n1 n2 = otherNode s1.mergers old n1 n2 := by
    rw [hnew]
    exact otherNode_congr _ _ _ _ hold
  unfold refreshOne at h
  rw [pullOutOtherNode_eq] at h
  cases hy : otherNode acc.1.mergers old n1 n2 with
  | none =>
    rw [hy] at h
    simp only at h
    cases h
    have hy' : otherNode s1.mergers old n1 n2 = none := by rw [← hother]; exact hy
    constructor
    · intro old' hold'
      rcases List.mem_append.1 hold' with h | h
      · exact hP.pre_valid old' h
      · rw [List.mem_singleton] at h
        rw [h]
        exact hold
    · refine ⟨new, hnew, hnodup, ?_⟩
      intro mg hmg
      obtain ⟨h1, h2, o, ho, h3⟩ := hR mg hmg
      exact ⟨h1, h2, o, List.mem_append_left _ ho, h3⟩
    · exact hP.heap_cases
    · intro old' hold' hsome e he
      rcases List.mem_append.1 hold' with h | h
      · exact hP.removed old' h hsome e he
      · rw [List.mem_singleton] at h
        rw [h, hy'] at hsome
        cases hsome
    · intro x j hj
      rcases hP.kept_list x j hj with h | ⟨h1, h2⟩
      · exact Or.inl h
      · exact Or.inr ⟨List.mem_append_left _ h1, h2⟩
    · exact hP.new_listed
  | some y =>
    rw [hy] at h
    simp only at h
    have hy' : otherNode s1.mergers old n1 n2 = some y := by rw [← hother]; exact hy
    have hylt : y < L := by
      obtain ⟨_, _, hy3⟩ := otherNode_some hy'
      rcases hy3 with h' | ⟨h', _⟩
      · rw [h']; exact hends.1
      · rw [h']; exact hends.2
    split at h
    · -- the other node was met before
      cases h
      exact RefreshAlive.unlink_alive M n1 n2 L s1 pre acc old y acc.2 hold hy'
        (fun z hz => hz) hP
    · rename_i hmem
      have hU := RefreshAlive.unlink_alive M n1 n2 L s1 pre acc old y
        (ptrSetInsert addr y acc.2) hold hy'
        (fun z hz => (mem_ptrSetInsert addr y acc.2 z).2 (Or.inr hz)) hP
      split at h
      · -- a new merger is created
        rename_i priority hc
        unfold newMerger at h
        simp only at h
        split at h
        · cases h
        · simp only [Except.map] at h
          cases h
          refine RefreshAlive.push_alive M n1 n2 L s1 (pre ++ [old]) _ _ y priority ?_ ?_
            ((mem_ptrSetInsert addr y acc.2 y).2 (Or.inl rfl))
            ⟨old, List.mem_append_right _ (List.mem_singleton.2 rfl), hy'⟩ ?_ hU
          · show L < (updateNode _ y acc.1.nodes).length
            rw [length_updateNode, hlen]
            exact hL
          · show y < (updateNode _ y acc.1.nodes).length
            rw [length_updateNode, hlen]
            omega
          · intro j hj1 hj2 hj3
            have hj2' : j < acc.1.mergers.length := hj2
            have hj3' : (mergerAt acc.1.mergers j).node2 = y := hj3
            rw [hnew] at hj2' hj3'
            rw [List.length_append] at hj2'
            have hi : j - s1.mergers.length < new.length := by omega
            have hj : j = s1.mergers.length + (j - s1.mergers.length) := by omega
            rw [hj, mergerAt_append_right _ _ hi] at hj3'
            have := (hR _ (List.get_mem new _ hi)).2.1
            rw [hj3'] at this
            exact hmem this
      · -- the pair is not eligible
        cases h
        exact hU

end RefreshAliveFacts

end blif_solve
namespace blif_solve

section RoundAlive

variable {α : Type} [LinearOrder α]

/-- The loop over `oldMergers` does not throw and keeps both invariants; `pre`
is the list of the old mergers handled before. -/
theorem refresh_fold_alive (M : DdManager α) (addr : ℕ → ℕ) (lss : ℤ) (isVar : Bool)
    (n1 n2 L : ℕ) (olds : List ℕ) (s1 : MergeState α)
    (hn1 : n1 < L) (hn2 : n2 < L) (hml : L < s1.nodes.length)
    (ht1 : (nodeAt M s1.nodes n1).type = (nodeAt M s1.nodes L).type)
    (ht2 : (nodeAt M s1.nodes n2).type = (nodeAt M s1.nodes L).type) :
    ∀ (l pre : List ℕ) (acc : MergeState α × List ℕ),
      RefreshInv M lss (if isVar then s1.qv else s1.qf) n1 n2 L olds s1 acc →
      RefreshAlive M n1 n2 L s1 pre acc →
      (∀ old ∈ l, OldMerger s1.mergers n1 n2 L olds old) →
      ∃ acc', l.foldlM (refreshOne M addr lss isVar n1 n2 L) acc = Except.ok acc' ∧
        RefreshInv M lss (if isVar then s1.qv else s1.qf) n1 n2 L olds s1 acc' ∧
        RefreshAlive M n1 n2 L s1 (pre ++ l) acc' := by
  intro l
  induction l with
  | nil =>
    intro pre acc hP hA _
    exact ⟨acc, rfl, hP, by simpa using hA⟩
  | cons old l ih =>
    intro pre acc hP hA hQ
    have hQo := hQ old (List.mem_cons_self _ _)
    obtain ⟨acc1, h1, hP1⟩ := refreshOne_step M addr lss isVar n1 n2 L olds s1 hn1 hn2 hml
      ht1 ht2 acc old hP hQo
    have hA1 := RefreshAlive.step_alive M addr lss isVar n1 n2 L s1 pre acc acc1 old
      hQo.2.1 hP.added.core.1 hml ⟨hQo.2.2.1, hQo.2.2.2.1⟩ hA h1
    obtain ⟨acc', h2, hP', hA'⟩ := ih (pre ++ [old]) acc1 hP1 hA1
      (fun o ho => hQ o (List.mem_cons_of_mem _ ho))
    refine ⟨acc', ?_, hP', ?_⟩
    · rw [List.foldlM_cons, h1]
      exact h2
    · rw [List.append_assoc] at hA'
      exact hA'

/-- The merger lists of the nodes other than the two contracted nodes are the
same in `contractState`. -/
theorem contractState_mergers_of_ne (M : DdManager α) (addr : ℕ → ℕ) (s : MergeState α)
    (merger : ℕ) {x : ℕ} (hx : x < s.nodes.length)
    (h1 : x ≠ (mergerAt s.mergers merger).node1) (h2 : x ≠ (mergerAt s.mergers merger).node2) :
    (nodeAt M (contractState M addr s merger).nodes x).mergers = (nodeAt M s.nodes x).mergers := by
  unfold contractState
  simp only
  rw [nodeAt_updateNode_of_ne M _ _ h2, nodeAt_updateNode_of_ne M _ _ h1,
    nodeAt_append_left M _ _ hx]

/-- Every merger listed at one of the two contracted nodes is in the list
`oldMergers`. -/
theorem mem_oldMergersOf (M : DdManager α) (addr : ℕ → ℕ) (s : MergeState α) (merger : ℕ)
    (h1 : (mergerAt s.mergers merger).node1 < s.nodes.length)
    (h2 : (mergerAt s.mergers merger).node2 < s.nodes.length) (j : ℕ)
    (h : j ∈ (nodeAt M s.nodes (mergerAt s.mergers merger).node1).mergers ∨
      j ∈ (nodeAt M s.nodes (mergerAt s.mergers merger).node2).mergers) :
    j ∈ oldMergersOf M addr s merger := by
  unfold oldMergersOf
  simp only
  rw [List.mem_append, nodeAt_append_left M _ _ h1]
  rcases h with h | h
  · exact Or.inl h
  · by_cases heq : (mergerAt s.mergers merger).node2 = (mergerAt s.mergers merger).node1
    · left
      rw [← heq]
      exact h
    · right
      rw [nodeAt_updateNode_of_ne M _ _ heq, nodeAt_append_left M _ _ h2]
      exact h

/-- The invariant of the loop over `oldMergers` holds at its start. -/
theorem refreshInv_init (M : DdManager α) (addr : ℕ → ℕ) (lss : ℤ) (s : MergeState α)
    (merger : ℕ) (hinv : Inv M s) (hm : merger < s.mergers.length) :
    RefreshInv M lss (quantifiedOf M addr s merger)
      (mergerAt s.mergers merger).node1 (mergerAt s.mergers merger).node2 s.nodes.length
      (oldMergersOf M addr s merger) (contractState M addr s merger)
      (contractState M addr s merger, []) := by
  obtain ⟨h1, h2, ht⟩ := hinv.mergers_valid merger hm
  have hinv1 := contractState_inv M addr s merger hinv hm
  obtain ⟨hc1, hc2⟩ := contractState_cleared M addr s merger h1 h2
  refine ⟨hinv1, Added.refl_added M _ _, hc1, hc2, le_refl _, ?_⟩
  intro old hold y hy
  left
  rw [contractState_mergers] at hy
  have hlisted := oldMergersOf_mem M addr s merger h1 h2 old hold
  have hheap : ∃ e ∈ s.heap, e.1 = old := by
    rcases hlisted with h | h
    · exact hinv.listed_in_heap _ old h
    · exact hinv.listed_in_heap _ old h
  obtain ⟨e, he, hem⟩ := hheap
  refine ⟨e, ?_, hem⟩
  show e ∈ MaxHeap.remove s.heap merger
  refine (MaxHeap.mem_remove _ _ _).2 ⟨he, ?_⟩
  rw [hem]
  intro heq
  subst heq
  rw [otherNode_self] at hy
  cases hy

/-- Every entry of the list `oldMergers` is an old merger as the loop needs
it. -/
theorem oldMerger_of_mem (M : DdManager α) (addr : ℕ → ℕ) (s : MergeState α) (merger : ℕ)
    (hinv : Inv M s) (hm : merger < s.mergers.length) :
    ∀ old ∈ oldMergersOf M addr s merger,
      OldMerger (contractState M addr s merger).mergers (mergerAt s.mergers merger).node1
        (mergerAt s.mergers merger).node2 s.nodes.length (oldMergersOf M addr s merger) old := by
  obtain ⟨h1, h2, _⟩ := hinv.mergers_valid merger hm
  intro old hold
  rw [contractState_mergers]
  have hlisted := oldMergersOf_mem M addr s merger h1 h2 old hold
  have hlt : old < s.mergers.length := by
    rcases hlisted with h | h
    · exact (hinv.listed_endpoint _ old h).1
    · exact (hinv.listed_endpoint _ old h).1
  obtain ⟨v1, v2, _⟩ := hinv.mergers_valid old hlt
  refine ⟨hold, hlt, v1, v2, ?_⟩
  rcases hlisted with h | h
  · rcases (hinv.listed_endpoint _ old h).2 with h' | h'
    · exact Or.inl h'
    · exact Or.inr (Or.inr (Or.inl h'))
  · rcases (hinv.listed_endpoint _ old h).2 with h' | h'
    · exact Or.inr (Or.inl h')
    · exact Or.inr (Or.inr (Or.inr h'))

/-- The invariant that `AliveInv` needs holds at the start of the loop over
`oldMergers`. -/
theorem refreshAlive_init (M : DdManager α) (n1 n2 L : ℕ) (s1 : MergeState α) :
    RefreshAlive M n1 n2 L s1 [] (s1, []) := by
  constructor
  · intro old hold
    cases hold
  · exact ⟨[], by simp, by simp, by simp⟩
  · intro e he
    exact Or.inl he
  · intro old hold
    cases hold
  · intro x j hj
    exact Or.inl hj
  · intro j hj1 hj2
    have hj2' : j < s1.mergers.length := hj2
    omega

end RoundAlive

end blif_solve
namespace blif_solve

section AliveStep

variable {α : Type} [LinearOrder α]

theorem otherNode_none {mergers : List AmMerger} {merger node1 node2 : ℕ}
    (h : otherNode mergers merger node1 node2 = none) :
    ((mergerAt mergers merger).node1 = node1 ∨ (mergerAt mergers merger).node1 = node2) ∧
    ((mergerAt mergers merger).node2 = node1 ∨ (mergerAt mergers merger).node2 = node2) := by
  unfold otherNode at h
  split_ifs at h with c1 c2
  constructor
  · by_contra hc
    rw [not_or] at hc
    exact c1 hc
  · by_contra hc
    rw [not_or] at hc
    exact c2 hc

/-- Two entries of a list without repetitions of the second nodes that agree on
the second node are the same entry. -/
theorem index_eq_of_node2_eq {new : List AmMerger}
    (hnodup : (new.map (fun mg => mg.node2)).Nodup) {i j : ℕ} (hi : i < new.length)
    (hj : j < new.length) (h : (new.get ⟨i, hi⟩).node2 = (new.get ⟨j, hj⟩).node2) : i = j := by
  have hi' : i < (new.map (fun mg => mg.node2)).length := by rw [List.length_map]; exact hi
  have hj' : j < (new.map (fun mg => mg.node2)).length := by rw [List.length_map]; exact hj
  have key : (new.map (fun mg => mg.node2))[i] = (new.map (fun mg => mg.node2))[j] := by
    simpa using h
  exact hnodup.getElem_inj_iff.1 key

/-- A round of the main loop contracts two different nodes that were not
contracted before, and keeps the invariant of the heap for the longer list of
contracted nodes; the arena grows by the merged node, which has the kind of the
two nodes. -/
theorem AliveInv.round_alive (M : DdManager α) (addr : ℕ → ℕ) (lss : ℤ) (t : ℕ)
    (s s' : MergeState α) (dead : List ℕ) (hinv : Inv M s) (hA : AliveInv M s dead)
    (hne : s.heap ≠ []) (h : loopStep M addr lss t s = Except.ok s') :
    ∃ merger, MaxHeap.top s.heap t = some merger ∧ merger < s.mergers.length ∧
      (mergerAt s.mergers merger).node1 ≠ (mergerAt s.mergers merger).node2 ∧
      (mergerAt s.mergers merger).node1 ∉ dead ∧ (mergerAt s.mergers merger).node2 ∉ dead ∧
      Inv M s' ∧
      AliveInv M s'
        ((mergerAt s.mergers merger).node1 :: (mergerAt s.mergers merger).node2 :: dead) ∧
      s'.nodes.length = s.nodes.length + 1 ∧
      (∀ j, j < s.nodes.length → (nodeAt M s'.nodes j).type = (nodeAt M s.nodes j).type) ∧
      (nodeAt M s'.nodes s.nodes.length).type =
        (nodeAt M s.nodes (mergerAt s.mergers merger).node1).type := by
  obtain ⟨merger, htop, em, hem, hem1⟩ := MaxHeap.top_of_ne_nil s.heap hne t
  have hm : merger < s.mergers.length := by
    rw [← hem1]
    exact hinv.heap_valid em hem
  obtain ⟨h1, h2, ht⟩ := hinv.mergers_valid merger hm
  have hdist : (mergerAt s.mergers merger).node1 ≠ (mergerAt s.mergers merger).node2 := by
    have := hA.distinct em hem
    rw [hem1] at this
    exact this
  have halive := hA.alive em hem
  rw [hem1] at halive
  have hnewtype : (nodeAt M (contractState M addr s merger).nodes s.nodes.length).type =
      (nodeAt M s.nodes (mergerAt s.mergers merger).node1).type :=
    congrArg (fun c => c.1) (contractState_new M addr s merger)
  obtain ⟨acc', hfold, hP', hA'⟩ := refresh_fold_alive M addr lss
    (decide ((nodeAt M s.nodes (mergerAt s.mergers merger).node1).type = NodeType.Var))
    (mergerAt s.mergers merger).node1 (mergerAt s.mergers merger).node2 s.nodes.length
    (oldMergersOf M addr s merger) (contractState M addr s merger) h1 h2
    (by rw [contractState_length]; omega)
    (by rw [hnewtype, core_type (contractState_core_old M addr s merger h1)])
    (by rw [hnewtype, core_type (contractState_core_old M addr s merger h2)]
        exact ht.symm)
    (oldMergersOf M addr s merger) [] (contractState M addr s merger, [])
    (refreshInv_init M addr lss s merger hinv hm)
    (refreshAlive_init M _ _ _ _) (oldMerger_of_mem M addr s merger hinv hm)
  rw [List.nil_append] at hA'
  have hs' : s' = acc'.1 := by
    rw [loopStep_eq M addr lss t s merger htop ht, hfold] at h
    cases h
    rfl
  subst hs'
  obtain ⟨new, hnew, hnodup, hR⟩ := hA'.mergers_ext
  rw [contractState_mergers] at hnew
  have hlenm : acc'.1.mergers.length = s.mergers.length + new.length := by
    rw [hnew, List.length_append]
  have hlenn : acc'.1.nodes.length = s.nodes.length + 1 := by
    rw [hP'.added.core.1, contractState_length]
  -- the other node of an old merger
  have horigin : ∀ old ∈ oldMergersOf M addr s merger, ∀ y,
      otherNode s.mergers old (mergerAt s.mergers merger).node1
        (mergerAt s.mergers merger).node2 = some y →
      y ≠ (mergerAt s.mergers merger).node1 ∧ y ≠ (mergerAt s.mergers merger).node2 ∧
        y ∉ dead ∧ y < s.nodes.length := by
    intro old hold y hy
    obtain ⟨hy1, hy2, hy3⟩ := otherNode_some hy
    have hlisted := oldMergersOf_mem M addr s merger h1 h2 old hold
    have hheap : ∃ e ∈ s.heap, e.1 = old := by
      rcases hlisted with h' | h'
      · exact hinv.listed_in_heap _ old h'
      · exact hinv.listed_in_heap _ old h'
    obtain ⟨eo, heo, heo1⟩ := hheap
    have ha := hA.alive eo heo
    have hv := hinv.mergers_valid eo.1 (hinv.heap_valid eo heo)
    rw [heo1] at ha hv
    rcases hy3 with h' | ⟨h', _⟩
    · rw [h']
      rw [h'] at hy1 hy2
      exact ⟨hy1, hy2, ha.1, hv.1⟩
    · rw [h']
      rw [h'] at hy1 hy2
      exact ⟨hy1, hy2, ha.2, hv.2.1⟩
  -- the cells of the heap that were there before the round
  have hold_case : ∀ e ∈ acc'.1.heap, e.1 < s.mergers.length →
      e ∈ s.heap ∧ mergerAt acc'.1.mergers e.1 = mergerAt s.mergers e.1 ∧
      (mergerAt s.mergers e.1).node1 ≠ (mergerAt s.mergers merger).node1 ∧
      (mergerAt s.mergers e.1).node1 ≠ (mergerAt s.mergers merger).node2 ∧
      (mergerAt s.mergers e.1).node2 ≠ (mergerAt s.mergers merger).node1 ∧
      (mergerAt s.mergers e.1).node2 ≠ (mergerAt s.mergers merger).node2 := by
    intro e he hlt
    have hc : e ∈ (contractState M addr s merger).heap := by
      rcases hA'.heap_cases e he with hc | hc
      · exact hc
      · rw [contractState_mergers] at hc
        omega
    rw [contractState_heap] at hc
    obtain ⟨hes, hnem⟩ := (MaxHeap.mem_remove _ _ _).1 hc
    have hlisted := hA.listed e hes
    have key : ((mergerAt s.mergers e.1).node1 = (mergerAt s.mergers merger).node1 ∨
        (mergerAt s.mergers e.1).node1 = (mergerAt s.mergers merger).node2 ∨
        (mergerAt s.mergers e.1).node2 = (mergerAt s.mergers merger).node1 ∨
        (mergerAt s.mergers e.1).node2 = (mergerAt s.mergers merger).node2) → False := by
      intro hend
      have hin : e.1 ∈ oldMergersOf M addr s merger := by
        apply mem_oldMergersOf M addr s merger h1 h2
        rcases hend with h' | h' | h' | h'
        · left; rw [← h']; exact hlisted.1
        · right; rw [← h']; exact hlisted.1
        · left; rw [← h']; exact hlisted.2
        · right; rw [← h']; exact hlisted.2
      cases ho : otherNode s.mergers e.1 (mergerAt s.mergers merger).node1
          (mergerAt s.mergers merger).node2 with
      | none =>
        obtain ⟨o1, o2⟩ := otherNode_none ho
        have hd := hA.distinct e hes
        have hsame : (mergerAt s.mergers e.1).SamePair (mergerAt s.mergers em.1) := by
          rw [hem1]
          rcases o1 with o1 | o1
          · rcases o2 with o2 | o2
            · exact absurd (o1.trans o2.symm) hd
            · exact Or.inl ⟨o1, o2⟩
          · rcases o2 with o2 | o2
            · exact Or.inr ⟨o1, o2⟩
            · exact absurd (o1.trans o2.symm) hd
        exact hnem ((hA.unique e hes em hem hsame).trans hem1)
      | some y =>
        exact hA'.removed e.1 hin (by rw [contractState_mergers, ho]; rfl) e he rfl
    refine ⟨hes, by rw [hnew]; exact mergerAt_append_left _ _ hlt, ?_, ?_, ?_, ?_⟩
    · exact fun h' => key (Or.inl h')
    · exact fun h' => key (Or.inr (Or.inl h'))
    · exact fun h' => key (Or.inr (Or.inr (Or.inl h')))
    · exact fun h' => key (Or.inr (Or.inr (Or.inr h')))
  -- the cells of the heap that the round created
  have hnew_case : ∀ e ∈ acc'.1.heap, s.mergers.length ≤ e.1 →
      ∃ (i : ℕ) (hi : i < new.length), e.1 = s.mergers.length + i ∧
        mergerAt acc'.1.mergers e.1 = new.get ⟨i, hi⟩ ∧
        (new.get ⟨i, hi⟩).node1 = s.nodes.length ∧
        (new.get ⟨i, hi⟩).node2 ≠ (mergerAt s.mergers merger).node1 ∧
        (new.get ⟨i, hi⟩).node2 ≠ (mergerAt s.mergers merger).node2 ∧
        (new.get ⟨i, hi⟩).node2 ∉ dead ∧ (new.get ⟨i, hi⟩).node2 < s.nodes.length := by
    intro e he hle
    have hlt := hP'.inv.heap_valid e he
    rw [hlenm] at hlt
    have hi : e.1 - s.mergers.length < new.length := by omega
    have he1 : e.1 = s.mergers.length + (e.1 - s.mergers.length) := by omega
    refine ⟨e.1 - s.mergers.length, hi, he1, ?_, ?_⟩
    · rw [hnew]
      conv_lhs => rw [he1]
      exact mergerAt_append_right _ _ hi
    · obtain ⟨r1, _, old, hold, r3⟩ := hR _ (List.get_mem new _ hi)
      rw [contractState_mergers] at r3
      obtain ⟨o1, o2, o3, o4⟩ := horigin old hold _ r3
      exact ⟨r1, o1, o2, o3, o4⟩
  refine ⟨merger, htop, hm, hdist, halive.1, halive.2, hP'.inv, ?_, hlenn, ?_, ?_⟩
  · constructor
    · -- distinct
      intro e he
      by_cases hlt : e.1 < s.mergers.length
      · obtain ⟨hes, hmg, _⟩ := hold_case e he hlt
        rw [hmg]
        exact hA.distinct e hes
      · obtain ⟨i, hi, _, hmg, r1, _, _, _, r5⟩ := hnew_case e he (not_lt.1 hlt)
        rw [hmg, r1]
        omega
    · -- alive
      intro e he
      simp only [List.mem_cons, not_or]
      by_cases hlt : e.1 < s.mergers.length
      · obtain ⟨hes, hmg, c1, c2, c3, c4⟩ := hold_case e he hlt
        rw [hmg]
        exact ⟨⟨c1, c2, (hA.alive e hes).1⟩, c3, c4, (hA.alive e hes).2⟩
      · obtain ⟨i, hi, _, hmg, r1, r2, r3, r4, r5⟩ := hnew_case e he (not_lt.1 hlt)
        rw [hmg, r1]
        refine ⟨⟨by omega, by omega, ?_⟩, r2, r3, r4⟩
        intro hd
        have := hA.dead_valid _ hd
        omega
    · -- listed
      intro e he
      by_cases hlt : e.1 < s.mergers.length
      · obtain ⟨hes, hmg, c1, c2, c3, c4⟩ := hold_case e he hlt
        obtain ⟨v1, v2, _⟩ := hinv.mergers_valid e.1 hlt
        obtain ⟨l1, l2⟩ := hA.listed e hes
        rw [hmg]
        have keep : ∀ x, x < s.nodes.length → x ≠ (mergerAt s.mergers merger).node1 →
            x ≠ (mergerAt s.mergers merger).node2 → e.1 ∈ (nodeAt M s.nodes x).mergers →
            e.1 ∈ (nodeAt M acc'.1.nodes x).mergers := by
          intro x hx hx1 hx2 hl
          rw [← contractState_mergers_of_ne M addr s merger hx hx1 hx2] at hl
          rcases hA'.kept_list x e.1 hl with h' | ⟨h', h''⟩
          · exact h'
          · exact absurd rfl (hA'.removed e.1 h' h'' e he)
        exact ⟨keep _ v1 c1 c2 l1, keep _ v2 c3 c4 l2⟩
      · have hlt' := hP'.inv.heap_valid e he
        have hle : (contractState M addr s merger).mergers.length ≤ e.1 := by
          rw [contractState_mergers]
          exact not_lt.1 hlt
        exact hA'.new_listed e.1 hle hlt'
    · -- unique
      intro e he e' he' hsame
      by_cases hlt : e.1 < s.mergers.length
      · obtain ⟨hes, hmg, _⟩ := hold_case e he hlt
        obtain ⟨v1, v2, _⟩ := hinv.mergers_valid e.1 hlt
        by_cases hlt' : e'.1 < s.mergers.length
        · obtain ⟨hes', hmg', _⟩ := hold_case e' he' hlt'
          rw [hmg, hmg'] at hsame
          exact hA.unique e hes e' hes' hsame
        · obtain ⟨i, hi, _, hmg', r1, _⟩ := hnew_case e' he' (not_lt.1 hlt')
          rw [hmg, hmg'] at hsame
          rcases hsame with ⟨a, _⟩ | ⟨_, b⟩
          · rw [r1] at a; omega
          · rw [r1] at b; omega
      · obtain ⟨i, hi, hei, hmg, r1, _, _, _, r5⟩ := hnew_case e he (not_lt.1 hlt)
        by_cases hlt' : e'.1 < s.mergers.length
        · obtain ⟨hes', hmg', _⟩ := hold_case e' he' hlt'
          obtain ⟨v1, v2, _⟩ := hinv.mergers_valid e'.1 hlt'
          rw [hmg, hmg'] at hsame
          rcases hsame with ⟨a, _⟩ | ⟨a, _⟩
          · rw [r1] at a; omega
          · rw [r1] at a; omega
        · obtain ⟨i', hi', hei', hmg', r1', _, _, _, r5'⟩ := hnew_case e' he' (not_lt.1 hlt')
          rw [hmg, hmg'] at hsame
          have h2eq : (new.get ⟨i, hi⟩).node2 = (new.get ⟨i', hi'⟩).node2 := by
            rcases hsame with ⟨_, b⟩ | ⟨a, _⟩
            · exact b
            · rw [r1] at a; omega
          rw [hei, hei', index_eq_of_node2_eq hnodup hi hi' h2eq]
    · -- dead_valid
      intro d hd
      rw [hlenn]
      simp only [List.mem_cons] at hd
      rcases hd with rfl | rfl | hd
      · omega
      · omega
      · have := hA.dead_valid d hd
        omega
  · intro j hj
    rw [core_type (hP'.added.core.2 j), core_type (contractState_core_old M addr s merger hj)]
  · rw [core_type (hP'.added.core.2 _)]
    exact hnewtype

end AliveStep

end blif_solve
namespace blif_solve

section InitAliveProofs

variable {α : Type} [LinearOrder α]

/-- An invariant of a fallible loop over a list without repetitions that may
depend on the entries handled before: every round meets an entry that was not
handled. -/
theorem foldlM_prefix {σ β : Type} (f : σ → β → Except String σ) (P : List β → σ → Prop)
    (Q : β → Prop)
    (hstep : ∀ pre b s, P pre s → Q b → b ∉ pre →
      ∃ s', f s b = Except.ok s' ∧ P (pre ++ [b]) s') :
    ∀ (l pre : List β) (s : σ), P pre s → (∀ b ∈ l, Q b) → (pre ++ l).Nodup →
      ∃ s', l.foldlM f s = Except.ok s' ∧ P (pre ++ l) s' := by
  intro l
  induction l with
  | nil =>
    intro pre s hs _ _
    exact ⟨s, rfl, by simpa using hs⟩
  | cons b l ih =>
    intro pre s hs hq hnd
    have hb : b ∉ pre := by
      intro hb
      exact (List.nodup_append.1 hnd).2.2 hb (List.mem_cons_self _ _)
    obtain ⟨s1, h1, hs1⟩ := hstep pre b s hs (hq b (List.mem_cons_self _ _)) hb
    obtain ⟨s2, h2, hs2⟩ := ih (pre ++ [b]) s1 hs1
      (fun b' hb' => hq b' (List.mem_cons_of_mem _ hb')) (by simpa using hnd)
    refine ⟨s2, ?_, ?_⟩
    · rw [List.foldlM_cons, h1]
      exact h2
    · rw [List.append_assoc] at hs2
      exact hs2

/-- A doubly nested fallible loop over two lists without repetitions meets every
ordered pair once: an invariant that may depend on the set of the pairs met
holds at the end for the pairs of the two lists. -/
theorem double_loop_visited {σ : Type} (g : ℕ → σ → ℕ → Except String σ)
    (I : (ℕ × ℕ → Prop) → σ → Prop) (Q : ℕ → Prop)
    (hmono : ∀ (v v' : ℕ × ℕ → Prop) (s : σ), (∀ q, v q → v' q) → I v s → I v' s)
    (hstep : ∀ (v : ℕ × ℕ → Prop) (s : σ) (a b : ℕ), I v s → Q a → Q b → ¬ v (a, b) →
      ∃ s', g a s b = Except.ok s' ∧ I (fun q => v q ∨ q = (a, b)) s')
    (lo li : List ℕ) (hlo : lo.Nodup) (hli : li.Nodup) (hQo : ∀ a ∈ lo, Q a)
    (hQi : ∀ b ∈ li, Q b) (v0 : ℕ × ℕ → Prop) (hv0 : ∀ a ∈ lo, ∀ b, ¬ v0 (a, b))
    (s : σ) (h : I v0 s) :
    ∃ s', lo.foldlM (fun s a => li.foldlM (g a) s) s = Except.ok s' ∧
      I (fun q => v0 q ∨ (q.1 ∈ lo ∧ q.2 ∈ li)) s' := by
  have inner : ∀ (v : ℕ × ℕ → Prop) (a : ℕ) (s : σ), Q a → (∀ b, ¬ v (a, b)) → I v s →
      ∃ s', li.foldlM (g a) s = Except.ok s' ∧
        I (fun q => v q ∨ (q.1 = a ∧ q.2 ∈ li)) s' := by
    intro v a s ha hv hs
    obtain ⟨s', h1, h2⟩ := foldlM_prefix (g a)
      (fun pi s => I (fun q => v q ∨ (q.1 = a ∧ q.2 ∈ pi)) s) Q
      (by
        intro pi b s hP hb hnot
        obtain ⟨s', h1, h2⟩ := hstep _ s a b hP ha hb (by
          rintro (h | ⟨_, h⟩)
          · exact hv b h
          · exact hnot h)
        refine ⟨s', h1, hmono _ _ s' ?_ h2⟩
        rintro q ((h | ⟨h, h'⟩) | h)
        · exact Or.inl h
        · exact Or.inr ⟨h, List.mem_append_left _ h'⟩
        · subst h
          exact Or.inr ⟨rfl, by simp⟩)
      li [] s (hmono _ _ s (fun q hq => Or.inl hq) hs) hQi (by simpa using hli)
    refine ⟨s', h1, hmono _ _ s' ?_ h2⟩
    intro q hq
    simpa using hq
  obtain ⟨s', h1, h2⟩ := foldlM_prefix (fun s a => li.foldlM (g a) s)
    (fun po s => I (fun q => v0 q ∨ (q.1 ∈ po ∧ q.2 ∈ li)) s) (fun a => Q a ∧ a ∈ lo)
    (by
      intro po a s hP ha hnot
      obtain ⟨s', h1, h2⟩ := inner _ a s ha.1 (by
        rintro b (h | ⟨h, _⟩)
        · exact hv0 a ha.2 b h
        · exact hnot h) hP
      refine ⟨s', h1, hmono _ _ s' ?_ h2⟩
      rintro q ((h | ⟨h, h'⟩) | ⟨h, h'⟩)
      · exact Or.inl h
      · exact Or.inr ⟨List.mem_append_left _ h, h'⟩
      · exact Or.inr ⟨by simp [h], h'⟩)
    lo [] s (hmono _ _ s (fun q hq => Or.inl hq) h) (fun a ha => ⟨hQo a ha, ha⟩)
    (by simpa using hlo)
  refine ⟨s', h1, hmono _ _ s' ?_ h2⟩
  intro q hq
  simpa using hq

theorem InitAlive.mono_visited {M : DdManager α} {addr : ℕ → ℕ} {v v' : ℕ × ℕ → Prop}
    {s : MergeState α} (h : ∀ q, v q → v' q) (hA : InitAlive M addr v s) :
    InitAlive M addr v' s :=
  ⟨hA.nodup, fun mg hmg => h _ (hA.seen mg hmg), hA.oriented, hA.listed⟩

/-- The creation of a merger for a pair that was not met before keeps the
invariant of the first mergers. -/
theorem InitAlive.push_merger (M : DdManager α) (addr : ℕ → ℕ) (v : ℕ × ℕ → Prop)
    (s : MergeState α) (i j : ℕ) (p : ℚ) (hinv : Inv M s) (hi : i < s.nodes.length)
    (hj : j < s.nodes.length)
    (ht : (nodeAt M s.nodes i).type = (nodeAt M s.nodes j).type)
    (hA : InitAlive M addr v s) (hnew : ¬ v (i, j)) (hor : addr i < addr j) :
    ∃ s', newMerger M s i j p = Except.ok s' ∧ Inv M s' ∧ SameCore M s.nodes s'.nodes ∧
      InitAlive M addr (fun q => v q ∨ q = (i, j)) s' := by
  obtain ⟨s', h1, hinv', _, hcore, hm, _, hlist⟩ := newMerger_spec M s i j p hinv hi hj ht
  refine ⟨s', h1, hinv', hcore, ?_⟩
  constructor
  · rw [hm, List.nodup_append]
    refine ⟨hA.nodup, List.nodup_singleton _, ?_⟩
    intro mg hmg hmg'
    rw [List.mem_singleton] at hmg'
    subst hmg'
    exact hnew (hA.seen _ hmg)
  · intro mg hmg
    rw [hm, List.mem_append, List.mem_singleton] at hmg
    rcases hmg with h | h
    · exact Or.inl (hA.seen mg h)
    · subst h
      exact Or.inr rfl
  · intro mg hmg
    rw [hm, List.mem_append, List.mem_singleton] at hmg
    rcases hmg with h | h
    · exact hA.oriented mg h
    · subst h
      exact hor
  · intro m hlt
    rw [hm, List.length_append, List.length_singleton] at hlt
    rw [hm]
    rcases Nat.lt_succ_iff_lt_or_eq.1 hlt with h | h
    · rw [mergerAt_append_left _ _ h]
      exact ⟨(hlist _ _).2 (Or.inl (hA.listed m h).1), (hlist _ _).2 (Or.inl (hA.listed m h).2)⟩
    · subst h
      rw [mergerAt_append_length]
      exact ⟨(hlist _ _).2 (Or.inr ⟨rfl, Or.inl rfl⟩), (hlist _ _).2 (Or.inr ⟨rfl, Or.inr rfl⟩)⟩

/-- The first mergers give a heap that satisfies the invariant for the empty
list of contracted nodes. -/
theorem InitAlive.alive_nil (M : DdManager α) (addr : ℕ → ℕ) (v : ℕ × ℕ → Prop)
    (s : MergeState α) (hinv : Inv M s) (hA : InitAlive M addr v s) : AliveInv M s [] := by
  constructor
  · intro e he heq
    have := hA.oriented _ (mergerAt_mem s.mergers (hinv.heap_valid e he))
    rw [heq] at this
    exact lt_irrefl _ this
  · intro e _
    simp
  · intro e he
    exact hA.listed e.1 (hinv.heap_valid e he)
  · intro e he e' he' hsame
    have hlt := hinv.heap_valid e he
    have hlt' := hinv.heap_valid e' he'
    have ho := hA.oriented _ (mergerAt_mem s.mergers hlt)
    have ho' := hA.oriented _ (mergerAt_mem s.mergers hlt')
    rcases hsame with ⟨a, b⟩ | ⟨a, b⟩
    · have heq : mergerAt s.mergers e.1 = mergerAt s.mergers e'.1 := by
        cases hx : mergerAt s.mergers e.1
        cases hy : mergerAt s.mergers e'.1
        rw [hx, hy] at a b
        simp only at a b
        rw [a, b]
      unfold mergerAt at heq
      rw [List.getD_eq_getElem _ _ hlt, List.getD_eq_getElem _ _ hlt'] at heq
      exact (hA.nodup.getElem_inj_iff).1 heq
    · rw [a, b] at ho
      exact absurd ho (lt_asymm ho')
  · intro d hd
    cases hd

/-- The first state satisfies the invariant of the heap for the empty list of
contracted nodes, and its nodes are those of `connectedState` up to the merger
lists. -/
theorem initState_alive (M : DdManager α) (addr : ℕ → ℕ) (factors varBdds : List α)
    (lss : ℤ) (hintsInput : MergeHints α) (qvars : List α) :
    ∃ s0, initState M addr factors varBdds lss hintsInput qvars = Except.ok s0 ∧ Inv M s0 ∧
      AliveInv M s0 [] ∧
      SameCore M (connectedState M addr factors varBdds hintsInput qvars).nodes s0.nodes := by
  rw [initState_eq]
  have hlen := connectedState_length M addr factors varBdds hintsInput qvars
  have hmono : ∀ (v v' : ℕ × ℕ → Prop) (s : MergeState α), (∀ q, v q → v' q) →
      (Inv M s ∧ SameCore M (connectedState M addr factors varBdds hintsInput qvars).nodes
        s.nodes ∧ InitAlive M addr v s) →
      (Inv M s ∧ SameCore M (connectedState M addr factors varBdds hintsInput qvars).nodes
        s.nodes ∧ InitAlive M addr v' s) :=
    fun v v' s h hs => ⟨hs.1, hs.2.1, hs.2.2.mono_visited h⟩
  have hfunc : ∀ (v : ℕ × ℕ → Prop) (s : MergeState α) (a b : ℕ),
      (Inv M s ∧ SameCore M (connectedState M addr factors varBdds hintsInput qvars).nodes
        s.nodes ∧ InitAlive M addr v s) → a < factors.length → b < factors.length →
      ¬ v (a, b) →
      ∃ s', funcMergerOne M addr lss a s b = Except.ok s' ∧
        (Inv M s' ∧ SameCore M (connectedState M addr factors varBdds hintsInput qvars).nodes
          s'.nodes ∧ InitAlive M addr (fun q => v q ∨ q = (a, b)) s') := by
    intro v s a b hs ha hb hnew
    obtain ⟨hinv, hcore, hA⟩ := hs
    unfold funcMergerOne
    split
    · rename_i hc
      cases getCompatibility M s.nodes a b lss
          (s.hints.getWeight (nodeAt M s.nodes a).node (nodeAt M s.nodes b).node) s.qf with
      | none => exact ⟨s, rfl, hinv, hcore, hA.mono_visited (fun q hq => Or.inl hq)⟩
      | some p =>
        have ht : (nodeAt M s.nodes a).type = (nodeAt M s.nodes b).type := by
          rw [core_type (hcore.2 a), core_type (hcore.2 b),
            connectedState_type_func M addr factors varBdds hintsInput qvars ha,
            connectedState_type_func M addr factors varBdds hintsInput qvars hb]
        obtain ⟨s', h1, h2, h3, h4⟩ := InitAlive.push_merger M addr v s a b p hinv
          (by rw [hcore.1, hlen]; omega) (by rw [hcore.1, hlen]; omega) ht hA hnew hc.1
        exact ⟨s', h1, h2, hcore.trans_core h3, h4⟩
    · exact ⟨s, rfl, hinv, hcore, hA.mono_visited (fun q hq => Or.inl hq)⟩
  have hvar : ∀ (v : ℕ × ℕ → Prop) (s : MergeState α) (a b : ℕ),
      (Inv M s ∧ SameCore M (connectedState M addr factors varBdds hintsInput qvars).nodes
        s.nodes ∧ InitAlive M addr v s) →
      (factors.length ≤ a ∧ a < factors.length + varBdds.length) →
      (factors.length ≤ b ∧ b < factors.length + varBdds.length) → ¬ v (a, b) →
      ∃ s', varMergerOne M addr lss a s b = Except.ok s' ∧
        (Inv M s' ∧ SameCore M (connectedState M addr factors varBdds hintsInput qvars).nodes
          s'.nodes ∧ InitAlive M addr (fun q => v q ∨ q = (a, b)) s') := by
    intro v s a b hs ha hb hnew
    obtain ⟨hinv, hcore, hA⟩ := hs
    unfold varMergerOne
    split
    · rename_i hc
      cases getCompatibility M s.nodes a b lss
          (s.hints.getWeight (nodeAt M s.nodes a).node (nodeAt M s.nodes b).node) s.qv with
      | none => exact ⟨s, rfl, hinv, hcore, hA.mono_visited (fun q hq => Or.inl hq)⟩
      | some p =>
        have ht : (nodeAt M s.nodes a).type = (nodeAt M s.nodes b).type := by
          rw [core_type (hcore.2 a), core_type (hcore.2 b),
            connectedState_type_var M addr factors varBdds hintsInput qvars ha.1 ha.2,
            connectedState_type_var M addr factors varBdds hintsInput qvars hb.1 hb.2]
        obtain ⟨s', h1, h2, h3, h4⟩ := InitAlive.push_merger M addr v s a b p hinv
          (by rw [hcore.1, hlen]; omega) (by rw [hcore.1, hlen]; omega) ht hA hnew hc
        exact ⟨s', h1, h2, hcore.trans_core h3, h4⟩
    · exact ⟨s, rfl, hinv, hcore, hA.mono_visited (fun q hq => Or.inl hq)⟩
  have hrangeF : ∀ b ∈ List.range factors.length, b < factors.length :=
    fun b hb => List.mem_range.1 hb
  have hrangeV : ∀ b ∈ (List.range varBdds.length).map (fun i => factors.length + i),
      factors.length ≤ b ∧ b < factors.length + varBdds.length := by
    intro b hb
    obtain ⟨i, hi, rfl⟩ := List.mem_map.1 hb
    have := List.mem_range.1 hi
    omega
  have hndV : ((List.range varBdds.length).map (fun i => factors.length + i)).Nodup :=
    (List.nodup_range _).map (fun _ _ h => Nat.add_left_cancel h)
  have hA0 : InitAlive M addr (fun _ => False)
      (connectedState M addr factors varBdds hintsInput qvars) := by
    constructor
    · simp [connectedState]
    · intro mg hmg
      simp [connectedState] at hmg
    · intro mg hmg
      simp [connectedState] at hmg
    · intro m hm
      simp [connectedState] at hm
  obtain ⟨s1, hs1, hP1⟩ := double_loop_visited (funcMergerOne M addr lss)
    (fun v s => Inv M s ∧
      SameCore M (connectedState M addr factors varBdds hintsInput qvars).nodes s.nodes ∧
      InitAlive M addr v s) (fun a => a < factors.length) hmono hfunc
    (List.range factors.length) (List.range factors.length) (List.nodup_range _)
    (List.nodup_range _) hrangeF hrangeF (fun _ => False) (fun _ _ _ h => h)
    (connectedState M addr factors varBdds hintsInput qvars)
    ⟨connectedState_inv M addr factors varBdds hintsInput qvars, SameCore.refl_core M _, hA0⟩
  obtain ⟨s2, hs2, hP2⟩ := double_loop_visited (varMergerOne M addr lss)
    (fun v s => Inv M s ∧
      SameCore M (connectedState M addr factors varBdds hintsInput qvars).nodes s.nodes ∧
      InitAlive M addr v s)
    (fun a => factors.length ≤ a ∧ a < factors.length + varBdds.length) hmono hvar
    ((List.range varBdds.length).map (fun i => factors.length + i))
    ((List.range varBdds.length).map (fun i => factors.length + i)) hndV hndV hrangeV hrangeV
    _ (by
      rintro a ha b (h | ⟨h, _⟩)
      · exact h
      · have h1 := (hrangeV a ha).1
        have h2 := List.mem_range.1 h
        omega)
    s1 hP1
  refine ⟨s2, ?_, hP2.1, InitAlive.alive_nil M addr _ s2 hP2.1 hP2.2.2, hP2.2.1⟩
  rw [hs1]
  exact hs2

end InitAliveProofs

end blif_solve
namespace blif_solve

section Counting

variable {α : Type} [LinearOrder α]

/-- The effect of a contraction on the number of uncontracted nodes: the kind
of the two contracted nodes loses two nodes and gains the merged node, the
other kind keeps its nodes. -/
theorem uncontracted_round (M : DdManager α) (s s' : MergeState α) (dead : List ℕ)
    (n1 n2 : ℕ) (hlen : s'.nodes.length = s.nodes.length + 1)
    (hold : ∀ j, j < s.nodes.length → (nodeAt M s'.nodes j).type = (nodeAt M s.nodes j).type)
    (hnew : (nodeAt M s'.nodes s.nodes.length).type = (nodeAt M s.nodes n1).type)
    (ht : (nodeAt M s.nodes n1).type = (nodeAt M s.nodes n2).type)
    (h1 : n1 < s.nodes.length) (h2 : n2 < s.nodes.length) (hne : n1 ≠ n2)
    (hd1 : n1 ∉ dead) (hd2 : n2 ∉ dead) (hdv : ∀ d ∈ dead, d < s.nodes.length)
    (K : NodeType) :
    ((nodeAt M s.nodes n1).type = K →
      uncontracted M s' (n1 :: n2 :: dead) K + 1 = uncontracted M s dead K ∧
      1 ≤ uncontracted M s' (n1 :: n2 :: dead) K) ∧
    ((nodeAt M s.nodes n1).type ≠ K →
      uncontracted M s' (n1 :: n2 :: dead) K = uncontracted M s dead K) := by
  constructor
  · intro hK
    have hset : (Finset.range s'.nodes.length).filter
        (fun j => (nodeAt M s'.nodes j).type = K ∧ j ∉ n1 :: n2 :: dead) =
        insert s.nodes.length ((((Finset.range s.nodes.length).filter
          (fun j => (nodeAt M s.nodes j).type = K ∧ j ∉ dead)).erase n1).erase n2) := by
      ext j
      simp only [Finset.mem_filter, Finset.mem_range, Finset.mem_insert, Finset.mem_erase,
        List.mem_cons, not_or, hlen]
      constructor
      · rintro ⟨hj, htj, hj1, hj2, hjd⟩
        rcases Nat.lt_succ_iff_lt_or_eq.1 hj with hlt | heq
        · right
          rw [hold j hlt] at htj
          exact ⟨hj2, hj1, hlt, htj, hjd⟩
        · left
          exact heq
      · rintro (rfl | ⟨hj2, hj1, hlt, htj, hjd⟩)
        · refine ⟨Nat.lt_succ_self _, by rw [hnew, hK], by omega, by omega, fun hd => ?_⟩
          have := hdv _ hd
          omega
        · exact ⟨Nat.lt_succ_of_lt hlt, by rw [hold j hlt]; exact htj, hj1, hj2, hjd⟩
    have hn1 : n1 ∈ (Finset.range s.nodes.length).filter
        (fun j => (nodeAt M s.nodes j).type = K ∧ j ∉ dead) := by
      simp only [Finset.mem_filter, Finset.mem_range]
      exact ⟨h1, hK, hd1⟩
    have hn2 : n2 ∈ ((Finset.range s.nodes.length).filter
        (fun j => (nodeAt M s.nodes j).type = K ∧ j ∉ dead)).erase n1 := by
      simp only [Finset.mem_erase, Finset.mem_filter, Finset.mem_range]
      exact ⟨fun h => hne h.symm, h2, ht ▸ hK, hd2⟩
    have hL : s.nodes.length ∉ (((Finset.range s.nodes.length).filter
        (fun j => (nodeAt M s.nodes j).type = K ∧ j ∉ dead)).erase n1).erase n2 := by
      simp only [Finset.mem_erase, Finset.mem_filter, Finset.mem_range]
      rintro ⟨_, _, h, _⟩
      exact lt_irrefl _ h
    have e1 := Finset.card_erase_add_one hn2
    have e2 := Finset.card_erase_add_one hn1
    unfold uncontracted
    rw [hset, Finset.card_insert_of_not_mem hL]
    constructor <;> omega
  · intro hK
    unfold uncontracted
    congr 1
    ext j
    simp only [Finset.mem_filter, Finset.mem_range, List.mem_cons, not_or, hlen]
    constructor
    · rintro ⟨hj, htj, hj1, hj2, hjd⟩
      rcases Nat.lt_succ_iff_lt_or_eq.1 hj with hlt | heq
      · rw [hold j hlt] at htj
        exact ⟨hlt, htj, hjd⟩
      · subst heq
        rw [hnew] at htj
        exact absurd htj hK
    · rintro ⟨hlt, htj, hjd⟩
      refine ⟨Nat.lt_succ_of_lt hlt, by rw [hold j hlt]; exact htj, ?_, ?_, hjd⟩
      · rintro rfl
        exact hK htj
      · rintro rfl
        exact hK (ht.trans htj)

/-- A contraction uses up one of the contractions that the uncontracted nodes
allow. -/
theorem contractionsLeft_round (M : DdManager α) (s s' : MergeState α) (dead : List ℕ)
    (n1 n2 : ℕ) (hlen : s'.nodes.length = s.nodes.length + 1)
    (hold : ∀ j, j < s.nodes.length → (nodeAt M s'.nodes j).type = (nodeAt M s.nodes j).type)
    (hnew : (nodeAt M s'.nodes s.nodes.length).type = (nodeAt M s.nodes n1).type)
    (ht : (nodeAt M s.nodes n1).type = (nodeAt M s.nodes n2).type)
    (h1 : n1 < s.nodes.length) (h2 : n2 < s.nodes.length) (hne : n1 ≠ n2)
    (hd1 : n1 ∉ dead) (hd2 : n2 ∉ dead) (hdv : ∀ d ∈ dead, d < s.nodes.length) :
    contractionsLeft M s' (n1 :: n2 :: dead) + 1 = contractionsLeft M s dead := by
  have hF := uncontracted_round M s s' dead n1 n2 hlen hold hnew ht h1 h2 hne hd1 hd2 hdv
    NodeType.Func
  have hV := uncontracted_round M s s' dead n1 n2 hlen hold hnew ht h1 h2 hne hd1 hd2 hdv
    NodeType.Var
  unfold contractionsLeft
  cases hK : (nodeAt M s.nodes n1).type with
  | Func =>
    obtain ⟨a, b⟩ := hF.1 hK
    have c := hV.2 (by rw [hK]; decide)
    omega
  | Var =>
    obtain ⟨a, b⟩ := hV.1 hK
    have c := hF.2 (by rw [hK]; decide)
    omega

/-- Before the first round every func node and every var node is
uncontracted. -/
theorem uncontracted_init (M : DdManager α) (addr : ℕ → ℕ) (factors varBdds : List α)
    (hintsInput : MergeHints α) (qvars : List α) (s0 : MergeState α)
    (hcore : SameCore M (connectedState M addr factors varBdds hintsInput qvars).nodes
      s0.nodes) :
    uncontracted M s0 [] NodeType.Func = factors.length ∧
    uncontracted M s0 [] NodeType.Var = varBdds.length := by
  have hlen : s0.nodes.length = factors.length + varBdds.length := by
    rw [hcore.1, connectedState_length]
  constructor
  · have hset : (Finset.range s0.nodes.length).filter
        (fun j => (nodeAt M s0.nodes j).type = NodeType.Func ∧ j ∉ ([] : List ℕ)) =
        Finset.range factors.length := by
      ext j
      simp only [Finset.mem_filter, Finset.mem_range, List.not_mem_nil, not_false_eq_true,
        and_true, hlen]
      constructor
      · rintro ⟨hj, htj⟩
        by_contra hge
        rw [core_type (hcore.2 j), connectedState_type_var M addr factors varBdds hintsInput
          qvars (not_lt.1 hge) hj] at htj
        cases htj
      · intro hj
        refine ⟨by omega, ?_⟩
        rw [core_type (hcore.2 j), connectedState_type_func M addr factors varBdds hintsInput
          qvars hj]
    unfold uncontracted
    rw [hset, Finset.card_range]
  · have hset : (Finset.range s0.nodes.length).filter
        (fun j => (nodeAt M s0.nodes j).type = NodeType.Var ∧ j ∉ ([] : List ℕ)) =
        Finset.Ico factors.length (factors.length + varBdds.length) := by
      ext j
      simp only [Finset.mem_filter, Finset.mem_range, List.not_mem_nil, not_false_eq_true,
        and_true, hlen, Finset.mem_Ico]
      constructor
      · rintro ⟨hj, htj⟩
        refine ⟨?_, hj⟩
        by_contra hlt
        rw [core_type (hcore.2 j), connectedState_type_func M addr factors varBdds hintsInput
          qvars (not_le.1 hlt)] at htj
        cases htj
      · rintro ⟨hj, hj'⟩
        refine ⟨hj', ?_⟩
        rw [core_type (hcore.2 j), connectedState_type_var M addr factors varBdds hintsInput
          qvars hj hj']
    unfold uncontracted
    rw [hset, Nat.card_Ico]
    omega

end Counting

section RoundsFromTheEnd

variable {α : Type} [LinearOrder α]

/-- The state after `n + 1` rounds is the state after `n` rounds followed by one
more round when the heap is not empty. -/
theorem runRounds_succ_end (M : DdManager α) (addr : ℕ → ℕ) (lss : ℤ) (tie : ℕ → ℕ) :
    ∀ (n k : ℕ) (s : MergeState α), runRounds M addr lss tie (n + 1) k s =
      (runRounds M addr lss tie n k s).bind
        (fun s' => if s'.heap = [] then Except.ok s'
          else loopStep M addr lss (tie (k + n)) s') := by
  intro n
  induction n with
  | zero =>
    intro k s
    unfold runRounds
    by_cases he : s.heap = []
    · simp [runRounds, he, Except.bind]
    · rw [if_neg he]
      cases hstep : loopStep M addr lss (tie k) s with
      | error e => simp [runRounds, he, Except.bind, hstep]
      | ok s1 => simp [runRounds, he, Except.bind, hstep]
  | succ n ih =>
    intro k s
    rw [runRounds]
    by_cases he : s.heap = []
    · rw [if_pos he]
      have : runRounds M addr lss tie (n + 1) k s = Except.ok s := by
        rw [runRounds, if_pos he]
      rw [this]
      simp [Except.bind, he]
    · rw [if_neg he]
      have hr : runRounds M addr lss tie (n + 1) k s =
          (loopStep M addr lss (tie k) s).bind (runRounds M addr lss tie n (k + 1)) := by
        rw [runRounds, if_neg he]
      rw [hr]
      cases hstep : loopStep M addr lss (tie k) s with
      | error e => rfl
      | ok s1 =>
        have : k + 1 + n = k + (n + 1) := by omega
        simp only [Except.bind]
        rw [ih (k + 1) s1, this]
        rfl

/-- The main loop with enough fuel ends in the state that `runRounds` reaches
when that state has an empty heap. -/
theorem mainLoop_eq_of_rounds (M : DdManager α) (addr : ℕ → ℕ) (lss : ℤ) (tie : ℕ → ℕ) :
    ∀ (n fuel k : ℕ) (s s' : MergeState α), Inv M s →
      runRounds M addr lss tie n k s = Except.ok s' → s'.heap = [] → s.heap.length ≤ fuel →
      mainLoop M addr lss tie fuel k s = Except.ok s' := by
  intro n
  induction n with
  | zero =>
    intro fuel k s s' _ h he _
    simp only [runRounds] at h
    cases h
    cases fuel <;> simp [mainLoop, he]
  | succ n ih =>
    intro fuel k s s' hinv h he hfuel
    unfold runRounds at h
    by_cases hne : s.heap = []
    · rw [if_pos hne] at h
      cases h
      cases fuel <;> simp [mainLoop, he]
    · rw [if_neg hne] at h
      obtain ⟨_, s1, _, _, hstep, hinv1, hlt, _⟩ := loopStep_spec M addr lss (tie k) s hinv hne
      rw [hstep] at h
      cases fuel with
      | zero =>
        exact absurd (List.length_eq_zero.1 (Nat.le_zero.1 hfuel)) hne
      | succ fuel =>
        rw [mainLoop, if_neg hne, hstep]
        exact ih fuel (k + 1) s1 s' hinv1 h he (by omega)

end RoundsFromTheEnd

end blif_solve
namespace blif_solve

section ContractionBound

variable {α : Type} [LinearOrder α]

/-- The state after `n + 1` rounds in terms of the state after `n` rounds. -/
theorem stateAfter_succ (M : DdManager α) (addr : ℕ → ℕ) (tie : ℕ → ℕ) (n : ℕ)
    (factors varBdds : List α) (lss : ℤ) (hintsInput : MergeHints α) (qvars : List α) :
    stateAfter M addr tie (n + 1) factors varBdds lss hintsInput qvars =
      (stateAfter M addr tie n factors varBdds lss hintsInput qvars).bind
        (fun s => if s.heap = [] then Except.ok s else loopStep M addr lss (tie n) s) := by
  unfold stateAfter
  cases initState M addr factors varBdds lss hintsInput qvars with
  | error e => rfl
  | ok s0 =>
    show runRounds M addr lss tie (n + 1) 0 s0 = _
    rw [runRounds_succ_end, Nat.zero_add]
    rfl

/-- A round of the main loop that starts with a heap that is not empty, in
terms of the nodes contracted before it. -/
theorem round_contracts (M : DdManager α) (addr : ℕ → ℕ) (tie : ℕ → ℕ) (n : ℕ)
    (factors varBdds : List α) (lss : ℤ) (hintsInput : MergeHints α) (qvars : List α)
    (s : MergeState α)
    (hs : stateAfter M addr tie n factors varBdds lss hintsInput qvars = Except.ok s)
    (hinv : Inv M s)
    (hA : AliveInv M s (contractedNodes M addr tie factors varBdds lss hintsInput qvars n))
    (hne : s.heap ≠ []) :
    ∃ merger s', MaxHeap.top s.heap (tie n) = some merger ∧
      stateAfter M addr tie (n + 1) factors varBdds lss hintsInput qvars = Except.ok s' ∧
      contractedNodes M addr tie factors varBdds lss hintsInput qvars (n + 1) =
        (mergerAt s.mergers merger).node1 :: (mergerAt s.mergers merger).node2 ::
          contractedNodes M addr tie factors varBdds lss hintsInput qvars n ∧
      (mergerAt s.mergers merger).node1 ≠ (mergerAt s.mergers merger).node2 ∧
      (mergerAt s.mergers merger).node1 < s.nodes.length ∧
      (mergerAt s.mergers merger).node2 < s.nodes.length ∧
      (nodeAt M s.nodes (mergerAt s.mergers merger).node1).type =
        (nodeAt M s.nodes (mergerAt s.mergers merger).node2).type ∧
      (mergerAt s.mergers merger).node1 ∉
        contractedNodes M addr tie factors varBdds lss hintsInput qvars n ∧
      (mergerAt s.mergers merger).node2 ∉
        contractedNodes M addr tie factors varBdds lss hintsInput qvars n ∧
      Inv M s' ∧
      AliveInv M s' (contractedNodes M addr tie factors varBdds lss hintsInput qvars (n + 1)) ∧
      s'.nodes.length = s.nodes.length + 1 ∧
      (nodeAt M s'.nodes s.nodes.length).type =
        (nodeAt M s.nodes (mergerAt s.mergers merger).node1).type ∧
      uncontracted M s'
          (contractedNodes M addr tie factors varBdds lss hintsInput qvars (n + 1))
          (nodeAt M s.nodes (mergerAt s.mergers merger).node1).type + 1 =
        uncontracted M s (contractedNodes M addr tie factors varBdds lss hintsInput qvars n)
          (nodeAt M s.nodes (mergerAt s.mergers merger).node1).type ∧
      (∀ K, (nodeAt M s.nodes (mergerAt s.mergers merger).node1).type ≠ K →
        uncontracted M s'
            (contractedNodes M addr tie factors varBdds lss hintsInput qvars (n + 1)) K =
          uncontracted M s
            (contractedNodes M addr tie factors varBdds lss hintsInput qvars n) K) ∧
      contractionsLeft M s'
          (contractedNodes M addr tie factors varBdds lss hintsInput qvars (n + 1)) + 1 =
        contractionsLeft M s
          (contractedNodes M addr tie factors varBdds lss hintsInput qvars n) := by
  obtain ⟨merger0, s', _, _, hstep, _⟩ := loopStep_spec M addr lss (tie n) s hinv hne
  obtain ⟨merger, htop, hm, hdist, hd1, hd2, hinv', hA', hlen, hold, hnew⟩ :=
    AliveInv.round_alive M addr lss (tie n) s s' _ hinv hA hne hstep
  obtain ⟨h1, h2, ht⟩ := hinv.mergers_valid merger hm
  have hcn : contractedNodes M addr tie factors varBdds lss hintsInput qvars (n + 1) =
      (mergerAt s.mergers merger).node1 :: (mergerAt s.mergers merger).node2 ::
        contractedNodes M addr tie factors varBdds lss hintsInput qvars n := by
    rw [contractedNodes]
    simp only [hs, htop]
  have hsa : stateAfter M addr tie (n + 1) factors varBdds lss hintsInput qvars =
      Except.ok s' := by
    rw [stateAfter_succ, hs]
    show (if s.heap = [] then Except.ok s else loopStep M addr lss (tie n) s) = _
    rw [if_neg hne, hstep]
  have hcount := uncontracted_round M s s' _ _ _ hlen hold hnew ht h1 h2 hdist hd1 hd2
    hA.dead_valid
  refine ⟨merger, s', htop, hsa, hcn, hdist, h1, h2, ht, hd1, hd2, hinv', ?_, hlen, hnew, ?_,
    ?_, ?_⟩
  · rw [hcn]
    exact hA'
  · rw [hcn]
    exact ((hcount _).1 rfl).1
  · intro K hK
    rw [hcn]
    exact (hcount K).2 hK
  · rw [hcn]
    exact contractionsLeft_round M s s' _ _ _ hlen hold hnew ht h1 h2 hdist hd1 hd2
      hA.dead_valid

/-- After any number of rounds the state exists and satisfies both invariants,
and as long as the heap is not empty every round so far was a contraction. -/
theorem stateAfter_alive (M : DdManager α) (addr : ℕ → ℕ) (tie : ℕ → ℕ)
    (factors varBdds : List α) (lss : ℤ) (hintsInput : MergeHints α) (qvars : List α) :
    ∀ n, ∃ s, stateAfter M addr tie n factors varBdds lss hintsInput qvars = Except.ok s ∧
      Inv M s ∧
      AliveInv M s (contractedNodes M addr tie factors varBdds lss hintsInput qvars n) ∧
      (s.heap ≠ [] →
        contractionsLeft M s
            (contractedNodes M addr tie factors varBdds lss hintsInput qvars n) + n =
          (factors.length - 1) + (varBdds.length - 1)) := by
  intro n
  induction n with
  | zero =>
    obtain ⟨s0, h0, hinv, hA, hcore⟩ :=
      initState_alive M addr factors varBdds lss hintsInput qvars
    refine ⟨s0, ?_, hinv, hA, ?_⟩
    · unfold stateAfter
      rw [h0]
      rfl
    · intro _
      obtain ⟨hF, hV⟩ := uncontracted_init M addr factors varBdds hintsInput qvars s0 hcore
      show contractionsLeft M s0 [] + 0 = _
      unfold contractionsLeft
      rw [hF, hV]
      rfl
  | succ n ih =>
    obtain ⟨s, hs, hinv, hA, hcl⟩ := ih
    by_cases hne : s.heap = []
    · have hcn : contractedNodes M addr tie factors varBdds lss hintsInput qvars (n + 1) =
          contractedNodes M addr tie factors varBdds lss hintsInput qvars n := by
        rw [contractedNodes]
        simp [hs, hne, MaxHeap.top, MaxHeap.tops]
      refine ⟨s, ?_, hinv, ?_, fun h => absurd hne h⟩
      · rw [stateAfter_succ, hs]
        show (if s.heap = [] then Except.ok s else loopStep M addr lss (tie n) s) = _
        rw [if_pos hne]
      · rw [hcn]
        exact hA
    · obtain ⟨merger, s', _, hsa, _, _, _, _, _, _, _, hinv', hA', _, _, _, _, hleft⟩ :=
        round_contracts M addr tie n factors varBdds lss hintsInput qvars s hs hinv hA hne
      refine ⟨s', hsa, hinv', hA', fun _ => ?_⟩
      have := hcl hne
      omega

/-- C18. The main loop of `blif_solve::merge` ends, for every input, every order
of the node addresses and every choice among the top cells of the heap: the
number `n` of its rounds is at most `max(|F| - 1, 0) + max(|V| - 1, 0)`; the heap
is empty after `n` rounds and not empty before any of them, and
`blif_solve::merge` returns the results of the state after `n` rounds.  Every
round that starts with a heap that is not empty contracts two different nodes
of the arena that have the same kind and were not contracted before (they are
not among the nodes of the mergers popped so far), appends one new node of that
kind to the arena, and the number of uncontracted nodes of that kind goes down
by exactly one while the number of uncontracted nodes of the other kind stays
the same. -/
theorem merge_contraction_bound (M : DdManager α) (addr : ℕ → ℕ) (tie : ℕ → ℕ)
    (factors varBdds : List α) (lss : ℤ) (hintsInput : MergeHints α) (qvars : List α) :
    (∃ (n : ℕ) (s : MergeState α),
      (n : ℤ) ≤ max ((factors.length : ℤ) - 1) 0 + max ((varBdds.length : ℤ) - 1) 0 ∧
      stateAfter M addr tie n factors varBdds lss hintsInput qvars = Except.ok s ∧
      s.heap = [] ∧
      (∀ k, k < n → ∃ sk,
        stateAfter M addr tie k factors varBdds lss hintsInput qvars = Except.ok sk ∧
        sk.heap ≠ []) ∧
      merge M addr tie factors varBdds lss hintsInput qvars = Except.ok s.results) ∧
    (∀ n s, stateAfter M addr tie n factors varBdds lss hintsInput qvars = Except.ok s →
      s.heap ≠ [] →
      ∃ merger s', MaxHeap.top s.heap (tie n) = some merger ∧
        stateAfter M addr tie (n + 1) factors varBdds lss hintsInput qvars = Except.ok s' ∧
        contractedNodes M addr tie factors varBdds lss hintsInput qvars (n + 1) =
          (mergerAt s.mergers merger).node1 :: (mergerAt s.mergers merger).node2 ::
            contractedNodes M addr tie factors varBdds lss hintsInput qvars n ∧
        (mergerAt s.mergers merger).node1 ≠ (mergerAt s.mergers merger).node2 ∧
        (mergerAt s.mergers merger).node1 < s.nodes.length ∧
        (mergerAt s.mergers merger).node2 < s.nodes.length ∧
        (nodeAt M s.nodes (mergerAt s.mergers merger).node1).type =
          (nodeAt M s.nodes (mergerAt s.mergers merger).node2).type ∧
        (mergerAt s.mergers merger).node1 ∉
          contractedNodes M addr tie factors varBdds lss hintsInput qvars n ∧
        (mergerAt s.mergers merger).node2 ∉
          contractedNodes M addr tie factors varBdds lss hintsInput qvars n ∧
        s'.nodes.length = s.nodes.length + 1 ∧
        (nodeAt M s'.nodes s.nodes.length).type =
          (nodeAt M s.nodes (mergerAt s.mergers merger).node1).type ∧
        uncontracted M s'
            (contractedNodes M addr tie factors varBdds lss hintsInput qvars (n + 1))
            (nodeAt M s.nodes (mergerAt s.mergers merger).node1).type + 1 =
          uncontracted M s (contractedNodes M addr tie factors varBdds lss hintsInput qvars n)
            (nodeAt M s.nodes (mergerAt s.mergers merger).node1).type ∧
        (∀ K, (nodeAt M s.nodes (mergerAt s.mergers merger).node1).type ≠ K →
          uncontracted M s'
              (contractedNodes M addr tie factors varBdds lss hintsInput qvars (n + 1)) K =
            uncontracted M s
              (contractedNodes M addr tie factors varBdds lss hintsInput qvars n) K)) := by
  have hall := stateAfter_alive M addr tie factors varBdds lss hintsInput qvars
  constructor
  · -- the loop has ended after the largest number of contractions
    have hend : ∃ n, ∃ s,
        stateAfter M addr tie n factors varBdds lss hintsInput qvars = Except.ok s ∧
        s.heap = [] := by
      obtain ⟨s, hs, hinv, hA, hcl⟩ := hall ((factors.length - 1) + (varBdds.length - 1))
      refine ⟨_, s, hs, ?_⟩
      by_contra hne
      obtain ⟨_, _, _, _, _, _, _, _, _, _, _, _, _, _, _, _, _, hleft⟩ :=
        round_contracts M addr tie _ factors varBdds lss hintsInput qvars s hs hinv hA hne
      have := hcl hne
      omega
    classical
    have hmin : ∀ k, k < Nat.find hend → ¬ ∃ s,
        stateAfter M addr tie k factors varBdds lss hintsInput qvars = Except.ok s ∧
        s.heap = [] := fun k hk => Nat.find_min hend hk
    obtain ⟨s, hs, he⟩ := Nat.find_spec hend
    generalize Nat.find hend = N at hmin hs
    have hle : N ≤ (factors.length - 1) + (varBdds.length - 1) := by
      by_contra hgt
      obtain ⟨s1, hs1, hinv1, hA1, hcl1⟩ :=
        hall ((factors.length - 1) + (varBdds.length - 1))
      have hne1 : s1.heap ≠ [] := fun h1 => hmin _ (not_le.1 hgt) ⟨s1, hs1, h1⟩
      obtain ⟨_, _, _, _, _, _, _, _, _, _, _, _, _, _, _, _, _, hleft⟩ :=
        round_contracts M addr tie _ factors varBdds lss hintsInput qvars s1 hs1 hinv1 hA1 hne1
      have := hcl1 hne1
      omega
    refine ⟨N, s, ?_, hs, he, ?_, ?_⟩
    · omega
    · intro k hk
      obtain ⟨sk, hsk, _⟩ := hall k
      exact ⟨sk, hsk, fun h => hmin k hk ⟨sk, hsk, h⟩⟩
    · obtain ⟨s0, h0, hinv0, _⟩ := initState_spec M addr factors varBdds lss hintsInput qvars
      have hr : runRounds M addr lss tie N 0 s0 = Except.ok s := by
        have := hs
        unfold stateAfter at this
        rw [h0] at this
        exact this
      exact merge_eq_of_mainLoop M addr tie factors varBdds lss hintsInput qvars s0 s h0
        (mainLoop_eq_of_rounds M addr lss tie _ _ 0 s0 s hinv0 hr he (le_refl _))
  · intro n s hs hne
    obtain ⟨s1, hs1, hinv, hA, _⟩ := hall n
    rw [hs] at hs1
    cases hs1
    obtain ⟨merger, s', a1, a2, a3, a4, a5, a6, a7, a8, a9, _, _, a12, a13, a14, a15, _⟩ :=
      round_contracts M addr tie n factors varBdds lss hintsInput qvars s hs hinv hA hne
    exact ⟨merger, s', a1, a2, a3, a4, a5, a6, a7, a8, a9, a12, a13, a14, a15⟩

end ContractionBound

end blif_solve
namespace blif_solve

section HeapInvariant

variable {α : Type} [LinearOrder α]

/-- C26. After any number of rounds of the main loop of `blif_solve::merge` (for every
input, every placement of the nodes and every tie-break): every node that was
contracted holds no merger; every merger of the heap joins two different nodes
that were not contracted, and the nodes that list it are exactly its two
nodes; and two mergers of the heap that join the same unordered pair of nodes
are the same merger.  The nodes contracted by a round that starts with a heap
that is not empty are the two nodes of its top merger, and their merger lists
are empty after the round. -/
theorem merge_heap_invariant (M : DdManager α) (addr : ℕ → ℕ) (tie : ℕ → ℕ)
    (factors varBdds : List α) (lss : ℤ) (hintsInput : MergeHints α) (qvars : List α)
    (n : ℕ) :
    (∃ s, stateAfter M addr tie n factors varBdds lss hintsInput qvars = Except.ok s ∧
      (∀ d ∈ contractedNodes M addr tie factors varBdds lss hintsInput qvars n,
        (nodeAt M s.nodes d).mergers = []) ∧
      (∀ e ∈ s.heap,
        (mergerAt s.mergers e.1).node1 ≠ (mergerAt s.mergers e.1).node2 ∧
        (mergerAt s.mergers e.1).node1 ∉
          contractedNodes M addr tie factors varBdds lss hintsInput qvars n ∧
        (mergerAt s.mergers e.1).node2 ∉
          contractedNodes M addr tie factors varBdds lss hintsInput qvars n ∧
        ∀ x, e.1 ∈ (nodeAt M s.nodes x).mergers ↔
          (x = (mergerAt s.mergers e.1).node1 ∨ x = (mergerAt s.mergers e.1).node2)) ∧
      (∀ e ∈ s.heap, ∀ e' ∈ s.heap,
        (mergerAt s.mergers e.1).SamePair (mergerAt s.mergers e'.1) → e.1 = e'.1)) ∧
    (∀ s, stateAfter M addr tie n factors varBdds lss hintsInput qvars = Except.ok s →
      s.heap ≠ [] →
      ∃ merger s', MaxHeap.top s.heap (tie n) = some merger ∧
        stateAfter M addr tie (n + 1) factors varBdds lss hintsInput qvars = Except.ok s' ∧
        contractedNodes M addr tie factors varBdds lss hintsInput qvars (n + 1) =
          (mergerAt s.mergers merger).node1 :: (mergerAt s.mergers merger).node2 ::
            contractedNodes M addr tie factors varBdds lss hintsInput qvars n ∧
        (nodeAt M s'.nodes (mergerAt s.mergers merger).node1).mergers = [] ∧
        (nodeAt M s'.nodes (mergerAt s.mergers merger).node2).mergers = []) := by
  have key : ∀ k s, stateAfter M addr tie k factors varBdds lss hintsInput qvars =
        Except.ok s → Inv M s →
      AliveInv M s (contractedNodes M addr tie factors varBdds lss hintsInput qvars k) →
      ∀ d ∈ contractedNodes M addr tie factors varBdds lss hintsInput qvars k,
        (nodeAt M s.nodes d).mergers = [] := by
    intro k s _ hinv hA d hd
    apply eq_nil_of_subset_nil
    intro m hm
    obtain ⟨e, he, he1⟩ := hinv.listed_in_heap d m hm
    obtain ⟨_, hend⟩ := hinv.listed_endpoint d m hm
    have halive := hA.alive e he
    rw [he1] at halive
    rcases hend with h | h
    · rw [h] at halive
      exact halive.1 hd
    · rw [h] at halive
      exact halive.2 hd
  constructor
  · obtain ⟨s, hs, hinv, hA, _⟩ :=
      stateAfter_alive M addr tie factors varBdds lss hintsInput qvars n
    refine ⟨s, hs, key n s hs hinv hA, ?_, hA.unique⟩
    intro e he
    refine ⟨hA.distinct e he, (hA.alive e he).1, (hA.alive e he).2, ?_⟩
    intro x
    constructor
    · intro hx
      rcases (hinv.listed_endpoint x e.1 hx).2 with h | h
      · exact Or.inl h.symm
      · exact Or.inr h.symm
    · rintro (h | h)
      · rw [h]
        exact (hA.listed e he).1
      · rw [h]
        exact (hA.listed e he).2
  · intro s hs hne
    obtain ⟨s1, hs1, hinv, hA, _⟩ :=
      stateAfter_alive M addr tie factors varBdds lss hintsInput qvars n
    rw [hs] at hs1
    cases hs1
    obtain ⟨merger, s', htop, hsa, hcn, _, _, _, _, _, _, hinv', hA', _⟩ :=
      round_contracts M addr tie n factors varBdds lss hintsInput qvars s hs hinv hA hne
    have hk := key (n + 1) s' hsa hinv' hA'
    refine ⟨merger, s', htop, hsa, hcn, ?_, ?_⟩
    · apply hk
      rw [hcn]
      exact List.mem_cons_self _ _
    · apply hk
      rw [hcn]
      exact List.mem_cons_of_mem _ (List.mem_cons_self _ _)

end HeapInvariant

end blif_solve
namespace blif_solve

namespace MergeHints

variable {α : Type} [LinearOrder α]

theorem nodup_keys_orderedInsert (k : α × α) (w : ℚ) (m : List ((α × α) × ℚ))
    (hk : weightsFind m k = none) (hm : (m.map (fun e => e.1)).Nodup) :
    ((weightsOrderedInsert k w m).map (fun e => e.1)).Nodup := by
  induction m with
  | nil => simp [weightsOrderedInsert]
  | cons e rest ih =>
    have hne : ∀ e' ∈ e :: rest, e'.1 ≠ k := (weightsFind_eq_none_iff _ _).1 hk
    have hrest : weightsFind rest k = none :=
      (weightsFind_eq_none_iff _ _).2 (fun e' he' => hne e' (List.mem_cons_of_mem _ he'))
    rw [List.map_cons, List.nodup_cons] at hm
    unfold weightsOrderedInsert
    split
    · rw [List.map_cons, List.nodup_cons]
      refine ⟨?_, by rw [List.map_cons, List.nodup_cons]; exact hm⟩
      intro hmem
      obtain ⟨e', he', hk'⟩ := List.mem_map.1 hmem
      exact hne e' he' hk'
    · rw [List.map_cons, List.nodup_cons]
      refine ⟨?_, ih hrest hm.2⟩
      intro hmem
      obtain ⟨e', he', hk'⟩ := List.mem_map.1 hmem
      rcases (mem_weightsOrderedInsert k w rest e').1 he' with rfl | he''
      · exact hne e (List.mem_cons_self _ _) hk'.symm
      · exact hm.1 (List.mem_map.2 ⟨e', he'', hk'⟩)

theorem KeysUnique.addWeight_unique {H : MergeHints α} (h : H.KeysUnique) (a b : α) (w : ℚ) :
    (H.addWeight a b w).KeysUnique := by
  rw [addWeight_eq]
  by_cases hab : a = b
  · simpa [hab] using h
  · simp only [hab, if_false]
    unfold KeysUnique weightsInsert
    cases hf : weightsFind H.m_weights (min a b, max a b) with
    | some v => simpa using h
    | none => simpa using nodup_keys_orderedInsert _ w _ hf h

theorem KeysUnique.foldl_addWeight_unique (c : α) (l : List (α × ℚ)) {H : MergeHints α}
    (h : H.KeysUnique) :
    (l.foldl (fun H' toAdd => H'.addWeight toAdd.1 c toAdd.2) H).KeysUnique := by
  induction l generalizing H with
  | nil => exact h
  | cons e l ih => exact ih (h.addWeight_unique e.1 c e.2)

theorem nodup_keys_foldl_erase (ks : List (α × α)) (m : List ((α × α) × ℚ))
    (hm : (m.map (fun e => e.1)).Nodup) :
    ((ks.foldl (fun m toDelete => weightsErase toDelete m) m).map (fun e => e.1)).Nodup := by
  induction ks generalizing m with
  | nil => exact hm
  | cons k ks ih =>
    apply ih
    unfold weightsErase
    exact hm.sublist ((List.filter_sublist m).map _)

theorem KeysUnique.mergeOrdered_unique {H : MergeHints α} (h : H.KeysUnique) (a b c : α) :
    (H.mergeOrdered a b c).KeysUnique := by
  unfold MergeHints.mergeOrdered
  by_cases hab : a = b
  · simpa [hab] using h
  · simp only [hab, if_false]
    apply KeysUnique.foldl_addWeight_unique
    exact nodup_keys_foldl_erase _ _ h

theorem KeysUnique.merge_unique {H : MergeHints α} (h : H.KeysUnique) (a b c : α) :
    (H.merge a b c).KeysUnique := by
  unfold MergeHints.merge
  split
  · exact h.mergeOrdered_unique b a c
  · exact h.mergeOrdered_unique a b c

theorem Reachable.keysUnique {H : MergeHints α} (h : H.Reachable) : H.KeysUnique := by
  induction h with
  | empty => simp [KeysUnique, MergeHints.empty]
  | addWeight H a b w _ ih => exact ih.addWeight_unique a b w
  | merge H a b c _ ih => exact ih.merge_unique a b c

/-- In a map without repeated keys, `find` returns the weight of any entry with
the key. -/
theorem weightsFind_of_mem {m : List ((α × α) × ℚ)} (hm : (m.map (fun e => e.1)).Nodup)
    {e : (α × α) × ℚ} (he : e ∈ m) : weightsFind m e.1 = some e.2 := by
  induction m with
  | nil => cases he
  | cons e' rest ih =>
    rw [List.map_cons, List.nodup_cons] at hm
    unfold weightsFind
    rcases List.mem_cons.1 he with rfl | he'
    · simp
    · have hne : e'.1 ≠ e.1 := fun h => hm.1 (List.mem_map.2 ⟨e, he', h.symm⟩)
      rw [if_neg hne]
      exact ih hm.2 he'

/-- A mark made by `markForAddition` is the new mark or has the key and the
weight of an old mark. -/
theorem markForAddition_weight {sta : List (α × ℚ)} {g : α} {w : ℚ} {t : α × ℚ}
    (h : t ∈ markForAddition sta g w) :
    (t.1 = g ∧ t.2 = w) ∨ ∃ t' ∈ sta, t'.1 = t.1 ∧ t'.2 = t.2 := by
  unfold markForAddition at h
  split at h
  · obtain ⟨t', ht', rfl⟩ := List.mem_map.1 h
    by_cases hg : t'.1 = g
    · rw [if_pos hg]
      rcases max_choice w t'.2 with hmax | hmax
      · exact Or.inl ⟨hg, hmax⟩
      · exact Or.inr ⟨t', ht', rfl, hmax.symm⟩
    · rw [if_neg hg]
      exact Or.inr ⟨t', ht', rfl, rfl⟩
  · rcases (mem_staOrderedInsert g w sta t).1 h with rfl | h
    · exact Or.inl ⟨rfl, rfl⟩
    · exact Or.inr ⟨t, h, rfl, rfl⟩

/-- Every mark of the scan has the weight of an entry whose key joins the
marked handle to one of the two merged handles. -/
theorem foldl_mergeScan_weight (f1 f2 : α) (m : List ((α × α) × ℚ))
    (acc : List (α × ℚ) × List (α × α)) :
    ∀ t ∈ (m.foldl (mergeScan f1 f2) acc).1, (∃ t' ∈ acc.1, t'.1 = t.1 ∧ t'.2 = t.2) ∨
      ∃ e ∈ m, ∃ f, (f = f1 ∨ f = f2) ∧ (e.1 = (f, t.1) ∨ e.1 = (t.1, f)) ∧ e.2 = t.2 := by
  induction m generalizing acc with
  | nil => intro t ht; exact Or.inl ⟨t, ht, rfl, rfl⟩
  | cons e m ih =>
    intro t ht
    rcases ih _ t ht with ⟨t', ht', hk, hw⟩ | ⟨e', he', f, hf, hk, hw⟩
    · rcases mergeScan_fst f1 f2 acc e with h1 | ⟨g, f, hf, hkey, h1⟩
      · rw [h1] at ht'
        exact Or.inl ⟨t', ht', hk, hw⟩
      · rw [h1] at ht'
        rcases markForAddition_weight ht' with ⟨hg, hw'⟩ | ⟨t'', ht'', hk'', hw''⟩
        · refine Or.inr ⟨e, List.mem_cons_self _ _, f, hf, ?_, by rw [← hw, hw']⟩
          rw [← hk, hg]
          exact hkey
        · exact Or.inl ⟨t'', ht'', hk''.trans hk, hw''.trans hw⟩
    · exact Or.inr ⟨e', List.mem_cons_of_mem _ he', f, hf, hk, hw⟩

/-- Every key that the scan marks for deletion holds one of the two merged
handles. -/
theorem foldl_mergeScan_deleted_touches (f1 f2 : α) (m : List ((α × α) × ℚ))
    (acc : List (α × ℚ) × List (α × α))
    (hacc : ∀ k ∈ acc.2, touches k f1 ∨ touches k f2) :
    ∀ k ∈ (m.foldl (mergeScan f1 f2) acc).2, touches k f1 ∨ touches k f2 := by
  induction m generalizing acc with
  | nil => exact hacc
  | cons e m ih =>
    apply ih
    intro k hk
    unfold mergeScan at hk
    simp only at hk
    split_ifs at hk with c1 c2 c3 c4 c5
    · rcases List.mem_append.1 hk with h | h
      · exact hacc k h
      · rw [List.mem_singleton] at h
        rw [h]
        exact Or.inl (Or.inl rfl)
    · rcases List.mem_append.1 hk with h | h
      · exact hacc k h
      · rw [List.mem_singleton] at h
        rw [h]
        exact Or.inl (Or.inl c2.symm)
    · rcases List.mem_append.1 hk with h | h
      · exact hacc k h
      · rw [List.mem_singleton] at h
        rw [h]
        exact Or.inl (Or.inr c3.symm)
    · rcases List.mem_append.1 hk with h | h
      · exact hacc k h
      · rw [List.mem_singleton] at h
        rw [h]
        exact Or.inr (Or.inl c4.symm)
    · rcases List.mem_append.1 hk with h | h
      · exact hacc k h
      · rw [List.mem_singleton] at h
        rw [h]
        exact Or.inr (Or.inr c5.symm)
    · exact hacc k hk

/-- The method `erase` of keys other than `k` leaves the entry of `k` alone. -/
theorem weightsFind_foldl_erase (ks : List (α × α)) (m : List ((α × α) × ℚ)) (k : α × α)
    (hk : k ∉ ks) :
    weightsFind (ks.foldl (fun m toDelete => weightsErase toDelete m) m) k =
      weightsFind m k := by
  induction ks generalizing m with
  | nil => rfl
  | cons k' ks ih =>
    have hne : ¬ k' = k := by
      intro h
      apply hk
      rw [h]
      exact List.mem_cons_self _ _
    rw [List.foldl_cons, ih _ (fun h => hk (List.mem_cons_of_mem _ h)), weightsFind_erase,
      if_neg hne]

/-- The method `mergeOrdered` leaves the entry of a key alone that holds none
of the three handles. -/
theorem mergeOrdered_frame (H : MergeHints α) (f1 f2 c : α) (k : α × α)
    (h1 : ¬ touches k f1) (h2 : ¬ touches k f2) (hc : ¬ touches k c) :
    weightsFind (H.mergeOrdered f1 f2 c).m_weights k = weightsFind H.m_weights k := by
  unfold MergeHints.mergeOrdered
  split
  · rfl
  · have hadd : ∀ (l : List (α × ℚ)) (H' : MergeHints α),
        weightsFind (l.foldl (fun H' toAdd => H'.addWeight toAdd.1 c toAdd.2) H').m_weights k =
          weightsFind H'.m_weights k := by
      intro l
      induction l with
      | nil => intro H'; rfl
      | cons t l ih =>
        intro H'
        rw [List.foldl_cons, ih, weightsFind_addWeight_key, if_neg]
        rintro ⟨_, hk⟩
        apply hc
        rw [← hk]
        rcases le_total t.1 c with h | h
        · right; exact max_eq_right h
        · left; exact min_eq_right h
    rw [hadd]
    apply weightsFind_foldl_erase
    intro hmem
    rcases foldl_mergeScan_deleted_touches f1 f2 H.m_weights ([], [])
      (fun k hk => by cases hk) k hmem with h | h
    · exact h1 h
    · exact h2 h

/-- The entry of the pair `{x, c}` after `mergeOrdered f1 f2 c` when the pair
was absent: it is the largest of the weights of the stored pairs `{f1, x}`,
`{f2, x}`, and absent when neither is stored. -/
theorem mergeOrdered_exact {H : MergeHints α} (hH : H.KeysOrdered) (hU : H.KeysUnique)
    {f1 f2 : α} (hlt : f1 < f2) (c x : α) (hx1 : x ≠ f1) (hx2 : x ≠ f2) (hxc : x ≠ c)
    (hc : weightsFind H.m_weights (min x c, max x c) = none) :
    weightsFind (H.mergeOrdered f1 f2 c).m_weights (min x c, max x c) =
      match weightsFind H.m_weights (min f1 x, max f1 x),
        weightsFind H.m_weights (min f2 x, max f2 x) with
      | some w1, some w2 => some (max w1 w2)
      | some w1, none => some w1
      | none, some w2 => some w2
      | none, none => none := by
  obtain ⟨hlow, hnone⟩ := mergeOrdered_retarget hH hlt c x hx1 hx2 hxc (Or.inl hc)
  -- the weight of the new entry is the weight of a stored pair
  have hup : ∀ v, weightsFind (H.mergeOrdered f1 f2 c).m_weights (min x c, max x c) = some v →
      weightsFind H.m_weights (min f1 x, max f1 x) = some v ∨
      weightsFind H.m_weights (min f2 x, max f2 x) = some v := by
    intro v hv
    have herased : weightsFind
        ((H.m_weights.foldl (mergeScan f1 f2) ([], [])).2.foldl
          (fun m toDelete => weightsErase toDelete m) H.m_weights) (min x c, max x c) =
          none := by
      rw [weightsFind_eq_none_iff]
      intro e he hk
      exact (weightsFind_eq_none_iff _ _).1 hc e ((mem_foldl_weightsErase _ _ _).1 he).1 hk
    unfold MergeHints.mergeOrdered at hv
    simp only [ne_of_lt hlt, if_false] at hv
    by_cases hex : ∃ t ∈ (H.m_weights.foldl (mergeScan f1 f2) ([], [])).1, t.1 = x
    · obtain ⟨t, ht, htx, hf⟩ := foldl_addWeight_marked c x hxc _ ⟨_⟩ herased hex
      rw [hf] at hv
      cases hv
      rcases foldl_mergeScan_weight f1 f2 H.m_weights ([], []) t ht with
        ⟨t', ht', _⟩ | ⟨e, he, f, hf', hk, hw⟩
      · cases ht'
      · have hord := hH e he
        have hkey : e.1 = (min f x, max f x) := by
          rw [htx] at hk
          rcases hk with hk | hk
          · rw [hk] at hord ⊢
            rw [min_eq_left (le_of_lt hord), max_eq_right (le_of_lt hord)]
          · rw [hk] at hord ⊢
            rw [min_eq_right (le_of_lt hord), max_eq_left (le_of_lt hord)]
        have hfind := weightsFind_of_mem hU he
        rw [hkey, hw] at hfind
        rcases hf' with rfl | rfl
        · exact Or.inl hfind
        · exact Or.inr hfind
    · rw [foldl_addWeight_none c x hxc _ ⟨_⟩ herased
        (fun t ht htx => hex ⟨t, ht, htx⟩)] at hv
      cases hv
  cases h1 : weightsFind H.m_weights (min f1 x, max f1 x) with
  | some w1 =>
    obtain ⟨v, hv, hle1⟩ := hlow f1 (Or.inl rfl) w1 h1
    cases h2 : weightsFind H.m_weights (min f2 x, max f2 x) with
    | some w2 =>
      obtain ⟨v', hv', hle2⟩ := hlow f2 (Or.inr rfl) w2 h2
      rw [hv] at hv'
      cases hv'
      rw [hv]
      simp only
      rcases hup v hv with h | h
      · rw [h1] at h
        cases h
        rw [max_eq_left hle2]
      · rw [h2] at h
        cases h
        rw [max_eq_right hle1]
    | none =>
      rw [hv]
      simp only
      rcases hup v hv with h | h
      · rw [h1] at h
        exact h.symm
      · rw [h2] at h
        cases h
  | none =>
    cases h2 : weightsFind H.m_weights (min f2 x, max f2 x) with
    | some w2 =>
      obtain ⟨v, hv, hle2⟩ := hlow f2 (Or.inr rfl) w2 h2
      rw [hv]
      simp only
      rcases hup v hv with h | h
      · rw [h1] at h
        cases h
      · rw [h2] at h
        exact h.symm
    | none =>
      simp only
      apply hnone
      rintro y (rfl | rfl)
      · exact h1
      · exact h2

end MergeHints

end blif_solve
namespace blif_solve

namespace MergeHints

variable {α : Type} [LinearOrder α]

/-- The key of the pair `{y, z}` holds the handle `f` only when `f` is `y` or
`z`. -/
theorem not_touches_minmax {y z f : α} (hy : y ≠ f) (hz : z ≠ f) :
    ¬ touches (min y z, max y z) f := by
  rintro (h | h)
  · rcases min_choice y z with h' | h'
    · exact hy (h'.symm.trans h)
    · exact hz (h'.symm.trans h)
  · rcases max_choice y z with h' | h'
    · exact hy (h'.symm.trans h)
    · exact hz (h'.symm.trans h)

/-- A stored pair `{x, c}` that holds neither merged handle keeps its entry
through `mergeOrdered f1 f2 c`. -/
theorem mergeOrdered_keeps (H : MergeHints α) {f1 f2 : α} (hlt : f1 < f2) (c x : α)
    (hx1 : x ≠ f1) (hx2 : x ≠ f2) (hc1 : c ≠ f1) (hc2 : c ≠ f2) (hxc : x ≠ c) (v : ℚ)
    (h : weightsFind H.m_weights (min x c, max x c) = some v) :
    weightsFind (H.mergeOrdered f1 f2 c).m_weights (min x c, max x c) = some v := by
  unfold MergeHints.mergeOrdered
  simp only [ne_of_lt hlt, if_false]
  apply foldl_addWeight_stored c x hxc
  rw [weightsFind_foldl_erase]
  · exact h
  · intro hmem
    rcases foldl_mergeScan_deleted_touches f1 f2 H.m_weights ([], [])
      (fun k hk => by cases hk) _ hmem with h' | h'
    · exact not_touches_minmax hx1 hc1 h'
    · exact not_touches_minmax hx2 hc2 h'

/-- C27. For every hints state built with `addWeight` and `merge`, handles
`a ≠ b`, a handle `c` other than `a` and `b` and a handle `x` other than `a`,
`b` and `c`: after `merge(a, b, c)` the weight of `{c, x}` is the weight stored
for `{c, x}` before the call when that pair was stored; otherwise it is the
larger of the weights of `{a, x}` and `{b, x}` when both were stored, the
weight of the one that was stored when only one was, and `0` when neither was;
and every pair that holds none of `a`, `b`, `c` keeps its weight. -/
theorem merge_exact_weights (H : MergeHints α) (hR : H.Reachable) (a b c x : α)
    (hab : a ≠ b) (hca : c ≠ a) (hcb : c ≠ b) (hxa : x ≠ a) (hxb : x ≠ b) (hxc : x ≠ c) :
    (H.stored c x → (H.merge a b c).getWeight c x = H.getWeight c x) ∧
    (¬ H.stored c x →
      (H.stored a x → H.stored b x →
        (H.merge a b c).getWeight c x = max (H.getWeight a x) (H.getWeight b x)) ∧
      (H.stored a x → ¬ H.stored b x → (H.merge a b c).getWeight c x = H.getWeight a x) ∧
      (¬ H.stored a x → H.stored b x → (H.merge a b c).getWeight c x = H.getWeight b x) ∧
      (¬ H.stored a x → ¬ H.stored b x → (H.merge a b c).getWeight c x = 0)) ∧
    (∀ y z, y ≠ a → y ≠ b → y ≠ c → z ≠ a → z ≠ b → z ≠ c →
      (H.merge a b c).getWeight y z = H.getWeight y z) := by
  have hH := hR.keysOrdered
  have hU := hR.keysUnique
  have hcx : c ≠ x := fun h => hxc h.symm
  have hax : a ≠ x := fun h => hxa h.symm
  have hbx : b ≠ x := fun h => hxb h.symm
  -- the three facts on the entries, for either order of `a` and `b`
  have key : (∀ v, weightsFind H.m_weights (min x c, max x c) = some v →
        weightsFind (H.merge a b c).m_weights (min x c, max x c) = some v) ∧
      (weightsFind H.m_weights (min x c, max x c) = none →
        weightsFind (H.merge a b c).m_weights (min x c, max x c) =
          match weightsFind H.m_weights (min a x, max a x),
            weightsFind H.m_weights (min b x, max b x) with
          | some w1, some w2 => some (max w1 w2)
          | some w1, none => some w1
          | none, some w2 => some w2
          | none, none => none) ∧
      (∀ k, ¬ touches k a → ¬ touches k b → ¬ touches k c →
        weightsFind (H.merge a b c).m_weights k = weightsFind H.m_weights k) := by
    unfold MergeHints.merge
    by_cases hlt : b < a
    · simp only [hlt, if_true]
      refine ⟨fun v hv => mergeOrdered_keeps H hlt c x hxb hxa hcb hca hxc v hv, ?_,
        fun k h1 h2 h3 => mergeOrdered_frame H b a c k h2 h1 h3⟩
      intro hnone
      rw [mergeOrdered_exact hH hU hlt c x hxb hxa hxc hnone]
      cases weightsFind H.m_weights (min a x, max a x) <;>
        cases weightsFind H.m_weights (min b x, max b x) <;> simp only [max_comm]
    · simp only [hlt, if_false]
      have hlt' : a < b := lt_of_le_of_ne (not_lt.1 hlt) hab
      exact ⟨fun v hv => mergeOrdered_keeps H hlt' c x hxa hxb hca hcb hxc v hv,
        fun hnone => mergeOrdered_exact hH hU hlt' c x hxa hxb hxc hnone,
        fun k h1 h2 h3 => mergeOrdered_frame H a b c k h1 h2 h3⟩
  obtain ⟨k1, k2, k3⟩ := key
  have hsome : ∀ (G : MergeHints α) (p q : α), G.stored p q →
      ∃ v, weightsFind G.m_weights (min p q, max p q) = some v := by
    intro G p q h
    unfold stored at h
    cases hf : weightsFind G.m_weights (min p q, max p q) with
    | none => simp [hf] at h
    | some v => exact ⟨v, rfl⟩
  have hnone : ∀ (G : MergeHints α) (p q : α), ¬ G.stored p q →
      weightsFind G.m_weights (min p q, max p q) = none := by
    intro G p q h
    unfold stored at h
    cases hf : weightsFind G.m_weights (min p q, max p q) with
    | none => rfl
    | some v => simp [hf] at h
  refine ⟨?_, ?_, ?_⟩
  · intro hs
    obtain ⟨v, hv⟩ := hsome H c x hs
    rw [getWeight_eq, getWeight_eq, if_neg hcx, if_neg hcx, min_comm c x, max_comm c x]
    rw [min_comm c x, max_comm c x] at hv
    rw [k1 v hv, hv]
  · intro hs
    have hn := hnone H c x hs
    rw [min_comm c x, max_comm c x] at hn
    have hval := k2 hn
    rw [getWeight_eq, if_neg hcx, min_comm c x, max_comm c x, hval]
    refine ⟨?_, ?_, ?_, ?_⟩
    · intro ha hb
      obtain ⟨wa, hwa⟩ := hsome H a x ha
      obtain ⟨wb, hwb⟩ := hsome H b x hb
      rw [getWeight_eq, getWeight_eq, if_neg hax, if_neg hbx, hwa, hwb]
      rfl
    · intro ha hb
      obtain ⟨wa, hwa⟩ := hsome H a x ha
      rw [getWeight_eq, if_neg hax, hwa, hnone H b x hb]
    · intro ha hb
      obtain ⟨wb, hwb⟩ := hsome H b x hb
      rw [getWeight_eq, if_neg hbx, hwb, hnone H a x ha]
    · intro ha hb
      rw [hnone H a x ha, hnone H b x hb]
      rfl
  · intro y z hya hyb hyc hza hzb hzc
    rw [getWeight_eq, getWeight_eq, k3 _ (not_touches_minmax hya hza)
      (not_touches_minmax hyb hzb) (not_touches_minmax hyc hzc)]

/-- Witness of `merge_exact_weights`: hints `{1,4} ↦ 5`, `{2,4} ↦ 7`,
`{2,5} ↦ -3`, `{3,6} ↦ 9`, `{6,7} ↦ 1`, merged by `merge(1, 2, 3)`: the pair
`{3,4}` gets `7`, the pair `{3,5}` gets `-3`, the pair `{3,6}` keeps `9`, the
pair `{3,7}` stays at `0` and the pair `{6,7}` keeps `1`. -/
theorem merge_exact_weights_witness :
    (((((((MergeHints.empty.addWeight 1 4 5).addWeight 2 4 7).addWeight 2 5 (-3)).addWeight 3 6
        9).addWeight 6 7 1 : MergeHints ℕ).merge 1 2 3).getWeight 3 4 = 7 ∧
      ((((((MergeHints.empty.addWeight 1 4 5).addWeight 2 4 7).addWeight 2 5 (-3)).addWeight 3 6
        9).addWeight 6 7 1 : MergeHints ℕ).merge 1 2 3).getWeight 3 5 = -3 ∧
      ((((((MergeHints.empty.addWeight 1 4 5).addWeight 2 4 7).addWeight 2 5 (-3)).addWeight 3 6
        9).addWeight 6 7 1 : MergeHints ℕ).merge 1 2 3).getWeight 3 6 = 9 ∧
      ((((((MergeHints.empty.addWeight 1 4 5).addWeight 2 4 7).addWeight 2 5 (-3)).addWeight 3 6
        9).addWeight 6 7 1 : MergeHints ℕ).merge 1 2 3).getWeight 3 7 = 0) ∧
    ((((((MergeHints.empty.addWeight 1 4 5).addWeight 2 4 7).addWeight 2 5 (-3)).addWeight 3 6
        9).addWeight 6 7 1 : MergeHints ℕ).stored 3 6 →
      ((((((MergeHints.empty.addWeight 1 4 5).addWeight 2 4 7).addWeight 2 5 (-3)).addWeight 3 6
        9).addWeight 6 7 1 : MergeHints ℕ).merge 1 2 3).getWeight 3 6 =
      (((((MergeHints.empty.addWeight 1 4 5).addWeight 2 4 7).addWeight 2 5 (-3)).addWeight 3 6
        9).addWeight 6 7 1 : MergeHints ℕ).getWeight 3 6) :=
  ⟨by decide,
    (merge_exact_weights _
      (Reachable.addWeight _ 6 7 1 (Reachable.addWeight _ 3 6 9
        (Reachable.addWeight _ 2 5 (-3) (Reachable.addWeight _ 2 4 7
          (Reachable.addWeight _ 1 4 5 Reachable.empty)))))
      1 2 3 6 (by decide) (by decide) (by decide) (by decide) (by decide) (by decide)).1⟩

end MergeHints

end blif_solve
namespace may_22

open blif_solve

section HintsMonotone

variable {α : Type} [LinearOrder α]

/-- With a weight that is not negative, `mergeAllPairs` lowers no weight. -/
theorem getWeight_mergeAllPairs_le (fvec : List α) (H : MergeHints α) (w : ℚ) (hw : 0 ≤ w)
    (a b : α) : H.getWeight a b ≤ (mergeAllPairs fvec H w).getWeight a b := by
  obtain ⟨h1, h2, h3⟩ := getWeight_mergeAllPairs fvec H w a b
  by_cases hs : H.stored a b
  · rw [h1 hs]
  · by_cases hin : a ∈ fvec ∧ b ∈ fvec ∧ a ≠ b
    · rw [h2 hin.1 hin.2.1 hin.2.2 hs, MergeHints.getWeight_eq, if_neg hin.2.2]
      unfold MergeHints.stored at hs
      cases hf : weightsFind H.m_weights (min a b, max a b) with
      | some v => simp [hf] at hs
      | none => exact hw
    · rw [h3 hin]

/-- What a call of `processMuc` does to the hints of the driver: it returns, and
the hints are those before the call, or `mergeAllPairs` over the func nodes
and the var nodes of the MUS; the weight for the pairs of a MUS stays the
same. -/
theorem processMuc_hints {FG : Type} (M : DdManager α) (X : DriverOps α)
    (G : FactorGraphOps α FG) (addr : ℕ → ℕ) (tie : ℕ → ℕ) (cb : May22MucCallback α)
    (muc : List (List ℤ)) :
    ∃ cb' r, May22MucCallback.processMuc M X G addr tie cb muc = Except.ok (cb', r) ∧
      cb'.m_mucMergeWeight = cb.m_mucMergeWeight ∧
      ((May22MucCallback.isTight M X cb muc = true ∧ cb'.m_mergeHints = cb.m_mergeHints) ∨
        (May22MucCallback.isTight M X cb muc = false ∧
          cb'.m_mergeHints =
            mergeAllPairs (May22MucCallback.gatherMuc cb muc).varNodes
              (mergeAllPairs (May22MucCallback.gatherMuc cb muc).funcNodes cb.m_mergeHints
                cb.m_mucMergeWeight)
              cb.m_mucMergeWeight)) := by
  by_cases ht : May22MucCallback.isTight M X cb muc = true
  · refine ⟨cb, none, ?_, rfl, Or.inl ⟨ht, rfl⟩⟩
    unfold May22MucCallback.processMuc
    rw [if_pos ht]
  · obtain ⟨r, hr⟩ := merge_returns M addr tie cb.m_factors cb.m_variables
      (doubleToInt cb.m_largestSupportSet)
      (mergeAllPairs (May22MucCallback.gatherMuc cb muc).varNodes
        (mergeAllPairs (May22MucCallback.gatherMuc cb muc).funcNodes cb.m_mergeHints
          cb.m_mucMergeWeight)
        cb.m_mucMergeWeight) cb.m_quantifiedVariables
    unfold May22MucCallback.processMuc
    rw [if_neg ht]
    simp only [hr]
    exact ⟨_, some r, rfl, rfl, Or.inr ⟨(Bool.not_eq_true _).mp ht, rfl⟩⟩

set_option maxRecDepth 1000000 in
set_option maxHeartbeats 4000000 in
/-- C21, as stated, fails for a negative `mucMergeWeight`: on the callback for
`∃ x1. (x1 ∨ x2) ∧ (¬x1 ∨ x2)` with the weight `-1` and the candidate `one`, the
call of `processMuc` for the MUS `{1}, {-1}` gives the pair of the two clause
BDDs, which had the weight `0`, the weight `-1`. -/
theorem processMuc_hints_monotone_counterexample :
    ∃ cb' r, May22MucCallback.processMuc (ttManager 3) (ttDriverOps 3) (ttFactorGraph 3) id
        (fun _ => 0) (exampleCallbackWeighted (-1) 255) [[1], [-1]] = Except.ok (cb', r) ∧
      (exampleCallbackWeighted (-1) 255).m_mergeHints.getWeight 243 252 = 0 ∧
      cb'.m_mergeHints.getWeight 243 252 = -1 ∧
      ¬ ((exampleCallbackWeighted (-1) 255).m_mergeHints.getWeight 243 252 ≤
        cb'.m_mergeHints.getWeight 243 252) := by
  obtain ⟨cb', r, h, _, hh⟩ := processMuc_hints (ttManager 3) (ttDriverOps 3) (ttFactorGraph 3)
    id (fun _ => 0) (exampleCallbackWeighted (-1) 255) [[1], [-1]]
  rcases hh with ⟨ht, _⟩ | ⟨_, hh⟩
  · have hf : May22MucCallback.isTight (ttManager 3) (ttDriverOps 3)
        (exampleCallbackWeighted (-1) 255) [[1], [-1]] = false := by decide
    rw [hf] at ht
    cases ht
  · refine ⟨cb', r, h, by decide, ?_, ?_⟩
    · rw [hh]
      decide
    · rw [hh]
      decide

/-- C21, amended. For a `mucMergeWeight` that is not negative, every call of
`processMuc` returns and lowers no weight of the hints of the driver, and so
does every sequence of calls on one callback, whatever the MUSes, the
placements of the nodes and the tie-breaks of the merge runs; the weight
`mucMergeWeight` is not changed by a call. -/
theorem processMuc_hints_monotone {FG : Type} (M : DdManager α) (X : DriverOps α)
    (G : FactorGraphOps α FG) (addr tie : ℕ → ℕ → ℕ) (cb : May22MucCallback α)
    (hw : 0 ≤ cb.m_mucMergeWeight) :
    (∀ (muc : List (List ℤ)) (k : ℕ),
      ∃ cb' r, May22MucCallback.processMuc M X G (addr k) (tie k) cb muc = Except.ok (cb', r) ∧
        cb'.m_mucMergeWeight = cb.m_mucMergeWeight ∧
        ∀ a b, cb.m_mergeHints.getWeight a b ≤ cb'.m_mergeHints.getWeight a b) ∧
    (∀ (mucs : List (List (List ℤ))) (k : ℕ),
      ∃ cb', processMucs M X G addr tie k cb mucs = Except.ok cb' ∧
        cb'.m_mucMergeWeight = cb.m_mucMergeWeight ∧
        ∀ a b, cb.m_mergeHints.getWeight a b ≤ cb'.m_mergeHints.getWeight a b) := by
  have single : ∀ (c : May22MucCallback α), 0 ≤ c.m_mucMergeWeight →
      ∀ (muc : List (List ℤ)) (k : ℕ),
      ∃ cb' r, May22MucCallback.processMuc M X G (addr k) (tie k) c muc = Except.ok (cb', r) ∧
        cb'.m_mucMergeWeight = c.m_mucMergeWeight ∧
        ∀ a b, c.m_mergeHints.getWeight a b ≤ cb'.m_mergeHints.getWeight a b := by
    intro c hc muc k
    obtain ⟨cb', r, h, hw', hh⟩ := processMuc_hints M X G (addr k) (tie k) c muc
    refine ⟨cb', r, h, hw', ?_⟩
    intro a b
    rcases hh with ⟨_, hh⟩ | ⟨_, hh⟩
    · rw [hh]
    · rw [hh]
      exact le_trans (getWeight_mergeAllPairs_le _ _ _ hc a b)
        (getWeight_mergeAllPairs_le _ _ _ hc a b)
  refine ⟨single cb hw, ?_⟩
  intro mucs
  induction mucs generalizing cb with
  | nil =>
    intro k
    exact ⟨cb, rfl, rfl, fun a b => le_refl _⟩
  | cons muc rest ih =>
    intro k
    obtain ⟨cb1, r, h1, hw1, hle1⟩ := single cb hw muc k
    obtain ⟨cb2, h2, hw2, hle2⟩ := ih cb1 (by rw [hw1]; exact hw) (k + 1)
    refine ⟨cb2, ?_, hw2.trans hw1, fun a b => le_trans (hle1 a b) (hle2 a b)⟩
    unfold processMucs
    rw [h1]
    exact h2

set_option maxRecDepth 1000000 in
set_option maxHeartbeats 4000000 in
/-- Witness of `processMuc_hints_monotone`: the callback for
`∃ x1. (x1 ∨ x2) ∧ (¬x1 ∨ x2)` with the weight `2` and the candidate `one`, and
two calls for the MUS `{1}, {-1}`. -/
theorem processMuc_hints_monotone_witness :
    (0 : ℚ) ≤ (exampleCallback 255).m_mucMergeWeight ∧
    ∃ cb', processMucs (ttManager 3) (ttDriverOps 3) (ttFactorGraph 3) (fun _ => id)
        (fun _ _ => 0) 0 (exampleCallback 255) [[[1], [-1]], [[1], [-1]]] = Except.ok cb' ∧
      cb'.m_mucMergeWeight = (exampleCallback 255).m_mucMergeWeight ∧
      ∀ a b, (exampleCallback 255).m_mergeHints.getWeight a b ≤
        cb'.m_mergeHints.getWeight a b :=
  ⟨by decide,
    (processMuc_hints_monotone (ttManager 3) (ttDriverOps 3) (ttFactorGraph 3) (fun _ => id)
      (fun _ _ => 0) (exampleCallback 255) (by decide)).2 [[[1], [-1]], [[1], [-1]]] 0⟩

end HintsMonotone

end may_22
namespace blif_solve

section Neighbours

variable {α : Type} [LinearOrder α]

/-- The test of the loop "create func-var connections" for the pair of the func
node `f` and the var node `v`, read on the arena `ref`. -/
theorem isConnectedTo_base (M : DdManager α) {ref ns : List (AmNode α)}
    (h : SameBase M ref ns) (f v : ℕ) :
    (nodeAt M ns f).isConnectedTo M (nodeAt M ns v) =
      (nodeAt M ref f).isConnectedTo M (nodeAt M ref v) := by
  unfold AmNode.isConnectedTo
  rw [base_supportSet (h.2 f), base_supportSet (h.2 v)]

/-- The neighbour lists after one round of the inner loop "create func-var
connections". -/
theorem connectOne_mem (M : DdManager α) (addr : ℕ → ℕ) (func var : ℕ)
    (ns : List (AmNode α)) (hf : func < ns.length) (hv : var < ns.length) (j x : ℕ) :
    x ∈ (nodeAt M (connectOne M addr func ns var) j).neighbours ↔
      x ∈ (nodeAt M ns j).neighbours ∨
        ((addr func < addr var ∧
            (nodeAt M ns func).isConnectedTo M (nodeAt M ns var) = true) ∧
          ((j = func ∧ x = var) ∨ (j = var ∧ x = func))) := by
  unfold connectOne
  split
  · rename_i hc
    rw [nodeAt_updateNode, nodeAt_updateNode, length_updateNode]
    by_cases hjv : j = var
    · by_cases hjf : j = func
      · exfalso
        have h := hc.1
        rw [← hjf, hjv] at h
        exact lt_irrefl _ h
      · have hvf : ¬ var = func := fun h => hjf (hjv.trans h)
        subst hjv
        simp [hv, hvf, hc, List.mem_append]
    · by_cases hjf : j = func
      · have hfv : ¬ func = var := fun h => hjv (hjf.trans h)
        subst hjf
        simp [hf, hfv, hc, List.mem_append]
      · simp [hjv, hjf]
  · rename_i hc
    simp [hc]

/-- The neighbour lists after the inner loop "create func-var connections" for
the func node `func`. -/
theorem connectInner_mem (M : DdManager α) (addr : ℕ → ℕ) (ref : List (AmNode α)) (func : ℕ)
    (hf : func < ref.length) :
    ∀ (l : List ℕ) (ns : List (AmNode α)), SameBase M ref ns → (∀ v ∈ l, v < ref.length) →
      ∀ j x, x ∈ (nodeAt M (l.foldl (connectOne M addr func) ns) j).neighbours ↔
        x ∈ (nodeAt M ns j).neighbours ∨
          ∃ v ∈ l, (addr func < addr v ∧
              (nodeAt M ref func).isConnectedTo M (nodeAt M ref v) = true) ∧
            ((j = func ∧ x = v) ∨ (j = v ∧ x = func)) := by
  intro l
  induction l with
  | nil =>
    intro ns _ _ j x
    simp
  | cons v l ih =>
    intro ns hb hl j x
    rw [List.foldl_cons, ih _ (hb.trans_base (connectOne_sameBase M addr func ns v))
      (fun v' hv' => hl v' (List.mem_cons_of_mem _ hv')),
      connectOne_mem M addr func v ns (by rw [hb.1]; exact hf)
        (by rw [hb.1]; exact hl v (List.mem_cons_self _ _)), isConnectedTo_base M hb]
    constructor
    · rintro ((h | h) | ⟨v', hv', h⟩)
      · exact Or.inl h
      · exact Or.inr ⟨v, List.mem_cons_self _ _, h⟩
      · exact Or.inr ⟨v', List.mem_cons_of_mem _ hv', h⟩
    · rintro (h | ⟨v', hv', h⟩)
      · exact Or.inl (Or.inl h)
      · rcases List.mem_cons.1 hv' with rfl | hv''
        · exact Or.inl (Or.inr h)
        · exact Or.inr ⟨v', hv'', h⟩

/-- The neighbour lists after the loop "create func-var connections": the func
node `f` and the var node `v` are linked, in both lists, exactly when `f` lies
at the lower address and the support sets intersect. -/
theorem connectFuncVar_mem (M : DdManager α) (addr : ℕ → ℕ) (ref : List (AmNode α))
    (varNodes : List ℕ) (hv : ∀ v ∈ varNodes, v < ref.length) :
    ∀ (l : List ℕ) (ns : List (AmNode α)), SameBase M ref ns → (∀ f ∈ l, f < ref.length) →
      ∀ j x, x ∈ (nodeAt M (connectFuncVar M addr l varNodes ns) j).neighbours ↔
        x ∈ (nodeAt M ns j).neighbours ∨
          ∃ f ∈ l, ∃ v ∈ varNodes, (addr f < addr v ∧
              (nodeAt M ref f).isConnectedTo M (nodeAt M ref v) = true) ∧
            ((j = f ∧ x = v) ∨ (j = v ∧ x = f)) := by
  intro l
  induction l with
  | nil =>
    intro ns _ _ j x
    simp [connectFuncVar]
  | cons f l ih =>
    intro ns hb hl j x
    have hstep : connectFuncVar M addr (f :: l) varNodes ns =
        connectFuncVar M addr l varNodes (varNodes.foldl (connectOne M addr f) ns) := rfl
    have hb' : SameBase M ref (varNodes.foldl (connectOne M addr f) ns) := by
      apply foldl_invariant _ (fun ns' => SameBase M ref ns')
      · intro ns' var hns'
        exact hns'.trans_base (connectOne_sameBase M addr f ns' var)
      · exact hb
    rw [hstep, ih _ hb' (fun f' hf' => hl f' (List.mem_cons_of_mem _ hf')),
      connectInner_mem M addr ref f (hl f (List.mem_cons_self _ _)) varNodes ns hb hv]
    constructor
    · rintro ((h | ⟨v, hv', h⟩) | ⟨f', hf', h⟩)
      · exact Or.inl h
      · exact Or.inr ⟨f, List.mem_cons_self _ _, v, hv', h⟩
      · exact Or.inr ⟨f', List.mem_cons_of_mem _ hf', h⟩
    · rintro (h | ⟨f', hf', v, hv', h⟩)
      · exact Or.inl (Or.inl h)
      · rcases List.mem_cons.1 hf' with rfl | hf''
        · exact Or.inl (Or.inr ⟨v, hv', h⟩)
        · exact Or.inr ⟨f', hf'', v, hv', h⟩

/-- The neighbour lists of the state before the first mergers. -/
theorem connectedState_mem (M : DdManager α) (addr : ℕ → ℕ) (factors varBdds : List α)
    (hintsInput : MergeHints α) (qvars : List α) (j x : ℕ) :
    x ∈ (nodeAt M (connectedState M addr factors varBdds hintsInput qvars).nodes
        j).neighbours ↔
      ∃ f v, f < factors.length ∧ factors.length ≤ v ∧ v < factors.length + varBdds.length ∧
        (addr f < addr v ∧
          (nodeAt M (connectedState M addr factors varBdds hintsInput qvars).nodes
            f).isConnectedTo M
            (nodeAt M (connectedState M addr factors varBdds hintsInput qvars).nodes v) =
              true) ∧
        ((j = f ∧ x = v) ∨ (j = v ∧ x = f)) := by
  have hb := connectedState_sameBase M addr factors varBdds hintsInput qvars
  have hlen : (factors.map (AmNode.create M NodeType.Func) ++
      varBdds.map (AmNode.create M NodeType.Var)).length = factors.length + varBdds.length := by
    simp
  have hmem := connectFuncVar_mem M addr
    (factors.map (AmNode.create M NodeType.Func) ++ varBdds.map (AmNode.create M NodeType.Var))
    ((List.range varBdds.length).map (fun i => factors.length + i))
    (by
      intro v hv
      obtain ⟨i, hi, rfl⟩ := List.mem_map.1 hv
      have := List.mem_range.1 hi
      rw [hlen]
      omega)
    (List.range factors.length) _ (SameBase.refl_base M _)
    (by
      intro f hf
      have := List.mem_range.1 hf
      rw [hlen]
      omega) j x
  have hnil : ¬ x ∈ (nodeAt M (factors.map (AmNode.create M NodeType.Func) ++
      varBdds.map (AmNode.create M NodeType.Var)) j).neighbours := by
    intro hx
    rcases nodeAt_init M factors varBdds j with ⟨_, f, _, he⟩ | ⟨_, _, v, _, he⟩ | ⟨_, he⟩
    · rw [he] at hx; cases hx
    · rw [he] at hx; cases hx
    · rw [he] at hx; cases hx
  show x ∈ (nodeAt M (connectFuncVar M addr _ _ _) j).neighbours ↔ _
  rw [hmem]
  constructor
  · rintro (h | ⟨f, hf, v, hv, ⟨h1, h2⟩, h3⟩)
    · exact absurd h hnil
    · obtain ⟨i, hi, rfl⟩ := List.mem_map.1 hv
      have := List.mem_range.1 hi
      refine ⟨f, factors.length + i, List.mem_range.1 hf, by omega, by omega, ⟨h1, ?_⟩, h3⟩
      rw [isConnectedTo_base M hb]
      exact h2
  · rintro ⟨f, v, hf, hv1, hv2, ⟨h1, h2⟩, h3⟩
    refine Or.inr ⟨f, List.mem_range.2 hf, v, ?_, ⟨h1, ?_⟩, h3⟩
    · exact List.mem_map.2 ⟨v - factors.length, List.mem_range.2 (by omega), by omega⟩
    · rw [← isConnectedTo_base M hb]
      exact h2

/-- The func-var links of the first state of `blif_solve::merge`, for every placement
of the nodes: the var node `v` is in the neighbour list of the func node `f`
exactly when `f` lies at the lower address and the support sets intersect, and
so is `f` in the neighbour list of `v`. -/
theorem initState_neighbours (M : DdManager α) (addr : ℕ → ℕ) (factors varBdds : List α)
    (lss : ℤ) (hintsInput : MergeHints α) (qvars : List α) :
    ∃ s0, initState M addr factors varBdds lss hintsInput qvars = Except.ok s0 ∧
      s0.nodes.length = factors.length + varBdds.length ∧
      (∀ f v, f < factors.length → factors.length ≤ v → v < factors.length + varBdds.length →
        ((v ∈ (nodeAt M s0.nodes f).neighbours ↔
          (addr f < addr v ∧
            (nodeAt M s0.nodes f).isConnectedTo M (nodeAt M s0.nodes v) = true)) ∧
        (f ∈ (nodeAt M s0.nodes v).neighbours ↔
          (addr f < addr v ∧
            (nodeAt M s0.nodes f).isConnectedTo M (nodeAt M s0.nodes v) = true)))) ∧
      (∀ j x, x ∈ (nodeAt M s0.nodes j).neighbours → j ∈ (nodeAt M s0.nodes x).neighbours) ∧
      (∀ j x, x ∈ (nodeAt M s0.nodes j).neighbours →
        j < factors.length + varBdds.length ∧ x < factors.length + varBdds.length ∧
        (nodeAt M s0.nodes j).type ≠ (nodeAt M s0.nodes x).type) := by
  obtain ⟨s0, h0, _, hadd⟩ := initState_spec M addr factors varBdds lss hintsInput qvars
  have hcore := hadd.core
  have hconn : ∀ f v, (nodeAt M s0.nodes f).isConnectedTo M (nodeAt M s0.nodes v) =
      (nodeAt M (connectedState M addr factors varBdds hintsInput qvars).nodes
        f).isConnectedTo M
        (nodeAt M (connectedState M addr factors varBdds hintsInput qvars).nodes v) := by
    intro f v
    unfold AmNode.isConnectedTo
    rw [core_supportSet (hcore.2 f), core_supportSet (hcore.2 v)]
  refine ⟨s0, h0, by rw [hcore.1, connectedState_length], ?_, ?_, ?_⟩
  · intro f v hf hv1 hv2
    rw [core_neighbours (hcore.2 f), core_neighbours (hcore.2 v), connectedState_mem,
      connectedState_mem, hconn]
    constructor
    · constructor
      · rintro ⟨f', v', hf', hv1', hv2', hc, (⟨h1, h2⟩ | ⟨h1, h2⟩)⟩
        · rw [h1, h2]
          exact hc
        · omega
      · intro hc
        exact ⟨f, v, hf, hv1, hv2, hc, Or.inl ⟨rfl, rfl⟩⟩
    · constructor
      · rintro ⟨f', v', hf', hv1', hv2', hc, (⟨h1, h2⟩ | ⟨h1, h2⟩)⟩
        · omega
        · rw [h1, h2]
          exact hc
      · intro hc
        exact ⟨f, v, hf, hv1, hv2, hc, Or.inr ⟨rfl, rfl⟩⟩
  · intro j x hx
    rw [core_neighbours (hcore.2 j), connectedState_mem] at hx
    rw [core_neighbours (hcore.2 x), connectedState_mem]
    obtain ⟨f, v, hf, hv1, hv2, hc, h⟩ := hx
    exact ⟨f, v, hf, hv1, hv2, hc, h.symm.imp (fun h => ⟨h.2, h.1⟩) (fun h => ⟨h.2, h.1⟩)⟩
  · intro j x hx
    rw [core_neighbours (hcore.2 j), connectedState_mem] at hx
    obtain ⟨f, v, hf, hv1, hv2, _, h⟩ := hx
    rw [core_type (hcore.2 j), core_type (hcore.2 x)]
    rcases h with ⟨h1, h2⟩ | ⟨h1, h2⟩
    · rw [h1, h2, connectedState_type_func M addr factors varBdds hintsInput qvars hf,
        connectedState_type_var M addr factors varBdds hintsInput qvars hv1 hv2]
      exact ⟨by omega, by omega, by decide⟩
    · rw [h1, h2, connectedState_type_func M addr factors varBdds hintsInput qvars hf,
        connectedState_type_var M addr factors varBdds hintsInput qvars hv1 hv2]
      exact ⟨by omega, by omega, by decide⟩

end Neighbours

end blif_solve
namespace blif_solve

section RoundsGeneric

variable {α : Type} [LinearOrder α]

/-- The nodes after a round of the main loop: the old nodes keep their type,
BDD, support set and neighbours, and the merged node is appended. -/
theorem loopStep_nodes (M : DdManager α) (addr : ℕ → ℕ) (lss : ℤ) (t : ℕ)
    (s s' : MergeState α) (hinv : Inv M s) (hne : s.heap ≠ [])
    (h : loopStep M addr lss t s = Except.ok s') :
    ∃ merger, MaxHeap.top s.heap t = some merger ∧ merger < s.mergers.length ∧
      Inv M s' ∧ s'.nodes.length = s.nodes.length + 1 ∧
      (∀ j, j < s.nodes.length → (nodeAt M s'.nodes j).core = (nodeAt M s.nodes j).core) ∧
      (nodeAt M s'.nodes s.nodes.length).core =
        ((nodeAt M s.nodes (mergerAt s.mergers merger).node1).type,
          mergedBddOf M s merger,
          (if (nodeAt M s.nodes (mergerAt s.mergers merger).node1).type = NodeType.Func then
            M.bdd_support (mergedBddOf M s merger) else mergedBddOf M s merger),
          (nodeAt M s.nodes (mergerAt s.mergers merger).node2).neighbours.foldl
            (fun set neigh => ptrSetInsert addr neigh set)
            ((nodeAt M s.nodes (mergerAt s.mergers merger).node1).neighbours.foldl
              (fun set neigh => ptrSetInsert addr neigh set) [])) := by
  obtain ⟨merger, s1, htop, hm, hstep, hinv', _, hadd⟩ := loopStep_spec M addr lss t s hinv hne
  rw [h] at hstep
  cases hstep
  refine ⟨merger, htop, hm, hinv', ?_, ?_, ?_⟩
  · rw [hadd.core.1, contractState_length]
  · intro j hj
    rw [hadd.core.2 j, contractState_core_old M addr s merger hj]
  · rw [hadd.core.2, contractState_new]

/-- The mergers after a round of the main loop: the old mergers, followed by
mergers that join the merged node to a node of an old merger. -/
theorem loopStep_new_mergers (M : DdManager α) (addr : ℕ → ℕ) (lss : ℤ) (t : ℕ)
    (s s' : MergeState α) (hinv : Inv M s) (hne : s.heap ≠ [])
    (h : loopStep M addr lss t s = Except.ok s') :
    ∃ new, s'.mergers = s.mergers ++ new ∧
      ∀ mg ∈ new, mg.node1 = s.nodes.length ∧
        ∃ old, old < s.mergers.length ∧
          (mg.node2 = (mergerAt s.mergers old).node1 ∨
            mg.node2 = (mergerAt s.mergers old).node2) := by
  obtain ⟨merger, htop, em, hem, hem1⟩ := MaxHeap.top_of_ne_nil s.heap hne t
  have hm : merger < s.mergers.length := by
    rw [← hem1]
    exact hinv.heap_valid em hem
  obtain ⟨h1, h2, ht⟩ := hinv.mergers_valid merger hm
  have hnewtype : (nodeAt M (contractState M addr s merger).nodes s.nodes.length).type =
      (nodeAt M s.nodes (mergerAt s.mergers merger).node1).type :=
    congrArg (fun c => c.1) (contractState_new M addr s merger)
  obtain ⟨acc', hfold, hP', hA'⟩ := refresh_fold_alive M addr lss
    (decide ((nodeAt M s.nodes (mergerAt s.mergers merger).node1).type = NodeType.Var))
    (mergerAt s.mergers merger).node1 (mergerAt s.mergers merger).node2 s.nodes.length
    (oldMergersOf M addr s merger) (contractState M addr s merger) h1 h2
    (by rw [contractState_length]; omega)
    (by rw [hnewtype, core_type (contractState_core_old M addr s merger h1)])
    (by rw [hnewtype, core_type (contractState_core_old M addr s merger h2)]
        exact ht.symm)
    (oldMergersOf M addr s merger) [] (contractState M addr s merger, [])
    (refreshInv_init M addr lss s merger hinv hm)
    (refreshAlive_init M _ _ _ _) (oldMerger_of_mem M addr s merger hinv hm)
  have hs' : s' = acc'.1 := by
    rw [loopStep_eq M addr lss t s merger htop ht, hfold] at h
    cases h
    rfl
  subst hs'
  obtain ⟨new, hnew, _, hR⟩ := hA'.mergers_ext
  rw [contractState_mergers] at hnew
  refine ⟨new, hnew, ?_⟩
  intro mg hmg
  obtain ⟨r1, _, old, hold, r3⟩ := hR mg hmg
  rw [contractState_mergers] at r3
  obtain ⟨_, _, hy⟩ := otherNode_some r3
  have hlisted := oldMergersOf_mem M addr s merger h1 h2 old hold
  have hlt : old < s.mergers.length := by
    rcases hlisted with h' | h'
    · exact (hinv.listed_endpoint _ old h').1
    · exact (hinv.listed_endpoint _ old h').1
  refine ⟨r1, old, hlt, ?_⟩
  rcases hy with h' | ⟨h', _⟩
  · exact Or.inl h'
  · exact Or.inr h'

/-- A property of the first state that every round of the main loop keeps
holds of the state after any number of rounds, and that state exists. -/
theorem stateAfter_invariant (M : DdManager α) (addr : ℕ → ℕ) (tie : ℕ → ℕ)
    (factors varBdds : List α) (lss : ℤ) (hintsInput : MergeHints α) (qvars : List α)
    (I : MergeState α → Prop)
    (h0 : ∀ s0, initState M addr factors varBdds lss hintsInput qvars = Except.ok s0 → I s0)
    (hI : ∀ t s s', Inv M s → I s → s.heap ≠ [] →
      loopStep M addr lss t s = Except.ok s' → I s') :
    ∀ n, ∃ s, stateAfter M addr tie n factors varBdds lss hintsInput qvars = Except.ok s ∧
      Inv M s ∧ I s := by
  obtain ⟨s0, hs0, hinv0, _⟩ := initState_spec M addr factors varBdds lss hintsInput qvars
  intro n
  obtain ⟨s, hs, hinv, hi⟩ := runRounds_spec M addr lss tie I hI n 0 s0 hinv0 (h0 s0 hs0)
  exact ⟨s, stateAfter_eq_of_runRounds M addr tie n factors varBdds lss hintsInput qvars
    s0 s hs0 hs, hinv, hi⟩

end RoundsGeneric

end blif_solve
namespace blif_solve

section NeighbourClaims

variable {α : Type} [LinearOrder α]

set_option maxRecDepth 1000000 in
set_option maxHeartbeats 4000000 in
/-- C24. What the loop "create func-var connections" of `blif_solve::merge` does, for every
input and every placement of the nodes: the var node `v` is in the neighbour
list of the func node `f`, and `f` in that of `v`, exactly when the address of
`f` is below the address of `v` and the support sets intersect.  So the links
depend on the placement: for the factor `a ∨ b` and the variables `a`, `b` with
the func node at address `1`, the node of `a` at address `0` and the node of
`b` at address `2`, the func node and the node of `a` have intersecting support
sets and are not linked, while the func node and the node of `b` are. -/
theorem initState_func_var_links (M : DdManager α) (addr : ℕ → ℕ) (factors varBdds : List α)
    (lss : ℤ) (hintsInput : MergeHints α) (qvars : List α) :
    (∃ s0, initState M addr factors varBdds lss hintsInput qvars = Except.ok s0 ∧
      ∀ f v, f < factors.length → factors.length ≤ v → v < factors.length + varBdds.length →
        ((v ∈ (nodeAt M s0.nodes f).neighbours ↔
          (addr f < addr v ∧
            (nodeAt M s0.nodes f).isConnectedTo M (nodeAt M s0.nodes v) = true)) ∧
        (f ∈ (nodeAt M s0.nodes v).neighbours ↔
          (addr f < addr v ∧
            (nodeAt M s0.nodes f).isConnectedTo M (nodeAt M s0.nodes v) = true)))) ∧
    (∃ s, stateAfter (ttManager 2) (fun k => if k = 0 then 1 else if k = 1 then 0 else k)
        (fun _ => 0) 0 [ttOr (ttVar 2 0) (ttVar 2 1)] [ttVar 2 0, ttVar 2 1] 2
        MergeHints.empty [] = Except.ok s ∧
      (nodeAt (ttManager 2) s.nodes 0).isConnectedTo (ttManager 2)
        (nodeAt (ttManager 2) s.nodes 1) = true ∧
      1 ∉ (nodeAt (ttManager 2) s.nodes 0).neighbours ∧
      0 ∉ (nodeAt (ttManager 2) s.nodes 1).neighbours ∧
      (nodeAt (ttManager 2) s.nodes 0).neighbours = [2] ∧
      (nodeAt (ttManager 2) s.nodes 2).neighbours = [0]) := by
  constructor
  · obtain ⟨s0, h0, _, h, _⟩ :=
      initState_neighbours M addr factors varBdds lss hintsInput qvars
    exact ⟨s0, h0, h⟩
  · obtain ⟨s, hs, hc⟩ := everyStateAfter_spec (ttManager 2)
      (fun k => if k = 0 then 1 else if k = 1 then 0 else k) 0
      [ttOr (ttVar 2 0) (ttVar 2 1)] [ttVar 2 0, ttVar 2 1] 2 MergeHints.empty []
      (fun s => decide (
        (nodeAt (ttManager 2) s.nodes 0).isConnectedTo (ttManager 2)
          (nodeAt (ttManager 2) s.nodes 1) = true ∧
        1 ∉ (nodeAt (ttManager 2) s.nodes 0).neighbours ∧
        0 ∉ (nodeAt (ttManager 2) s.nodes 1).neighbours ∧
        (nodeAt (ttManager 2) s.nodes 0).neighbours = [2] ∧
        (nodeAt (ttManager 2) s.nodes 2).neighbours = [0]))
      (by with_unfolding_all rfl) (fun _ => 0)
    exact ⟨s, hs, of_decide_eq_true hc⟩

set_option maxRecDepth 1000000 in
set_option maxHeartbeats 4000000 in
/-- C25, as stated, fails on scenario 1 of the spec (nodes at the addresses
`0, 1, 2, ...`): after the first round, whatever the tie-break, the node
created by the contraction (node 8) has neighbours, and none of them has
node 8 in its neighbour list. -/
theorem merge_neighbours_symmetric_counterexample :
    ∃ s, stateAfter (ttManager 5) id (fun _ => 0) 1
        [ttOr (ttVar 5 0) (ttVar 5 1), ttOr (ttVar 5 1) (ttVar 5 2),
          ttOr (ttVar 5 3) (ttVar 5 4)]
        [ttVar 5 0, ttVar 5 1, ttVar 5 2, ttVar 5 3, ttVar 5 4] 3 MergeHints.empty [] =
        Except.ok s ∧
      (nodeAt (ttManager 5) s.nodes 8).neighbours ≠ [] ∧
      ∀ x ∈ (nodeAt (ttManager 5) s.nodes 8).neighbours,
        8 ∉ (nodeAt (ttManager 5) s.nodes x).neighbours := by
  obtain ⟨s, hs, hc⟩ := everyStateAfter_spec (ttManager 5) id 1
    [ttOr (ttVar 5 0) (ttVar 5 1), ttOr (ttVar 5 1) (ttVar 5 2), ttOr (ttVar 5 3) (ttVar 5 4)]
    [ttVar 5 0, ttVar 5 1, ttVar 5 2, ttVar 5 3, ttVar 5 4] 3 MergeHints.empty []
    (fun s => decide ((nodeAt (ttManager 5) s.nodes 8).neighbours ≠ [] ∧
      ∀ x ∈ (nodeAt (ttManager 5) s.nodes 8).neighbours,
        8 ∉ (nodeAt (ttManager 5) s.nodes x).neighbours))
    (by with_unfolding_all rfl) (fun _ => 0)
  exact ⟨s, hs, of_decide_eq_true hc⟩

/-- C25, amended. At every point of a run of `blif_solve::merge` (for every input, every
placement of the nodes and every tie-break): the neighbours of every node are
nodes made from the inputs, and among these nodes the neighbour relation is
symmetric; a round of the main loop leaves the neighbour lists of the nodes it
finds as they are, gives the node it creates the neighbours of the two
contracted nodes, and enters the new node in no neighbour list. -/
theorem merge_neighbours_invariant (M : DdManager α) (addr : ℕ → ℕ) (tie : ℕ → ℕ)
    (factors varBdds : List α) (lss : ℤ) (hintsInput : MergeHints α) (qvars : List α)
    (n : ℕ) :
    (∃ s, stateAfter M addr tie n factors varBdds lss hintsInput qvars = Except.ok s ∧
      (∀ j x, x ∈ (nodeAt M s.nodes j).neighbours → x < factors.length + varBdds.length) ∧
      (∀ j x, j < factors.length + varBdds.length → x ∈ (nodeAt M s.nodes j).neighbours →
        j ∈ (nodeAt M s.nodes x).neighbours)) ∧
    (∀ s, stateAfter M addr tie n factors varBdds lss hintsInput qvars = Except.ok s →
      s.heap ≠ [] →
      ∃ merger s', MaxHeap.top s.heap (tie n) = some merger ∧
        stateAfter M addr tie (n + 1) factors varBdds lss hintsInput qvars = Except.ok s' ∧
        factors.length + varBdds.length ≤ s.nodes.length ∧
        s'.nodes.length = s.nodes.length + 1 ∧
        (∀ x, x ∈ (nodeAt M s'.nodes s.nodes.length).neighbours ↔
          (x ∈ (nodeAt M s.nodes (mergerAt s.mergers merger).node1).neighbours ∨
            x ∈ (nodeAt M s.nodes (mergerAt s.mergers merger).node2).neighbours)) ∧
        (∀ j, j < s.nodes.length →
          (nodeAt M s'.nodes j).neighbours = (nodeAt M s.nodes j).neighbours) ∧
        (∀ j, s.nodes.length ∉ (nodeAt M s'.nodes j).neighbours)) := by
  have hall := stateAfter_invariant M addr tie factors varBdds lss hintsInput qvars
    (fun s => factors.length + varBdds.length ≤ s.nodes.length ∧
      (∀ j x, x ∈ (nodeAt M s.nodes j).neighbours → x < factors.length + varBdds.length) ∧
      (∀ j x, j < factors.length + varBdds.length → x ∈ (nodeAt M s.nodes j).neighbours →
        j ∈ (nodeAt M s.nodes x).neighbours))
    (by
      intro s0 hs0
      obtain ⟨s0', h0', hlen, _, hsym, hval⟩ :=
        initState_neighbours M addr factors varBdds lss hintsInput qvars
      rw [hs0] at h0'
      cases h0'
      exact ⟨by rw [hlen], fun j x hx => (hval j x hx).2.1, fun j x _ hx => hsym j x hx⟩)
    (by
      intro t s s' hinv hI hne hstep
      obtain ⟨hlen, hP1, hP2⟩ := hI
      obtain ⟨merger, _, _, _, hlen', hold, hnew⟩ :=
        loopStep_nodes M addr lss t s s' hinv hne hstep
      have hnn : (nodeAt M s'.nodes s.nodes.length).neighbours =
          (nodeAt M s.nodes (mergerAt s.mergers merger).node2).neighbours.foldl
            (fun set neigh => ptrSetInsert addr neigh set)
            ((nodeAt M s.nodes (mergerAt s.mergers merger).node1).neighbours.foldl
              (fun set neigh => ptrSetInsert addr neigh set) []) :=
        congrArg (fun c => c.2.2.2) hnew
      have hP1' : ∀ j x, x ∈ (nodeAt M s'.nodes j).neighbours →
          x < factors.length + varBdds.length := by
        intro j x hx
        rcases Nat.lt_trichotomy j s.nodes.length with hj | hj | hj
        · rw [core_neighbours (hold j hj)] at hx
          exact hP1 j x hx
        · rw [hj, hnn] at hx
          rcases (mem_foldl_ptrSetInsert addr _ _ x).1 hx with h | h
          · exact hP1 _ x h
          · rcases (mem_foldl_ptrSetInsert addr _ _ x).1 h with h | h
            · exact hP1 _ x h
            · cases h
        · rw [nodeAt_of_length_le M s'.nodes (by omega)] at hx
          cases hx
      refine ⟨by omega, hP1', ?_⟩
      intro j x hj hx
      have hx' := hx
      rw [core_neighbours (hold j (by omega))] at hx'
      have hxlt := hP1 j x hx'
      rw [core_neighbours (hold x (by omega))]
      exact hP2 j x hj hx')
  constructor
  · obtain ⟨s, hs, _, _, hP1, hP2⟩ := hall n
    exact ⟨s, hs, hP1, hP2⟩
  · intro s hs hne
    obtain ⟨s1, hs1, hinv, hlen, hP1, _⟩ := hall n
    rw [hs] at hs1
    cases hs1
    obtain ⟨_, s', _, _, hstep, _⟩ := loopStep_spec M addr lss (tie n) s hinv hne
    obtain ⟨merger, htop, _, _, hlen', hold, hnew⟩ :=
      loopStep_nodes M addr lss (tie n) s s' hinv hne hstep
    have hnn : (nodeAt M s'.nodes s.nodes.length).neighbours =
        (nodeAt M s.nodes (mergerAt s.mergers merger).node2).neighbours.foldl
          (fun set neigh => ptrSetInsert addr neigh set)
          ((nodeAt M s.nodes (mergerAt s.mergers merger).node1).neighbours.foldl
            (fun set neigh => ptrSetInsert addr neigh set) []) :=
      congrArg (fun c => c.2.2.2) hnew
    have hsa : stateAfter M addr tie (n + 1) factors varBdds lss hintsInput qvars =
        Except.ok s' := by
      rw [stateAfter_succ, hs]
      show (if s.heap = [] then Except.ok s else loopStep M addr lss (tie n) s) = _
      rw [if_neg hne, hstep]
    refine ⟨merger, s', htop, hsa, hlen, hlen', ?_, fun j hj => core_neighbours (hold j hj), ?_⟩
    · intro x
      rw [hnn, mem_foldl_ptrSetInsert, mem_foldl_ptrSetInsert]
      constructor
      · rintro (h | h | h)
        · exact Or.inr h
        · exact Or.inl h
        · cases h
      · rintro (h | h)
        · exact Or.inr (Or.inl h)
        · exact Or.inl h
    · intro j hmem
      rcases Nat.lt_trichotomy j s.nodes.length with hj | hj | hj
      · rw [core_neighbours (hold j hj)] at hmem
        have := hP1 j _ hmem
        omega
      · rw [hj, hnn] at hmem
        rcases (mem_foldl_ptrSetInsert addr _ _ _).1 hmem with h | h
        · have := hP1 _ _ h
          omega
        · rcases (mem_foldl_ptrSetInsert addr _ _ _).1 h with h | h
          · have := hP1 _ _ h
            omega
          · cases h
      · rw [nodeAt_of_length_le M s'.nodes (by omega)] at hmem
        cases hmem

end NeighbourClaims

end blif_solve
namespace may_22

open blif_solve

section Constructor

variable {α : Type} [LinearOrder α]

/-- The loop of the constructor ends within the fuel when the cube shrinks in
every round. -/
theorem quantifiedVariablesLoop_ends {M : DdManager α} {S : Semantics α} (D : M.Lawful S)
    (X : DriverOps α) (varWithLowestIndex : α → α)
    (hdiff : ∀ c, S.isCube c → M.bdd_is_one c = false →
      S.isCube (X.cubeDiff c (varWithLowestIndex c)) ∧
      S.vars (X.cubeDiff c (varWithLowestIndex c)) ⊂ S.vars c) :
    ∀ (fuel : ℕ) (c : α) (acc : List α), S.isCube c → (S.vars c).card ≤ fuel →
      ∃ qs, quantifiedVariablesLoop M X varWithLowestIndex fuel c acc = some qs := by
  intro fuel
  induction fuel with
  | zero =>
    intro c acc hc hcard
    have hv : S.vars c = ∅ := Finset.card_eq_zero.1 (Nat.le_zero.1 hcard)
    have hone : c = M.bdd_one := D.cube_ext c M.bdd_one hc D.cube_one (by rw [hv, D.vars_one])
    refine ⟨acc, ?_⟩
    unfold quantifiedVariablesLoop
    rw [if_pos ((D.is_one_iff c).2 hone)]
  | succ fuel ih =>
    intro c acc hc hcard
    unfold quantifiedVariablesLoop
    by_cases h1 : M.bdd_is_one c = true
    · exact ⟨acc, by rw [if_pos h1]⟩
    · rw [if_neg h1]
      obtain ⟨hc', hlt⟩ := hdiff c hc ((Bool.not_eq_true _).mp h1)
      apply ih _ _ hc'
      have := Finset.card_lt_card hlt
      omega

/-- For a problem with exactly one existential block the constructor returns
the callback with no hints, no clause data and the candidate `one`. -/
theorem create_ok {M : DdManager α} {S : Semantics α} (D : M.Lawful S)
    (X : DriverOps α) (varWithLowestIndex : α → α) (qdimacsToBdd : QdimacsToBdd α)
    (mucMergeWeight : ℚ) (factors varBdds : List α) (largestSupportSet : ℚ)
    (hcube : ∀ q ∈ qdimacsToBdd.quantifications, S.isCube q.quantifiedVariables)
    (hdiff : ∀ c, S.isCube c → M.bdd_is_one c = false →
      S.isCube (X.cubeDiff c (varWithLowestIndex c)) ∧
      S.vars (X.cubeDiff c (varWithLowestIndex c)) ⊂ S.vars c)
    (q : BddQuantification α) (hq : qdimacsToBdd.quantifications = [q])
    (hex : q.quantifierType = QuantifierType.Exists) :
    ∃ cb, May22MucCallback.create M X varWithLowestIndex qdimacsToBdd mucMergeWeight factors
        varBdds largestSupportSet = Except.ok cb ∧
      cb.m_mergeHints = MergeHints.empty ∧ cb.m_clauseData = [] ∧
      cb.m_factorGraphResult = M.bdd_one ∧ cb.m_mucMergeWeight = mucMergeWeight ∧
      cb.m_factors = factors ∧ cb.m_variables = varBdds := by
  have hc : S.isCube q.quantifiedVariables := hcube q (by rw [hq]; exact List.mem_singleton.2 rfl)
  obtain ⟨qs, hqs⟩ := quantifiedVariablesLoop_ends D X varWithLowestIndex hdiff
    (M.bdd_size q.quantifiedVariables) q.quantifiedVariables [] hc
    (by rw [D.size_cube _ hc])
  unfold May22MucCallback.create
  rw [hq]
  simp only [List.length_singleton, ne_eq, not_true_eq_false, if_false, hex, hqs]
  exact ⟨_, rfl, rfl, rfl, rfl, rfl, rfl, rfl⟩

/-- C22. The constructor `May22MucCallback::May22MucCallback` throws exactly when the problem has
not exactly one quantifier block or its one block is not existential, and for
a problem with exactly one existential block it returns the callback with no
hints, no clause data and the candidate `one`.  The loop of the constructor
that splits the cube of the quantified variables is assumed to work on a cube
from which `cubeDiff` with `varWithLowestIndex` takes a variable out in every
round. -/
theorem create_fails_iff {M : DdManager α} {S : Semantics α} (D : M.Lawful S)
    (X : DriverOps α) (varWithLowestIndex : α → α) (qdimacsToBdd : QdimacsToBdd α)
    (mucMergeWeight : ℚ) (factors varBdds : List α) (largestSupportSet : ℚ)
    (hcube : ∀ q ∈ qdimacsToBdd.quantifications, S.isCube q.quantifiedVariables)
    (hdiff : ∀ c, S.isCube c → M.bdd_is_one c = false →
      S.isCube (X.cubeDiff c (varWithLowestIndex c)) ∧
      S.vars (X.cubeDiff c (varWithLowestIndex c)) ⊂ S.vars c) :
    ((∃ e, May22MucCallback.create M X varWithLowestIndex qdimacsToBdd mucMergeWeight factors
        varBdds largestSupportSet = Except.error e) ↔
      (qdimacsToBdd.quantifications.length ≠ 1 ∨
        ∃ q, qdimacsToBdd.quantifications = [q] ∧ q.quantifierType ≠ QuantifierType.Exists)) ∧
    (∀ q, qdimacsToBdd.quantifications = [q] → q.quantifierType = QuantifierType.Exists →
      ∃ cb, May22MucCallback.create M X varWithLowestIndex qdimacsToBdd mucMergeWeight factors
          varBdds largestSupportSet = Except.ok cb ∧
        cb.m_mergeHints = MergeHints.empty ∧ cb.m_clauseData = [] ∧
        cb.m_factorGraphResult = M.bdd_one ∧ cb.m_mucMergeWeight = mucMergeWeight ∧
        cb.m_factors = factors ∧ cb.m_variables = varBdds) := by
  have hok := create_ok D X varWithLowestIndex qdimacsToBdd mucMergeWeight factors varBdds
    largestSupportSet hcube hdiff
  refine ⟨?_, hok⟩
  constructor
  · rintro ⟨e, he⟩
    by_contra hcon
    rw [not_or, not_not] at hcon
    obtain ⟨hlen, hnot⟩ := hcon
    obtain ⟨q, hq⟩ := List.length_eq_one.1 hlen
    have hex : q.quantifierType = QuantifierType.Exists := by
      by_contra h
      exact hnot ⟨q, hq, h⟩
    obtain ⟨cb, hcb, _⟩ := hok q hq hex
    rw [hcb] at he
    cases he
  · rintro (hlen | ⟨q, hq, hne⟩)
    · unfold May22MucCallback.create
      rw [if_pos hlen]
      exact ⟨_, rfl⟩
    · unfold May22MucCallback.create
      rw [hq]
      simp only [List.length_singleton, ne_eq, not_true_eq_false, if_false]
      rw [if_pos hne]
      exact ⟨_, rfl⟩

/-- The operations `cubeDiff` and `varWithLowestIndex` on truth tables take a variable out
of a cube that is not `one`. -/
theorem tt_cubeDiff_lowest (n c : ℕ) (hc : (ttSemantics n).isCube c)
    (hne : (ttManager n).bdd_is_one c = false) :
    (ttSemantics n).isCube ((ttDriverOps n).cubeDiff c (ttVarWithLowestIndex n c)) ∧
    (ttSemantics n).vars ((ttDriverOps n).cubeDiff c (ttVarWithLowestIndex n c)) ⊂
      (ttSemantics n).vars c := by
  have D := ttManager_lawful n
  have hsupp : ttSupport n c ≠ [] := by
    intro hnil
    have hv : (ttSemantics n).vars c = ∅ := by
      show (ttSupport n c).toFinset = ∅
      rw [hnil]
      rfl
    have hone : c = (ttManager n).bdd_one :=
      D.cube_ext c _ hc D.cube_one (by rw [hv, D.vars_one])
    rw [(D.is_one_iff c).2 hone] at hne
    cases hne
  obtain ⟨i0, L', hL⟩ := List.exists_cons_of_ne_nil hsupp
  have hi0 : i0 < n := ttSupport_lt n c i0 (by rw [hL]; exact List.mem_cons_self _ _)
  have hlow : ttVarWithLowestIndex n c = ttCube n [i0] := by
    unfold ttVarWithLowestIndex
    rw [hL]
    rfl
  have hsub : ∀ i ∈ (ttSupport n c).filter
      (fun i => decide (i ∉ ttSupport n (ttVarWithLowestIndex n c))), i < n :=
    fun i hi => ttSupport_lt n c i (List.mem_filter.1 hi).1
  constructor
  · exact ⟨_, hsub, rfl⟩
  · show (ttSupport n (ttCube n ((ttSupport n c).filter
        (fun i => decide (i ∉ ttSupport n (ttVarWithLowestIndex n c)))))).toFinset ⊂
      (ttSupport n c).toFinset
    rw [toFinset_ttSupport_ttCube n _ hsub]
    refine (Finset.ssubset_iff_of_subset ?_).2 ⟨i0, ?_, ?_⟩
    · intro i hi
      rw [List.mem_toFinset] at hi ⊢
      exact (List.mem_filter.1 hi).1
    · rw [List.mem_toFinset, hL]
      exact List.mem_cons_self _ _
    · rw [List.mem_toFinset, List.mem_filter]
      rintro ⟨_, h⟩
      rw [hlow] at h
      have : i0 ∈ ttSupport n (ttCube n [i0]) :=
        (mem_ttSupport_ttCube n [i0] (by simpa using hi0) i0).2 (List.mem_singleton.2 rfl)
      simp [this] at h

/-- Witness of `create_fails_iff`: the callback for the problem `exampleQdimacs`
on truth tables over three variables is constructed. -/
theorem create_fails_iff_witness :
    ∃ cb, May22MucCallback.create (ttManager 3) (ttDriverOps 3) (ttVarWithLowestIndex 3)
        exampleQdimacsToBdd 2 [ttOr (ttVar 3 1) (ttVar 3 2)] [ttVar 3 1, ttVar 3 2] 50 =
        Except.ok cb ∧
      cb.m_mergeHints = MergeHints.empty ∧ cb.m_clauseData = [] ∧
      cb.m_factorGraphResult = (ttManager 3).bdd_one ∧ cb.m_mucMergeWeight = 2 ∧
      cb.m_factors = [ttOr (ttVar 3 1) (ttVar 3 2)] ∧
      cb.m_variables = [ttVar 3 1, ttVar 3 2] :=
  (create_fails_iff (ttManager_lawful 3) (ttDriverOps 3) (ttVarWithLowestIndex 3)
    exampleQdimacsToBdd 2 [ttOr (ttVar 3 1) (ttVar 3 2)] [ttVar 3 1, ttVar 3 2] 50
    (by
      intro q hq
      have : q = { quantifierType := QuantifierType.Exists, quantifiedVariables := ttVar 3 1 } :=
        List.mem_singleton.1 hq
      rw [this]
      exact ⟨[1], by decide, rfl⟩)
    (tt_cubeDiff_lowest 3)).2
    { quantifierType := QuantifierType.Exists, quantifiedVariables := ttVar 3 1 } rfl rfl

end Constructor

end may_22
namespace may_22

open blif_solve

section Registration

variable {α : Type}

theorem mem_quantifiedLiteralsOf (qvs clause : List ℤ) (x : ℤ) :
    x ∈ quantifiedLiteralsOf qvs clause ↔ x ∈ clause ∧ isQuantifiedVariable qvs x = true := by
  unfold quantifiedLiteralsOf
  have key : ∀ (l s : List ℤ),
      x ∈ l.foldl (fun s literal => if isQuantifiedVariable qvs literal then
        setInsert literal s else s) s ↔
      (x ∈ l ∧ isQuantifiedVariable qvs x = true) ∨ x ∈ s := by
    intro l
    induction l with
    | nil => intro s; simp
    | cons a l ih =>
      intro s
      rw [List.foldl_cons, ih]
      by_cases ha : isQuantifiedVariable qvs a = true
      · rw [if_pos ha, mem_setInsert, List.mem_cons]
        constructor
        · rintro (h | rfl | h)
          · exact Or.inl ⟨Or.inr h.1, h.2⟩
          · exact Or.inl ⟨Or.inl rfl, ha⟩
          · exact Or.inr h
        · rintro (⟨rfl | h, hq⟩ | h)
          · exact Or.inr (Or.inl rfl)
          · exact Or.inl ⟨h, hq⟩
          · exact Or.inr (Or.inr h)
      · rw [if_neg ha, List.mem_cons]
        constructor
        · rintro (h | h)
          · exact Or.inl ⟨Or.inr h.1, h.2⟩
          · exact Or.inr h
        · rintro (⟨rfl | h, hq⟩ | h)
          · exact absurd hq ha
          · exact Or.inl ⟨h, hq⟩
          · exact Or.inr h
  simpa using key clause []

theorem clauseDataFind_eq_none (m : List (List ℤ × ClauseData α)) (k : List ℤ) :
    clauseDataFind m k = none ↔ k ∉ m.map (fun e => e.1) := by
  induction m with
  | nil => simp [clauseDataFind]
  | cons e m ih =>
    unfold clauseDataFind
    by_cases h : e.1 = k
    · rw [if_pos h]
      simp [h]
    · rw [if_neg h, ih]
      simp only [List.map_cons, List.mem_cons, not_or]
      constructor
      · intro hk
        exact ⟨fun h2 => h h2.symm, hk⟩
      · exact fun hk => hk.2

theorem clauseDataFind_orderedInsert (k : List ℤ) (d : ClauseData α)
    (m : List (List ℤ × ClauseData α)) (hk : k ∉ m.map (fun e => e.1)) (k2 : List ℤ) :
    clauseDataFind (clauseDataOrderedInsert k d m) k2 =
      if k = k2 then some d else clauseDataFind m k2 := by
  induction m with
  | nil => simp [clauseDataOrderedInsert, clauseDataFind]
  | cons e m ih =>
    have hne : ¬ e.1 = k := by
      intro h
      apply hk
      rw [← h]
      exact List.mem_cons_self _ _
    have hk2 : k ∉ m.map (fun e => e.1) := fun h => hk (List.mem_cons_of_mem _ h)
    unfold clauseDataOrderedInsert
    by_cases hlt : clauseLt k e.1 = true
    · rw [if_pos hlt]
      simp [clauseDataFind]
    · rw [if_neg hlt]
      rw [clauseDataFind, ih hk2]
      by_cases hkk : k = k2
      · subst hkk
        rw [if_neg hne, if_pos rfl, if_pos rfl]
      · rw [if_neg hkk, if_neg hkk]
        rfl

theorem keys_orderedInsert_perm (k : List ℤ) (d : ClauseData α)
    (m : List (List ℤ × ClauseData α)) :
    ((clauseDataOrderedInsert k d m).map (fun e => e.1)).Perm (k :: m.map (fun e => e.1)) := by
  induction m with
  | nil => exact List.Perm.refl _
  | cons e m ih =>
    unfold clauseDataOrderedInsert
    by_cases hlt : clauseLt k e.1 = true
    · rw [if_pos hlt]
      exact List.Perm.refl _
    · rw [if_neg hlt]
      simp only [List.map_cons]
      exact (List.Perm.cons _ ih).trans (List.Perm.swap _ _ _)

theorem clauseDataInsert_new (k : List ℤ) (d : ClauseData α)
    (m : List (List ℤ × ClauseData α)) (hk : k ∉ m.map (fun e => e.1)) :
    clauseDataInsert k d m = clauseDataOrderedInsert k d m := by
  unfold clauseDataInsert
  rw [(clauseDataFind_eq_none m k).2 hk]
  rfl

end Registration

end may_22
namespace may_22

open blif_solve

section RegistrationStep

variable {α : Type}

theorem clausesWithQuantifiedLiteral_append (qvs : List ℤ) (done : List (List ℤ)) (c : List ℤ) :
    clausesWithQuantifiedLiteral qvs (done ++ [c]) =
      if quantifiedLiteralsOf qvs c = [] then clausesWithQuantifiedLiteral qvs done
      else clausesWithQuantifiedLiteral qvs done ++ [c] := by
  unfold clausesWithQuantifiedLiteral
  rw [List.filter_append]
  by_cases h : quantifiedLiteralsOf qvs c = []
  · rw [if_pos h]
    simp [List.filter, h]
  · rw [if_neg h]
    simp [List.filter, h]

theorem quantifiedLiteralsOf_le (qvs c : List ℤ) (numVariables : ℤ)
    (hlit : ∀ l ∈ c, 1 ≤ |l| ∧ |l| ≤ numVariables) :
    ∀ x ∈ quantifiedLiteralsOf qvs c, x ≤ numVariables := by
  intro x hx
  have := (hlit x ((mem_quantifiedLiteralsOf qvs c x).1 hx).1).2
  exact le_trans (le_abs_self x) this

/-- A clause without quantified literal leaves the registration as it is. -/
theorem Registered.skip {getBddOfClause : List ℤ → α} {getBddOfVariable : ℤ → α}
    {qvs : List ℤ} {numVariables : ℤ} {done : List (List ℤ)} {st : MustState α}
    {keys : List (List ℤ)}
    (h : Registered getBddOfClause getBddOfVariable qvs numVariables done st keys)
    (c : List ℤ) (hc : quantifiedLiteralsOf qvs c = []) :
    Registered getBddOfClause getBddOfVariable qvs numVariables (done ++ [c]) st keys := by
  have hrel : clausesWithQuantifiedLiteral qvs (done ++ [c]) =
      clausesWithQuantifiedLiteral qvs done := by
    rw [clausesWithQuantifiedLiteral_append, if_pos hc]
  constructor
  · rw [hrel]; exact h.len
  · exact h.nodup
  · exact h.perm
  · exact h.nmv
  · exact h.bound
  · rw [hrel]; exact h.ocs
  · exact h.src
  · rw [hrel]; exact h.entry

/-- A clause with a quantified literal that is registered under a key that is
not yet in the map extends the registration by that key. -/
theorem Registered.add {getBddOfClause : List ℤ → α} {getBddOfVariable : ℤ → α}
    {qvs : List ℤ} {numVariables : ℤ} {done : List (List ℤ)} {st : MustState α}
    {keys : List (List ℤ)}
    (h : Registered getBddOfClause getBddOfVariable qvs numVariables done st keys)
    (c : List ℤ) (hc : quantifiedLiteralsOf qvs c ≠ [])
    (hlit : ∀ l ∈ c, 1 ≤ |l| ∧ |l| ≤ numVariables) (st2 : MustState α) (k : List ℤ)
    (hdata : st2.mucCallback.m_clauseData =
      clauseDataInsert k (clauseDataOf getBddOfClause getBddOfVariable qvs c)
        st.mucCallback.m_clauseData)
    (hnmv : st.numMustVariables ≤ st2.numMustVariables)
    (hocs : ∀ s, s ∈ st2.outputClauseSet ↔
      s ∈ st.outputClauseSet ∨ s = quantifiedLiteralsOf qvs c)
    (hcase1 : quantifiedLiteralsOf qvs c ∉ st.outputClauseSet →
      k = quantifiedLiteralsOf qvs c)
    (hcase2 : quantifiedLiteralsOf qvs c ∈ st.outputClauseSet →
      ∃ v, st.numMustVariables < v ∧ v ≤ st2.numMustVariables ∧
        k = setInsert v (quantifiedLiteralsOf qvs c)) :
    Registered getBddOfClause getBddOfVariable qvs numVariables (done ++ [c]) st2
      (keys ++ [k]) := by
  have hrel : clausesWithQuantifiedLiteral qvs (done ++ [c]) =
      clausesWithQuantifiedLiteral qvs done ++ [c] := by
    rw [clausesWithQuantifiedLiteral_append, if_neg hc]
  have hql := quantifiedLiteralsOf_le qvs c numVariables hlit
  have hN := h.nmv
  -- the elements of the new key
  have hkmem : ∀ x ∈ k, x ∈ quantifiedLiteralsOf qvs c ∨
      (st.numMustVariables < x ∧ x ≤ st2.numMustVariables ∧
        quantifiedLiteralsOf qvs c ∈ st.outputClauseSet ∧
        k = setInsert x (quantifiedLiteralsOf qvs c)) := by
    intro x hx
    by_cases hin : quantifiedLiteralsOf qvs c ∈ st.outputClauseSet
    · obtain ⟨v, hv1, hv2, hkv⟩ := hcase2 hin
      rw [hkv, mem_setInsert] at hx
      rcases hx with rfl | hx
      · exact Or.inr ⟨hv1, hv2, hin, hkv⟩
      · exact Or.inl hx
    · rw [hcase1 hin] at hx
      exact Or.inl hx
  have hknew : k ∉ keys := by
    intro hk
    by_cases hin : quantifiedLiteralsOf qvs c ∈ st.outputClauseSet
    · obtain ⟨v, hv1, _, hkv⟩ := hcase2 hin
      have := h.bound k hk v (by rw [hkv, mem_setInsert]; exact Or.inl rfl)
      omega
    · have hk1 := hcase1 hin
      rcases h.src k hk with h1 | ⟨v, hv, hlt⟩
      · rw [hk1] at h1
        exact hin h1
      · rw [hk1] at hv
        have := hql v hv
        omega
  have hknew2 : k ∉ st.mucCallback.m_clauseData.map (fun e => e.1) :=
    fun hk => hknew (h.perm.mem_iff.1 hk)
  have hdata2 : st2.mucCallback.m_clauseData =
      clauseDataOrderedInsert k (clauseDataOf getBddOfClause getBddOfVariable qvs c)
        st.mucCallback.m_clauseData := by
    rw [hdata, clauseDataInsert_new k _ _ hknew2]
  have hlenk : keys.length = (clausesWithQuantifiedLiteral qvs done).length := h.len
  constructor
  · rw [hrel, List.length_append, List.length_append, h.len]
    rfl
  · rw [List.nodup_append]
    refine ⟨h.nodup, List.nodup_singleton k, ?_⟩
    intro a ha hb
    rw [List.mem_singleton] at hb
    subst hb
    exact hknew ha
  · rw [hdata2]
    exact (keys_orderedInsert_perm k _ _).trans
      ((List.Perm.cons k h.perm).trans (List.perm_append_singleton k keys).symm)
  · exact le_trans h.nmv hnmv
  · intro k2 hk2 x hx
    rw [List.mem_append, List.mem_singleton] at hk2
    rcases hk2 with hk2 | rfl
    · exact le_trans (h.bound k2 hk2 x hx) hnmv
    · rcases hkmem x hx with h1 | h1
      · have := hql x h1
        omega
      · exact h1.2.1
  · intro s
    rw [hocs, hrel, List.map_append, List.mem_append, h.ocs s]
    simp
  · intro k2 hk2
    rw [List.mem_append, List.mem_singleton] at hk2
    rcases hk2 with hk2 | rfl
    · rcases h.src k2 hk2 with h1 | h1
      · exact Or.inl ((hocs k2).2 (Or.inl h1))
      · exact Or.inr h1
    · by_cases hin : quantifiedLiteralsOf qvs c ∈ st.outputClauseSet
      · obtain ⟨v, hv1, _, hkv⟩ := hcase2 hin
        refine Or.inr ⟨v, ?_, by omega⟩
        rw [hkv, mem_setInsert]
        exact Or.inl rfl
      · left
        rw [hocs, hcase1 hin]
        exact Or.inr rfl
  · intro i k2 c2 hi1 hi2
    rw [hrel] at hi2 ⊢
    by_cases hi : i < keys.length
    · -- an entry that was there
      have hi' : i < (clausesWithQuantifiedLiteral qvs done).length := by omega
      rw [List.getElem?_append_left hi] at hi1
      rw [List.getElem?_append_left hi'] at hi2
      have htake : (clausesWithQuantifiedLiteral qvs done ++ [c]).take i =
          (clausesWithQuantifiedLiteral qvs done).take i :=
        List.take_append_of_le_length (le_of_lt hi')
      rw [htake]
      obtain ⟨e1, e2, e3⟩ := h.entry i k2 c2 hi1 hi2
      have hk2 : k2 ∈ keys := List.getElem?_mem hi1
      have hne : ¬ k = k2 := fun hkk => hknew (hkk ▸ hk2)
      refine ⟨?_, e2, ?_⟩
      · rw [hdata2, clauseDataFind_orderedInsert k _ _ hknew2, if_neg hne]
        exact e1
      · intro hmem
        obtain ⟨v, hv1, hv2, hv3, hv4, hv5⟩ := e3 hmem
        refine ⟨v, hv1, le_trans hv2 hnmv, hv3, hv4, ?_⟩
        intro j k3 hj hvk
        by_cases hjl : j < keys.length
        · rw [List.getElem?_append_left hjl] at hj
          exact hv5 j k3 hj hvk
        · exfalso
          rw [List.getElem?_append_right (not_lt.1 hjl)] at hj
          have hj0 : j - keys.length = 0 := by
            by_contra hne0
            rw [List.getElem?_eq_none (by simp; omega)] at hj
            cases hj
          rw [hj0] at hj
          simp only [List.getElem?_cons_zero, Option.some.injEq] at hj
          subst hj
          rcases hkmem v hvk with h1 | h1
          · have := hql v h1
            omega
          · omega
    · -- the new entry
      have hi' : (clausesWithQuantifiedLiteral qvs done).length ≤ i := by omega
      rw [List.getElem?_append_right (not_lt.1 hi)] at hi1
      rw [List.getElem?_append_right hi'] at hi2
      have hi0 : i - keys.length = 0 := by
        by_contra hne0
        rw [List.getElem?_eq_none (by simp; omega)] at hi1
        cases hi1
      have hieq : i = keys.length := by omega
      rw [hi0] at hi1
      rw [← hlenk, hi0] at hi2
      simp only [List.getElem?_cons_zero, Option.some.injEq] at hi1 hi2
      subst hi1
      subst hi2
      have htake : (clausesWithQuantifiedLiteral qvs done ++ [c]).take i =
          clausesWithQuantifiedLiteral qvs done := by
        rw [hieq, hlenk]
        exact List.take_left' rfl
      rw [htake, ← h.ocs]
      refine ⟨?_, hcase1, ?_⟩
      · rw [hdata2, clauseDataFind_orderedInsert k _ _ hknew2, if_pos rfl]
      · intro hin
        obtain ⟨v, hv1, hv2, hkv⟩ := hcase2 hin
        refine ⟨v, by omega, hv2, hkv, ?_, ?_⟩
        · intro hv
          have := hql v hv
          omega
        · intro j k3 hj hvk
          by_contra hji
          by_cases hjl : j < keys.length
          · rw [List.getElem?_append_left hjl] at hj
            have := h.bound k3 (List.getElem?_mem hj) v hvk
            omega
          · rw [List.getElem?_append_right (not_lt.1 hjl)] at hj
            rw [List.getElem?_eq_none (by simp; omega)] at hj
            cases hj

end RegistrationStep

end may_22
namespace may_22

open blif_solve

section RegistrationLoop

variable {α : Type}

/-- One round of the clause loop keeps the invariant of the registration. -/
theorem clauseStep_registered {getBddOfClause : List ℤ → α} {getBddOfVariable : ℤ → α}
    {qvs : List ℤ} {numVariables : ℤ} {done : List (List ℤ)} {st : MustState α}
    {keys : List (List ℤ)}
    (h : Registered getBddOfClause getBddOfVariable qvs numVariables done st keys)
    (c : List ℤ) (hlit : ∀ l ∈ c, 1 ≤ |l| ∧ |l| ≤ numVariables) :
    ∃ keys2, Registered getBddOfClause getBddOfVariable qvs numVariables (done ++ [c])
      (clauseStep getBddOfClause getBddOfVariable qvs st c) keys2 := by
  by_cases hc : quantifiedLiteralsOf qvs c = []
  · refine ⟨keys, ?_⟩
    have : clauseStep getBddOfClause getBddOfVariable qvs st c = st := by
      unfold clauseStep
      simp only [hc, if_true]
    rw [this]
    exact h.skip c hc
  · by_cases hin : quantifiedLiteralsOf qvs c ∈ st.outputClauseSet
    · refine ⟨keys ++ [setInsert (st.numMustVariables + 1) (quantifiedLiteralsOf qvs c)], ?_⟩
      have hstep : clauseStep getBddOfClause getBddOfVariable qvs st c =
          { outputClauses := st.outputClauses ++
              [setInsert (st.numMustVariables + 1) (quantifiedLiteralsOf qvs c)] ++
              [[-(st.numMustVariables + 1)]]
            outputClauseSet := st.outputClauseSet
            nonQuantifiedLiteralToOutputClausePosMap :=
              (nonQuantifiedLiteralsOf qvs c).foldl
                (fun m literal => posMapInsert literal st.outputClauses.length m)
                st.nonQuantifiedLiteralToOutputClausePosMap
            numMustVariables := st.numMustVariables + 1
            mucCallback := st.mucCallback.addClause
              (setInsert (st.numMustVariables + 1) (quantifiedLiteralsOf qvs c))
              (clauseDataOf getBddOfClause getBddOfVariable qvs c).varNodes
              (clauseDataOf getBddOfClause getBddOfVariable qvs c).funcNode
              (clauseDataOf getBddOfClause getBddOfVariable qvs c).literalAssignments } := by
        unfold clauseStep
        simp only [hc, if_false, hin, not_true_eq_false]
      rw [hstep]
      refine h.add c hc hlit _ _ rfl ?_ ?_ ?_ ?_
      · show st.numMustVariables ≤ st.numMustVariables + 1
        omega
      · intro s
        show s ∈ st.outputClauseSet ↔ _
        constructor
        · exact Or.inl
        · rintro (h1 | rfl)
          · exact h1
          · exact hin
      · intro hn
        exact absurd hin hn
      · intro _
        refine ⟨st.numMustVariables + 1, by omega, le_refl _, rfl⟩
    · refine ⟨keys ++ [quantifiedLiteralsOf qvs c], ?_⟩
      have hstep : clauseStep getBddOfClause getBddOfVariable qvs st c =
          { outputClauses := st.outputClauses ++ [quantifiedLiteralsOf qvs c]
            outputClauseSet := st.outputClauseSet ++ [quantifiedLiteralsOf qvs c]
            nonQuantifiedLiteralToOutputClausePosMap :=
              (nonQuantifiedLiteralsOf qvs c).foldl
                (fun m literal => posMapInsert literal st.outputClauses.length m)
                st.nonQuantifiedLiteralToOutputClausePosMap
            numMustVariables := st.numMustVariables
            mucCallback := st.mucCallback.addClause (quantifiedLiteralsOf qvs c)
              (clauseDataOf getBddOfClause getBddOfVariable qvs c).varNodes
              (clauseDataOf getBddOfClause getBddOfVariable qvs c).funcNode
              (clauseDataOf getBddOfClause getBddOfVariable qvs c).literalAssignments } := by
        unfold clauseStep
        simp only [hc, if_false, hin, not_false_eq_true, if_true]
      rw [hstep]
      refine h.add c hc hlit _ _ rfl (le_refl _) ?_ ?_ ?_
      · intro s
        show s ∈ st.outputClauseSet ++ [quantifiedLiteralsOf qvs c] ↔ _
        rw [List.mem_append, List.mem_singleton]
      · intro _
        rfl
      · intro hy
        exact absurd hy hin

/-- The clause loop keeps the invariant of the registration. -/
theorem foldl_clauseStep_registered {getBddOfClause : List ℤ → α} {getBddOfVariable : ℤ → α}
    {qvs : List ℤ} {numVariables : ℤ} (clauses : List (List ℤ)) :
    ∀ (done : List (List ℤ)) (st : MustState α) (keys : List (List ℤ)),
      Registered getBddOfClause getBddOfVariable qvs numVariables done st keys →
      (∀ c ∈ clauses, ∀ l ∈ c, 1 ≤ |l| ∧ |l| ≤ numVariables) →
      ∃ keys2, Registered getBddOfClause getBddOfVariable qvs numVariables (done ++ clauses)
        (clauses.foldl (clauseStep getBddOfClause getBddOfVariable qvs) st) keys2 := by
  induction clauses with
  | nil =>
    intro done st keys h _
    exact ⟨keys, by simpa using h⟩
  | cons c clauses ih =>
    intro done st keys h hlit
    obtain ⟨keys1, h1⟩ := clauseStep_registered h c (hlit c (List.mem_cons_self _ _))
    obtain ⟨keys2, h2⟩ := ih (done ++ [c]) _ keys1 h1
      (fun c2 hc2 => hlit c2 (List.mem_cons_of_mem _ hc2))
    refine ⟨keys2, ?_⟩
    rw [List.foldl_cons]
    have : done ++ c :: clauses = done ++ [c] ++ clauses := by simp
    rw [this]
    exact h2

/-- Before the clause loop nothing is registered. -/
theorem Registered.init (getBddOfClause : List ℤ → α) (getBddOfVariable : ℤ → α)
    (qvs : List ℤ) (numVariables : ℤ) (cb : May22MucCallback α) (hcb : cb.m_clauseData = []) :
    Registered getBddOfClause getBddOfVariable qvs numVariables []
      { outputClauses := []
        outputClauseSet := []
        nonQuantifiedLiteralToOutputClausePosMap := []
        numMustVariables := numVariables
        mucCallback := cb } [] := by
  constructor
  · rfl
  · exact List.nodup_nil
  · show (cb.m_clauseData.map (fun e => e.1)).Perm []
    rw [hcb]
    exact List.Perm.refl _
  · exact le_refl _
  · intro k hk
    cases hk
  · intro s
    simp [clausesWithQuantifiedLiteral]
  · intro k hk
    cases hk
  · intro i k c hk
    simp at hk

end RegistrationLoop

section RegistrationClaim

variable {α : Type} [LinearOrder α]

/-- C29. For a problem with one existential quantifier block whose literals use
only the variables `1..numVariables`, `createMustMaster` returns, and the map
`m_clauseData` of its callback has exactly one entry for each input clause
with a quantified literal and none for the other clauses: there is a list
`keys` of pairwise distinct keys, one for each such clause in their order,
the keys of the map are exactly these, under the key of a clause the map
holds the data of that clause, the key of a clause whose set of quantified
literals did not occur before is that set, and the key of a repeat is that
set with a fake variable above `numVariables` that is in no other key.  The
BDD side of the problem is assumed to have the one existential block as a
cube from which `cubeDiff` with `varWithLowestIndex` takes a variable out. -/
theorem createMustMaster_registers {M : DdManager α} {S : Semantics α} (D : M.Lawful S)
    (X : DriverOps α) (varWithLowestIndex : α → α) (getBddOfClause : List ℤ → α)
    (getBddOfVariable : ℤ → α) (qdimacs : Qdimacs) (qdimacsToBdd : QdimacsToBdd α)
    (mucMergeWeight : ℚ) (factors varBdds : List α) (largestSupportSet : ℚ)
    (hcube : ∀ q ∈ qdimacsToBdd.quantifications, S.isCube q.quantifiedVariables)
    (hdiff : ∀ c, S.isCube c → M.bdd_is_one c = false →
      S.isCube (X.cubeDiff c (varWithLowestIndex c)) ∧
      S.vars (X.cubeDiff c (varWithLowestIndex c)) ⊂ S.vars c)
    (qb : BddQuantification α) (hqb : qdimacsToBdd.quantifications = [qb])
    (hqbex : qb.quantifierType = QuantifierType.Exists)
    (q : Quantifier) (hq : qdimacs.quantifiers = [q])
    (hex : q.quantifierType = QuantifierType.Exists)
    (hlit : ∀ c ∈ qdimacs.clauses, ∀ l ∈ c, 1 ≤ |l| ∧ |l| ≤ qdimacs.numVariables) :
    ∃ (st : MustState α) (keys : List (List ℤ)),
      createMustMaster M X varWithLowestIndex getBddOfClause getBddOfVariable qdimacs
        qdimacsToBdd mucMergeWeight factors varBdds largestSupportSet = Except.ok st ∧
      st.mucCallback.m_clauseData.length =
        (clausesWithQuantifiedLiteral (setOfList q.quantifierVariables) qdimacs.clauses).length ∧
      keys.length =
        (clausesWithQuantifiedLiteral (setOfList q.quantifierVariables) qdimacs.clauses).length ∧
      keys.Nodup ∧
      (st.mucCallback.m_clauseData.map (fun e => e.1)).Perm keys ∧
      ∀ (i : ℕ) (k c : List ℤ), keys[i]? = some k →
        (clausesWithQuantifiedLiteral (setOfList q.quantifierVariables) qdimacs.clauses)[i]? =
          some c →
        clauseDataFind st.mucCallback.m_clauseData k =
            some (clauseDataOf getBddOfClause getBddOfVariable
              (setOfList q.quantifierVariables) c) ∧
          (quantifiedLiteralsOf (setOfList q.quantifierVariables) c ∉
              ((clausesWithQuantifiedLiteral (setOfList q.quantifierVariables)
                qdimacs.clauses).take i).map
                (quantifiedLiteralsOf (setOfList q.quantifierVariables)) →
            k = quantifiedLiteralsOf (setOfList q.quantifierVariables) c) ∧
          (quantifiedLiteralsOf (setOfList q.quantifierVariables) c ∈
              ((clausesWithQuantifiedLiteral (setOfList q.quantifierVariables)
                qdimacs.clauses).take i).map
                (quantifiedLiteralsOf (setOfList q.quantifierVariables)) →
            ∃ v, qdimacs.numVariables < v ∧
              k = setInsert v (quantifiedLiteralsOf (setOfList q.quantifierVariables) c) ∧
              v ∉ quantifiedLiteralsOf (setOfList q.quantifierVariables) c ∧
              ∀ (j : ℕ) (k2 : List ℤ), keys[j]? = some k2 → v ∈ k2 → j = i) := by
  obtain ⟨cb, hcb, _, hdata, _⟩ := create_ok D X varWithLowestIndex qdimacsToBdd mucMergeWeight
    factors varBdds largestSupportSet hcube hdiff qb hqb hqbex
  obtain ⟨keys, hreg⟩ := foldl_clauseStep_registered qdimacs.clauses [] _ []
    (Registered.init getBddOfClause getBddOfVariable (setOfList q.quantifierVariables)
      qdimacs.numVariables cb hdata) hlit
  rw [List.nil_append] at hreg
  refine ⟨_, keys, ?_, ?_, hreg.len, hreg.nodup, hreg.perm, ?_⟩
  · unfold createMustMaster
    rw [hq]
    simp only [List.length_singleton, ne_eq, not_true_eq_false, if_false, hex, hcb]
  · rw [← hreg.len, ← hreg.perm.length_eq, List.length_map]
  · intro i k c hk hc
    obtain ⟨e1, e2, e3⟩ := hreg.entry i k c hk hc
    refine ⟨e1, e2, ?_⟩
    intro hmem
    obtain ⟨v, hv1, _, hv3, hv4, hv5⟩ := e3 hmem
    exact ⟨v, hv1, hv3, hv4, hv5⟩

/-- Witness of `createMustMaster_registers`: the problem `exampleQdimacs` on truth tables
over three variables; its three clauses with the quantified variable are
registered under three keys. -/
theorem createMustMaster_registers_witness :
    ∃ (st : MustState ℕ) (keys : List (List ℤ)),
      createMustMaster (ttManager 3) (ttDriverOps 3) (ttVarWithLowestIndex 3)
        (ttGetBddOfClause 3) (ttGetBddOfVariable 3) exampleQdimacs exampleQdimacsToBdd 2
        [ttOr (ttVar 3 1) (ttVar 3 2)] [ttVar 3 1, ttVar 3 2] 50 = Except.ok st ∧
      st.mucCallback.m_clauseData.length =
        (clausesWithQuantifiedLiteral (setOfList [1]) exampleQdimacs.clauses).length ∧
      keys.length =
        (clausesWithQuantifiedLiteral (setOfList [1]) exampleQdimacs.clauses).length ∧
      keys.Nodup ∧
      (st.mucCallback.m_clauseData.map (fun e => e.1)).Perm keys ∧
      ∀ (i : ℕ) (k c : List ℤ), keys[i]? = some k →
        (clausesWithQuantifiedLiteral (setOfList [1]) exampleQdimacs.clauses)[i]? = some c →
        clauseDataFind st.mucCallback.m_clauseData k =
            some (clauseDataOf (ttGetBddOfClause 3) (ttGetBddOfVariable 3) (setOfList [1]) c) ∧
          (quantifiedLiteralsOf (setOfList [1]) c ∉
              ((clausesWithQuantifiedLiteral (setOfList [1]) exampleQdimacs.clauses).take i).map
                (quantifiedLiteralsOf (setOfList [1])) →
            k = quantifiedLiteralsOf (setOfList [1]) c) ∧
          (quantifiedLiteralsOf (setOfList [1]) c ∈
              ((clausesWithQuantifiedLiteral (setOfList [1]) exampleQdimacs.clauses).take i).map
                (quantifiedLiteralsOf (setOfList [1])) →
            ∃ v, exampleQdimacs.numVariables < v ∧
              k = setInsert v (quantifiedLiteralsOf (setOfList [1]) c) ∧
              v ∉ quantifiedLiteralsOf (setOfList [1]) c ∧
              ∀ (j : ℕ) (k2 : List ℤ), keys[j]? = some k2 → v ∈ k2 → j = i) :=
  createMustMaster_registers (ttManager_lawful 3) (ttDriverOps 3) (ttVarWithLowestIndex 3)
    (ttGetBddOfClause 3) (ttGetBddOfVariable 3) exampleQdimacs exampleQdimacsToBdd 2
    [ttOr (ttVar 3 1) (ttVar 3 2)] [ttVar 3 1, ttVar 3 2] 50
    (by
      intro q hq
      have : q = { quantifierType := QuantifierType.Exists, quantifiedVariables := ttVar 3 1 } :=
        List.mem_singleton.1 hq
      rw [this]
      exact ⟨[1], by decide, rfl⟩)
    (tt_cubeDiff_lowest 3)
    { quantifierType := QuantifierType.Exists, quantifiedVariables := ttVar 3 1 } rfl rfl
    { quantifierType := QuantifierType.Exists, quantifierVariables := [1] } rfl rfl
    (by decide)

/-- The keys and the fake variable of the problem `exampleQdimacs`: the first and
the second clause are registered under their quantified literals, the third
under those of the first with the fake variable 3, and the last clause is not
registered. -/
theorem createMustMaster_example :
    (createMustMaster (ttManager 3) (ttDriverOps 3) (ttVarWithLowestIndex 3)
        (ttGetBddOfClause 3) (ttGetBddOfVariable 3) exampleQdimacs exampleQdimacsToBdd 2
        [ttOr (ttVar 3 1) (ttVar 3 2)] [ttVar 3 1, ttVar 3 2] 50).toOption.map
      (fun st => (st.mucCallback.m_clauseData.map (fun e => e.1), st.numMustVariables,
        st.outputClauses)) =
    some ([[-1], [1], [1, 3]], 3, [[1], [-1], [1, 3], [-3]]) := by
  with_unfolding_all decide

end RegistrationClaim

end may_22
namespace blif_solve

set_option maxRecDepth 1000000 in
set_option maxHeartbeats 4000000 in
/-- C28 against the code: for the factors `a ∨ b`, `¬(a ∨ b)`, `a ∨ c`, the
variables `a`, `b`, `c` and the bound 3 (nodes at the addresses `0, 1, 2, ...`),
whatever the tie-break, the first round contracts the first two factors into
the node 6 with the BDD `zero`, whose support is the empty cube of size 0; the
refresh of that round calls `getCompatibility` for the node 6 and the third
factor (node 2), the call passes both gates and evaluates the score with
`f1Size = 0`, that is with the divisor `min(0, 2) = 0`, and the merger of the
two nodes is created from its result. -/
theorem getCompatibility_zero_divisor (tie : ℕ → ℕ) :
    ∃ s, stateAfter (ttManager 3) id tie 1
        [ttOr (ttVar 3 0) (ttVar 3 1), may_22.ttNot 3 (ttOr (ttVar 3 0) (ttVar 3 1)),
          ttOr (ttVar 3 0) (ttVar 3 2)]
        [ttVar 3 0, ttVar 3 1, ttVar 3 2] 3 MergeHints.empty [] = Except.ok s ∧
      (nodeAt (ttManager 3) s.nodes 6).type = NodeType.Func ∧
      (nodeAt (ttManager 3) s.nodes 6).node =
        (ttManager 3).bdd_and (ttOr (ttVar 3 0) (ttVar 3 1))
          (may_22.ttNot 3 (ttOr (ttVar 3 0) (ttVar 3 1))) ∧
      (ttManager 3).bdd_size (nodeAt (ttManager 3) s.nodes 6).supportSet = 0 ∧
      (ttManager 3).bdd_size (nodeAt (ttManager 3) s.nodes 2).supportSet = 2 ∧
      s.mergers.length = 7 ∧ mergerAt s.mergers 6 = ⟨6, 2⟩ ∧
      (∃ priority, (6, priority) ∈ s.heap) ∧
      (getCompatibility (ttManager 3) s.nodes 6 2 3
        (s.hints.getWeight (nodeAt (ttManager 3) s.nodes 6).node
          (nodeAt (ttManager 3) s.nodes 2).node) s.qf).isSome = true := by
  obtain ⟨s, hs, hc⟩ := everyStateAfter_spec (ttManager 3) id 1
    [ttOr (ttVar 3 0) (ttVar 3 1), may_22.ttNot 3 (ttOr (ttVar 3 0) (ttVar 3 1)),
      ttOr (ttVar 3 0) (ttVar 3 2)]
    [ttVar 3 0, ttVar 3 1, ttVar 3 2] 3 MergeHints.empty []
    (fun s => decide ((nodeAt (ttManager 3) s.nodes 6).type = NodeType.Func ∧
      (nodeAt (ttManager 3) s.nodes 6).node =
        (ttManager 3).bdd_and (ttOr (ttVar 3 0) (ttVar 3 1))
          (may_22.ttNot 3 (ttOr (ttVar 3 0) (ttVar 3 1))) ∧
      (ttManager 3).bdd_size (nodeAt (ttManager 3) s.nodes 6).supportSet = 0 ∧
      (ttManager 3).bdd_size (nodeAt (ttManager 3) s.nodes 2).supportSet = 2 ∧
      s.mergers.length = 7 ∧ mergerAt s.mergers 6 = ⟨6, 2⟩ ∧
      (s.heap.any (fun e => decide (e.1 = 6))) = true ∧
      (getCompatibility (ttManager 3) s.nodes 6 2 3
        (s.hints.getWeight (nodeAt (ttManager 3) s.nodes 6).node
          (nodeAt (ttManager 3) s.nodes 2).node) s.qf).isSome = true))
    (by with_unfolding_all rfl) tie
  obtain ⟨h1, h2, h3, h4, h5, h6, h7, h8⟩ := of_decide_eq_true hc
  refine ⟨s, hs, h1, h2, h3, h4, h5, h6, ?_, h8⟩
  obtain ⟨e, he, he1⟩ := List.any_eq_true.1 h7
  refine ⟨e.2, ?_⟩
  have : e.1 = 6 := of_decide_eq_true he1
  rw [← this]
  exact he

end blif_solve
namespace blif_solve

section ReferenceLemmas

variable {α : Type} [LinearOrder α]

end ReferenceLemmas

end blif_solve
namespace blif_solve

section ReferenceState

variable {α : Type} [LinearOrder α]

end ReferenceState

end blif_solve
namespace blif_solve

section ReferenceBalance

variable {α : Type} [LinearOrder α]

end ReferenceBalance

end blif_solve
/-! ## The cells of the heap after a round of the main loop -/

namespace blif_solve

section RefreshExactProofs

variable {α : Type} [LinearOrder α]

/-- The value of `getCompatibility` in a state of the loop over `oldMergers` is
the value in the state at the start of the loop. -/
theorem refreshCompat_congr (M : DdManager α) (lss : ℤ) (isVar : Bool) (s1 c : MergeState α)
    (L y : ℕ) (hcore : SameCore M s1.nodes c.nodes) (hframe : Frame s1 c) :
    getCompatibility M c.nodes L y lss
      (c.hints.getWeight (nodeAt M c.nodes L).node (nodeAt M c.nodes y).node)
      (if isVar then c.qv else c.qf) = refreshCompat M lss isVar s1 L y := by
  unfold refreshCompat
  rw [getCompatibility_congr M hcore, hframe.1, hframe.2.1, hframe.2.2.1,
    core_node (hcore.2 L), core_node (hcore.2 y)]

/-- Unlinking a handled old merger keeps the invariant of the cells. -/
theorem RefreshExact.unlink_exact (M : DdManager α) (lss : ℤ) (isVar : Bool) (n1 n2 L : ℕ)
    (s1 : MergeState α) (pre : List ℕ) (acc : MergeState α × List ℕ) (old y : ℕ)
    (set' : List ℕ) (nodes' : List (AmNode α))
    (hold : old < s1.mergers.length)
    (hy : otherNode s1.mergers old n1 n2 = some y)
    (hset : ∀ z, z ∈ set' ↔ z ∈ acc.2 ∨ z = y)
    (hcomp : y ∈ acc.2 ∨ refreshCompat M lss isVar s1 L y = none)
    (hE : RefreshExact M lss isVar n1 n2 L s1 pre acc) :
    RefreshExact M lss isVar n1 n2 L s1 (pre ++ [old])
      ({ acc.1 with nodes := nodes', heap := MaxHeap.remove acc.1.heap old }, set') := by
  constructor
  · intro e he hle
    exact hE.heap_new e ((MaxHeap.mem_remove _ _ _).1 he).1 hle
  · intro e he hall
    refine (MaxHeap.mem_remove _ _ _).2 ⟨hE.heap_kept e he ?_, ?_⟩
    · intro o ho
      exact hall o (List.mem_append_left _ ho)
    · exact hall old (List.mem_append_right _ (List.mem_singleton.2 rfl)) (by rw [hy]; rfl)
  · intro o ho z hz
    rcases List.mem_append.1 ho with h | h
    · exact (hset z).2 (Or.inl (hE.set_cover o h z hz))
    · rw [List.mem_singleton] at h
      subst h
      rw [hy] at hz
      cases hz
      exact (hset _).2 (Or.inr rfl)
  · intro z hz p hp
    have hz' : z ∈ acc.2 := by
      rcases (hset z).1 hz with h | h
      · exact h
      · subst h
        rcases hcomp with h' | h'
        · exact h'
        · rw [h'] at hp
          cases hp
    obtain ⟨j, hj1, hj2, hj3, hj4⟩ := hE.complete z hz' p hp
    refine ⟨j, hj1, hj2, hj3, (MaxHeap.mem_remove _ _ _).2 ⟨hj4, ?_⟩⟩
    show j ≠ old
    omega

/-- One round of the loop over `oldMergers` keeps the invariant of the cells. -/
theorem RefreshExact.step_exact (M : DdManager α) (addr : ℕ → ℕ) (lss : ℤ) (isVar : Bool)
    (n1 n2 L : ℕ) (olds : List ℕ) (s1 : MergeState α) (pre : List ℕ)
    (acc acc' : MergeState α × List ℕ) (old : ℕ) (hold : old < s1.mergers.length)
    (hP : RefreshInv M lss (if isVar then s1.qv else s1.qf) n1 n2 L olds s1 acc)
    (hE : RefreshExact M lss isVar n1 n2 L s1 pre acc)
    (h : refreshOne M addr lss isVar n1 n2 L acc old = Except.ok acc') :
    RefreshExact M lss isVar n1 n2 L s1 (pre ++ [old]) acc' := by
  obtain ⟨new, hnew, _⟩ := hP.added.mergers
  have hother : otherNode acc.1.mergers old n1 n2 = otherNode s1.mergers old n1 n2 := by
    rw [hnew]
    exact otherNode_congr _ _ _ _ hold
  have hlen : s1.mergers.length ≤ acc.1.mergers.length := by
    rw [hnew, List.length_append]
    omega
  unfold refreshOne at h
  rw [pullOutOtherNode_eq] at h
  cases hy : otherNode acc.1.mergers old n1 n2 with
  | none =>
    rw [hy] at h
    simp only at h
    cases h
    have hy' : otherNode s1.mergers old n1 n2 = none := by rw [← hother]; exact hy
    constructor
    · exact hE.heap_new
    · intro e he hall
      exact hE.heap_kept e he (fun o ho => hall o (List.mem_append_left _ ho))
    · intro o ho z hz
      rcases List.mem_append.1 ho with h | h
      · exact hE.set_cover o h z hz
      · rw [List.mem_singleton] at h
        subst h
        rw [hy'] at hz
        cases hz
    · exact hE.complete
  | some y =>
    rw [hy] at h
    simp only at h
    have hy' : otherNode s1.mergers old n1 n2 = some y := by rw [← hother]; exact hy
    have hcoreU : SameCore M s1.nodes (updateNode
        (fun n => { n with mergers := n.mergers.filter (fun m => decide (m ≠ old)) })
        y acc.1.nodes) := hP.added.core.trans_core (sameCore_filter M acc.1.nodes y old)
    have hcompU := refreshCompat_congr M lss isVar s1
      { acc.1 with
        nodes := updateNode
          (fun n => { n with mergers := n.mergers.filter (fun m => decide (m ≠ old)) })
          y acc.1.nodes
        heap := MaxHeap.remove acc.1.heap old } L y hcoreU hP.added.frame
    split at h
    · -- the other node was met before
      rename_i hmem
      cases h
      exact RefreshExact.unlink_exact M lss isVar n1 n2 L s1 pre acc old y acc.2 _ hold hy'
        (fun z => ⟨fun hz => Or.inl hz, fun hz => by
          rcases hz with hz | hz
          · exact hz
          · rw [hz]; exact hmem⟩) (Or.inl hmem) hE
    · rename_i hmem
      split at h
      · -- a new merger is created
        rename_i priority hc
        have hc' : refreshCompat M lss isVar s1 L y = some priority := by
          rw [← hcompU]
          exact hc
        unfold newMerger at h
        simp only at h
        split at h
        · cases h
        · simp only [Except.map] at h
          cases h
          constructor
          · intro e he hle
            have he' : e ∈ MaxHeap.remove acc.1.heap old ++ [(acc.1.mergers.length, priority)] :=
              he
            show e.1 < (acc.1.mergers ++ [(⟨L, y⟩ : AmMerger)]).length ∧
              refreshCompat M lss isVar s1 L (mergerAt (acc.1.mergers ++ [(⟨L, y⟩ : AmMerger)]) e.1).node2 =
                some e.2
            rw [List.length_append, List.length_singleton]
            rcases List.mem_append.1 he' with h' | h'
            · obtain ⟨h1, h2⟩ := hE.heap_new e ((MaxHeap.mem_remove _ _ _).1 h').1 hle
              rw [mergerAt_append_left _ _ h1]
              exact ⟨Nat.lt_succ_of_lt h1, h2⟩
            · rw [List.mem_singleton] at h'
              subst h'
              rw [mergerAt_append_length]
              exact ⟨Nat.lt_succ_self _, hc'⟩
          · intro e he hall
            show e ∈ MaxHeap.remove acc.1.heap old ++ [(acc.1.mergers.length, priority)]
            refine List.mem_append_left _ ((MaxHeap.mem_remove _ _ _).2 ⟨hE.heap_kept e he ?_, ?_⟩)
            · intro o ho
              exact hall o (List.mem_append_left _ ho)
            · exact hall old (List.mem_append_right _ (List.mem_singleton.2 rfl))
                (by rw [hy']; rfl)
          · intro o ho z hz
            show z ∈ ptrSetInsert addr y acc.2
            rw [mem_ptrSetInsert]
            rcases List.mem_append.1 ho with h' | h'
            · exact Or.inr (hE.set_cover o h' z hz)
            · rw [List.mem_singleton] at h'
              subst h'
              rw [hy'] at hz
              cases hz
              exact Or.inl rfl
          · intro z hz p hp
            have hz' : z ∈ ptrSetInsert addr y acc.2 := hz
            rw [mem_ptrSetInsert] at hz'
            show ∃ j, s1.mergers.length ≤ j ∧ j < (acc.1.mergers ++ [(⟨L, y⟩ : AmMerger)]).length ∧
              mergerAt (acc.1.mergers ++ [(⟨L, y⟩ : AmMerger)]) j = ⟨L, z⟩ ∧
              (j, p) ∈ MaxHeap.remove acc.1.heap old ++ [(acc.1.mergers.length, priority)]
            rw [List.length_append, List.length_singleton]
            rcases hz' with h' | h'
            · subst h'
              rw [hc'] at hp
              cases hp
              refine ⟨acc.1.mergers.length, hlen, Nat.lt_succ_self _, ?_, ?_⟩
              · rw [mergerAt_append_length]
              · exact List.mem_append_right _ (List.mem_singleton.2 rfl)
            · obtain ⟨j, hj1, hj2, hj3, hj4⟩ := hE.complete z h' p hp
              refine ⟨j, hj1, Nat.lt_succ_of_lt hj2, ?_, ?_⟩
              · rw [mergerAt_append_left _ _ hj2]
                exact hj3
              · refine List.mem_append_left _ ((MaxHeap.mem_remove _ _ _).2 ⟨hj4, ?_⟩)
                show j ≠ old
                omega
      · -- the pair is not eligible
        rename_i hc
        cases h
        have hc' : refreshCompat M lss isVar s1 L y = none := by
          rw [← hcompU]
          exact hc
        exact RefreshExact.unlink_exact M lss isVar n1 n2 L s1 pre acc old y _ _ hold hy'
          (fun z => by rw [mem_ptrSetInsert]; exact or_comm) (Or.inr hc') hE

theorem refreshExact_init (M : DdManager α) (lss : ℤ) (isVar : Bool) (n1 n2 L : ℕ)
    (s1 : MergeState α) (hheap : ∀ e ∈ s1.heap, e.1 < s1.mergers.length) :
    RefreshExact M lss isVar n1 n2 L s1 [] (s1, []) := by
  constructor
  · intro e he hle
    have := hheap e he
    omega
  · intro e he _
    exact he
  · intro o ho
    cases ho
  · intro y hy
    cases hy

/-- The loop over `oldMergers` keeps the three invariants; `pre` is the list of
the old mergers handled before. -/
theorem refresh_fold_exact (M : DdManager α) (addr : ℕ → ℕ) (lss : ℤ) (isVar : Bool)
    (n1 n2 L : ℕ) (olds : List ℕ) (s1 : MergeState α)
    (hn1 : n1 < L) (hn2 : n2 < L) (hml : L < s1.nodes.length)
    (ht1 : (nodeAt M s1.nodes n1).type = (nodeAt M s1.nodes L).type)
    (ht2 : (nodeAt M s1.nodes n2).type = (nodeAt M s1.nodes L).type) :
    ∀ (l pre : List ℕ) (acc : MergeState α × List ℕ),
      RefreshInv M lss (if isVar then s1.qv else s1.qf) n1 n2 L olds s1 acc →
      RefreshAlive M n1 n2 L s1 pre acc →
      RefreshExact M lss isVar n1 n2 L s1 pre acc →
      (∀ old ∈ l, OldMerger s1.mergers n1 n2 L olds old) →
      ∃ acc', l.foldlM (refreshOne M addr lss isVar n1 n2 L) acc = Except.ok acc' ∧
        RefreshInv M lss (if isVar then s1.qv else s1.qf) n1 n2 L olds s1 acc' ∧
        RefreshAlive M n1 n2 L s1 (pre ++ l) acc' ∧
        RefreshExact M lss isVar n1 n2 L s1 (pre ++ l) acc' := by
  intro l
  induction l with
  | nil =>
    intro pre acc hP hA hE _
    exact ⟨acc, rfl, hP, by simpa using hA, by simpa using hE⟩
  | cons old l ih =>
    intro pre acc hP hA hE hQ
    have hQo := hQ old (List.mem_cons_self _ _)
    obtain ⟨acc1, h1, hP1⟩ := refreshOne_step M addr lss isVar n1 n2 L olds s1 hn1 hn2 hml
      ht1 ht2 acc old hP hQo
    have hA1 := RefreshAlive.step_alive M addr lss isVar n1 n2 L s1 pre acc acc1 old
      hQo.2.1 hP.added.core.1 hml ⟨hQo.2.2.1, hQo.2.2.2.1⟩ hA h1
    have hE1 := RefreshExact.step_exact M addr lss isVar n1 n2 L olds s1 pre acc acc1 old
      hQo.2.1 hP hE h1
    obtain ⟨acc', h2, hP', hA', hE'⟩ := ih (pre ++ [old]) acc1 hP1 hA1 hE1
      (fun o ho => hQ o (List.mem_cons_of_mem _ ho))
    refine ⟨acc', ?_, hP', ?_, ?_⟩
    · rw [List.foldlM_cons, h1]
      exact h2
    · rw [List.append_assoc] at hA'
      exact hA'
    · rw [List.append_assoc] at hE'
      exact hE'

end RefreshExactProofs

end blif_solve
namespace blif_solve

section RoundFactsProofs

variable {α : Type} [LinearOrder α]

/-- The cell that `top` returns has the largest priority of the heap. -/
theorem MaxHeap.top_max (h : MaxHeap) (tie m : ℕ) (ht : MaxHeap.top h tie = some m) :
    ∃ e ∈ h, e.1 = m ∧ ∀ e' ∈ h, e'.2 ≤ e.2 := by
  unfold MaxHeap.top at ht
  cases hg : (MaxHeap.tops h)[tie % (MaxHeap.tops h).length]? with
  | none => simp [hg] at ht
  | some e =>
    simp [hg] at ht
    have hmem : e ∈ MaxHeap.tops h := List.getElem?_mem hg
    unfold MaxHeap.tops at hmem
    obtain ⟨h1, h2⟩ := List.mem_filter.1 hmem
    rw [List.all_eq_true] at h2
    refine ⟨e, h1, ht, ?_⟩
    intro e' he'
    simpa using h2 e' he'

/-- A round of the main loop on a state that satisfies the invariant does not
throw, keeps the invariant, and the heap and the mergers after the round are
as `RoundFacts` says. -/
theorem loopStep_round (M : DdManager α) (addr : ℕ → ℕ) (lss : ℤ) (t : ℕ)
    (s : MergeState α) (hinv : Inv M s) (hne : s.heap ≠ []) :
    ∃ merger s', MaxHeap.top s.heap t = some merger ∧
      loopStep M addr lss t s = Except.ok s' ∧ Inv M s' ∧
      RoundFacts M addr lss s s' merger := by
  obtain ⟨merger, htop, em, hem, hem1⟩ := MaxHeap.top_of_ne_nil s.heap hne t
  have hm : merger < s.mergers.length := by
    rw [← hem1]
    exact hinv.heap_valid em hem
  obtain ⟨h1, h2, ht⟩ := hinv.mergers_valid merger hm
  have hnewtype : (nodeAt M (contractState M addr s merger).nodes s.nodes.length).type =
      (nodeAt M s.nodes (mergerAt s.mergers merger).node1).type :=
    congrArg (fun c => c.1) (contractState_new M addr s merger)
  have hheap1 : ∀ e ∈ (contractState M addr s merger).heap,
      e.1 < (contractState M addr s merger).mergers.length := by
    intro e he
    rw [contractState_heap] at he
    rw [contractState_mergers]
    exact hinv.heap_valid e ((MaxHeap.mem_remove _ _ _).1 he).1
  obtain ⟨acc', hfold, hP', hA', hE'⟩ := refresh_fold_exact M addr lss
    (decide ((nodeAt M s.nodes (mergerAt s.mergers merger).node1).type = NodeType.Var))
    (mergerAt s.mergers merger).node1 (mergerAt s.mergers merger).node2 s.nodes.length
    (oldMergersOf M addr s merger) (contractState M addr s merger) h1 h2
    (by rw [contractState_length]; omega)
    (by rw [hnewtype, core_type (contractState_core_old M addr s merger h1)])
    (by rw [hnewtype, core_type (contractState_core_old M addr s merger h2)]
        exact ht.symm)
    (oldMergersOf M addr s merger) [] (contractState M addr s merger, [])
    (refreshInv_init M addr lss s merger hinv hm)
    (refreshAlive_init M _ _ _ _)
    (refreshExact_init M lss _ _ _ _ _ hheap1)
    (oldMerger_of_mem M addr s merger hinv hm)
  rw [List.nil_append] at hA' hE'
  have hs' : loopStep M addr lss t s = Except.ok acc'.1 := by
    rw [loopStep_eq M addr lss t s merger htop ht, hfold]
    rfl
  refine ⟨merger, acc'.1, htop, hs', hP'.inv, ?_⟩
  obtain ⟨new, hnew, hnodup, hR⟩ := hA'.mergers_ext
  rw [contractState_mergers] at hnew
  constructor
  · exact MaxHeap.top_max s.heap t merger htop
  · exact hm
  · exact hP'.added.frame
  · exact hP'.added.core
  · refine ⟨new, hnew, hnodup, ?_⟩
    intro mg hmg
    obtain ⟨r1, _, old, hold, r3⟩ := hR mg hmg
    rw [contractState_mergers] at r3
    exact ⟨r1, old, hold, r3⟩
  · intro e he hlt
    rcases hA'.heap_cases e he with h | h
    · rw [contractState_heap] at h
      obtain ⟨g1, g2⟩ := (MaxHeap.mem_remove _ _ _).1 h
      refine ⟨g1, g2, ?_⟩
      intro hold
      by_contra hc
      have hsome : (otherNode (contractState M addr s merger).mergers e.1
          (mergerAt s.mergers merger).node1 (mergerAt s.mergers merger).node2).isSome = true := by
        rw [contractState_mergers]
        cases hx : otherNode s.mergers e.1 (mergerAt s.mergers merger).node1
          (mergerAt s.mergers merger).node2 with
        | none => exact absurd hx hc
        | some y => rfl
      exact hA'.removed e.1 hold hsome e he rfl
    · rw [contractState_mergers] at h
      omega
  · intro e he hle
    have := hE'.heap_new e he (by rw [contractState_mergers]; exact hle)
    exact this
  · intro e he hne' hnone
    apply hE'.heap_kept e
    · rw [contractState_heap]
      exact (MaxHeap.mem_remove _ _ _).2 ⟨he, hne'⟩
    · intro old hold hsome heq
      rw [contractState_mergers] at hsome
      rw [← heq] at hold hsome
      rw [hnone hold] at hsome
      cases hsome
  · intro old hold y p hy hp
    have hy' : otherNode (contractState M addr s merger).mergers old
        (mergerAt s.mergers merger).node1 (mergerAt s.mergers merger).node2 = some y := by
      rw [contractState_mergers]
      exact hy
    obtain ⟨j, hj1, hj2, hj3, hj4⟩ := hE'.complete y (hE'.set_cover old hold y hy') p hp
    rw [contractState_mergers] at hj1
    exact ⟨j, hj1, hj2, hj3, hj4⟩

end RoundFactsProofs

end blif_solve
/-! ## The cells of the heap before the main loop -/

namespace blif_solve

section InitExactProofs

variable {α : Type} [LinearOrder α]

/-- A doubly nested fallible loop over two lists without repetitions meets every
ordered pair exactly once: an invariant that depends on the set of the pairs
met holds at the end for exactly the pairs of the two lists. -/
theorem double_loop_exact {σ : Type} (g : ℕ → σ → ℕ → Except String σ)
    (I : (ℕ × ℕ → Prop) → σ → Prop) (Q : ℕ → Prop)
    (hstep : ∀ (v : ℕ × ℕ → Prop) (s : σ) (a b : ℕ), I v s → Q a → Q b → ¬ v (a, b) →
      ∃ s', g a s b = Except.ok s' ∧ I (fun q => v q ∨ q = (a, b)) s')
    (lo li : List ℕ) (hlo : lo.Nodup) (hli : li.Nodup) (hQo : ∀ a ∈ lo, Q a)
    (hQi : ∀ b ∈ li, Q b) (v0 : ℕ × ℕ → Prop) (hv0 : ∀ a ∈ lo, ∀ b, ¬ v0 (a, b))
    (s : σ) (h : I v0 s) :
    ∃ s', lo.foldlM (fun s a => li.foldlM (g a) s) s = Except.ok s' ∧
      I (fun q => v0 q ∨ (q.1 ∈ lo ∧ q.2 ∈ li)) s' := by
  have hmono : ∀ (v v' : ℕ × ℕ → Prop) (s : σ), (∀ q, v q ↔ v' q) → I v s → I v' s := by
    intro v v' s hv hs
    have : v = v' := funext (fun q => propext (hv q))
    rw [← this]
    exact hs
  have inner : ∀ (v : ℕ × ℕ → Prop) (a : ℕ) (s : σ), Q a → (∀ b, ¬ v (a, b)) → I v s →
      ∃ s', li.foldlM (g a) s = Except.ok s' ∧
        I (fun q => v q ∨ (q.1 = a ∧ q.2 ∈ li)) s' := by
    intro v a s ha hv hs
    obtain ⟨s', h1, h2⟩ := foldlM_prefix (g a)
      (fun pi s => I (fun q => v q ∨ (q.1 = a ∧ q.2 ∈ pi)) s) Q
      (by
        intro pi b s hP hb hnot
        obtain ⟨s', h1, h2⟩ := hstep _ s a b hP ha hb (by
          rintro (h | ⟨_, h⟩)
          · exact hv b h
          · exact hnot h)
        refine ⟨s', h1, hmono _ _ s' ?_ h2⟩
        intro q
        constructor
        · rintro ((h | ⟨h, h'⟩) | h)
          · exact Or.inl h
          · exact Or.inr ⟨h, List.mem_append_left _ h'⟩
          · subst h
            exact Or.inr ⟨rfl, by simp⟩
        · rintro (h | ⟨h, h'⟩)
          · exact Or.inl (Or.inl h)
          · rcases List.mem_append.1 h' with h'' | h''
            · exact Or.inl (Or.inr ⟨h, h''⟩)
            · rw [List.mem_singleton] at h''
              exact Or.inr (Prod.ext h h''))
      li [] s (hmono _ _ s (fun q => by simp) hs) hQi (by simpa using hli)
    refine ⟨s', h1, hmono _ _ s' ?_ h2⟩
    intro q
    simp
  obtain ⟨s', h1, h2⟩ := foldlM_prefix (fun s a => li.foldlM (g a) s)
    (fun po s => I (fun q => v0 q ∨ (q.1 ∈ po ∧ q.2 ∈ li)) s) (fun a => Q a ∧ a ∈ lo)
    (by
      intro po a s hP ha hnot
      obtain ⟨s', h1, h2⟩ := inner _ a s ha.1 (by
        rintro b (h | ⟨h, _⟩)
        · exact hv0 a ha.2 b h
        · exact hnot h) hP
      refine ⟨s', h1, hmono _ _ s' ?_ h2⟩
      intro q
      constructor
      · rintro ((h | ⟨h, h'⟩) | ⟨h, h'⟩)
        · exact Or.inl h
        · exact Or.inr ⟨List.mem_append_left _ h, h'⟩
        · exact Or.inr ⟨by simp [h], h'⟩
      · rintro (h | ⟨h, h'⟩)
        · exact Or.inl (Or.inl h)
        · rcases List.mem_append.1 h with h'' | h''
          · exact Or.inl (Or.inr ⟨h'', h'⟩)
          · rw [List.mem_singleton] at h''
            exact Or.inr ⟨h'', h'⟩)
    lo [] s (hmono _ _ s (fun q => by simp) h) (fun a ha => ⟨hQo a ha, ha⟩)
    (by simpa using hlo)
  refine ⟨s', h1, hmono _ _ s' ?_ h2⟩
  intro q
  simp

/-- The creation of the merger of a pair that `initCompat` accepts keeps the
invariant of the cells. -/
theorem InitExact.push_exact (M : DdManager α) (addr : ℕ → ℕ) (lss : ℤ) (c : MergeState α)
    (F : ℕ) (v : ℕ × ℕ → Prop) (s s' : MergeState α) (a b : ℕ) (p : ℚ)
    (hE : InitExact M addr lss c F v s) (hc : initCompat M addr lss c F a b = some p)
    (hframe : Frame s s') (hm : s'.mergers = s.mergers ++ [⟨a, b⟩])
    (hh : s'.heap = s.heap ++ [(s.mergers.length, p)]) :
    InitExact M addr lss c F (fun q => v q ∨ q = (a, b)) s' := by
  constructor
  · exact hE.frame.trans_frame hframe
  · intro e he
    rw [hh] at he
    rw [hm, List.length_append, List.length_singleton]
    rcases List.mem_append.1 he with h | h
    · obtain ⟨h1, h2⟩ := hE.cells e h
      rw [mergerAt_append_left _ _ h1]
      exact ⟨Nat.lt_succ_of_lt h1, h2⟩
    · rw [List.mem_singleton] at h
      subst h
      rw [mergerAt_append_length]
      exact ⟨Nat.lt_succ_self _, hc⟩
  · intro i j q hv hq
    rw [hm, hh, List.length_append, List.length_singleton]
    rcases hv with hv | hv
    · obtain ⟨m, h1, h2, h3⟩ := hE.complete i j q hv hq
      refine ⟨m, Nat.lt_succ_of_lt h1, ?_, List.mem_append_left _ h3⟩
      rw [mergerAt_append_left _ _ h1]
      exact h2
    · cases hv
      rw [hc] at hq
      cases hq
      refine ⟨s.mergers.length, Nat.lt_succ_self _, ?_,
        List.mem_append_right _ (List.mem_singleton.2 rfl)⟩
      rw [mergerAt_append_length]

/-- A pair that `initCompat` rejects keeps the invariant of the cells. -/
theorem InitExact.skip_exact (M : DdManager α) (addr : ℕ → ℕ) (lss : ℤ) (c : MergeState α)
    (F : ℕ) (v : ℕ × ℕ → Prop) (s : MergeState α) (a b : ℕ)
    (hE : InitExact M addr lss c F v s) (hc : initCompat M addr lss c F a b = none) :
    InitExact M addr lss c F (fun q => v q ∨ q = (a, b)) s := by
  refine ⟨hE.frame, hE.cells, ?_⟩
  intro i j q hv hq
  rcases hv with hv | hv
  · exact hE.complete i j q hv hq
  · cases hv
    rw [hc] at hq
    cases hq

/-- The test and the call of `getCompatibility` in the loop "create func-func
connections", in terms of the state before the first mergers. -/
theorem initCompat_func (M : DdManager α) (addr : ℕ → ℕ) (lss : ℤ) (c s : MergeState α)
    (F a b : ℕ) (ha : a < F) (hcore : SameCore M c.nodes s.nodes) (hframe : Frame c s) :
    initCompat M addr lss c F a b =
      if addr a < addr b ∧
          (nodeAt M s.nodes a).isConnectedTo M (nodeAt M s.nodes b) = true then
        getCompatibility M s.nodes a b lss
          (s.hints.getWeight (nodeAt M s.nodes a).node (nodeAt M s.nodes b).node) s.qf
      else none := by
  unfold initCompat AmNode.isConnectedTo
  rw [getCompatibility_congr M hcore, hframe.1, hframe.2.2.1, core_node (hcore.2 a),
    core_node (hcore.2 b), core_supportSet (hcore.2 a), core_supportSet (hcore.2 b)]
  simp [ha]

/-- The test and the call of `getCompatibility` in the loop "create var-var
connections", in terms of the state before the first mergers. -/
theorem initCompat_var (M : DdManager α) (addr : ℕ → ℕ) (lss : ℤ) (c s : MergeState α)
    (F a b : ℕ) (ha : F ≤ a) (hcore : SameCore M c.nodes s.nodes) (hframe : Frame c s) :
    initCompat M addr lss c F a b =
      if addr a < addr b then
        getCompatibility M s.nodes a b lss
          (s.hints.getWeight (nodeAt M s.nodes a).node (nodeAt M s.nodes b).node) s.qv
      else none := by
  unfold initCompat
  rw [getCompatibility_congr M hcore, hframe.1, hframe.2.1, core_node (hcore.2 a),
    core_node (hcore.2 b)]
  have : ¬ a < F := by omega
  simp [this]

end InitExactProofs

end blif_solve
namespace blif_solve

section InitStateExact

variable {α : Type} [LinearOrder α]

/-- The first state of `blif_solve::merge`: it exists, satisfies the invariants,
its nodes are those of `connectedState` up to the merger lists, its mergers
are listed at both their nodes, and its heap holds exactly one cell for every
ordered pair of two func nodes or of two var nodes that `initCompat` accepts,
with the priority that `initCompat` gives. -/
theorem initState_exact (M : DdManager α) (addr : ℕ → ℕ) (factors varBdds : List α)
    (lss : ℤ) (hintsInput : MergeHints α) (qvars : List α) :
    ∃ s0, initState M addr factors varBdds lss hintsInput qvars = Except.ok s0 ∧ Inv M s0 ∧
      AliveInv M s0 [] ∧
      SameCore M (connectedState M addr factors varBdds hintsInput qvars).nodes s0.nodes ∧
      InitAlive M addr (initVisited factors.length varBdds.length) s0 ∧
      InitExact M addr lss (connectedState M addr factors varBdds hintsInput qvars)
        factors.length (initVisited factors.length varBdds.length) s0 := by
  rw [initState_eq]
  have hlen := connectedState_length M addr factors varBdds hintsInput qvars
  have hfunc : ∀ (v : ℕ × ℕ → Prop) (s : MergeState α) (a b : ℕ),
      (Inv M s ∧ SameCore M (connectedState M addr factors varBdds hintsInput qvars).nodes
        s.nodes ∧ InitAlive M addr v s ∧
        InitExact M addr lss (connectedState M addr factors varBdds hintsInput qvars)
          factors.length v s) → a < factors.length → b < factors.length →
      ¬ v (a, b) →
      ∃ s', funcMergerOne M addr lss a s b = Except.ok s' ∧
        (Inv M s' ∧ SameCore M (connectedState M addr factors varBdds hintsInput qvars).nodes
          s'.nodes ∧ InitAlive M addr (fun q => v q ∨ q = (a, b)) s' ∧
          InitExact M addr lss (connectedState M addr factors varBdds hintsInput qvars)
            factors.length (fun q => v q ∨ q = (a, b)) s') := by
    intro v s a b hs ha hb hnew
    obtain ⟨hinv, hcore, hA, hE⟩ := hs
    have hic := initCompat_func M addr lss _ s factors.length a b ha hcore hE.frame
    unfold funcMergerOne
    split
    · rename_i hc
      rw [if_pos hc] at hic
      cases hg : getCompatibility M s.nodes a b lss
          (s.hints.getWeight (nodeAt M s.nodes a).node (nodeAt M s.nodes b).node) s.qf with
      | none =>
        rw [hg] at hic
        exact ⟨s, rfl, hinv, hcore, hA.mono_visited (fun q hq => Or.inl hq),
          hE.skip_exact M addr lss _ _ v s a b hic⟩
      | some p =>
        rw [hg] at hic
        have ht : (nodeAt M s.nodes a).type = (nodeAt M s.nodes b).type := by
          rw [core_type (hcore.2 a), core_type (hcore.2 b),
            connectedState_type_func M addr factors varBdds hintsInput qvars ha,
            connectedState_type_func M addr factors varBdds hintsInput qvars hb]
        obtain ⟨s', h1, h2, h3, h4⟩ := InitAlive.push_merger M addr v s a b p hinv
          (by rw [hcore.1, hlen]; omega) (by rw [hcore.1, hlen]; omega) ht hA hnew hc.1
        obtain ⟨s'', g1, _, g3, _, g5, g6, _⟩ := newMerger_spec M s a b p hinv
          (by rw [hcore.1, hlen]; omega) (by rw [hcore.1, hlen]; omega) ht
        rw [h1] at g1
        cases g1
        exact ⟨s', h1, h2, hcore.trans_core h3, h4,
          hE.push_exact M addr lss _ _ v s s' a b p hic g3 g5 g6⟩
    · rename_i hc
      rw [if_neg hc] at hic
      exact ⟨s, rfl, hinv, hcore, hA.mono_visited (fun q hq => Or.inl hq),
        hE.skip_exact M addr lss _ _ v s a b hic⟩
  have hvar : ∀ (v : ℕ × ℕ → Prop) (s : MergeState α) (a b : ℕ),
      (Inv M s ∧ SameCore M (connectedState M addr factors varBdds hintsInput qvars).nodes
        s.nodes ∧ InitAlive M addr v s ∧
        InitExact M addr lss (connectedState M addr factors varBdds hintsInput qvars)
          factors.length v s) →
      (factors.length ≤ a ∧ a < factors.length + varBdds.length) →
      (factors.length ≤ b ∧ b < factors.length + varBdds.length) → ¬ v (a, b) →
      ∃ s', varMergerOne M addr lss a s b = Except.ok s' ∧
        (Inv M s' ∧ SameCore M (connectedState M addr factors varBdds hintsInput qvars).nodes
          s'.nodes ∧ InitAlive M addr (fun q => v q ∨ q = (a, b)) s' ∧
          InitExact M addr lss (connectedState M addr factors varBdds hintsInput qvars)
            factors.length (fun q => v q ∨ q = (a, b)) s') := by
    intro v s a b hs ha hb hnew
    obtain ⟨hinv, hcore, hA, hE⟩ := hs
    have hic := initCompat_var M addr lss _ s factors.length a b ha.1 hcore hE.frame
    unfold varMergerOne
    split
    · rename_i hc
      rw [if_pos hc] at hic
      cases hg : getCompatibility M s.nodes a b lss
          (s.hints.getWeight (nodeAt M s.nodes a).node (nodeAt M s.nodes b).node) s.qv with
      | none =>
        rw [hg] at hic
        exact ⟨s, rfl, hinv, hcore, hA.mono_visited (fun q hq => Or.inl hq),
          hE.skip_exact M addr lss _ _ v s a b hic⟩
      | some p =>
        rw [hg] at hic
        have ht : (nodeAt M s.nodes a).type = (nodeAt M s.nodes b).type := by
          rw [core_type (hcore.2 a), core_type (hcore.2 b),
            connectedState_type_var M addr factors varBdds hintsInput qvars ha.1 ha.2,
            connectedState_type_var M addr factors varBdds hintsInput qvars hb.1 hb.2]
        obtain ⟨s', h1, h2, h3, h4⟩ := InitAlive.push_merger M addr v s a b p hinv
          (by rw [hcore.1, hlen]; omega) (by rw [hcore.1, hlen]; omega) ht hA hnew hc
        obtain ⟨s'', g1, _, g3, _, g5, g6, _⟩ := newMerger_spec M s a b p hinv
          (by rw [hcore.1, hlen]; omega) (by rw [hcore.1, hlen]; omega) ht
        rw [h1] at g1
        cases g1
        exact ⟨s', h1, h2, hcore.trans_core h3, h4,
          hE.push_exact M addr lss _ _ v s s' a b p hic g3 g5 g6⟩
    · rename_i hc
      rw [if_neg hc] at hic
      exact ⟨s, rfl, hinv, hcore, hA.mono_visited (fun q hq => Or.inl hq),
        hE.skip_exact M addr lss _ _ v s a b hic⟩
  have hrangeF : ∀ b ∈ List.range factors.length, b < factors.length :=
    fun b hb => List.mem_range.1 hb
  have hrangeV : ∀ b ∈ (List.range varBdds.length).map (fun i => factors.length + i),
      factors.length ≤ b ∧ b < factors.length + varBdds.length := by
    intro b hb
    obtain ⟨i, hi, rfl⟩ := List.mem_map.1 hb
    have := List.mem_range.1 hi
    omega
  have hmemV : ∀ b, factors.length ≤ b → b < factors.length + varBdds.length →
      b ∈ (List.range varBdds.length).map (fun i => factors.length + i) := by
    intro b h1 h2
    exact List.mem_map.2 ⟨b - factors.length, List.mem_range.2 (by omega), by omega⟩
  have hndV : ((List.range varBdds.length).map (fun i => factors.length + i)).Nodup :=
    (List.nodup_range _).map (fun _ _ h => Nat.add_left_cancel h)
  have hA0 : InitAlive M addr (fun _ => False)
      (connectedState M addr factors varBdds hintsInput qvars) := by
    constructor
    · simp [connectedState]
    · intro mg hmg
      simp [connectedState] at hmg
    · intro mg hmg
      simp [connectedState] at hmg
    · intro m hm
      simp [connectedState] at hm
  have hE0 : InitExact M addr lss (connectedState M addr factors varBdds hintsInput qvars)
      factors.length (fun _ => False)
      (connectedState M addr factors varBdds hintsInput qvars) := by
    refine ⟨Frame.refl_frame _, ?_, ?_⟩
    · intro e he
      simp [connectedState] at he
    · intro i j p hv
      exact absurd hv id
  obtain ⟨s1, hs1, hP1⟩ := double_loop_exact (funcMergerOne M addr lss)
    (fun v s => Inv M s ∧
      SameCore M (connectedState M addr factors varBdds hintsInput qvars).nodes s.nodes ∧
      InitAlive M addr v s ∧
      InitExact M addr lss (connectedState M addr factors varBdds hintsInput qvars)
        factors.length v s) (fun a => a < factors.length) hfunc
    (List.range factors.length) (List.range factors.length) (List.nodup_range _)
    (List.nodup_range _) hrangeF hrangeF (fun _ => False) (fun _ _ _ h => h)
    (connectedState M addr factors varBdds hintsInput qvars)
    ⟨connectedState_inv M addr factors varBdds hintsInput qvars, SameCore.refl_core M _, hA0,
      hE0⟩
  obtain ⟨s2, hs2, hP2⟩ := double_loop_exact (varMergerOne M addr lss)
    (fun v s => Inv M s ∧
      SameCore M (connectedState M addr factors varBdds hintsInput qvars).nodes s.nodes ∧
      InitAlive M addr v s ∧
      InitExact M addr lss (connectedState M addr factors varBdds hintsInput qvars)
        factors.length v s)
    (fun a => factors.length ≤ a ∧ a < factors.length + varBdds.length) hvar
    ((List.range varBdds.length).map (fun i => factors.length + i))
    ((List.range varBdds.length).map (fun i => factors.length + i)) hndV hndV hrangeV hrangeV
    _ (by
      rintro a ha b (h | ⟨h, _⟩)
      · exact h
      · have h1 := (hrangeV a ha).1
        have h2 := List.mem_range.1 h
        omega)
    s1 hP1
  have hveq : (fun q : ℕ × ℕ => ((fun _ => False) q ∨
      (q.1 ∈ List.range factors.length ∧ q.2 ∈ List.range factors.length)) ∨
      (q.1 ∈ (List.range varBdds.length).map (fun i => factors.length + i) ∧
        q.2 ∈ (List.range varBdds.length).map (fun i => factors.length + i))) =
      initVisited factors.length varBdds.length := by
    funext q
    apply propext
    unfold initVisited
    constructor
    · rintro ((h | ⟨h1, h2⟩) | ⟨h1, h2⟩)
      · exact absurd h id
      · exact Or.inl ⟨List.mem_range.1 h1, List.mem_range.1 h2⟩
      · exact Or.inr ⟨(hrangeV _ h1).1, (hrangeV _ h1).2, (hrangeV _ h2).1, (hrangeV _ h2).2⟩
    · rintro (⟨h1, h2⟩ | ⟨h1, h2, h3, h4⟩)
      · exact Or.inl (Or.inr ⟨List.mem_range.2 h1, List.mem_range.2 h2⟩)
      · exact Or.inr ⟨hmemV _ h1 h2, hmemV _ h3 h4⟩
  rw [hveq] at hP2
  refine ⟨s2, ?_, hP2.1, InitAlive.alive_nil M addr _ s2 hP2.1 hP2.2.2.1, hP2.2.1, hP2.2.2.1,
    hP2.2.2.2⟩
  rw [hs1]
  exact hs2

end InitStateExact

end blif_solve
namespace blif_solve

section DriverExact

variable {α : Type} [LinearOrder α]

/-- The state after no round is the first state. -/
theorem stateAfter_zero (M : DdManager α) (addr : ℕ → ℕ) (tie : ℕ → ℕ)
    (factors varBdds : List α) (lss : ℤ) (hintsInput : MergeHints α) (qvars : List α)
    (s0 : MergeState α)
    (h0 : initState M addr factors varBdds lss hintsInput qvars = Except.ok s0) :
    stateAfter M addr tie 0 factors varBdds lss hintsInput qvars = Except.ok s0 := by
  unfold stateAfter
  rw [h0]
  rfl

/-- The state after one more round, when the heap is not empty. -/
theorem stateAfter_step (M : DdManager α) (addr : ℕ → ℕ) (tie : ℕ → ℕ) (n : ℕ)
    (factors varBdds : List α) (lss : ℤ) (hintsInput : MergeHints α) (qvars : List α)
    (s s' : MergeState α)
    (hs : stateAfter M addr tie n factors varBdds lss hintsInput qvars = Except.ok s)
    (hne : s.heap ≠ []) (hstep : loopStep M addr lss (tie n) s = Except.ok s') :
    stateAfter M addr tie (n + 1) factors varBdds lss hintsInput qvars = Except.ok s' := by
  rw [stateAfter_succ, hs]
  show (if s.heap = [] then Except.ok s else loopStep M addr lss (tie n) s) = _
  rw [if_neg hne, hstep]

/-- The main loop ends: after some number of rounds the heap is empty, and
`blif_solve::merge` returns the results of that state. -/
theorem merge_ends (M : DdManager α) (addr : ℕ → ℕ) (tie : ℕ → ℕ)
    (factors varBdds : List α) (lss : ℤ) (hintsInput : MergeHints α) (qvars : List α) :
    ∃ n s, stateAfter M addr tie n factors varBdds lss hintsInput qvars = Except.ok s ∧
      s.heap = [] ∧
      merge M addr tie factors varBdds lss hintsInput qvars = Except.ok s.results := by
  obtain ⟨s, hs, hinv, hA, hcl⟩ := stateAfter_alive M addr tie factors varBdds lss hintsInput
    qvars ((factors.length - 1) + (varBdds.length - 1))
  have he : s.heap = [] := by
    by_contra hne
    obtain ⟨_, _, _, _, _, _, _, _, _, _, _, _, _, _, _, _, _, hleft⟩ :=
      round_contracts M addr tie _ factors varBdds lss hintsInput qvars s hs hinv hA hne
    have := hcl hne
    omega
  refine ⟨_, s, hs, he, ?_⟩
  obtain ⟨s0, h0, hinv0, _⟩ := initState_spec M addr factors varBdds lss hintsInput qvars
  have hr : runRounds M addr lss tie ((factors.length - 1) + (varBdds.length - 1)) 0 s0 =
      Except.ok s := by
    have := hs
    unfold stateAfter at this
    rw [h0] at this
    exact this
  exact merge_eq_of_mainLoop M addr tie factors varBdds lss hintsInput qvars s0 s h0
    (mainLoop_eq_of_rounds M addr lss tie _ _ 0 s0 s hinv0 hr he (le_refl _))

/-- A property of the first state that every round of the main loop keeps
holds of the state in which the main loop ends, and `blif_solve::merge` returns
the results of that state. -/
theorem merge_of_invariant (M : DdManager α) (addr : ℕ → ℕ) (tie : ℕ → ℕ)
    (factors varBdds : List α) (lss : ℤ) (hintsInput : MergeHints α) (qvars : List α)
    (I : MergeState α → Prop)
    (h0 : ∀ s0, initState M addr factors varBdds lss hintsInput qvars = Except.ok s0 → I s0)
    (hI : ∀ t s s', Inv M s → I s → s.heap ≠ [] →
      loopStep M addr lss t s = Except.ok s' → I s') :
    ∃ n s, stateAfter M addr tie n factors varBdds lss hintsInput qvars = Except.ok s ∧
      s.heap = [] ∧ Inv M s ∧ I s ∧
      merge M addr tie factors varBdds lss hintsInput qvars = Except.ok s.results := by
  obtain ⟨n, s, hs, he, hm⟩ := merge_ends M addr tie factors varBdds lss hintsInput qvars
  obtain ⟨s', hs', hinv, hi⟩ := stateAfter_invariant M addr tie factors varBdds lss hintsInput
    qvars I h0 hI n
  rw [hs] at hs'
  cases hs'
  exact ⟨n, s, hs, he, hinv, hi, hm⟩

end DriverExact

end blif_solve
namespace blif_solve

section CleanRoundProofs

variable {α : Type} [LinearOrder α]

/-- What the function `otherNode` returns for a merger that joins a contracted
node to a third node. -/
theorem otherNode_of_joins (mergers : List AmMerger) (old n1 n2 y : ℕ) (hy1 : y ≠ n1)
    (hy2 : y ≠ n2)
    (h : (mergerAt mergers old).joins n1 y ∨ (mergerAt mergers old).joins n2 y) :
    otherNode mergers old n1 n2 = some y := by
  unfold otherNode
  unfold AmMerger.joins at h
  rcases h with (⟨a, b⟩ | ⟨a, b⟩) | (⟨a, b⟩ | ⟨a, b⟩)
  · rw [a, b]
    simp [hy1, hy2]
  · rw [a, b]
    simp [hy1, hy2]
  · rw [a, b]
    simp [hy1, hy2]
  · rw [a, b]
    simp [hy1, hy2]

/-- A round of the main loop on a state that satisfies both invariants, in
terms of the nodes that the mergers join. -/
theorem loopStep_clean (M : DdManager α) (addr : ℕ → ℕ) (lss : ℤ) (t : ℕ)
    (s s' : MergeState α) (dead : List ℕ) (hinv : Inv M s) (hA : AliveInv M s dead)
    (hne : s.heap ≠ []) (h : loopStep M addr lss t s = Except.ok s') :
    ∃ merger, MaxHeap.top s.heap t = some merger ∧
      (mergerAt s.mergers merger).node1 ≠ (mergerAt s.mergers merger).node2 ∧
      Inv M s' ∧
      AliveInv M s'
        ((mergerAt s.mergers merger).node1 :: (mergerAt s.mergers merger).node2 :: dead) ∧
      RoundFacts M addr lss s s' merger ∧ CleanRound M addr lss s s' merger := by
  obtain ⟨merger, s1, htop, hstep, _, hF⟩ := loopStep_round M addr lss t s hinv hne
  rw [h] at hstep
  cases hstep
  obtain ⟨merger', htop', _, hdist, _, _, hinv', hA', _⟩ :=
    AliveInv.round_alive M addr lss t s s' dead hinv hA hne h
  rw [htop] at htop'
  cases htop'
  refine ⟨merger, htop, hdist, hinv', hA', hF, ?_⟩
  obtain ⟨em, hem, hem1, _⟩ := hF.top_max
  obtain ⟨h1, h2, _⟩ := hinv.mergers_valid merger hF.valid
  obtain ⟨new, hnew, _, hR⟩ := hF.mergers
  have hlisted_old : ∀ e ∈ s.heap,
      ((mergerAt s.mergers e.1).hasNode (mergerAt s.mergers merger).node1 ∨
        (mergerAt s.mergers e.1).hasNode (mergerAt s.mergers merger).node2) →
      e.1 ∈ oldMergersOf M addr s merger := by
    intro e he hh
    obtain ⟨l1, l2⟩ := hA.listed e he
    apply mem_oldMergersOf M addr s merger h1 h2
    rcases hh with (hh | hh) | (hh | hh)
    · left; rw [← hh]; exact l1
    · left; rw [← hh]; exact l2
    · right; rw [← hh]; exact l1
    · right; rw [← hh]; exact l2
  have hnot : ∀ e ∈ s.heap, e.1 ≠ merger →
      (e.1 ∈ oldMergersOf M addr s merger →
        otherNode s.mergers e.1 (mergerAt s.mergers merger).node1
          (mergerAt s.mergers merger).node2 = none) →
      ¬ ((mergerAt s.mergers e.1).hasNode (mergerAt s.mergers merger).node1 ∨
        (mergerAt s.mergers e.1).hasNode (mergerAt s.mergers merger).node2) := by
    intro e he hne' hnone hh
    have hn := otherNode_none (hnone (hlisted_old e he hh))
    have hd := hA.distinct e he
    apply hne'
    have := hA.unique e he em hem
    rw [hem1] at this
    apply this
    unfold AmMerger.SamePair
    rcases hn with ⟨a | a, b | b⟩
    · exact absurd (a.trans b.symm) hd
    · exact Or.inl ⟨a, b⟩
    · exact Or.inr ⟨a, b⟩
    · exact absurd (a.trans b.symm) hd
  constructor
  · intro j hj
    rw [hnew]
    exact mergerAt_append_left _ _ hj
  · rw [hnew, List.length_append]
    omega
  · intro e he hlt
    obtain ⟨g1, g2, g3⟩ := hF.heap_old e he hlt
    have := hnot e g1 g2 g3
    exact ⟨g1, fun hh => this (Or.inl hh), fun hh => this (Or.inr hh)⟩
  · intro e he hn1 hn2
    apply hF.heap_kept e he
    · intro heq
      apply hn1
      rw [heq]
      exact Or.inl rfl
    · intro hold
      exfalso
      rcases oldMergersOf_mem M addr s merger h1 h2 e.1 hold with hl | hl
      · exact hn1 ((hinv.listed_endpoint _ _ hl).2)
      · exact hn2 ((hinv.listed_endpoint _ _ hl).2)
  · intro e he hle
    obtain ⟨g1, g2⟩ := hF.heap_new e he hle
    have hi : e.1 - s.mergers.length < new.length := by
      rw [hnew, List.length_append] at g1
      omega
    have hmem : mergerAt s'.mergers e.1 ∈ new := by
      have hj : e.1 = s.mergers.length + (e.1 - s.mergers.length) := by omega
      rw [hnew, hj, mergerAt_append_right _ _ hi]
      exact List.get_mem new _ hi
    obtain ⟨r1, old, hold, r3⟩ := hR _ hmem
    obtain ⟨y1, y2, y3⟩ := otherNode_some r3
    refine ⟨g1, r1, y1, y2, ?_, g2⟩
    have hlisted := oldMergersOf_mem M addr s merger h1 h2 old hold
    have hcell : ∃ e0 ∈ s.heap, e0.1 = old := by
      rcases hlisted with hl | hl
      · exact hinv.listed_in_heap _ old hl
      · exact hinv.listed_in_heap _ old hl
    obtain ⟨e0, he0, he01⟩ := hcell
    refine ⟨e0, he0, ?_⟩
    rw [he01]
    unfold AmMerger.joins
    rcases hlisted with hl | hl
    · left
      rcases (hinv.listed_endpoint _ _ hl).2 with hx | hx
      · rcases y3 with hy | ⟨hy, _⟩
        · exact absurd (hy.trans hx) y1
        · exact Or.inl ⟨hx, hy.symm⟩
      · rcases y3 with hy | ⟨hy, _⟩
        · exact Or.inr ⟨hy.symm, hx⟩
        · exact absurd (hy.trans hx) y1
    · right
      rcases (hinv.listed_endpoint _ _ hl).2 with hx | hx
      · rcases y3 with hy | ⟨hy, _⟩
        · exact absurd (hy.trans hx) y2
        · exact Or.inl ⟨hx, hy.symm⟩
      · rcases y3 with hy | ⟨hy, _⟩
        · exact Or.inr ⟨hy.symm, hx⟩
        · exact absurd (hy.trans hx) y2
  · intro e0 he0 y p hy1 hy2 hj hp
    have hold : e0.1 ∈ oldMergersOf M addr s merger := by
      apply hlisted_old e0 he0
      unfold AmMerger.joins at hj
      unfold AmMerger.hasNode
      rcases hj with (⟨a, _⟩ | ⟨_, b⟩) | (⟨a, _⟩ | ⟨_, b⟩)
      · exact Or.inl (Or.inl a)
      · exact Or.inl (Or.inr b)
      · exact Or.inr (Or.inl a)
      · exact Or.inr (Or.inr b)
    exact hF.complete e0.1 hold y p (otherNode_of_joins _ _ _ _ _ hy1 hy2 hj) hp

end CleanRoundProofs

end blif_solve
namespace blif_solve

section Stable

variable {α : Type} [LinearOrder α]

/-- Once the heap is empty, further rounds leave the state alone. -/
theorem stateAfter_stable (M : DdManager α) (addr : ℕ → ℕ) (tie : ℕ → ℕ) (n : ℕ)
    (factors varBdds : List α) (lss : ℤ) (hintsInput : MergeHints α) (qvars : List α)
    (s : MergeState α)
    (hs : stateAfter M addr tie n factors varBdds lss hintsInput qvars = Except.ok s)
    (he : s.heap = []) :
    ∀ k, stateAfter M addr tie (n + k) factors varBdds lss hintsInput qvars = Except.ok s := by
  intro k
  induction k with
  | zero => exact hs
  | succ k ih =>
    rw [← Nat.add_assoc, stateAfter_succ, ih]
    show (if s.heap = [] then Except.ok s else _) = _
    rw [if_pos he]

/-- The function `blif_solve::merge` returns the results of the state in which the heap
is empty. -/
theorem merge_eq_of_stateAfter (M : DdManager α) (addr : ℕ → ℕ) (tie : ℕ → ℕ) (n : ℕ)
    (factors varBdds : List α) (lss : ℤ) (hintsInput : MergeHints α) (qvars : List α)
    (s : MergeState α)
    (hs : stateAfter M addr tie n factors varBdds lss hintsInput qvars = Except.ok s)
    (he : s.heap = []) :
    merge M addr tie factors varBdds lss hintsInput qvars = Except.ok s.results := by
  obtain ⟨n', s', hs', he', hm⟩ := merge_ends M addr tie factors varBdds lss hintsInput qvars
  have h1 := stateAfter_stable M addr tie n factors varBdds lss hintsInput qvars s hs he n'
  have h2 := stateAfter_stable M addr tie n' factors varBdds lss hintsInput qvars s' hs' he' n
  rw [Nat.add_comm] at h2
  rw [h1] at h2
  cases h2
  exact hm

end Stable

end blif_solve
/-! ## Tools for the end-to-end scenarios -/

namespace blif_solve

section ScenarioTools

variable {α : Type} [LinearOrder α]

/-- When `initCompat` accepts a pair. -/
theorem initCompat_eq_some (M : DdManager α) (addr : ℕ → ℕ) (lss : ℤ) (c : MergeState α)
    (F i j : ℕ) (p : ℚ) :
    initCompat M addr lss c F i j = some p ↔
      addr i < addr j ∧
      (i < F → (nodeAt M c.nodes i).isConnectedTo M (nodeAt M c.nodes j) = true) ∧
      getCompatibility M c.nodes i j lss
        (c.hints.getWeight (nodeAt M c.nodes i).node (nodeAt M c.nodes j).node)
        (if i < F then c.qf else c.qv) = some p := by
  unfold initCompat
  split
  · rename_i h
    exact ⟨fun hp => ⟨h.1, h.2, hp⟩, fun hp => hp.2.2⟩
  · rename_i h
    constructor
    · intro hp
      cases hp
    · intro hp
      exact absurd ⟨hp.1, hp.2.1⟩ h

/-- Every merger of the first state has a cell in the heap. -/
theorem initState_merger_cell (M : DdManager α) (addr : ℕ → ℕ) (v : ℕ × ℕ → Prop)
    (s0 : MergeState α) (hinv : Inv M s0) (hA : InitAlive M addr v s0) (m : ℕ)
    (hm : m < s0.mergers.length) : ∃ e ∈ s0.heap, e.1 = m :=
  hinv.listed_in_heap _ m (hA.listed m hm).1

end ScenarioTools

end blif_solve
/-! ## Scenario 5 of the spec, for every placement of the nodes -/

namespace blif_solve

section ScenarioFive

/-- The state before the first mergers of scenario 5 does not depend on the
addresses: there is no func node. -/
theorem scenario_five_connected (addr : ℕ → ℕ) :
    connectedState (ttManager 3) addr [] [ttVar 3 0, ttVar 3 1, ttVar 3 2] MergeHints.empty
      [ttVar 3 0, ttVar 3 1] =
    connectedState (ttManager 3) id [] [ttVar 3 0, ttVar 3 1, ttVar 3 2] MergeHints.empty
      [ttVar 3 0, ttVar 3 1] := rfl

set_option maxRecDepth 1000000 in
/-- The values of `getCompatibility` for the var nodes of scenario 5. -/
theorem scenario_five_compat : ∀ i, i < 3 → ∀ j, j < 3 →
    getCompatibility (ttManager 3)
      (connectedState (ttManager 3) id [] [ttVar 3 0, ttVar 3 1, ttVar 3 2] MergeHints.empty
        [ttVar 3 0, ttVar 3 1]).nodes i j 3
      ((connectedState (ttManager 3) id [] [ttVar 3 0, ttVar 3 1, ttVar 3 2] MergeHints.empty
        [ttVar 3 0, ttVar 3 1]).hints.getWeight
        (nodeAt (ttManager 3) (connectedState (ttManager 3) id []
          [ttVar 3 0, ttVar 3 1, ttVar 3 2] MergeHints.empty [ttVar 3 0, ttVar 3 1]).nodes i).node
        (nodeAt (ttManager 3) (connectedState (ttManager 3) id []
          [ttVar 3 0, ttVar 3 1, ttVar 3 2] MergeHints.empty [ttVar 3 0, ttVar 3 1]).nodes j).node)
      (connectedState (ttManager 3) id [] [ttVar 3 0, ttVar 3 1, ttVar 3 2] MergeHints.empty
        [ttVar 3 0, ttVar 3 1]).qv =
      if decide (i < 2) = decide (j < 2) then some (if i = j then 1 else 0) else none := by
  with_unfolding_all decide

/-- The first state of scenario 5: the heap holds one cell, for the merger of
the nodes of `a` and `b`, and every merger has a cell. -/
theorem scenario_five_init (addr : ℕ → ℕ) (haddr : Function.Injective addr) :
    ∃ s0, initState (ttManager 3) addr [] [ttVar 3 0, ttVar 3 1, ttVar 3 2] 3
        MergeHints.empty [ttVar 3 0, ttVar 3 1] = Except.ok s0 ∧
      Inv (ttManager 3) s0 ∧ AliveInv (ttManager 3) s0 [] ∧
      SameCore (ttManager 3) (connectedState (ttManager 3) id []
        [ttVar 3 0, ttVar 3 1, ttVar 3 2] MergeHints.empty [ttVar 3 0, ttVar 3 1]).nodes
        s0.nodes ∧
      Frame (connectedState (ttManager 3) id [] [ttVar 3 0, ttVar 3 1, ttVar 3 2]
        MergeHints.empty [ttVar 3 0, ttVar 3 1]) s0 ∧
      s0.heap ≠ [] ∧
      (∀ e ∈ s0.heap, (mergerAt s0.mergers e.1).joins 0 1) ∧
      (∀ m, m < s0.mergers.length → ∃ e ∈ s0.heap, e.1 = m) := by
  obtain ⟨s0, h0, hinv, hA, hcore, hIA, hIE⟩ := initState_exact (ttManager 3) addr []
    [ttVar 3 0, ttVar 3 1, ttVar 3 2] 3 MergeHints.empty [ttVar 3 0, ttVar 3 1]
  rw [scenario_five_connected] at hcore hIE
  refine ⟨s0, h0, hinv, hA, hcore, hIE.frame, ?_, ?_, ?_⟩
  · have hne : addr 0 ≠ addr 1 := fun h => absurd (haddr h) (by decide)
    rcases lt_or_gt_of_ne hne with hlt | hlt
    · obtain ⟨m, _, _, hm⟩ := hIE.complete 0 1 0 (Or.inr (by simp))
        ((initCompat_eq_some _ _ _ _ _ _ _ _).2 ⟨hlt, by simp,
          scenario_five_compat 0 (by decide) 1 (by decide)⟩)
      exact List.ne_nil_of_mem hm
    · obtain ⟨m, _, _, hm⟩ := hIE.complete 1 0 0 (Or.inr (by simp))
        ((initCompat_eq_some _ _ _ _ _ _ _ _).2 ⟨hlt, by simp,
          scenario_five_compat 1 (by decide) 0 (by decide)⟩)
      exact List.ne_nil_of_mem hm
  · intro e he
    obtain ⟨hlt, hc⟩ := hIE.cells e he
    have hv := hIA.seen _ (mergerAt_mem s0.mergers hlt)
    obtain ⟨h1, _, h3⟩ := (initCompat_eq_some _ _ _ _ _ _ _ _).1 hc
    have hv' : (mergerAt s0.mergers e.1).node1 < 3 ∧ (mergerAt s0.mergers e.1).node2 < 3 := by
      rcases hv with ⟨h, _⟩ | ⟨_, h, _, h'⟩
      · simp at h
      · simp at h h'
        exact ⟨h, h'⟩
    have hne : (mergerAt s0.mergers e.1).node1 ≠ (mergerAt s0.mergers e.1).node2 := by
      intro heq
      rw [heq] at h1
      exact lt_irrefl _ h1
    rw [show (if (mergerAt s0.mergers e.1).node1 < ([] : List ℕ).length then
        (connectedState (ttManager 3) id [] [ttVar 3 0, ttVar 3 1, ttVar 3 2] MergeHints.empty
          [ttVar 3 0, ttVar 3 1]).qf
        else (connectedState (ttManager 3) id [] [ttVar 3 0, ttVar 3 1, ttVar 3 2]
          MergeHints.empty [ttVar 3 0, ttVar 3 1]).qv) =
        (connectedState (ttManager 3) id [] [ttVar 3 0, ttVar 3 1, ttVar 3 2]
          MergeHints.empty [ttVar 3 0, ttVar 3 1]).qv from by simp,
      scenario_five_compat _ hv'.1 _ hv'.2] at h3
    unfold AmMerger.joins
    generalize (mergerAt s0.mergers e.1).node1 = i at *
    generalize (mergerAt s0.mergers e.1).node2 = j at *
    obtain ⟨hi, hj⟩ := hv'
    interval_cases i <;> interval_cases j <;> simp_all
  · intro m hm
    exact initState_merger_cell (ttManager 3) addr _ s0 hinv hIA m hm

end ScenarioFive

end blif_solve
namespace blif_solve

section ScenarioFiveRound

set_option maxRecDepth 1000000 in
/-- The one round of scenario 5: the nodes of `a` and `b` are contracted, the
heap is empty afterwards, no merger was created, the set `qv` holds `a ∧ b`
and the surviving variables are `a ∧ b` and `c`. -/
theorem scenario_five_round (addr : ℕ → ℕ) (t : ℕ) (s0 s1 : MergeState ℕ)
    (hinv : Inv (ttManager 3) s0) (hA : AliveInv (ttManager 3) s0 [])
    (hcore : SameCore (ttManager 3) (connectedState (ttManager 3) id []
      [ttVar 3 0, ttVar 3 1, ttVar 3 2] MergeHints.empty [ttVar 3 0, ttVar 3 1]).nodes
      s0.nodes)
    (hframe : Frame (connectedState (ttManager 3) id [] [ttVar 3 0, ttVar 3 1, ttVar 3 2]
      MergeHints.empty [ttVar 3 0, ttVar 3 1]) s0)
    (hne : s0.heap ≠ [])
    (hcells : ∀ e ∈ s0.heap, (mergerAt s0.mergers e.1).joins 0 1)
    (hall : ∀ m, m < s0.mergers.length → ∃ e ∈ s0.heap, e.1 = m)
    (h : loopStep (ttManager 3) addr 3 t s0 = Except.ok s1) :
    s1.heap = [] ∧ s1.nodes.length = 4 ∧
      (ttManager 3).bdd_and (ttVar 3 0) (ttVar 3 1) ∈ s1.qv ∧
      (∀ mg ∈ s1.mergers, mg.node1 ≠ 2 ∧ mg.node2 ≠ 2) ∧
      s1.mergedVariables = [(ttManager 3).bdd_and (ttVar 3 0) (ttVar 3 1), ttVar 3 2] := by
  obtain ⟨m, _, _, _, _, hF, hC⟩ := loopStep_clean (ttManager 3) addr 3 t s0 s1 [] hinv hA hne h
  obtain ⟨em, hem, hem1, _⟩ := hF.top_max
  have hm := hcells em hem
  rw [hem1] at hm
  have hpair : ∀ e ∈ s0.heap,
      (mergerAt s0.mergers e.1).hasNode (mergerAt s0.mergers m).node1 ∧
      ∀ y, ((mergerAt s0.mergers e.1).joins (mergerAt s0.mergers m).node1 y ∨
        (mergerAt s0.mergers e.1).joins (mergerAt s0.mergers m).node2 y) →
        y = (mergerAt s0.mergers m).node1 ∨ y = (mergerAt s0.mergers m).node2 := by
    intro e he
    have hj := hcells e he
    unfold AmMerger.joins at hj hm ⊢
    unfold AmMerger.hasNode
    constructor
    · rcases hm with ⟨a, b⟩ | ⟨a, b⟩ <;> rcases hj with ⟨c, d⟩ | ⟨c, d⟩ <;> simp [a, c, d]
    · intro y
      rcases hm with ⟨a, b⟩ | ⟨a, b⟩ <;> rcases hj with ⟨c, d⟩ | ⟨c, d⟩ <;>
        simp only [a, b, c, d] <;> omega
  have hheap : s1.heap = [] := by
    apply List.eq_nil_iff_forall_not_mem.2
    intro e he
    by_cases hlt : e.1 < s0.mergers.length
    · obtain ⟨g1, g2, _⟩ := hC.old_cells e he hlt
      exact g2 (hpair e g1).1
    · obtain ⟨_, _, y1, y2, ⟨e0, he0, hj⟩, _⟩ := hC.new_cells e he (not_lt.1 hlt)
      rcases (hpair e0 he0).2 _ hj with hy | hy
      · exact y1 hy
      · exact y2 hy
  have hmergers : s1.mergers = s0.mergers := by
    obtain ⟨new, hnew, _, hR⟩ := hF.mergers
    have : new = [] := by
      apply List.eq_nil_iff_forall_not_mem.2
      intro mg hmg
      obtain ⟨_, old, hold, ho⟩ := hR mg hmg
      obtain ⟨h1, h2, _⟩ := hinv.mergers_valid m hF.valid
      obtain ⟨y1, y2, y3⟩ := otherNode_some ho
      have hcell : ∃ e0 ∈ s0.heap, e0.1 = old := by
        rcases oldMergersOf_mem (ttManager 3) addr s0 m h1 h2 old hold with hl | hl
        · exact hinv.listed_in_heap _ old hl
        · exact hinv.listed_in_heap _ old hl
      obtain ⟨e0, he0, he01⟩ := hcell
      have hj := hcells e0 he0
      rw [he01] at hj
      unfold AmMerger.joins at hj hm
      rcases hm with ⟨a, b⟩ | ⟨a, b⟩ <;> rcases hj with ⟨c, d⟩ | ⟨c, d⟩ <;>
        rcases y3 with hy | ⟨hy, _⟩ <;> rw [a] at y1 <;> rw [b] at y2 <;> omega
    rw [hnew, this, List.append_nil]
  have hlen0 : s0.nodes.length = 3 := by
    rw [hcore.1]
    rfl
  have htype : (nodeAt (ttManager 3) s0.nodes (mergerAt s0.mergers m).node1).type =
      NodeType.Var := by
    rw [core_type (hcore.2 _)]
    unfold AmMerger.joins at hm
    rcases hm with ⟨a, _⟩ | ⟨a, _⟩ <;> rw [a] <;> rfl
  refine ⟨hheap, ?_, ?_, ?_, ?_⟩
  · rw [hF.core.1, contractState_length, hlen0]
  · rw [hF.frame.2.1, mem_contractState_qv_var (ttManager 3) addr s0 m htype]
    right
    unfold mergedBddOf
    rw [core_node (hcore.2 _), core_node (hcore.2 _), core_supportSet (hcore.2 _),
      hframe.2.1]
    unfold AmMerger.joins at hm
    rcases hm with ⟨a, b⟩ | ⟨a, b⟩ <;> rw [a, b] <;> decide
  · intro mg hmg
    rw [hmergers] at hmg
    obtain ⟨m', hm', rfl⟩ := exists_mergerAt_of_mem s0.mergers hmg
    obtain ⟨e, he, he1⟩ := hall m' hm'
    have hj := hcells e he
    rw [he1] at hj
    unfold AmMerger.joins at hj
    rcases hj with ⟨c, d⟩ | ⟨c, d⟩ <;> rw [c, d] <;> decide
  · rw [hF.frame.2.2.2.2, contractState_mergedVariables_var (ttManager 3) addr s0 m htype]
    unfold mergedBddOf
    rw [core_node (hcore.2 _), core_node (hcore.2 _), hframe.2.2.2.2]
    unfold AmMerger.joins at hm
    rcases hm with ⟨a, b⟩ | ⟨a, b⟩ <;> rw [a, b] <;> decide

end ScenarioFiveRound

end blif_solve
namespace blif_solve

section ScenarioFiveClaim

/-- C16. Scenario 5 of the spec: for no factors, the variables `a`, `b`, `c`,
bound 3, no hints and `a`, `b` quantified, `blif_solve::merge` returns exactly the
variables `a ∧ b` and `c`, whatever the tie-breaks of the heap and wherever the
nodes lie in memory (two nodes never share an address); after the one
contraction of the run the heap is empty, the set `qv` holds `a ∧ b`, and no
merger of the arena joins the node of `c` (node 2) to another node. -/
theorem merge_scenario_five (addr : ℕ → ℕ) (haddr : Function.Injective addr) (tie : ℕ → ℕ) :
    (∃ r, merge (ttManager 3) addr tie [] [ttVar 3 0, ttVar 3 1, ttVar 3 2] 3
        MergeHints.empty [ttVar 3 0, ttVar 3 1] = Except.ok r ∧
      r.varBdds = [(ttManager 3).bdd_and (ttVar 3 0) (ttVar 3 1), ttVar 3 2]) ∧
    (∃ s, stateAfter (ttManager 3) addr tie 1 [] [ttVar 3 0, ttVar 3 1, ttVar 3 2] 3
        MergeHints.empty [ttVar 3 0, ttVar 3 1] = Except.ok s ∧
      s.heap = [] ∧ s.nodes.length = 4 ∧
      (ttManager 3).bdd_and (ttVar 3 0) (ttVar 3 1) ∈ s.qv ∧
      ∀ mg ∈ s.mergers, mg.node1 ≠ 2 ∧ mg.node2 ≠ 2) := by
  obtain ⟨s0, h0, hinv, hA, hcore, hframe, hne, hcells, hall⟩ := scenario_five_init addr haddr
  obtain ⟨_, s1, _, hstep, _, _⟩ := loopStep_round (ttManager 3) addr 3 (tie 0) s0 hinv hne
  have hs1 := stateAfter_step (ttManager 3) addr tie 0 [] [ttVar 3 0, ttVar 3 1, ttVar 3 2] 3
    MergeHints.empty [ttVar 3 0, ttVar 3 1] s0 s1
    (stateAfter_zero (ttManager 3) addr tie [] [ttVar 3 0, ttVar 3 1, ttVar 3 2] 3
      MergeHints.empty [ttVar 3 0, ttVar 3 1] s0 h0) hne hstep
  obtain ⟨r1, r2, r3, r4, r5⟩ := scenario_five_round addr (tie 0) s0 s1 hinv hA hcore hframe hne
    hcells hall hstep
  exact ⟨⟨s1.results, merge_eq_of_stateAfter (ttManager 3) addr tie 1 [] _ 3 _ _ s1 hs1 r1, r5⟩,
    ⟨s1, hs1, r1, r2, r3, r4⟩⟩

/-- Witness of `merge_scenario_five`: the nodes at the addresses `0, 1, 2, ...`
and the first top cell in every round. -/
theorem merge_scenario_five_witness :
    Function.Injective (id : ℕ → ℕ) ∧
    (∃ r, merge (ttManager 3) id (fun _ => 0) [] [ttVar 3 0, ttVar 3 1, ttVar 3 2] 3
        MergeHints.empty [ttVar 3 0, ttVar 3 1] = Except.ok r ∧
      r.varBdds = [(ttManager 3).bdd_and (ttVar 3 0) (ttVar 3 1), ttVar 3 2]) ∧
    (∃ s, stateAfter (ttManager 3) id (fun _ => 0) 1 [] [ttVar 3 0, ttVar 3 1, ttVar 3 2] 3
        MergeHints.empty [ttVar 3 0, ttVar 3 1] = Except.ok s ∧
      s.heap = [] ∧ s.nodes.length = 4 ∧
      (ttManager 3).bdd_and (ttVar 3 0) (ttVar 3 1) ∈ s.qv ∧
      ∀ mg ∈ s.mergers, mg.node1 ≠ 2 ∧ mg.node2 ≠ 2) :=
  ⟨Function.injective_id, merge_scenario_five id Function.injective_id (fun _ => 0)⟩

end ScenarioFiveClaim

end blif_solve
namespace blif_solve

section CompatBound

variable {α : Type} [LinearOrder α]

/-- A pair of nodes of one quantification class passes `getCompatibility` when
the support sets of both nodes and of all their neighbours lie in a set of at
most `lss` variables. -/
theorem getCompatibility_of_subset {M : DdManager α} {S : Semantics α} (D : M.Lawful S)
    (nodes : List (AmNode α)) (hc : ∀ j, S.isCube (nodeAt M nodes j).supportSet) (f1 f2 : ℕ)
    (lss : ℤ) (hint : ℚ) (q : List α) (T : Finset ℕ)
    (hq : (nodeAt M nodes f1).supportSet ∈ q ↔ (nodeAt M nodes f2).supportSet ∈ q)
    (hT : (T.card : ℤ) ≤ lss)
    (h1 : S.vars (nodeAt M nodes f1).supportSet ⊆ T)
    (h2 : S.vars (nodeAt M nodes f2).supportSet ⊆ T)
    (hn1 : ∀ x ∈ (nodeAt M nodes f1).neighbours, S.vars (nodeAt M nodes x).supportSet ⊆ T)
    (hn2 : ∀ x ∈ (nodeAt M nodes f2).neighbours, S.vars (nodeAt M nodes x).supportSet ⊆ T) :
    getCompatibility M nodes f1 f2 lss hint q = some
      (((S.vars (nodeAt M nodes f1).supportSet ∩
          S.vars (nodeAt M nodes f2).supportSet).card : ℚ) /
        min ((S.vars (nodeAt M nodes f1).supportSet).card : ℚ)
          ((S.vars (nodeAt M nodes f2).supportSet).card : ℚ) + hint) := by
  rw [getCompatibility_eq D nodes hc, if_neg (not_not.2 hq), if_neg]
  rw [not_lt]
  refine le_trans ?_ hT
  have hsub : prospectiveSupport M S nodes f1 f2 ⊆ T := by
    intro x hx
    unfold prospectiveSupport at hx
    simp only [Finset.mem_union, mem_supportUnion] at hx
    rcases hx with ((hx | hx) | ⟨j, hj, hx⟩) | ⟨j, hj, hx⟩
    · exact h1 hx
    · exact h2 hx
    · exact hn1 j hj hx
    · exact hn2 j hj hx
  exact_mod_cast Finset.card_le_card hsub

/-- The support sets of the nodes of an arena are cubes when those of another
arena with the same nodes up to the neighbour lists are. -/
theorem cube_supportSet_of_base {M : DdManager α} {S : Semantics α} (D : M.Lawful S)
    (ref nodes : List (AmNode α)) (hb : SameBase M ref nodes)
    (h : ∀ n ∈ ref, S.isCube n.supportSet) (j : ℕ) :
    S.isCube (nodeAt M nodes j).supportSet := by
  rw [base_supportSet (hb.2 j)]
  exact cube_supportSet_of_forall D ref h j

end CompatBound

end blif_solve
namespace blif_solve

section KeepsNodesProofs

variable {α : Type} [LinearOrder α]

/-- The first state starts with the nodes made from the arguments. -/
theorem KeepsNodes.init_nodes (M : DdManager α) (addr : ℕ → ℕ) (factors varBdds : List α)
    (hintsInput : MergeHints α) (qvars : List α) (s0 : MergeState α)
    (hcore : SameCore M (connectedState M addr factors varBdds hintsInput qvars).nodes
      s0.nodes) :
    KeepsNodes M (initialNodes M factors varBdds) s0.nodes ∧
      s0.nodes.length = factors.length + varBdds.length := by
  have hb := connectedState_sameBase M addr factors varBdds hintsInput qvars
  have hlen : s0.nodes.length = factors.length + varBdds.length := by
    rw [hcore.1, connectedState_length]
  refine ⟨⟨?_, ?_⟩, hlen⟩
  · rw [hlen]
    simp [initialNodes]
  · intro j _
    rw [core_type (hcore.2 j), core_node (hcore.2 j), core_supportSet (hcore.2 j),
      base_type (hb.2 j), base_node (hb.2 j), base_supportSet (hb.2 j)]
    exact ⟨rfl, rfl, rfl⟩

/-- A round of the main loop keeps the old nodes, up to the merger lists. -/
theorem RoundFacts.old_core {M : DdManager α} {addr : ℕ → ℕ} {lss : ℤ} {s s' : MergeState α}
    {merger : ℕ} (hF : RoundFacts M addr lss s s' merger) {j : ℕ} (hj : j < s.nodes.length) :
    (nodeAt M s'.nodes j).core = (nodeAt M s.nodes j).core := by
  rw [hF.core.2 j, contractState_core_old M addr s merger hj]

/-- A round of the main loop appends one node to the arena. -/
theorem RoundFacts.length_nodes {M : DdManager α} {addr : ℕ → ℕ} {lss : ℤ}
    {s s' : MergeState α} {merger : ℕ} (hF : RoundFacts M addr lss s s' merger) :
    s'.nodes.length = s.nodes.length + 1 := by
  rw [hF.core.1, contractState_length]

/-- The type of the node that a round of the main loop appends. -/
theorem RoundFacts.new_type {M : DdManager α} {addr : ℕ → ℕ} {lss : ℤ}
    {s s' : MergeState α} {merger : ℕ} (hF : RoundFacts M addr lss s s' merger) :
    (nodeAt M s'.nodes s.nodes.length).type =
      (nodeAt M s.nodes (mergerAt s.mergers merger).node1).type := by
  rw [core_type (hF.core.2 _), contractState_new_type]

/-- The BDD of the node that a round of the main loop appends. -/
theorem RoundFacts.new_node {M : DdManager α} {addr : ℕ → ℕ} {lss : ℤ}
    {s s' : MergeState α} {merger : ℕ} (hF : RoundFacts M addr lss s s' merger) :
    (nodeAt M s'.nodes s.nodes.length).node = mergedBddOf M s merger := by
  rw [core_node (hF.core.2 _), contractState_new_node]

/-- A round of the main loop keeps the first nodes of the arena. -/
theorem KeepsNodes.round_nodes {M : DdManager α} {addr : ℕ → ℕ} {lss : ℤ}
    {s s' : MergeState α} {merger : ℕ} (hF : RoundFacts M addr lss s s' merger)
    (ref : List (AmNode α)) (hK : KeepsNodes M ref s.nodes) : KeepsNodes M ref s'.nodes := by
  refine ⟨?_, ?_⟩
  · rw [hF.length_nodes]
    exact Nat.le_succ_of_le hK.1
  · intro j hj
    have hlt : j < s.nodes.length := lt_of_lt_of_le hj hK.1
    rw [core_type (hF.old_core hlt), core_node (hF.old_core hlt),
      core_supportSet (hF.old_core hlt)]
    exact hK.2 j hj

end KeepsNodesProofs

end blif_solve
/-! ## Scenario 1 of the spec, for every placement of the nodes -/

namespace blif_solve

section ConnectedNeighbours

variable {α : Type} [LinearOrder α]

/-- A neighbour of a func node in the state before the first mergers is a var
node that is connected to it. -/
theorem connectedState_neighbour_func (M : DdManager α) (addr : ℕ → ℕ) (factors varBdds : List α)
    (hintsInput : MergeHints α) (qvars : List α) (f x : ℕ) (hf : f < factors.length)
    (hx : x ∈ (nodeAt M (connectedState M addr factors varBdds hintsInput qvars).nodes
      f).neighbours) :
    factors.length ≤ x ∧ x < factors.length + varBdds.length ∧ addr f < addr x ∧
      (nodeAt M (initialNodes M factors varBdds) f).isConnectedTo M
        (nodeAt M (initialNodes M factors varBdds) x) = true := by
  obtain ⟨f', v', h1, h2, h3, ⟨h4, h5⟩, h6⟩ :=
    (connectedState_mem M addr factors varBdds hintsInput qvars f x).1 hx
  rw [isConnectedTo_base M (connectedState_sameBase M addr factors varBdds hintsInput qvars)]
    at h5
  rcases h6 with ⟨a, b⟩ | ⟨a, b⟩
  · subst a b
    exact ⟨h2, h3, h4, h5⟩
  · omega

/-- A neighbour of a var node in the state before the first mergers is a func
node that is connected to it. -/
theorem connectedState_neighbour_var (M : DdManager α) (addr : ℕ → ℕ) (factors varBdds : List α)
    (hintsInput : MergeHints α) (qvars : List α) (v x : ℕ) (hv : factors.length ≤ v)
    (hx : x ∈ (nodeAt M (connectedState M addr factors varBdds hintsInput qvars).nodes
      v).neighbours) :
    x < factors.length ∧ addr x < addr v ∧
      (nodeAt M (initialNodes M factors varBdds) x).isConnectedTo M
        (nodeAt M (initialNodes M factors varBdds) v) = true := by
  obtain ⟨f', v', h1, h2, h3, ⟨h4, h5⟩, h6⟩ :=
    (connectedState_mem M addr factors varBdds hintsInput qvars v x).1 hx
  rw [isConnectedTo_base M (connectedState_sameBase M addr factors varBdds hintsInput qvars)]
    at h5
  rcases h6 with ⟨a, b⟩ | ⟨a, b⟩
  · omega
  · subst a b
    exact ⟨h1, h4, h5⟩

end ConnectedNeighbours

section ScenarioOneInit

set_option maxRecDepth 1000000 in
/-- The connections of the func nodes of scenario 1 among themselves. -/
theorem scenario_one_func_pairs : ∀ i, i < 3 → ∀ j, j < 3 →
    (nodeAt (ttManager 5) (initialNodes (ttManager 5) scenarioOneFactors scenarioOneVars)
      i).isConnectedTo (ttManager 5)
      (nodeAt (ttManager 5) (initialNodes (ttManager 5) scenarioOneFactors scenarioOneVars) j) =
      true → i = j ∨ (i = 0 ∧ j = 1) ∨ (i = 1 ∧ j = 0) := by
  with_unfolding_all decide

set_option maxRecDepth 1000000 in
/-- The var nodes of scenario 1 that are connected to `a ∨ b` or `b ∨ c` carry
one of the variables `a`, `b`, `c`. -/
theorem scenario_one_abc : ∀ f, f < 2 → ∀ v, v < 8 →
    (nodeAt (ttManager 5) (initialNodes (ttManager 5) scenarioOneFactors scenarioOneVars)
      f).isConnectedTo (ttManager 5)
      (nodeAt (ttManager 5) (initialNodes (ttManager 5) scenarioOneFactors scenarioOneVars) v) =
      true →
    (ttSemantics 5).vars (nodeAt (ttManager 5)
      (initialNodes (ttManager 5) scenarioOneFactors scenarioOneVars) v).supportSet ⊆
      {0, 1, 2} := by
  with_unfolding_all decide

set_option maxRecDepth 1000000 in
/-- The func nodes of scenario 1 that are connected to `d` or `e` have the
variables `d`, `e`. -/
theorem scenario_one_de : ∀ v, 6 ≤ v → v < 8 → ∀ f, f < 3 →
    (nodeAt (ttManager 5) (initialNodes (ttManager 5) scenarioOneFactors scenarioOneVars)
      f).isConnectedTo (ttManager 5)
      (nodeAt (ttManager 5) (initialNodes (ttManager 5) scenarioOneFactors scenarioOneVars) v) =
      true →
    (ttSemantics 5).vars (nodeAt (ttManager 5)
      (initialNodes (ttManager 5) scenarioOneFactors scenarioOneVars) f).supportSet ⊆
      {3, 4} := by
  with_unfolding_all decide

end ScenarioOneInit

end blif_solve
namespace blif_solve

section ScenarioOneState

/-- The support sets of the nodes made from the arguments of scenario 1 are
cubes. -/
theorem scenario_one_cubes (n : AmNode ℕ)
    (hn : n ∈ initialNodes (ttManager 5) scenarioOneFactors scenarioOneVars) :
    (ttSemantics 5).isCube n.supportSet := by
  have hf : ∀ f, (ttSemantics 5).isCube
      (AmNode.create (ttManager 5) NodeType.Func f).supportSet := by
    intro f
    unfold AmNode.create
    rw [if_pos rfl]
    exact (ttManager_lawful 5).cube_support f
  simp only [initialNodes, scenarioOneFactors, scenarioOneVars, List.map_cons, List.map_nil,
    List.cons_append, List.nil_append, List.mem_cons, List.mem_singleton,
    List.not_mem_nil, or_false] at hn
  rcases hn with rfl | rfl | rfl | rfl | rfl | rfl | rfl | rfl
  · exact hf _
  · exact hf _
  · exact hf _
  · exact ⟨[0], by simp, rfl⟩
  · exact ⟨[1], by simp, rfl⟩
  · exact ⟨[2], by simp, rfl⟩
  · exact ⟨[3], by simp, rfl⟩
  · exact ⟨[4], by simp, rfl⟩

set_option maxRecDepth 1000000 in
/-- The first state of scenario 1, wherever the nodes lie in memory: the heap
holds a cell for the merger of the func nodes of `a ∨ b` and `b ∨ c`, which is
the only merger of two func nodes, and a cell for the merger of the var nodes
of `d` and `e`. -/
theorem scenario_one_init (addr : ℕ → ℕ) (haddr : Function.Injective addr) :
    ∃ s0, initState (ttManager 5) addr scenarioOneFactors scenarioOneVars 3
        MergeHints.empty [] = Except.ok s0 ∧
      Inv (ttManager 5) s0 ∧ AliveInv (ttManager 5) s0 [] ∧
      KeepsNodes (ttManager 5) (initialNodes (ttManager 5) scenarioOneFactors scenarioOneVars)
        s0.nodes ∧
      s0.nodes.length = 8 ∧
      s0.mergedFactors = setOfList scenarioOneFactors ∧
      s0.mergedVariables = setOfList scenarioOneVars ∧
      (∃ e ∈ s0.heap, (mergerAt s0.mergers e.1).joins 0 1) ∧
      (∀ e ∈ s0.heap,
        (nodeAt (ttManager 5) s0.nodes (mergerAt s0.mergers e.1).node1).type = NodeType.Func →
        (mergerAt s0.mergers e.1).joins 0 1) ∧
      (∃ e ∈ s0.heap, (mergerAt s0.mergers e.1).joins 6 7) := by
  obtain ⟨s0, h0, hinv, hA, hcore, hIA, hIE⟩ := initState_exact (ttManager 5) addr
    scenarioOneFactors scenarioOneVars 3 MergeHints.empty []
  obtain ⟨hK, hlen⟩ := KeepsNodes.init_nodes (ttManager 5) addr scenarioOneFactors
    scenarioOneVars MergeHints.empty [] s0 hcore
  have hb := connectedState_sameBase (ttManager 5) addr scenarioOneFactors scenarioOneVars
    MergeHints.empty []
  have hcube := cube_supportSet_of_base (ttManager_lawful 5) _ _ hb scenario_one_cubes
  -- the merger of the two connected func nodes
  have hfunc : ∀ i j, ((i = 0 ∧ j = 1) ∨ (i = 1 ∧ j = 0)) → addr i < addr j →
      ∃ e ∈ s0.heap, (mergerAt s0.mergers e.1).joins 0 1 := by
    intro i j hij hlt
    have hi : i < 2 := by omega
    have hj : j < 2 := by omega
    have hgc := getCompatibility_of_subset (ttManager_lawful 5) _ hcube i j 3
      ((connectedState (ttManager 5) addr scenarioOneFactors scenarioOneVars MergeHints.empty
        []).hints.getWeight
        (nodeAt (ttManager 5) (connectedState (ttManager 5) addr scenarioOneFactors
          scenarioOneVars MergeHints.empty []).nodes i).node
        (nodeAt (ttManager 5) (connectedState (ttManager 5) addr scenarioOneFactors
          scenarioOneVars MergeHints.empty []).nodes j).node)
      [] {0, 1, 2} (by simp) (by decide)
      (by
        rw [base_supportSet (hb.2 i)]
        rcases hij with ⟨rfl, rfl⟩ | ⟨rfl, rfl⟩ <;> decide)
      (by
        rw [base_supportSet (hb.2 j)]
        rcases hij with ⟨rfl, rfl⟩ | ⟨rfl, rfl⟩ <;> decide)
      (by
        intro x hx
        obtain ⟨_, x2, _, x4⟩ := connectedState_neighbour_func (ttManager 5) addr
          scenarioOneFactors scenarioOneVars MergeHints.empty [] i x (by simp; omega) hx
        rw [base_supportSet (hb.2 x)]
        exact scenario_one_abc i hi x (by simpa using x2) x4)
      (by
        intro x hx
        obtain ⟨_, x2, _, x4⟩ := connectedState_neighbour_func (ttManager 5) addr
          scenarioOneFactors scenarioOneVars MergeHints.empty [] j x (by simp; omega) hx
        rw [base_supportSet (hb.2 x)]
        exact scenario_one_abc j hj x (by simpa using x2) x4)
    obtain ⟨m, _, hm2, hm3⟩ := hIE.complete i j _ (Or.inl (by simp; omega))
      ((initCompat_eq_some _ _ _ _ _ _ _ _).2 ⟨hlt, by
        intro _
        rw [isConnectedTo_base (ttManager 5) hb]
        rcases hij with ⟨rfl, rfl⟩ | ⟨rfl, rfl⟩ <;> decide, by
        rw [if_pos (by simp; omega)]
        exact hgc⟩)
    refine ⟨_, hm3, ?_⟩
    show (mergerAt s0.mergers m).joins 0 1
    rw [hm2]
    unfold AmMerger.joins
    rcases hij with ⟨rfl, rfl⟩ | ⟨rfl, rfl⟩ <;> simp
  -- the merger of the var nodes of `d` and `e`
  have hvar : ∀ i j, ((i = 6 ∧ j = 7) ∨ (i = 7 ∧ j = 6)) → addr i < addr j →
      ∃ e ∈ s0.heap, (mergerAt s0.mergers e.1).joins 6 7 := by
    intro i j hij hlt
    have hgc := getCompatibility_of_subset (ttManager_lawful 5) _ hcube i j 3
      ((connectedState (ttManager 5) addr scenarioOneFactors scenarioOneVars MergeHints.empty
        []).hints.getWeight
        (nodeAt (ttManager 5) (connectedState (ttManager 5) addr scenarioOneFactors
          scenarioOneVars MergeHints.empty []).nodes i).node
        (nodeAt (ttManager 5) (connectedState (ttManager 5) addr scenarioOneFactors
          scenarioOneVars MergeHints.empty []).nodes j).node)
      [] {3, 4} (by simp) (by decide)
      (by
        rw [base_supportSet (hb.2 i)]
        rcases hij with ⟨rfl, rfl⟩ | ⟨rfl, rfl⟩ <;> decide)
      (by
        rw [base_supportSet (hb.2 j)]
        rcases hij with ⟨rfl, rfl⟩ | ⟨rfl, rfl⟩ <;> decide)
      (by
        intro x hx
        obtain ⟨x1, _, x4⟩ := connectedState_neighbour_var (ttManager 5) addr
          scenarioOneFactors scenarioOneVars MergeHints.empty [] i x (by simp; omega) hx
        rw [base_supportSet (hb.2 x)]
        exact scenario_one_de i (by omega) (by omega) x (by simpa using x1) x4)
      (by
        intro x hx
        obtain ⟨x1, _, x4⟩ := connectedState_neighbour_var (ttManager 5) addr
          scenarioOneFactors scenarioOneVars MergeHints.empty [] j x (by simp; omega) hx
        rw [base_supportSet (hb.2 x)]
        exact scenario_one_de j (by omega) (by omega) x (by simpa using x1) x4)
    obtain ⟨m, _, hm2, hm3⟩ := hIE.complete i j _ (Or.inr (by simp; omega))
      ((initCompat_eq_some _ _ _ _ _ _ _ _).2 ⟨hlt, by
        intro hi
        simp at hi
        omega, by
        rw [if_neg (by simp; omega)]
        exact hgc⟩)
    refine ⟨_, hm3, ?_⟩
    show (mergerAt s0.mergers m).joins 6 7
    rw [hm2]
    unfold AmMerger.joins
    rcases hij with ⟨rfl, rfl⟩ | ⟨rfl, rfl⟩ <;> simp
  refine ⟨s0, h0, hinv, hA, hK, hlen, hIE.frame.2.2.2.1, hIE.frame.2.2.2.2, ?_, ?_, ?_⟩
  · have hne : addr 0 ≠ addr 1 := fun h => absurd (haddr h) (by decide)
    rcases lt_or_gt_of_ne hne with hlt | hlt
    · exact hfunc 0 1 (Or.inl ⟨rfl, rfl⟩) hlt
    · exact hfunc 1 0 (Or.inr ⟨rfl, rfl⟩) hlt
  · intro e he htype
    obtain ⟨hlt, hc⟩ := hIE.cells e he
    have hv := hIA.seen _ (mergerAt_mem s0.mergers hlt)
    obtain ⟨h1, h2, _⟩ := (initCompat_eq_some _ _ _ _ _ _ _ _).1 hc
    have hne : (mergerAt s0.mergers e.1).node1 ≠ (mergerAt s0.mergers e.1).node2 := by
      intro heq
      rw [heq] at h1
      exact lt_irrefl _ h1
    unfold AmMerger.joins
    generalize (mergerAt s0.mergers e.1).node1 = i at *
    generalize (mergerAt s0.mergers e.1).node2 = j at *
    unfold initVisited at hv
    simp only [scenarioOneFactors, scenarioOneVars, List.length_cons, List.length_nil] at hv
    rcases hv with ⟨hi, hj⟩ | ⟨hi, hi', _, _⟩
    · have hconn := h2 (by simpa using hi)
      rw [isConnectedTo_base (ttManager 5) hb] at hconn
      rcases scenario_one_func_pairs i (by omega) j (by omega) hconn with h | h | h
      · exact absurd h hne
      · exact Or.inl h
      · exact Or.inr ⟨h.1, h.2⟩
    · exfalso
      rw [(hK.2 i (by simp [initialNodes]; omega)).1] at htype
      revert htype
      have hi3 : i < 8 := by omega
      interval_cases i <;> decide
  · have hne : addr 6 ≠ addr 7 := fun h => absurd (haddr h) (by decide)
    rcases lt_or_gt_of_ne hne with hlt | hlt
    · exact hvar 6 7 (Or.inl ⟨rfl, rfl⟩) hlt
    · exact hvar 7 6 (Or.inr ⟨rfl, rfl⟩) hlt

end ScenarioOneState

end blif_solve
namespace blif_solve

section CellTypes

variable {α : Type} [LinearOrder α]

/-- The first node of the merger of a cell that a round of the main loop keeps
has the same type after the round. -/
theorem CleanRound.old_cell_type {M : DdManager α} {addr : ℕ → ℕ} {lss : ℤ}
    {s s' : MergeState α} {merger : ℕ} (hinv : Inv M s)
    (hF : RoundFacts M addr lss s s' merger) (hC : CleanRound M addr lss s s' merger)
    (j : ℕ) (hlt : j < s.mergers.length) :
    (nodeAt M s'.nodes (mergerAt s'.mergers j).node1).type =
      (nodeAt M s.nodes (mergerAt s.mergers j).node1).type := by
  rw [hC.mergers_old j hlt, core_type (hF.old_core (hinv.mergers_valid j hlt).1)]

/-- The first node of the merger of a cell that a round of the main loop
creates is the merged node, which has the type of the contracted nodes. -/
theorem CleanRound.new_cell_type {M : DdManager α} {addr : ℕ → ℕ} {lss : ℤ}
    {s s' : MergeState α} {merger : ℕ}
    (hF : RoundFacts M addr lss s s' merger) (hC : CleanRound M addr lss s s' merger)
    (e : ℕ × ℚ) (he : e ∈ s'.heap) (hle : s.mergers.length ≤ e.1) :
    (nodeAt M s'.nodes (mergerAt s'.mergers e.1).node1).type =
      (nodeAt M s.nodes (mergerAt s.mergers merger).node1).type := by
  rw [(hC.new_cells e he hle).2.1, hF.new_type]

/-- A node type is `Func` or `Var`. -/
theorem nodeType_cases (t : NodeType) : t = NodeType.Func ∨ t = NodeType.Var := by
  cases t
  · exact Or.inl rfl
  · exact Or.inr rfl

end CellTypes

end blif_solve
namespace blif_solve

section ScenarioOneStep

set_option maxRecDepth 1000000 in
/-- Every round of the main loop of scenario 1 keeps the account of the func
nodes: before the contraction of `a ∨ b` and `b ∨ c` a round contracts two var
nodes or these two func nodes, afterwards a round contracts two var nodes. -/
theorem scenario_one_step (addr : ℕ → ℕ) (t : ℕ) (s s' : MergeState ℕ)
    (hinv : Inv (ttManager 5) s)
    (hI : (∃ dead, AliveInv (ttManager 5) s dead) ∧ (ScenarioOneA s ∨ ScenarioOneB s))
    (hne : s.heap ≠ []) (h : loopStep (ttManager 5) addr 3 t s = Except.ok s') :
    (∃ dead, AliveInv (ttManager 5) s' dead) ∧ (ScenarioOneA s' ∨ ScenarioOneB s') := by
  obtain ⟨⟨dead, hA⟩, hP⟩ := hI
  obtain ⟨m, _, hdist, _, hA', hF, hC⟩ :=
    loopStep_clean (ttManager 5) addr 3 t s s' dead hinv hA hne h
  refine ⟨⟨_, hA'⟩, ?_⟩
  obtain ⟨em, hem, hem1, _⟩ := hF.top_max
  obtain ⟨hv1, hv2, hvt⟩ := hinv.mergers_valid m hF.valid
  rcases hP with hP | hP
  · rcases nodeType_cases (nodeAt (ttManager 5) s.nodes (mergerAt s.mergers m).node1).type
      with htype | htype
    · -- the two connected func nodes are contracted
      right
      have hm := hP.func_cells em hem (by rw [hem1]; exact htype)
      rw [hem1] at hm
      constructor
      · rw [hF.frame.2.2.2.1, contractState_mergedFactors_func (ttManager 5) addr s m htype,
          hP.factors]
        unfold mergedBddOf
        unfold AmMerger.joins at hm
        rcases hm with ⟨a, b⟩ | ⟨a, b⟩
        · rw [a, b, (hP.keeps.2 0 (by decide)).2.1, (hP.keeps.2 1 (by decide)).2.1]
          decide
        · rw [a, b, (hP.keeps.2 0 (by decide)).2.1, (hP.keeps.2 1 (by decide)).2.1]
          decide
      · intro e he
        by_cases hlt : e.1 < s.mergers.length
        · obtain ⟨g1, g2, g3⟩ := hC.old_cells e he hlt
          rw [hC.old_cell_type hinv hF e.1 hlt]
          rcases nodeType_cases
            (nodeAt (ttManager 5) s.nodes (mergerAt s.mergers e.1).node1).type with ht | ht
          · exfalso
            have hj := hP.func_cells e g1 ht
            unfold AmMerger.joins at hj hm
            unfold AmMerger.hasNode at g2 g3
            rcases hm with ⟨a, b⟩ | ⟨a, b⟩ <;> rcases hj with ⟨c, d⟩ | ⟨c, d⟩ <;>
              simp [a, b, c, d] at g2 g3
          · exact ht
        · exfalso
          obtain ⟨_, _, y1, y2, ⟨e0, he0, hj⟩, _⟩ := hC.new_cells e he (not_lt.1 hlt)
          have hlt0 := hinv.heap_valid e0 he0
          have ht0 : (nodeAt (ttManager 5) s.nodes (mergerAt s.mergers e0.1).node1).type =
              NodeType.Func := by
            have hvt0 := (hinv.mergers_valid e0.1 hlt0).2.2
            unfold AmMerger.joins at hj
            rcases hj with (⟨a, _⟩ | ⟨_, b⟩) | (⟨a, _⟩ | ⟨_, b⟩)
            · rw [a]; exact htype
            · rw [hvt0, b]; exact htype
            · rw [a, ← hvt]; exact htype
            · rw [hvt0, b, ← hvt]; exact htype
          have hj0 := hP.func_cells e0 he0 ht0
          unfold AmMerger.joins at hj hj0 hm
          rcases hm with ⟨a, b⟩ | ⟨a, b⟩ <;> rcases hj0 with ⟨c, d⟩ | ⟨c, d⟩ <;>
            rw [a] at y1 <;> rw [b] at y2 <;> simp only [a, b, c, d] at hj <;> omega
    · -- two var nodes are contracted
      left
      have hn1 : ¬ (mergerAt s.mergers m).node1 < 2 := by
        intro hlt
        have := (hP.keeps.2 (mergerAt s.mergers m).node1 (by simp [initialNodes]; omega)).1
        rw [htype] at this
        revert this
        generalize (mergerAt s.mergers m).node1 = i at hlt
        interval_cases i <;> decide
      have hn2 : ¬ (mergerAt s.mergers m).node2 < 2 := by
        intro hlt
        have := (hP.keeps.2 (mergerAt s.mergers m).node2 (by simp [initialNodes]; omega)).1
        rw [← hvt, htype] at this
        revert this
        generalize (mergerAt s.mergers m).node2 = i at hlt
        interval_cases i <;> decide
      constructor
      · exact hP.keeps.round_nodes hF _
      · intro j hj3 hjlt
        rw [hF.length_nodes] at hjlt
        by_cases hjl : j < s.nodes.length
        · rw [core_type (hF.old_core hjl)]
          exact hP.var_nodes j hj3 hjl
        · have : j = s.nodes.length := by omega
          rw [this, hF.new_type]
          exact htype
      · rw [hF.frame.2.2.2.1, contractState_mergedFactors_var (ttManager 5) addr s m htype]
        exact hP.factors
      · obtain ⟨e, he, hj⟩ := hP.cell
        have hlt := hinv.heap_valid e he
        refine ⟨e, hC.kept e he ?_ ?_, ?_⟩
        · unfold AmMerger.joins at hj
          unfold AmMerger.hasNode
          rcases hj with ⟨c, d⟩ | ⟨c, d⟩ <;> rw [c, d] <;> omega
        · unfold AmMerger.joins at hj
          unfold AmMerger.hasNode
          rcases hj with ⟨c, d⟩ | ⟨c, d⟩ <;> rw [c, d] <;> omega
        · rw [hC.mergers_old e.1 hlt]
          exact hj
      · intro e he ht
        by_cases hlt : e.1 < s.mergers.length
        · obtain ⟨g1, _, _⟩ := hC.old_cells e he hlt
          rw [hC.old_cell_type hinv hF e.1 hlt] at ht
          rw [hC.mergers_old e.1 hlt]
          exact hP.func_cells e g1 ht
        · rw [hC.new_cell_type hF e he (not_lt.1 hlt), htype] at ht
          cases ht
  · -- after the contraction of the func nodes
    right
    have htype := hP.var_cells em hem
    rw [hem1] at htype
    constructor
    · rw [hF.frame.2.2.2.1, contractState_mergedFactors_var (ttManager 5) addr s m htype]
      exact hP.factors
    · intro e he
      by_cases hlt : e.1 < s.mergers.length
      · obtain ⟨g1, _, _⟩ := hC.old_cells e he hlt
        rw [hC.old_cell_type hinv hF e.1 hlt]
        exact hP.var_cells e g1
      · rw [hC.new_cell_type hF e he (not_lt.1 hlt)]
        exact htype

end ScenarioOneStep

end blif_solve
namespace blif_solve

section ScenarioOneFactors

/-- C13. Scenario 1 of the spec: for the factors `a ∨ b`, `b ∨ c`, `d ∨ e` over
five variables, the variables `a`, .., `e`, bound 3, no hints and no quantified
variable, `blif_solve::merge` returns exactly the two factors `(a ∨ b) ∧ (b ∨ c)` and
`d ∨ e`, whatever the tie-breaks of the heap and wherever the nodes lie in
memory (two nodes never share an address). -/
theorem merge_scenario_one_factors (addr : ℕ → ℕ) (haddr : Function.Injective addr)
    (tie : ℕ → ℕ) :
    ∃ r, merge (ttManager 5) addr tie
        [ttOr (ttVar 5 0) (ttVar 5 1), ttOr (ttVar 5 1) (ttVar 5 2),
          ttOr (ttVar 5 3) (ttVar 5 4)]
        [ttVar 5 0, ttVar 5 1, ttVar 5 2, ttVar 5 3, ttVar 5 4] 3 MergeHints.empty [] =
        Except.ok r ∧
      r.factors =
        [(ttManager 5).bdd_and (ttOr (ttVar 5 0) (ttVar 5 1)) (ttOr (ttVar 5 1) (ttVar 5 2)),
          ttOr (ttVar 5 3) (ttVar 5 4)] := by
  obtain ⟨n, s, _, he, _, hI, hm⟩ := merge_of_invariant (ttManager 5) addr tie
    scenarioOneFactors scenarioOneVars 3 MergeHints.empty []
    (fun s => (∃ dead, AliveInv (ttManager 5) s dead) ∧ (ScenarioOneA s ∨ ScenarioOneB s))
    (by
      intro s0 h0
      obtain ⟨s0', h0', _, hA, hK, hlen, hmf, _, hcell, hfunc, _⟩ := scenario_one_init addr haddr
      rw [h0] at h0'
      cases h0'
      refine ⟨⟨[], hA⟩, Or.inl ⟨hK, ?_, hmf, hcell, hfunc⟩⟩
      intro j hj3 hjlt
      rw [(hK.2 j (by simp [initialNodes]; omega)).1]
      rw [hlen] at hjlt
      interval_cases j <;> rfl)
    (fun t s s' hinv hI hne h => scenario_one_step addr t s s' hinv hI hne h)
  refine ⟨s.results, hm, ?_⟩
  rcases hI.2 with hP | hP
  · obtain ⟨e, he', _⟩ := hP.cell
    rw [he] at he'
    cases he'
  · exact hP.factors

/-- Witness of `merge_scenario_one_factors`: the nodes at the addresses
`0, 1, 2, ...` and the first top cell in every round. -/
theorem merge_scenario_one_factors_witness :
    Function.Injective (id : ℕ → ℕ) ∧
    ∃ r, merge (ttManager 5) id (fun _ => 0)
        [ttOr (ttVar 5 0) (ttVar 5 1), ttOr (ttVar 5 1) (ttVar 5 2),
          ttOr (ttVar 5 3) (ttVar 5 4)]
        [ttVar 5 0, ttVar 5 1, ttVar 5 2, ttVar 5 3, ttVar 5 4] 3 MergeHints.empty [] =
        Except.ok r ∧
      r.factors =
        [(ttManager 5).bdd_and (ttOr (ttVar 5 0) (ttVar 5 1)) (ttOr (ttVar 5 1) (ttVar 5 2)),
          ttOr (ttVar 5 3) (ttVar 5 4)] :=
  ⟨Function.injective_id, merge_scenario_one_factors id Function.injective_id (fun _ => 0)⟩

end ScenarioOneFactors

end blif_solve
namespace blif_solve

section CompatValue

variable {α : Type} [LinearOrder α]

/-- The priority that `getCompatibility` returns on nodes whose support sets are
cubes. -/
theorem getCompatibility_val {M : DdManager α} {S : Semantics α} (D : M.Lawful S)
    (nodes : List (AmNode α)) (hc : ∀ j, S.isCube (nodeAt M nodes j).supportSet) (f1 f2 : ℕ)
    (lss : ℤ) (hint : ℚ) (q : List α) (p : ℚ)
    (h : getCompatibility M nodes f1 f2 lss hint q = some p) :
    p = ((S.vars (nodeAt M nodes f1).supportSet ∩
          S.vars (nodeAt M nodes f2).supportSet).card : ℚ) /
        min ((S.vars (nodeAt M nodes f1).supportSet).card : ℚ)
          ((S.vars (nodeAt M nodes f2).supportSet).card : ℚ) + hint := by
  rw [getCompatibility_eq D nodes hc] at h
  split at h
  · cases h
  · split at h
    · cases h
    · cases h
      rfl

/-- The set `qf` stays empty in `contractState`. -/
theorem contractState_qf_nil (M : DdManager α) (addr : ℕ → ℕ) (s : MergeState α) (merger : ℕ)
    (h : s.qf = []) : (contractState M addr s merger).qf = [] := by
  by_cases ht : (nodeAt M s.nodes (mergerAt s.mergers merger).node1).type = NodeType.Var
  · simp [contractState, h, ht]
  · simp [contractState, h, ht]

/-- The hints of `contractState`. -/
theorem contractState_hints (M : DdManager α) (addr : ℕ → ℕ) (s : MergeState α) (merger : ℕ) :
    (contractState M addr s merger).hints =
      s.hints.merge (nodeAt M s.nodes (mergerAt s.mergers merger).node1).node
        (nodeAt M s.nodes (mergerAt s.mergers merger).node2).node (mergedBddOf M s merger) :=
  rfl

end CompatValue

section TruthTableCompat

/-- A truth table over `n` variables depends on variables below `n` only. -/
theorem ttSemantics_vars_subset (n x : ℕ) : (ttSemantics n).vars x ⊆ Finset.range n := by
  intro i hi
  exact Finset.mem_range.2 (ttSupport_lt n x i (List.mem_toFinset.1 hi))

/-- On truth tables over `n` variables with a bound of at least `n`, every pair
of nodes of one quantification class passes `getCompatibility`. -/
theorem getCompatibility_tt (n : ℕ) (nodes : List (AmNode ℕ))
    (hc : ∀ j, (ttSemantics n).isCube (nodeAt (ttManager n) nodes j).supportSet) (f1 f2 : ℕ)
    (lss : ℤ) (hint : ℚ) (q : List ℕ) (hn : (n : ℤ) ≤ lss)
    (hq : (nodeAt (ttManager n) nodes f1).supportSet ∈ q ↔
      (nodeAt (ttManager n) nodes f2).supportSet ∈ q) :
    getCompatibility (ttManager n) nodes f1 f2 lss hint q = some
      ((((ttSemantics n).vars (nodeAt (ttManager n) nodes f1).supportSet ∩
          (ttSemantics n).vars (nodeAt (ttManager n) nodes f2).supportSet).card : ℚ) /
        min (((ttSemantics n).vars (nodeAt (ttManager n) nodes f1).supportSet).card : ℚ)
          (((ttSemantics n).vars (nodeAt (ttManager n) nodes f2).supportSet).card : ℚ) +
        hint) :=
  getCompatibility_of_subset (ttManager_lawful n) nodes hc f1 f2 lss hint q (Finset.range n) hq
    (by rw [Finset.card_range]; exact hn)
    (ttSemantics_vars_subset n _) (ttSemantics_vars_subset n _)
    (fun _ _ => ttSemantics_vars_subset n _) (fun _ _ => ttSemantics_vars_subset n _)

end TruthTableCompat

section VarRounds

variable {α : Type} [LinearOrder α]

/-- A round of the main loop on a heap that holds mergers of var nodes only
leaves the surviving factors alone, and the heap holds mergers of var nodes
only afterwards. -/
theorem loopStep_var_cells (M : DdManager α) (addr : ℕ → ℕ) (lss : ℤ) (t : ℕ)
    (s s' : MergeState α) (dead : List ℕ) (hinv : Inv M s) (hA : AliveInv M s dead)
    (hne : s.heap ≠ []) (h : loopStep M addr lss t s = Except.ok s')
    (hv : ∀ e ∈ s.heap,
      (nodeAt M s.nodes (mergerAt s.mergers e.1).node1).type = NodeType.Var) :
    (∃ dead', AliveInv M s' dead') ∧ s'.mergedFactors = s.mergedFactors ∧
      ∀ e ∈ s'.heap, (nodeAt M s'.nodes (mergerAt s'.mergers e.1).node1).type = NodeType.Var := by
  obtain ⟨m, _, _, _, hA', hF, hC⟩ := loopStep_clean M addr lss t s s' dead hinv hA hne h
  obtain ⟨em, hem, hem1, _⟩ := hF.top_max
  have htype := hv em hem
  rw [hem1] at htype
  refine ⟨⟨_, hA'⟩, ?_, ?_⟩
  · rw [hF.frame.2.2.2.1, contractState_mergedFactors_var M addr s m htype]
  · intro e he
    by_cases hlt : e.1 < s.mergers.length
    · obtain ⟨g1, _, _⟩ := hC.old_cells e he hlt
      rw [hC.old_cell_type hinv hF e.1 hlt]
      exact hv e g1
    · rw [hC.new_cell_type hF e he (not_lt.1 hlt)]
      exact htype

end VarRounds

end blif_solve
/-! ## Scenario 4 of the spec, for every placement of the nodes -/

namespace blif_solve

section ScenarioFourInit

/-- The support sets of the nodes made from the arguments of scenario 4 are
cubes. -/
theorem scenario_four_cubes (n : AmNode ℕ)
    (hn : n ∈ initialNodes (ttManager 4) scenarioFourFactors scenarioFourVars) :
    (ttSemantics 4).isCube n.supportSet := by
  have hf : ∀ f, (ttSemantics 4).isCube
      (AmNode.create (ttManager 4) NodeType.Func f).supportSet := by
    intro f
    unfold AmNode.create
    rw [if_pos rfl]
    exact (ttManager_lawful 4).cube_support f
  simp only [initialNodes, scenarioFourFactors, scenarioFourVars, List.map_cons, List.map_nil,
    List.cons_append, List.nil_append, List.mem_cons, List.mem_singleton,
    List.not_mem_nil, or_false] at hn
  rcases hn with rfl | rfl | rfl | rfl | rfl | rfl | rfl
  · exact hf _
  · exact hf _
  · exact hf _
  · exact ⟨[0], by simp, rfl⟩
  · exact ⟨[1], by simp, rfl⟩
  · exact ⟨[2], by simp, rfl⟩
  · exact ⟨[3], by simp, rfl⟩

set_option maxRecDepth 1000000 in
/-- The connected pairs of func nodes of scenario 4 and their priority. -/
theorem scenario_four_func_pairs : ∀ i, i < 3 → ∀ j, j < 3 → i ≠ j →
    (nodeAt (ttManager 4) (initialNodes (ttManager 4) scenarioFourFactors scenarioFourVars)
      i).isConnectedTo (ttManager 4)
      (nodeAt (ttManager 4) (initialNodes (ttManager 4) scenarioFourFactors scenarioFourVars) j) =
      true →
    ((i = 0 ∧ j = 1) ∨ (i = 1 ∧ j = 0) ∨ (i = 1 ∧ j = 2) ∨ (i = 2 ∧ j = 1)) ∧
    (((ttSemantics 4).vars (nodeAt (ttManager 4)
          (initialNodes (ttManager 4) scenarioFourFactors scenarioFourVars) i).supportSet ∩
        (ttSemantics 4).vars (nodeAt (ttManager 4)
          (initialNodes (ttManager 4) scenarioFourFactors scenarioFourVars) j).supportSet).card
        : ℚ) /
      min (((ttSemantics 4).vars (nodeAt (ttManager 4)
          (initialNodes (ttManager 4) scenarioFourFactors scenarioFourVars) i).supportSet).card
          : ℚ)
        (((ttSemantics 4).vars (nodeAt (ttManager 4)
          (initialNodes (ttManager 4) scenarioFourFactors scenarioFourVars) j).supportSet).card
          : ℚ) +
      scenarioFourHints.getWeight
        (nodeAt (ttManager 4) (initialNodes (ttManager 4) scenarioFourFactors scenarioFourVars)
          i).node
        (nodeAt (ttManager 4) (initialNodes (ttManager 4) scenarioFourFactors scenarioFourVars)
          j).node = 1 / 2 := by
  intro i hi j hj
  interval_cases i <;> interval_cases j <;> with_unfolding_all decide

set_option maxRecDepth 1000000 in
/-- The priority of the pairs of var nodes of scenario 4. -/
theorem scenario_four_var_pairs : ∀ i, 3 ≤ i → i < 7 → ∀ j, 3 ≤ j → j < 7 → i ≠ j →
    (((ttSemantics 4).vars (nodeAt (ttManager 4)
          (initialNodes (ttManager 4) scenarioFourFactors scenarioFourVars) i).supportSet ∩
        (ttSemantics 4).vars (nodeAt (ttManager 4)
          (initialNodes (ttManager 4) scenarioFourFactors scenarioFourVars) j).supportSet).card
        : ℚ) /
      min (((ttSemantics 4).vars (nodeAt (ttManager 4)
          (initialNodes (ttManager 4) scenarioFourFactors scenarioFourVars) i).supportSet).card
          : ℚ)
        (((ttSemantics 4).vars (nodeAt (ttManager 4)
          (initialNodes (ttManager 4) scenarioFourFactors scenarioFourVars) j).supportSet).card
          : ℚ) +
      scenarioFourHints.getWeight
        (nodeAt (ttManager 4) (initialNodes (ttManager 4) scenarioFourFactors scenarioFourVars)
          i).node
        (nodeAt (ttManager 4) (initialNodes (ttManager 4) scenarioFourFactors scenarioFourVars)
          j).node = 0 := by
  intro i hi3 hi j hj3 hj
  interval_cases i <;> interval_cases j <;> with_unfolding_all decide

set_option maxRecDepth 1000000 in
/-- The connections among `ab`, `bc` and `cd`. -/
theorem scenario_four_connected : ∀ i j, ((i = 0 ∧ j = 1) ∨ (i = 1 ∧ j = 0) ∨
      (i = 1 ∧ j = 2) ∨ (i = 2 ∧ j = 1)) →
    (nodeAt (ttManager 4) (initialNodes (ttManager 4) scenarioFourFactors scenarioFourVars)
      i).isConnectedTo (ttManager 4)
      (nodeAt (ttManager 4) (initialNodes (ttManager 4) scenarioFourFactors scenarioFourVars) j) =
      true := by
  intro i j h
  rcases h with ⟨rfl, rfl⟩ | ⟨rfl, rfl⟩ | ⟨rfl, rfl⟩ | ⟨rfl, rfl⟩ <;> decide

end ScenarioFourInit

end blif_solve
namespace blif_solve

section ScenarioFourState

set_option maxRecDepth 1000000 in
/-- The first state of scenario 4, wherever the nodes lie in memory. -/
theorem scenario_four_init (addr : ℕ → ℕ) (haddr : Function.Injective addr) :
    ∃ s0, initState (ttManager 4) addr scenarioFourFactors scenarioFourVars 4
        scenarioFourHints [ttVar 4 0] = Except.ok s0 ∧
      Inv (ttManager 4) s0 ∧ AliveInv (ttManager 4) s0 [] ∧ ScenarioFourStart s0 := by
  obtain ⟨s0, h0, hinv, hA, hcore, hIA, hIE⟩ := initState_exact (ttManager 4) addr
    scenarioFourFactors scenarioFourVars 4 scenarioFourHints [ttVar 4 0]
  obtain ⟨s0', h0', _, _, _, hcubeinv, _, _⟩ := initState_invariants (ttManager_lawful 4) addr
    scenarioFourFactors scenarioFourVars 4 scenarioFourHints [ttVar 4 0]
    (singleVariableCubes_ttVar 4 [0, 1, 2, 3] (by decide))
  rw [h0] at h0'
  cases h0'
  obtain ⟨hK, hlen⟩ := KeepsNodes.init_nodes (ttManager 4) addr scenarioFourFactors
    scenarioFourVars scenarioFourHints [ttVar 4 0] s0 hcore
  have hb := connectedState_sameBase (ttManager 4) addr scenarioFourFactors scenarioFourVars
    scenarioFourHints [ttVar 4 0]
  have hcube := cube_supportSet_of_base (ttManager_lawful 4) _ _ hb scenario_four_cubes
  -- the mergers of the connected func nodes
  have hfunc : ∀ i j, ((i = 0 ∧ j = 1) ∨ (i = 1 ∧ j = 0) ∨ (i = 1 ∧ j = 2) ∨
      (i = 2 ∧ j = 1)) → addr i < addr j →
      ∃ e ∈ s0.heap, mergerAt s0.mergers e.1 = ⟨i, j⟩ := by
    intro i j hij hlt
    have hi : i < 3 := by omega
    have hgc := getCompatibility_tt 4 _ hcube i j 4
      ((connectedState (ttManager 4) addr scenarioFourFactors scenarioFourVars
        scenarioFourHints [ttVar 4 0]).hints.getWeight
        (nodeAt (ttManager 4) (connectedState (ttManager 4) addr scenarioFourFactors
          scenarioFourVars scenarioFourHints [ttVar 4 0]).nodes i).node
        (nodeAt (ttManager 4) (connectedState (ttManager 4) addr scenarioFourFactors
          scenarioFourVars scenarioFourHints [ttVar 4 0]).nodes j).node)
      [] (by decide) (by simp)
    obtain ⟨m, _, hm2, hm3⟩ := hIE.complete i j _ (Or.inl (by simp; omega))
      ((initCompat_eq_some _ _ _ _ _ _ _ _).2 ⟨hlt, by
        intro _
        rw [isConnectedTo_base (ttManager 4) hb]
        exact scenario_four_connected i j hij, by
        rw [if_pos (by simp; omega)]
        exact hgc⟩)
    exact ⟨_, hm3, hm2⟩
  have hcell : ∀ e ∈ s0.heap,
      ((nodeAt (ttManager 4) s0.nodes (mergerAt s0.mergers e.1).node1).type = NodeType.Func →
        ((mergerAt s0.mergers e.1).joins 0 1 ∨ (mergerAt s0.mergers e.1).joins 1 2) ∧
          e.2 = 1 / 2) ∧
      ((nodeAt (ttManager 4) s0.nodes (mergerAt s0.mergers e.1).node1).type = NodeType.Var →
        e.2 = 0) := by
    intro e he
    obtain ⟨hlt, hc⟩ := hIE.cells e he
    have hv := hIA.seen _ (mergerAt_mem s0.mergers hlt)
    obtain ⟨h1, h2, h3⟩ := (initCompat_eq_some _ _ _ _ _ _ _ _).1 hc
    have hne : (mergerAt s0.mergers e.1).node1 ≠ (mergerAt s0.mergers e.1).node2 := by
      intro heq
      rw [heq] at h1
      exact lt_irrefl _ h1
    have hval := getCompatibility_val (ttManager_lawful 4) _ hcube _ _ _ _ _ _ h3
    rw [base_supportSet (hb.2 _), base_supportSet (hb.2 _), base_node (hb.2 _),
      base_node (hb.2 _)] at hval
    have hty := (hK.2 (mergerAt s0.mergers e.1).node1)
    unfold AmMerger.joins
    generalize (mergerAt s0.mergers e.1).node1 = i at *
    generalize (mergerAt s0.mergers e.1).node2 = j at *
    unfold initVisited at hv
    simp only [scenarioFourFactors, scenarioFourVars, List.length_cons, List.length_nil] at hv
    rcases hv with ⟨hi, hj⟩ | ⟨hi, hi', hj, hj'⟩
    · constructor
      · intro _
        have hconn := h2 (by simpa using hi)
        rw [isConnectedTo_base (ttManager 4) hb] at hconn
        obtain ⟨g1, g2⟩ := scenario_four_func_pairs i (by omega) j (by omega) hne hconn
        refine ⟨?_, hval.trans g2⟩
        omega
      · intro htype
        exfalso
        rw [(hty (by simp [initialNodes]; omega)).1] at htype
        revert htype
        have hi3 : i < 3 := by omega
        interval_cases i <;> decide
    · constructor
      · intro htype
        exfalso
        rw [(hty (by simp [initialNodes]; omega)).1] at htype
        revert htype
        have hi7 : i < 7 := by omega
        interval_cases i <;> decide
      · intro _
        exact hval.trans (scenario_four_var_pairs i (by omega) (by omega) j (by omega)
          (by omega) hne)
  refine ⟨s0, h0, hinv, hA, ?_⟩
  constructor
  · exact hK
  · exact hlen
  · exact hcubeinv
  · exact hIE.frame.1
  · exact hIE.frame.2.2.1
  · exact hIE.frame.2.2.2.1
  · have hne : addr 0 ≠ addr 1 := fun h => absurd (haddr h) (by decide)
    rcases lt_or_gt_of_ne hne with hlt | hlt
    · obtain ⟨e, he, hm⟩ := hfunc 0 1 (by omega) hlt
      exact ⟨e, he, by rw [hm]; exact Or.inl ⟨rfl, rfl⟩⟩
    · obtain ⟨e, he, hm⟩ := hfunc 1 0 (by omega) hlt
      exact ⟨e, he, by rw [hm]; exact Or.inr ⟨rfl, rfl⟩⟩
  · have hne : addr 1 ≠ addr 2 := fun h => absurd (haddr h) (by decide)
    rcases lt_or_gt_of_ne hne with hlt | hlt
    · obtain ⟨e, he, hm⟩ := hfunc 1 2 (by omega) hlt
      exact ⟨e, he, by rw [hm]; exact Or.inl ⟨rfl, rfl⟩⟩
    · obtain ⟨e, he, hm⟩ := hfunc 2 1 (by omega) hlt
      exact ⟨e, he, by rw [hm]; exact Or.inr ⟨rfl, rfl⟩⟩
  · intro e he
    exact (hcell e he).1
  · intro e he
    exact (hcell e he).2
  · intro m hm
    exact initState_merger_cell (ttManager 4) addr _ s0 hinv hIA m hm

end ScenarioFourState

end blif_solve
namespace blif_solve

section ScenarioFourRoundOne

set_option maxRecDepth 1000000 in
/-- The values that the first round of scenario 4 computes, for each of the
four mergers that it can pop: `x` and `z` are the contracted nodes and `y` is
the func node that is left. -/
theorem scenario_four_values (x z y : ℕ)
    (h : (x = 0 ∧ z = 1 ∧ y = 2) ∨ (x = 1 ∧ z = 0 ∧ y = 2) ∨ (x = 1 ∧ z = 2 ∧ y = 0) ∨
      (x = 2 ∧ z = 1 ∧ y = 0)) :
    (nodeAt (ttManager 4) (initialNodes (ttManager 4) scenarioFourFactors scenarioFourVars)
      x).type = NodeType.Func ∧
    (nodeAt (ttManager 4) (initialNodes (ttManager 4) scenarioFourFactors scenarioFourVars)
      y).type = NodeType.Func ∧
    (ttManager 4).bdd_and
      (nodeAt (ttManager 4) (initialNodes (ttManager 4) scenarioFourFactors scenarioFourVars)
        x).node
      (nodeAt (ttManager 4) (initialNodes (ttManager 4) scenarioFourFactors scenarioFourVars)
        z).node =
      (if y = 2 then
        (ttManager 4).bdd_and (ttOr (ttVar 4 0) (ttVar 4 1)) (ttOr (ttVar 4 1) (ttVar 4 2))
      else
        (ttManager 4).bdd_and (ttOr (ttVar 4 1) (ttVar 4 2)) (ttOr (ttVar 4 2) (ttVar 4 3))) ∧
    setInsert
      ((ttManager 4).bdd_and
        (nodeAt (ttManager 4) (initialNodes (ttManager 4) scenarioFourFactors scenarioFourVars)
          x).node
        (nodeAt (ttManager 4) (initialNodes (ttManager 4) scenarioFourFactors scenarioFourVars)
          z).node)
      (setErase
        (nodeAt (ttManager 4) (initialNodes (ttManager 4) scenarioFourFactors scenarioFourVars)
          z).node
        (setErase
          (nodeAt (ttManager 4) (initialNodes (ttManager 4) scenarioFourFactors
            scenarioFourVars) x).node
          (setOfList scenarioFourFactors))) =
      (if y = 2 then
        setOfList [(ttManager 4).bdd_and (ttOr (ttVar 4 0) (ttVar 4 1))
          (ttOr (ttVar 4 1) (ttVar 4 2)), ttOr (ttVar 4 2) (ttVar 4 3)]
      else
        setOfList [(ttManager 4).bdd_and (ttOr (ttVar 4 1) (ttVar 4 2))
          (ttOr (ttVar 4 2) (ttVar 4 3)), ttOr (ttVar 4 0) (ttVar 4 1)]) ∧
    (scenarioFourHints.merge
      (nodeAt (ttManager 4) (initialNodes (ttManager 4) scenarioFourFactors scenarioFourVars)
        x).node
      (nodeAt (ttManager 4) (initialNodes (ttManager 4) scenarioFourFactors scenarioFourVars)
        z).node
      ((ttManager 4).bdd_and
        (nodeAt (ttManager 4) (initialNodes (ttManager 4) scenarioFourFactors scenarioFourVars)
          x).node
        (nodeAt (ttManager 4) (initialNodes (ttManager 4) scenarioFourFactors scenarioFourVars)
          z).node)).getWeight
      ((ttManager 4).bdd_and
        (nodeAt (ttManager 4) (initialNodes (ttManager 4) scenarioFourFactors scenarioFourVars)
          x).node
        (nodeAt (ttManager 4) (initialNodes (ttManager 4) scenarioFourFactors scenarioFourVars)
          z).node)
      (nodeAt (ttManager 4) (initialNodes (ttManager 4) scenarioFourFactors scenarioFourVars)
        y).node = 100 ∧
    (((ttSemantics 4).vars ((ttManager 4).bdd_support ((ttManager 4).bdd_and
        (nodeAt (ttManager 4) (initialNodes (ttManager 4) scenarioFourFactors scenarioFourVars)
          x).node
        (nodeAt (ttManager 4) (initialNodes (ttManager 4) scenarioFourFactors scenarioFourVars)
          z).node)) ∩
      (ttSemantics 4).vars (nodeAt (ttManager 4)
        (initialNodes (ttManager 4) scenarioFourFactors scenarioFourVars) y).supportSet).card
        : ℚ) /
      min (((ttSemantics 4).vars ((ttManager 4).bdd_support ((ttManager 4).bdd_and
        (nodeAt (ttManager 4) (initialNodes (ttManager 4) scenarioFourFactors scenarioFourVars)
          x).node
        (nodeAt (ttManager 4) (initialNodes (ttManager 4) scenarioFourFactors scenarioFourVars)
          z).node))).card : ℚ)
        (((ttSemantics 4).vars (nodeAt (ttManager 4)
          (initialNodes (ttManager 4) scenarioFourFactors scenarioFourVars) y).supportSet).card
          : ℚ) = 1 / 2 := by
  rcases h with ⟨rfl, rfl, rfl⟩ | ⟨rfl, rfl, rfl⟩ | ⟨rfl, rfl, rfl⟩ | ⟨rfl, rfl, rfl⟩ <;>
    refine ⟨rfl, rfl, ?_, ?_, ?_, ?_⟩ <;> with_unfolding_all decide

end ScenarioFourRoundOne

end blif_solve
namespace blif_solve

section ScenarioFourRoundOneStep

/-- The first round of scenario 4 contracts `bc` with `ab` or with `cd`; the
hint on `ab` and `cd` is carried to the merged node, and the merger of the
merged node and the func node that is left enters the heap with the priority
`1/2 + 100`. -/
theorem scenario_four_round_one (addr : ℕ → ℕ) (t : ℕ) (s s' : MergeState ℕ) (dead : List ℕ)
    (hinv : Inv (ttManager 4) s) (hA : AliveInv (ttManager 4) s dead)
    (hP : ScenarioFourStart s) (h : loopStep (ttManager 4) addr 4 t s = Except.ok s') :
    (∃ dead', AliveInv (ttManager 4) s' dead') ∧ ∃ y, ScenarioFourMid y s' := by
  have hne : s.heap ≠ [] := by
    obtain ⟨e, he, _⟩ := hP.cell01
    exact List.ne_nil_of_mem he
  obtain ⟨m, _, hdist, hinv', hA', hF, hC⟩ :=
    loopStep_clean (ttManager 4) addr 4 t s s' dead hinv hA hne h
  refine ⟨⟨_, hA'⟩, ?_⟩
  obtain ⟨em, hem, hem1, hmax⟩ := hF.top_max
  obtain ⟨hv1, hv2, hvt⟩ := hinv.mergers_valid m hF.valid
  have hfunc_of : ∀ e ∈ s.heap, ((mergerAt s.mergers e.1).hasNode 0 ∨
      (mergerAt s.mergers e.1).hasNode 1 ∨ (mergerAt s.mergers e.1).hasNode 2) →
      (nodeAt (ttManager 4) s.nodes (mergerAt s.mergers e.1).node1).type = NodeType.Func := by
    intro e he hh
    have hvt0 := (hinv.mergers_valid e.1 (hinv.heap_valid e he)).2.2
    unfold AmMerger.hasNode at hh
    rcases hh with (a | a) | (a | a) | (a | a)
    · rw [a, (hP.keeps.2 0 (by decide)).1]; rfl
    · rw [hvt0, a, (hP.keeps.2 0 (by decide)).1]; rfl
    · rw [a, (hP.keeps.2 1 (by decide)).1]; rfl
    · rw [hvt0, a, (hP.keeps.2 1 (by decide)).1]; rfl
    · rw [a, (hP.keeps.2 2 (by decide)).1]; rfl
    · rw [hvt0, a, (hP.keeps.2 2 (by decide)).1]; rfl
  -- the popped merger joins two func nodes
  have htype : (nodeAt (ttManager 4) s.nodes (mergerAt s.mergers m).node1).type =
      NodeType.Func := by
    rcases nodeType_cases (nodeAt (ttManager 4) s.nodes (mergerAt s.mergers m).node1).type
      with ht | ht
    · exact ht
    · exfalso
      obtain ⟨e1, he1, hj1⟩ := hP.cell01
      have h1 := (hP.func_cells e1 he1 (hfunc_of e1 he1 (by
        unfold AmMerger.joins at hj1
        unfold AmMerger.hasNode
        rcases hj1 with ⟨a, _⟩ | ⟨_, b⟩
        · exact Or.inl (Or.inl a)
        · exact Or.inl (Or.inr b)))).2
      have h0 := hP.var_cells em hem (by rw [hem1]; exact ht)
      have := hmax e1 he1
      rw [h1, h0] at this
      norm_num at this
  have hm := (hP.func_cells em hem (by rw [hem1]; exact htype)).1
  rw [hem1] at hm
  obtain ⟨x, z, y, hn1, hn2, hxzy⟩ : ∃ x z y, (mergerAt s.mergers m).node1 = x ∧
      (mergerAt s.mergers m).node2 = z ∧
      ((x = 0 ∧ z = 1 ∧ y = 2) ∨ (x = 1 ∧ z = 0 ∧ y = 2) ∨ (x = 1 ∧ z = 2 ∧ y = 0) ∨
        (x = 2 ∧ z = 1 ∧ y = 0)) := by
    unfold AmMerger.joins at hm
    rcases hm with (⟨a, b⟩ | ⟨a, b⟩) | (⟨a, b⟩ | ⟨a, b⟩)
    · exact ⟨0, 1, 2, a, b, by omega⟩
    · exact ⟨1, 0, 2, a, b, by omega⟩
    · exact ⟨1, 2, 0, a, b, by omega⟩
    · exact ⟨2, 1, 0, a, b, by omega⟩
  obtain ⟨v1, v2, v3, v4, v5, v6⟩ := scenario_four_values x z y hxzy
  have hx3 : x < 3 := by omega
  have hz3 : z < 3 := by omega
  have hy3 : y < 3 := by omega
  have hyx : y ≠ x := by omega
  have hyz : y ≠ z := by omega
  have hkx := hP.keeps.2 x (by simp [initialNodes]; omega)
  have hkz := hP.keeps.2 z (by simp [initialNodes]; omega)
  have hky := hP.keeps.2 y (by simp [initialNodes]; omega)
  have hmerged : mergedBddOf (ttManager 4) s m =
      (ttManager 4).bdd_and
        (nodeAt (ttManager 4) (initialNodes (ttManager 4) scenarioFourFactors scenarioFourVars)
          x).node
        (nodeAt (ttManager 4) (initialNodes (ttManager 4) scenarioFourFactors scenarioFourVars)
          z).node := by
    unfold mergedBddOf
    rw [hn1, hn2, hkx.2.1, hkz.2.1]
  have hK' := hP.keeps.round_nodes hF _
  have hky' := hK'.2 y (by simp [initialNodes]; omega)
  have hnode7 : (nodeAt (ttManager 4) s'.nodes 7).node = mergedBddOf (ttManager 4) s m := by
    rw [← hP.len]
    exact hF.new_node
  -- every merger of two func nodes in the heap has the node 1
  have hfunc_has : ∀ e ∈ s.heap,
      (nodeAt (ttManager 4) s.nodes (mergerAt s.mergers e.1).node1).type = NodeType.Func →
      (mergerAt s.mergers e.1).hasNode x ∨ (mergerAt s.mergers e.1).hasNode z := by
    intro e he ht
    have hj := (hP.func_cells e he ht).1
    unfold AmMerger.joins at hj
    unfold AmMerger.hasNode
    rcases hj with (⟨a, b⟩ | ⟨a, b⟩) | (⟨a, b⟩ | ⟨a, b⟩) <;> rw [a, b] <;> omega
  -- the cell of the new merger
  have hcs := fun j => (CubeInv.contract (ttManager_lawful 4) addr scenarioFourVars s m hinv
    hF.valid hP.cube).cube_supportSet (ttManager_lawful 4) j
  have hcompat : refreshCompat (ttManager 4) 4
      (decide ((nodeAt (ttManager 4) s.nodes (mergerAt s.mergers m).node1).type =
        NodeType.Var))
      (contractState (ttManager 4) addr s m) s.nodes.length y = some (1 / 2 + 100) := by
    unfold refreshCompat
    rw [htype]
    have hq : (if decide (NodeType.Func = NodeType.Var) = true then
        (contractState (ttManager 4) addr s m).qv
        else (contractState (ttManager 4) addr s m).qf) = [] := by
      rw [if_neg (by decide)]
      exact contractState_qf_nil (ttManager 4) addr s m hP.qf
    rw [hq, getCompatibility_tt 4 _ hcs _ _ 4 _ [] (by decide) (by simp)]
    rw [contractState_new_supportSet, contractState_new_node, if_pos htype,
      core_supportSet (contractState_core_old (ttManager 4) addr s m
        (show y < s.nodes.length by rw [hP.len]; omega)),
      core_node (contractState_core_old (ttManager 4) addr s m
        (show y < s.nodes.length by rw [hP.len]; omega)),
      contractState_hints, hP.hints, hn1, hn2, hkx.2.1, hkz.2.1, hky.2.1, hky.2.2, hmerged,
      v5, v6]
  have hjoin : ∃ e0 ∈ s.heap, (mergerAt s.mergers e0.1).joins (mergerAt s.mergers m).node1 y ∨
      (mergerAt s.mergers e0.1).joins (mergerAt s.mergers m).node2 y := by
    rw [hn1, hn2]
    rcases hxzy with ⟨rfl, rfl, rfl⟩ | ⟨rfl, rfl, rfl⟩ | ⟨rfl, rfl, rfl⟩ | ⟨rfl, rfl, rfl⟩
    · obtain ⟨e, he, hj⟩ := hP.cell12
      exact ⟨e, he, Or.inr hj⟩
    · obtain ⟨e, he, hj⟩ := hP.cell12
      exact ⟨e, he, Or.inl hj⟩
    · obtain ⟨e, he, hj⟩ := hP.cell01
      refine ⟨e, he, Or.inl ?_⟩
      unfold AmMerger.joins at hj ⊢
      omega
    · obtain ⟨e, he, hj⟩ := hP.cell01
      refine ⟨e, he, Or.inr ?_⟩
      unfold AmMerger.joins at hj ⊢
      omega
  obtain ⟨e0, he0, hj0⟩ := hjoin
  obtain ⟨j, hj1, hj2, hj3, hj4⟩ := hC.complete e0 he0 y (1 / 2 + 100)
    (by rw [hn1]; exact hyx) (by rw [hn2]; exact hyz) hj0 hcompat
  rw [hP.len] at hj3
  refine ⟨y, ?_⟩
  constructor
  · omega
  · exact hK'
  · rw [hF.length_nodes, hP.len]
  · rw [← hP.len, hF.new_type]
    exact htype
  · rw [hnode7, hmerged]
    exact v3
  · rw [hF.frame.2.2.2.1, contractState_mergedFactors_func (ttManager 4) addr s m htype,
      hP.factors, hmerged, hn1, hn2, hkx.2.1, hkz.2.1]
    exact v4
  · rw [hF.frame.1, contractState_hints, hP.hints, hnode7, hmerged, hn1, hn2, hkx.2.1,
      hkz.2.1, hky'.2.1]
    exact v5
  · refine ⟨(j, 1 / 2 + 100), hj4, rfl, hj3, ?_⟩
    intro e' he' hne'
    by_cases hlt : e'.1 < s.mergers.length
    · obtain ⟨g1, g2, g3⟩ := hC.old_cells e' he' hlt
      rw [hC.old_cell_type hinv hF e'.1 hlt]
      rcases nodeType_cases
        (nodeAt (ttManager 4) s.nodes (mergerAt s.mergers e'.1).node1).type with ht | ht
      · exfalso
        rw [hn1] at g2
        rw [hn2] at g3
        rcases hfunc_has e' g1 ht with hh | hh
        · exact g2 hh
        · exact g3 hh
      · exact ⟨ht, hP.var_cells e' g1 ht⟩
    · exfalso
      obtain ⟨n1', n2', y1, y2, ⟨e1, he1, hj⟩, hc'⟩ := hC.new_cells e' he' (not_lt.1 hlt)
      rw [hn1] at y1
      rw [hn2] at y2
      rw [hn1, hn2] at hj
      have hy' : (mergerAt s'.mergers e'.1).node2 = y := by
        have ht1 := hfunc_of e1 he1 (by
          unfold AmMerger.joins at hj
          unfold AmMerger.hasNode
          rcases hj with (⟨a, _⟩ | ⟨_, b⟩) | (⟨a, _⟩ | ⟨_, b⟩) <;> omega)
        have hj1' := (hP.func_cells e1 he1 ht1).1
        unfold AmMerger.joins at hj hj1'
        omega
      rw [hy'] at hc'
      rw [hcompat] at hc'
      apply hne'
      have hidx : e'.1 = j := by
        have := hA'.unique e' he' (j, 1 / 2 + 100) hj4 (Or.inl ⟨by
          show (mergerAt s'.mergers e'.1).node1 = (mergerAt s'.mergers j).node1
          rw [n2', hj3, hP.len], by
          show (mergerAt s'.mergers e'.1).node2 = (mergerAt s'.mergers j).node2
          rw [hy', hj3]⟩)
        exact this
      exact Prod.ext hidx (Option.some.inj hc').symm

end ScenarioFourRoundOneStep

end blif_solve
namespace blif_solve

section ScenarioFourRoundTwo

set_option maxRecDepth 1000000 in
/-- The second round of scenario 4 pops the merger of the merged node and the
func node that is left, which has the largest priority, and leaves the one
factor `ab ∧ bc ∧ cd`. -/
theorem scenario_four_round_two (addr : ℕ → ℕ) (t : ℕ) (s s' : MergeState ℕ) (dead : List ℕ)
    (y : ℕ) (hinv : Inv (ttManager 4) s) (hA : AliveInv (ttManager 4) s dead)
    (hP : ScenarioFourMid y s) (h : loopStep (ttManager 4) addr 4 t s = Except.ok s') :
    (∃ dead', AliveInv (ttManager 4) s' dead') ∧ ScenarioFourEnd s' := by
  obtain ⟨e, he, hp, hmg, hothers⟩ := hP.cell
  have hne : s.heap ≠ [] := List.ne_nil_of_mem he
  obtain ⟨m, _, hdist, hinv', hA', hF, hC⟩ :=
    loopStep_clean (ttManager 4) addr 4 t s s' dead hinv hA hne h
  refine ⟨⟨_, hA'⟩, ?_⟩
  obtain ⟨em, hem, hem1, hmax⟩ := hF.top_max
  have heq : em = e := by
    by_contra hc
    have h0 := (hothers em hem hc).2
    have := hmax e he
    rw [hp, h0] at this
    norm_num at this
  subst heq
  rw [hem1] at hmg
  have hn1 : (mergerAt s.mergers m).node1 = 7 := by rw [hmg]
  have hn2 : (mergerAt s.mergers m).node2 = y := by rw [hmg]
  have hy7 : y < 7 := by
    rcases hP.other with rfl | rfl <;> decide
  have hky := hP.keeps.2 y (by simp [initialNodes]; omega)
  have htypey : (nodeAt (ttManager 4) s.nodes y).type = NodeType.Func := by
    rw [hky.1]
    rcases hP.other with rfl | rfl <;> rfl
  have htype : (nodeAt (ttManager 4) s.nodes (mergerAt s.mergers m).node1).type =
      NodeType.Func := by
    rw [hn1]
    exact hP.type7
  constructor
  · rw [hF.frame.2.2.2.1, contractState_mergedFactors_func (ttManager 4) addr s m htype,
      hP.factors]
    unfold mergedBddOf
    rw [hn1, hn2, hP.node7, hky.2.1]
    rcases hP.other with rfl | rfl <;> decide
  · intro e' he'
    by_cases hlt : e'.1 < s.mergers.length
    · obtain ⟨g1, g2, _⟩ := hC.old_cells e' he' hlt
      rw [hC.old_cell_type hinv hF e'.1 hlt]
      apply (hothers e' g1 _).1
      intro hc
      apply g2
      rw [hc, hem1]
      exact Or.inl rfl
    · exfalso
      obtain ⟨_, _, y1, y2, ⟨e0, he0, hj⟩, _⟩ := hC.new_cells e' he' (not_lt.1 hlt)
      rw [hn1] at y1
      rw [hn2] at y2
      rw [hn1, hn2] at hj
      by_cases hc : e0 = em
      · rw [hc, hem1, hmg] at hj
        unfold AmMerger.joins at hj
        simp only at hj
        omega
      · have hvar := (hothers e0 he0 hc).1
        have hvt0 := (hinv.mergers_valid e0.1 (hinv.heap_valid e0 he0)).2.2
        unfold AmMerger.joins at hj
        rcases hj with (⟨a, _⟩ | ⟨_, b⟩) | (⟨a, _⟩ | ⟨_, b⟩)
        · rw [a, hP.type7] at hvar
          cases hvar
        · rw [hvt0, b, hP.type7] at hvar
          cases hvar
        · rw [a, htypey] at hvar
          cases hvar
        · rw [hvt0, b, htypey] at hvar
          cases hvar

end ScenarioFourRoundTwo

end blif_solve
namespace blif_solve

section ScenarioFourClaim

/-- Every round of the main loop of scenario 4 leads from the first state to
the state after the first round, from there to the state with the one factor,
and keeps that state. -/
theorem scenario_four_step (addr : ℕ → ℕ) (t : ℕ) (s s' : MergeState ℕ)
    (hinv : Inv (ttManager 4) s)
    (hI : (∃ dead, AliveInv (ttManager 4) s dead) ∧
      (ScenarioFourStart s ∨ (∃ y, ScenarioFourMid y s) ∨ ScenarioFourEnd s))
    (hne : s.heap ≠ []) (h : loopStep (ttManager 4) addr 4 t s = Except.ok s') :
    (∃ dead, AliveInv (ttManager 4) s' dead) ∧
      (ScenarioFourStart s' ∨ (∃ y, ScenarioFourMid y s') ∨ ScenarioFourEnd s') := by
  obtain ⟨⟨dead, hA⟩, hP⟩ := hI
  rcases hP with hP | ⟨y, hP⟩ | hP
  · obtain ⟨r1, r2⟩ := scenario_four_round_one addr t s s' dead hinv hA hP h
    exact ⟨r1, Or.inr (Or.inl r2)⟩
  · obtain ⟨r1, r2⟩ := scenario_four_round_two addr t s s' dead y hinv hA hP h
    exact ⟨r1, Or.inr (Or.inr r2)⟩
  · obtain ⟨r1, r2, r3⟩ := loopStep_var_cells (ttManager 4) addr 4 t s s' dead hinv hA hne h
      hP.var_cells
    exact ⟨r1, Or.inr (Or.inr ⟨by rw [r2]; exact hP.factors, r3⟩)⟩

/-- C17. Scenario 4 of the spec: for the chain `ab = a ∨ b`, `bc = b ∨ c`,
`cd = c ∨ d` over four variables, bound 4, `a` quantified and the one hint
`addWeight(ab, cd, 100)`, `blif_solve::merge` returns the single factor
`ab ∧ bc ∧ cd`, whatever the tie-breaks of the heap and wherever the nodes lie
in memory (two nodes never share an address).  No merger of the first graph
joins `ab` (node 0) and `cd` (node 2); after the first round the hints give the
weight 100 to the merged node (node 7) and the func node that is left, and the
merger of these two nodes is in the heap with the priority `1/2 + 100`, above
every other cell. -/
theorem merge_scenario_four (addr : ℕ → ℕ) (haddr : Function.Injective addr) (tie : ℕ → ℕ) :
    (∃ r, merge (ttManager 4) addr tie
        [ttOr (ttVar 4 0) (ttVar 4 1), ttOr (ttVar 4 1) (ttVar 4 2),
          ttOr (ttVar 4 2) (ttVar 4 3)]
        [ttVar 4 0, ttVar 4 1, ttVar 4 2, ttVar 4 3] 4
        (MergeHints.empty.addWeight (ttOr (ttVar 4 0) (ttVar 4 1))
          (ttOr (ttVar 4 2) (ttVar 4 3)) 100)
        [ttVar 4 0] = Except.ok r ∧
      r.factors =
        [(ttManager 4).bdd_and
          ((ttManager 4).bdd_and (ttOr (ttVar 4 0) (ttVar 4 1)) (ttOr (ttVar 4 1) (ttVar 4 2)))
          (ttOr (ttVar 4 2) (ttVar 4 3))]) ∧
    (∃ s, stateAfter (ttManager 4) addr tie 0
        [ttOr (ttVar 4 0) (ttVar 4 1), ttOr (ttVar 4 1) (ttVar 4 2),
          ttOr (ttVar 4 2) (ttVar 4 3)]
        [ttVar 4 0, ttVar 4 1, ttVar 4 2, ttVar 4 3] 4
        (MergeHints.empty.addWeight (ttOr (ttVar 4 0) (ttVar 4 1))
          (ttOr (ttVar 4 2) (ttVar 4 3)) 100)
        [ttVar 4 0] = Except.ok s ∧
      ∀ mg ∈ s.mergers, ¬ (mg.node1 = 0 ∧ mg.node2 = 2) ∧ ¬ (mg.node1 = 2 ∧ mg.node2 = 0)) ∧
    (∃ s, stateAfter (ttManager 4) addr tie 1
        [ttOr (ttVar 4 0) (ttVar 4 1), ttOr (ttVar 4 1) (ttVar 4 2),
          ttOr (ttVar 4 2) (ttVar 4 3)]
        [ttVar 4 0, ttVar 4 1, ttVar 4 2, ttVar 4 3] 4
        (MergeHints.empty.addWeight (ttOr (ttVar 4 0) (ttVar 4 1))
          (ttOr (ttVar 4 2) (ttVar 4 3)) 100)
        [ttVar 4 0] = Except.ok s ∧
      ∃ e ∈ s.heap, e.2 = 1 / 2 + 100 ∧
        (mergerAt s.mergers e.1).node1 = 7 ∧
        ((mergerAt s.mergers e.1).node2 = 0 ∨ (mergerAt s.mergers e.1).node2 = 2) ∧
        (nodeAt (ttManager 4) s.nodes 7).type = NodeType.Func ∧
        s.hints.getWeight (nodeAt (ttManager 4) s.nodes 7).node
          (nodeAt (ttManager 4) s.nodes (mergerAt s.mergers e.1).node2).node = 100 ∧
        ∀ e' ∈ s.heap, e' ≠ e → e'.2 < e.2) := by
  obtain ⟨s0, h0, hinv0, hA0, hP0⟩ := scenario_four_init addr haddr
  have hne0 : s0.heap ≠ [] := by
    obtain ⟨e, he, _⟩ := hP0.cell01
    exact List.ne_nil_of_mem he
  obtain ⟨_, s1, _, hstep, _, _⟩ := loopStep_round (ttManager 4) addr 4 (tie 0) s0 hinv0 hne0
  have hs0 := stateAfter_zero (ttManager 4) addr tie scenarioFourFactors scenarioFourVars 4
    scenarioFourHints [ttVar 4 0] s0 h0
  have hs1 := stateAfter_step (ttManager 4) addr tie 0 scenarioFourFactors scenarioFourVars 4
    scenarioFourHints [ttVar 4 0] s0 s1 hs0 hne0 hstep
  obtain ⟨_, y, hP1⟩ := scenario_four_round_one addr (tie 0) s0 s1 [] hinv0 hA0 hP0 hstep
  refine ⟨?_, ⟨s0, hs0, ?_⟩, ⟨s1, hs1, ?_⟩⟩
  · obtain ⟨n, s, _, he, _, hI, hm⟩ := merge_of_invariant (ttManager 4) addr tie
      scenarioFourFactors scenarioFourVars 4 scenarioFourHints [ttVar 4 0]
      (fun s => (∃ dead, AliveInv (ttManager 4) s dead) ∧
        (ScenarioFourStart s ∨ (∃ y, ScenarioFourMid y s) ∨ ScenarioFourEnd s))
      (by
        intro s0' h0'
        rw [h0] at h0'
        cases h0'
        exact ⟨⟨[], hA0⟩, Or.inl hP0⟩)
      (fun t s s' hinv hI hne h => scenario_four_step addr t s s' hinv hI hne h)
    refine ⟨s.results, hm, ?_⟩
    rcases hI.2 with hP | ⟨y', hP⟩ | hP
    · obtain ⟨e, he', _⟩ := hP.cell01
      rw [he] at he'
      cases he'
    · obtain ⟨e, he', _⟩ := hP.cell
      rw [he] at he'
      cases he'
    · exact hP.factors
  · intro mg hmg
    obtain ⟨m', hm', rfl⟩ := exists_mergerAt_of_mem s0.mergers hmg
    obtain ⟨e, he, he1⟩ := hP0.listed m' hm'
    rw [← he1]
    have hcases : ¬ (mergerAt s0.mergers e.1).node1 = 0 ∨
        (mergerAt s0.mergers e.1).node2 ≠ 2 := by
      by_contra hc
      rw [not_or, not_not, not_not] at hc
      have ht : (nodeAt (ttManager 4) s0.nodes (mergerAt s0.mergers e.1).node1).type =
          NodeType.Func := by
        rw [hc.1, (hP0.keeps.2 0 (by decide)).1]
        rfl
      have hj := (hP0.func_cells e he ht).1
      unfold AmMerger.joins at hj
      omega
    have hcases' : ¬ (mergerAt s0.mergers e.1).node1 = 2 ∨
        (mergerAt s0.mergers e.1).node2 ≠ 0 := by
      by_contra hc
      rw [not_or, not_not, not_not] at hc
      have ht : (nodeAt (ttManager 4) s0.nodes (mergerAt s0.mergers e.1).node1).type =
          NodeType.Func := by
        rw [hc.1, (hP0.keeps.2 2 (by decide)).1]
        rfl
      have hj := (hP0.func_cells e he ht).1
      unfold AmMerger.joins at hj
      omega
    constructor
    · rintro ⟨a, b⟩
      rcases hcases with h | h
      · exact h a
      · exact h b
    · rintro ⟨a, b⟩
      rcases hcases' with h | h
      · exact h a
      · exact h b
  · obtain ⟨e, he, hp, hmg, hothers⟩ := hP1.cell
    refine ⟨e, he, hp, by rw [hmg], ?_, hP1.type7, ?_, ?_⟩
    · rw [hmg]
      exact hP1.other
    · rw [hmg]
      exact hP1.weight
    · intro e' he' hne'
      rw [(hothers e' he' hne').2, hp]
      norm_num

/-- Witness of `merge_scenario_four`: the nodes at the addresses `0, 1, 2, ...`
and the second top cell in every round, so that `bc` and `cd` are contracted
first. -/
theorem merge_scenario_four_witness :
    Function.Injective (id : ℕ → ℕ) ∧
    ∃ r, merge (ttManager 4) id (fun _ => 1)
        [ttOr (ttVar 4 0) (ttVar 4 1), ttOr (ttVar 4 1) (ttVar 4 2),
          ttOr (ttVar 4 2) (ttVar 4 3)]
        [ttVar 4 0, ttVar 4 1, ttVar 4 2, ttVar 4 3] 4
        (MergeHints.empty.addWeight (ttOr (ttVar 4 0) (ttVar 4 1))
          (ttOr (ttVar 4 2) (ttVar 4 3)) 100)
        [ttVar 4 0] = Except.ok r ∧
      r.factors =
        [(ttManager 4).bdd_and
          ((ttManager 4).bdd_and (ttOr (ttVar 4 0) (ttVar 4 1)) (ttOr (ttVar 4 1) (ttVar 4 2)))
          (ttOr (ttVar 4 2) (ttVar 4 3))] :=
  ⟨Function.injective_id, (merge_scenario_four id Function.injective_id (fun _ => 1)).1⟩

end ScenarioFourClaim

end blif_solve
namespace blif_solve

section ScenarioOneVariables

set_option maxRecDepth 1000000 in
/-- The conjunction of two different variables of scenario 1 has two
variables. -/
theorem scenario_one_pair_card : ∀ i, 3 ≤ i → i < 8 → ∀ j, 3 ≤ j → j < 8 → i ≠ j →
    2 ≤ ((ttSemantics 5).vars ((ttManager 5).bdd_and
      (nodeAt (ttManager 5) (initialNodes (ttManager 5) scenarioOneFactors scenarioOneVars)
        i).node
      (nodeAt (ttManager 5) (initialNodes (ttManager 5) scenarioOneFactors scenarioOneVars)
        j).node)).card := by
  intro i hi3 hi j hj3 hj
  interval_cases i <;> interval_cases j <;> with_unfolding_all decide

/-- Every round of the main loop of scenario 1 keeps the account of the var
nodes: as long as no two var nodes were contracted the merger of `d` and `e`
stays in the heap, and once two var nodes were contracted some surviving cube
has two or more variables. -/
theorem scenario_one_vars_step (addr : ℕ → ℕ) (t : ℕ) (s s' : MergeState ℕ)
    (hinv : Inv (ttManager 5) s)
    (hI : (∃ dead, AliveInv (ttManager 5) s dead) ∧
      CubeInv (ttManager 5) (ttSemantics 5) scenarioOneVars s ∧
      (ScenarioOneUnclustered s ∨ ScenarioOneClustered s))
    (hne : s.heap ≠ []) (h : loopStep (ttManager 5) addr 3 t s = Except.ok s') :
    (∃ dead, AliveInv (ttManager 5) s' dead) ∧
      CubeInv (ttManager 5) (ttSemantics 5) scenarioOneVars s' ∧
      (ScenarioOneUnclustered s' ∨ ScenarioOneClustered s') := by
  obtain ⟨⟨dead, hA⟩, hCube, hP⟩ := hI
  obtain ⟨m, _, hdist, _, hA', hF, hC⟩ :=
    loopStep_clean (ttManager 5) addr 3 t s s' dead hinv hA hne h
  refine ⟨⟨_, hA'⟩, CubeInv.step_cubes (ttManager_lawful 5) addr 3 scenarioOneVars t s s' hinv
    hCube hne h, ?_⟩
  obtain ⟨hv1, hv2, hvt⟩ := hinv.mergers_valid m hF.valid
  rcases nodeType_cases (nodeAt (ttManager 5) s.nodes (mergerAt s.mergers m).node1).type
    with htype | htype
  · -- two func nodes are contracted
    rcases hP with hP | hP
    · left
      have hn1 : (mergerAt s.mergers m).node1 ≠ 6 ∧ (mergerAt s.mergers m).node1 ≠ 7 := by
        constructor
        · intro hc
          rw [hc, (hP.keeps.2 6 (by decide)).1] at htype
          cases htype
        · intro hc
          rw [hc, (hP.keeps.2 7 (by decide)).1] at htype
          cases htype
      have hn2 : (mergerAt s.mergers m).node2 ≠ 6 ∧ (mergerAt s.mergers m).node2 ≠ 7 := by
        rw [hvt] at htype
        constructor
        · intro hc
          rw [hc, (hP.keeps.2 6 (by decide)).1] at htype
          cases htype
        · intro hc
          rw [hc, (hP.keeps.2 7 (by decide)).1] at htype
          cases htype
      constructor
      · exact hP.keeps.round_nodes hF _
      · intro j hjlt hjt
        rw [hF.length_nodes] at hjlt
        by_cases hjl : j < s.nodes.length
        · rw [core_type (hF.old_core hjl)] at hjt
          exact hP.var_index j hjl hjt
        · have : j = s.nodes.length := by omega
          rw [this, hF.new_type, htype] at hjt
          cases hjt
      · obtain ⟨e, he, hj⟩ := hP.cell
        have hlt := hinv.heap_valid e he
        refine ⟨e, hC.kept e he ?_ ?_, ?_⟩
        · unfold AmMerger.joins at hj
          unfold AmMerger.hasNode
          rcases hj with ⟨c, d⟩ | ⟨c, d⟩ <;> rw [c, d] <;> omega
        · unfold AmMerger.joins at hj
          unfold AmMerger.hasNode
          rcases hj with ⟨c, d⟩ | ⟨c, d⟩ <;> rw [c, d] <;> omega
        · rw [hC.mergers_old e.1 hlt]
          exact hj
    · right
      obtain ⟨x, hx, hcard⟩ := hP
      refine ⟨x, ?_, hcard⟩
      rw [hF.frame.2.2.2.2, contractState_mergedVariables_func (ttManager 5) addr s m htype]
      exact hx
  · -- two var nodes are contracted
    right
    have htype2 : (nodeAt (ttManager 5) s.nodes (mergerAt s.mergers m).node2).type =
        NodeType.Var := by
      rw [← hvt]
      exact htype
    have hmem : mergedBddOf (ttManager 5) s m ∈ s'.mergedVariables := by
      rw [hF.frame.2.2.2.2, contractState_mergedVariables_var (ttManager 5) addr s m htype,
        mem_setInsert]
      exact Or.inl rfl
    rcases hP with hP | hP
    · refine ⟨_, hmem, ?_⟩
      obtain ⟨a1, a2⟩ := hP.var_index _ hv1 htype
      obtain ⟨b1, b2⟩ := hP.var_index _ hv2 htype2
      unfold mergedBddOf
      rw [(hP.keeps.2 _ (by simp [initialNodes]; omega)).2.1,
        (hP.keeps.2 _ (by simp [initialNodes]; omega)).2.1]
      exact scenario_one_pair_card _ a1 a2 _ b1 b2 hdist
    · obtain ⟨x, hx, hcard⟩ := hP
      have hc1 := (hCube.var_cube _ htype).1
      have hc2 := (hCube.var_cube _ htype2).1
      have hvars : (ttSemantics 5).vars (mergedBddOf (ttManager 5) s m) =
          (ttSemantics 5).vars (nodeAt (ttManager 5) s.nodes (mergerAt s.mergers m).node1).node ∪
          (ttSemantics 5).vars (nodeAt (ttManager 5) s.nodes (mergerAt s.mergers m).node2).node :=
        (ttManager_lawful 5).vars_cube_and _ _ hc1 hc2
      by_cases hx1 : x = (nodeAt (ttManager 5) s.nodes (mergerAt s.mergers m).node1).node
      · refine ⟨_, hmem, le_trans hcard ?_⟩
        rw [hvars, hx1]
        exact Finset.card_le_card Finset.subset_union_left
      · by_cases hx2 : x = (nodeAt (ttManager 5) s.nodes (mergerAt s.mergers m).node2).node
        · refine ⟨_, hmem, le_trans hcard ?_⟩
          rw [hvars, hx2]
          exact Finset.card_le_card Finset.subset_union_right
        · refine ⟨x, ?_, hcard⟩
          rw [hF.frame.2.2.2.2, contractState_mergedVariables_var (ttManager 5) addr s m htype,
            mem_setInsert, mem_setErase, mem_setErase]
          exact Or.inr ⟨⟨hx, hx1⟩, hx2⟩

end ScenarioOneVariables

end blif_solve
namespace blif_solve

section ScenarioOneVariablesClaim

set_option maxRecDepth 1000000 in
set_option maxHeartbeats 4000000 in
/-- Scenario 1 with the nodes at increasing addresses: `blif_solve::merge` returns
exactly the two cubes `a ∧ b ∧ c` and `d ∧ e`, whatever the tie-breaks of the
heap. -/
theorem scenario_one_variables_monotone (addr : ℕ → ℕ) (haddr : StrictMono addr)
    (tie : ℕ → ℕ) :
    ∃ r, merge (ttManager 5) addr tie
        [ttOr (ttVar 5 0) (ttVar 5 1), ttOr (ttVar 5 1) (ttVar 5 2),
          ttOr (ttVar 5 3) (ttVar 5 4)]
        [ttVar 5 0, ttVar 5 1, ttVar 5 2, ttVar 5 3, ttVar 5 4] 3 MergeHints.empty [] =
        Except.ok r ∧
      r.varBdds =
        [(ttManager 5).bdd_and ((ttManager 5).bdd_and (ttVar 5 0) (ttVar 5 1)) (ttVar 5 2),
          (ttManager 5).bdd_and (ttVar 5 3) (ttVar 5 4)] := by
  rw [merge_of_strictMono (ttManager 5) haddr]
  obtain ⟨r, hr, hc⟩ := everyResult_spec (ttManager 5) id
    [ttOr (ttVar 5 0) (ttVar 5 1), ttOr (ttVar 5 1) (ttVar 5 2), ttOr (ttVar 5 3) (ttVar 5 4)]
    [ttVar 5 0, ttVar 5 1, ttVar 5 2, ttVar 5 3, ttVar 5 4] 3 MergeHints.empty []
    (fun r => decide (r.varBdds =
      [(ttManager 5).bdd_and ((ttManager 5).bdd_and (ttVar 5 0) (ttVar 5 1)) (ttVar 5 2),
        (ttManager 5).bdd_and (ttVar 5 3) (ttVar 5 4)]))
    (by with_unfolding_all rfl) tie
  exact ⟨r, hr, of_decide_eq_true hc⟩

/-- C14, amended. On scenario 1 of the spec `blif_solve::merge` does not return the
variables unchanged.  Whatever the tie-breaks of the heap and wherever the
nodes lie in memory (two nodes never share an address), at least two
variables are clustered: some returned cube has two or more variables.  When
the nodes lie at increasing addresses in the order of their creation, the
returned variables are exactly the two cubes `a ∧ b ∧ c` and `d ∧ e`. -/
theorem merge_scenario_one_variables (addr : ℕ → ℕ) (haddr : Function.Injective addr)
    (tie : ℕ → ℕ) :
    ∃ r, merge (ttManager 5) addr tie
        [ttOr (ttVar 5 0) (ttVar 5 1), ttOr (ttVar 5 1) (ttVar 5 2),
          ttOr (ttVar 5 3) (ttVar 5 4)]
        [ttVar 5 0, ttVar 5 1, ttVar 5 2, ttVar 5 3, ttVar 5 4] 3 MergeHints.empty [] =
        Except.ok r ∧
      (∃ x ∈ r.varBdds, 2 ≤ ((ttSemantics 5).vars x).card) ∧
      (StrictMono addr →
        r.varBdds =
          [(ttManager 5).bdd_and ((ttManager 5).bdd_and (ttVar 5 0) (ttVar 5 1)) (ttVar 5 2),
            (ttManager 5).bdd_and (ttVar 5 3) (ttVar 5 4)]) := by
  obtain ⟨n, s, _, he, _, hI, hm⟩ := merge_of_invariant (ttManager 5) addr tie
    scenarioOneFactors scenarioOneVars 3 MergeHints.empty []
    (fun s => (∃ dead, AliveInv (ttManager 5) s dead) ∧
      CubeInv (ttManager 5) (ttSemantics 5) scenarioOneVars s ∧
      (ScenarioOneUnclustered s ∨ ScenarioOneClustered s))
    (by
      intro s0 h0
      obtain ⟨s0', h0', _, hA, hK, hlen, _, _, _, _, hcell⟩ := scenario_one_init addr haddr
      rw [h0] at h0'
      cases h0'
      obtain ⟨s0b, h0b, _, _, _, hcube, _, _⟩ := initState_invariants (ttManager_lawful 5)
        addr scenarioOneFactors scenarioOneVars 3 MergeHints.empty []
        (singleVariableCubes_ttVar 5 [0, 1, 2, 3, 4] (by decide))
      rw [h0] at h0b
      cases h0b
      refine ⟨⟨[], hA⟩, hcube, Or.inl ⟨hK, ?_, hcell⟩⟩
      intro j hjlt hjt
      rw [hlen] at hjlt
      refine ⟨?_, hjlt⟩
      by_contra hc
      rw [(hK.2 j (by simp [initialNodes]; omega)).1] at hjt
      revert hjt
      have hj3 : j < 3 := by omega
      interval_cases j <;> decide)
    (fun t s s' hinv hI hne h => scenario_one_vars_step addr t s s' hinv hI hne h)
  refine ⟨s.results, hm, ?_, ?_⟩
  · rcases hI.2.2 with hP | hP
    · obtain ⟨e, he', _⟩ := hP.cell
      rw [he] at he'
      cases he'
    · exact hP
  · intro hmono
    obtain ⟨r, hr, hv⟩ := scenario_one_variables_monotone addr hmono tie
    have hm' : merge (ttManager 5) addr tie
        [ttOr (ttVar 5 0) (ttVar 5 1), ttOr (ttVar 5 1) (ttVar 5 2),
          ttOr (ttVar 5 3) (ttVar 5 4)]
        [ttVar 5 0, ttVar 5 1, ttVar 5 2, ttVar 5 3, ttVar 5 4] 3 MergeHints.empty [] =
        Except.ok s.results := hm
    rw [hm'] at hr
    cases hr
    exact hv

/-- Witness of `merge_scenario_one_variables`: the nodes at the addresses
`0, 1, 2, ...` and the last top cell in every round. -/
theorem merge_scenario_one_variables_witness :
    Function.Injective (id : ℕ → ℕ) ∧ StrictMono (id : ℕ → ℕ) ∧
    ∃ r, merge (ttManager 5) id (fun k => k + 3)
        [ttOr (ttVar 5 0) (ttVar 5 1), ttOr (ttVar 5 1) (ttVar 5 2),
          ttOr (ttVar 5 3) (ttVar 5 4)]
        [ttVar 5 0, ttVar 5 1, ttVar 5 2, ttVar 5 3, ttVar 5 4] 3 MergeHints.empty [] =
        Except.ok r ∧
      (∃ x ∈ r.varBdds, 2 ≤ ((ttSemantics 5).vars x).card) ∧
      r.varBdds =
        [(ttManager 5).bdd_and ((ttManager 5).bdd_and (ttVar 5 0) (ttVar 5 1)) (ttVar 5 2),
          (ttManager 5).bdd_and (ttVar 5 3) (ttVar 5 4)] := by
  obtain ⟨r, hr, h1, h2⟩ :=
    merge_scenario_one_variables id Function.injective_id (fun k => k + 3)
  exact ⟨Function.injective_id, strictMono_id, r, hr, h1, h2 strictMono_id⟩

end ScenarioOneVariablesClaim

end blif_solve
